import Mathlib

/-!
# Order book of the matching engine (`src/engine`)

A shallow embedding of `src/engine/types.go`, `src/engine/orderbook.go` and
`src/engine/matcher.go`.

Conventions of the embedding

* `float64` prices and quantities are read as exact decimals.  The code only adds,
  subtracts and compares them, so a common power of ten turns every run into a run
  over integers with the same comparisons: prices and quantities are `Int`, counted
  in ticks and lots.  The definitions whose name ends in `64` are the same statements
  with the rounding of `float64`, for the properties that depend on it.
* `time.Time` values are `Int` instants; `Before` is `<`.
* An `*Order` is a `Ptr` into a memory `Mem` of order objects, so that the queue
  slot, the index entry and the caller's handle of one order are the same object,
  as in the Go program.
* `Trade.Timestamp` and `OrderBookSnapshot.Timestamp` come from `time.Now()` and are
  not part of the embedding.
* The loops of `container/heap` and of the matcher are written by recursion on a
  bound on the number of iterations.  The matcher returns `none` when the bound is
  reached while the loop condition still holds.
-/

set_option autoImplicit false

namespace engine

/-! ## `types.go` -/

inductive OrderSide where
  | BUY
  | SELL
  deriving DecidableEq, Repr, Inhabited

inductive OrderType where
  | MARKET
  | LIMIT
  deriving DecidableEq, Repr, Inhabited

inductive OrderStatus where
  | PENDING
  | PARTIAL
  | FILLED
  | CANCELLED
  deriving DecidableEq, Repr, Inhabited

/-- The struct `Order`.  The field `Type` of the source is `Typ` here. -/
structure Order where
  ID : String
  Symbol : String
  Side : OrderSide
  Typ : OrderType
  Quantity : Int
  Price : Int
  Filled : Int
  Status : OrderStatus
  Timestamp : Int
  ClientID : String
  deriving DecidableEq, Repr, Inhabited

/-- The struct `Trade`, without its wall-clock `Timestamp`. -/
structure Trade where
  ID : String
  Symbol : String
  BuyOrderID : String
  SellOrderID : String
  Price : Int
  Quantity : Int
  deriving DecidableEq, Repr, Inhabited

structure OrderBookLevel where
  Price : Int
  Quantity : Int
  Orders : Int
  deriving DecidableEq, Repr, Inhabited

/-- The struct `OrderBookSnapshot`, without its wall-clock `Timestamp`. -/
structure OrderBookSnapshot where
  Symbol : String
  Bids : List OrderBookLevel
  Asks : List OrderBookLevel
  deriving DecidableEq, Repr, Inhabited

/-! ## Memory of order objects -/

/-- An `*Order`. -/
abbrev Ptr := Nat

/-- The order objects, by address. -/
abbrev Mem := Ptr → Order

/-- Assignment through a pointer: `p.field = ...` written as a function on the object. -/
def Mem.modify (mem : Mem) (p : Ptr) (f : Order → Order) : Mem :=
  fun q => if q = p then f (mem p) else mem q

/-! ## `container/heap` of the Go standard library, on a slice -/

section heap

variable {α : Type} [Inhabited α]

/-- The method `Swap(i, j)` of both queues: `pq[i], pq[j] = pq[j], pq[i]`. -/
def swap (pq : List α) (i j : Nat) : List α :=
  (pq.set i (pq.getD j default)).set j (pq.getD i default)

/-- The loop of `heap.up(h, j)`; `fuel` bounds the iterations and `j ≤ fuel` is enough,
since at `j = 0` the parent `(j - 1) / 2` is `j` itself and the loop breaks. -/
def upLoop (less : α → α → Bool) : Nat → List α → Nat → List α
  | 0, pq, _ => pq
  | fuel + 1, pq, j =>
    let i := (j - 1) / 2
    if i = j ∨ !(less (pq.getD j default) (pq.getD i default)) then pq
    else upLoop less fuel (swap pq i j) i

/-- The function `heap.up(h, j)`. -/
def up (less : α → α → Bool) (pq : List α) (j : Nat) : List α :=
  upLoop less j pq j

/-- The loop of `heap.down(h, i0, n)`; `fuel` bounds the iterations and `n - i ≤ fuel`
is enough, since the index strictly grows and the loop breaks at `2 * i + 1 ≥ n`. -/
def downLoop (less : α → α → Bool) : Nat → List α → Nat → Nat → List α
  | 0, pq, _, _ => pq
  | fuel + 1, pq, i, n =>
    let j1 := 2 * i + 1
    if j1 ≥ n then pq
    else
      let j := if j1 + 1 < n ∧ less (pq.getD (j1 + 1) default) (pq.getD j1 default)
        then j1 + 1 else j1
      if !(less (pq.getD j default) (pq.getD i default)) then pq
      else downLoop less fuel (swap pq i j) j n

/-- The function `heap.down(h, i0, n)`, as a function on the slice. -/
def down (less : α → α → Bool) (pq : List α) (i0 n : Nat) : List α :=
  downLoop less (n - i0) pq i0 n

/-- The function `heap.Push(h, x)`: the queue's `Push` appends, then `up` from the end. -/
def heapPush (less : α → α → Bool) (pq : List α) (x : α) : List α :=
  up less (pq ++ [x]) pq.length

/-- The function `heap.Pop(h)`: swap the root to the end, `down` over the rest, then the
queue's `Pop` cuts the last slot off. -/
def heapPop (less : α → α → Bool) (pq : List α) : List α :=
  let n := pq.length - 1
  (down less (swap pq 0 n) 0 n).take n

end heap

/-! ## `orderbook.go` -/

/-- The method `BuyOrderQueue.Less` on two queued orders: higher price first, then the
earlier timestamp. -/
def BuyLess (mem : Mem) (a b : Ptr) : Bool :=
  if (mem a).Price = (mem b).Price then decide ((mem a).Timestamp < (mem b).Timestamp)
  else decide ((mem a).Price > (mem b).Price)

/-- The method `SellOrderQueue.Less` on two queued orders: lower price first, then the
earlier timestamp. -/
def SellLess (mem : Mem) (a b : Ptr) : Bool :=
  if (mem a).Price = (mem b).Price then decide ((mem a).Timestamp < (mem b).Timestamp)
  else decide ((mem a).Price < (mem b).Price)

/-- The Go map `map[string]*Order`, as its entries; keys occur once. -/
abbrev OrderMap := List (String × Ptr)

/-- The lookup `m[k]` with its `exists` flag. -/
def mapGet (m : OrderMap) (k : String) : Option Ptr :=
  match m with
  | [] => none
  | e :: rest => if e.1 = k then some e.2 else mapGet rest k

/-- The statement `delete(m, k)`. -/
def mapDelete (m : OrderMap) (k : String) : OrderMap :=
  m.filter (fun e => e.1 ≠ k)

/-- The statement `m[k] = v`. -/
def mapSet (m : OrderMap) (k : String) (v : Ptr) : OrderMap :=
  (k, v) :: mapDelete m k

/-- The struct `OrderBook`, without its mutex. -/
structure OrderBook where
  Symbol : String
  BuyOrders : List Ptr
  SellOrders : List Ptr
  Orders : OrderMap
  LastPrice : Int
  tradeSeq : Int
  deriving DecidableEq, Repr, Inhabited

def NewOrderBook (symbol : String) : OrderBook :=
  { Symbol := symbol, BuyOrders := [], SellOrders := [], Orders := [],
    LastPrice := 0, tradeSeq := 0 }

/-- The function `min` of `orderbook.go`. -/
def min (a b : Int) : Int :=
  if a < b then a else b

/-- Two's complement wrap of an `int64` result. -/
def wrapInt64 (x : Int) : Int :=
  (x + 2 ^ 63) % 2 ^ 64 - 2 ^ 63

def createTrade (mem : Mem) (ob : OrderBook) (buyOrder sellOrder : Ptr)
    (price quantity : Int) : OrderBook × Trade :=
  let tradeID := wrapInt64 (ob.tradeSeq + 1)
  ({ ob with tradeSeq := tradeID, LastPrice := price },
   { ID := "T" ++ toString tradeID, Symbol := ob.Symbol,
     BuyOrderID := (mem buyOrder).ID, SellOrderID := (mem sellOrder).ID,
     Price := price, Quantity := quantity })

/-- The variables of a matching loop: the memory, the book, `remaining` and `trades`. -/
structure Loop where
  mem : Mem
  ob : OrderBook
  remaining : Int
  trades : List Trade

/-- The queue an incoming order of side `side` is matched against. -/
def OrderBook.opposite (ob : OrderBook) : OrderSide → List Ptr
  | .BUY => ob.SellOrders
  | .SELL => ob.BuyOrders

/-- The comparison of the queue an incoming order of side `side` is matched against. -/
def oppositeLess (mem : Mem) : OrderSide → Ptr → Ptr → Bool
  | .BUY => SellLess mem
  | .SELL => BuyLess mem

/-- The statements `heap.Pop(queue); delete(ob.Orders, best.ID)` on the opposite queue. -/
def OrderBook.popOpposite (ob : OrderBook) (mem : Mem) (side : OrderSide) (best : Ptr) :
    OrderBook :=
  match side with
  | .BUY => { ob with SellOrders := heapPop (SellLess mem) ob.SellOrders,
                      Orders := mapDelete ob.Orders (mem best).ID }
  | .SELL => { ob with BuyOrders := heapPop (BuyLess mem) ob.BuyOrders,
                       Orders := mapDelete ob.Orders (mem best).ID }

/-- The test at the head of an iteration of a matching loop: `none` when the loop is left
(the opposite queue is empty, `remaining > 0` fails, or, in `processLimitOrder` (`limit`),
the `break` on the price of the head is taken), else the head `(*queue)[0]`. -/
def loopHead (limit : Bool) (side : OrderSide) (order : Ptr) (st : Loop) : Option Ptr :=
  match st.ob.opposite side with
  | [] => none
  | best :: _ =>
    if ¬ (st.remaining > 0) then none
    else if limit ∧ side = .BUY ∧ (st.mem order).Price < (st.mem best).Price then none
    else if limit ∧ side = .SELL ∧ (st.mem order).Price > (st.mem best).Price then none
    else some best

/-- The body of a matching loop, after the `break` test, against the head `best`; the four
loops of `processMarketOrder` and `processLimitOrder` differ only in the queue and in the
order of the two arguments of `createTrade`. -/
def loopBody (side : OrderSide) (order best : Ptr) (st : Loop) : Loop :=
  let matchQty := min st.remaining ((st.mem best).Quantity - (st.mem best).Filled)
  let (ob1, trade) :=
    match side with
    | .BUY => createTrade st.mem st.ob order best (st.mem best).Price matchQty
    | .SELL => createTrade st.mem st.ob best order (st.mem best).Price matchQty
  let mem1 := st.mem.modify order (fun o => { o with Filled := o.Filled + matchQty })
  let mem2 := mem1.modify best (fun o => { o with Filled := o.Filled + matchQty })
  if (mem2 best).Filled ≥ (mem2 best).Quantity then
    let mem3 := mem2.modify best (fun o => { o with Status := .FILLED })
    { mem := mem3, ob := ob1.popOpposite mem3 side best,
      remaining := st.remaining - matchQty, trades := st.trades ++ [trade] }
  else
    { mem := mem2, ob := ob1,
      remaining := st.remaining - matchQty, trades := st.trades ++ [trade] }

/-- A matching loop, run for at most `fuel` iterations: `none` when the loop would enter
one more. -/
def matchLoop (limit : Bool) (side : OrderSide) (order : Ptr) : Nat → Loop → Option Loop
  | 0, st =>
    match loopHead limit side order st with
    | none => some st
    | some _ => none
  | fuel + 1, st =>
    match loopHead limit side order st with
    | none => some st
    | some best => matchLoop limit side order fuel (loopBody side order best st)

/-- The bound on the iterations of a matching loop used by `AddOrder`: each slot of the
opposite queue is the head of at most two iterations. -/
def loopFuel (ob : OrderBook) (side : OrderSide) : Nat :=
  2 * (ob.opposite side).length

/-- The closing statements of both `process` functions: the status of the incoming order. -/
def setStatus (mem : Mem) (order : Ptr) : Mem :=
  if (mem order).Filled ≥ (mem order).Quantity then
    mem.modify order (fun o => { o with Status := .FILLED })
  else if (mem order).Filled > 0 then
    mem.modify order (fun o => { o with Status := .PARTIAL })
  else mem

def processMarketOrder (mem : Mem) (ob : OrderBook) (order : Ptr) :
    Option (Mem × OrderBook × List Trade) :=
  let side := (mem order).Side
  match matchLoop false side order (loopFuel ob side)
      { mem := mem, ob := ob, remaining := (mem order).Quantity, trades := [] } with
  | none => none
  | some st => some (setStatus st.mem order, st.ob, st.trades)

/-- The statements `order.Quantity = remaining; heap.Push(queue, order);
ob.Orders[order.ID] = order` of `processLimitOrder`. -/
def rest (st : Loop) (side : OrderSide) (order : Ptr) : Mem × OrderBook :=
  let mem1 := st.mem.modify order (fun o => { o with Quantity := st.remaining })
  match side with
  | .BUY => (mem1, { st.ob with BuyOrders := heapPush (BuyLess mem1) st.ob.BuyOrders order,
                                Orders := mapSet st.ob.Orders (mem1 order).ID order })
  | .SELL => (mem1, { st.ob with SellOrders := heapPush (SellLess mem1) st.ob.SellOrders order,
                                 Orders := mapSet st.ob.Orders (mem1 order).ID order })

def processLimitOrder (mem : Mem) (ob : OrderBook) (order : Ptr) :
    Option (Mem × OrderBook × List Trade) :=
  let side := (mem order).Side
  match matchLoop true side order (loopFuel ob side)
      { mem := mem, ob := ob, remaining := (mem order).Quantity, trades := [] } with
  | none => none
  | some st =>
    let (mem1, ob1) := if st.remaining > 0 then rest st side order else (st.mem, st.ob)
    some (setStatus mem1 order, ob1, st.trades)

def AddOrder (mem : Mem) (ob : OrderBook) (order : Ptr) :
    Option (Mem × OrderBook × List Trade) :=
  if (mem order).Typ = .MARKET then processMarketOrder mem ob order
  else processLimitOrder mem ob order

/-- One iteration of the `range` loop of `rebuildQueues`. -/
def rebuildStep (mem : Mem) (queues : List Ptr × List Ptr) (order : Ptr) :
    List Ptr × List Ptr :=
  if (mem order).Status ≠ .CANCELLED then
    if (mem order).Side = .BUY then (heapPush (BuyLess mem) queues.1 order, queues.2)
    else (queues.1, heapPush (SellLess mem) queues.2 order)
  else queues

/-- The function `rebuildQueues`; `iter` is the sequence of entries in the order in which
`range ob.Orders` visits them, which Go leaves open: a permutation of `ob.Orders`. -/
def rebuildQueues (mem : Mem) (ob : OrderBook) (iter : OrderMap) : OrderBook :=
  let queues := (iter.map (fun e => e.2)).foldl (rebuildStep mem) ([], [])
  { ob with BuyOrders := queues.1, SellOrders := queues.2 }

/-- The function `CancelOrder`; `iter` is the visiting order of `rebuildQueues`. -/
def CancelOrder (mem : Mem) (ob : OrderBook) (orderID : String) (iter : OrderMap) :
    Mem × OrderBook × Bool :=
  match mapGet ob.Orders orderID with
  | none => (mem, ob, false)
  | some order =>
    let mem1 := mem.modify order (fun o => { o with Status := .CANCELLED })
    let ob1 := { ob with Orders := mapDelete ob.Orders orderID }
    (mem1, rebuildQueues mem1 ob1 iter, true)

/-- The statement `levels[price] += qty` on a `map[float64]float64`, as its entries. -/
def levelAdd (levels : List (Int × Int)) (price qty : Int) : List (Int × Int) :=
  match levels with
  | [] => [(price, 0 + qty)]
  | e :: rest => if e.1 = price then (e.1, e.2 + qty) :: rest else e :: levelAdd rest price qty

/-- The aggregation loop of `GetSnapshot` over one queue. -/
def aggregate (mem : Mem) (queue : List Ptr) : List (Int × Int) :=
  queue.foldl
    (fun levels order => levelAdd levels (mem order).Price
      ((mem order).Quantity - (mem order).Filled)) []

/-- The loop of `GetSnapshot` that turns the entries of a level map into levels. -/
def toLevels (levels : List (Int × Int)) : List OrderBookLevel :=
  levels.map (fun e => { Price := e.1, Quantity := e.2, Orders := 1 })

/-- The function `GetSnapshot`.  The two `sort.Slice` calls order levels of pairwise
different prices, so their result is the sorted list whatever order the level maps are
visited in; it is computed here by insertion. -/
def GetSnapshot (mem : Mem) (ob : OrderBook) : OrderBookSnapshot :=
  { Symbol := ob.Symbol,
    Bids := (toLevels (aggregate mem ob.BuyOrders)).insertionSort
      (fun a b => a.Price > b.Price),
    Asks := (toLevels (aggregate mem ob.SellOrders)).insertionSort
      (fun a b => a.Price < b.Price) }


/-! ## Invariants of the binary heap -/

section heapdefs

variable {α : Type} [Inhabited α]

/-- The order axioms the heap needs of a comparison. -/
structure StrictWeak (less : α → α → Bool) : Prop where
  asymm : ∀ a b, less a b = true → less b a = false
  trans : ∀ a b c, less a b = true → less b c = true → less a c = true
  ntrans : ∀ a b c, less a b = false → less b c = false → less a c = false

/-- The heap invariant of `container/heap`: no slot is less than its parent. -/
def IsHeap (less : α → α → Bool) (pq : List α) : Prop :=
  ∀ k, 0 < k → k < pq.length → less (pq.getD k default) (pq.getD ((k - 1) / 2) default) = false

/-- The heap invariant up to the slot `j` that `heap.up` is moving: `j` may be less than
its parent, and the children of `j` are not less than the parent of `j`. -/
def UpInv (less : α → α → Bool) (pq : List α) (j : Nat) : Prop :=
  (∀ k, 0 < k → k < pq.length → k ≠ j →
    less (pq.getD k default) (pq.getD ((k - 1) / 2) default) = false) ∧
  (∀ k, 0 < k → k < pq.length → (k - 1) / 2 = j → 0 < j →
    less (pq.getD k default) (pq.getD ((j - 1) / 2) default) = false)

/-- The heap invariant on the first `n` slots up to the slot `i` that `heap.down` is
moving: the children of `i` may be less than `i`, and are not less than the parent of `i`. -/
def DownInv (less : α → α → Bool) (pq : List α) (i n : Nat) : Prop :=
  (∀ k, 0 < k → k < n → (k - 1) / 2 ≠ i →
    less (pq.getD k default) (pq.getD ((k - 1) / 2) default) = false) ∧
  (∀ k, 0 < k → k < n → (k - 1) / 2 = i → 0 < i →
    less (pq.getD k default) (pq.getD ((i - 1) / 2) default) = false)

/-- The child slot `j` that one iteration of `heap.down` compares with slot `i`. -/
def child (less : α → α → Bool) (pq : List α) (i n : Nat) : Nat :=
  if 2 * i + 1 + 1 < n ∧ less (pq.getD (2 * i + 1 + 1) default) (pq.getD (2 * i + 1) default)
  then 2 * i + 1 + 1 else 2 * i + 1

/-- The heap invariant on the first `n` slots. -/
def HeapOn (less : α → α → Bool) (pq : List α) (n : Nat) : Prop :=
  ∀ k, 0 < k → k < n → less (pq.getD k default) (pq.getD ((k - 1) / 2) default) = false

end heapdefs

/-! ## `matcher.go` -/

/-- The struct `MatchingEngine`, without its mutex.  A buffered channel with no receiver
is the list of the values it holds, oldest first. -/
structure MatchingEngine where
  orderBooks : List (String × OrderBook)
  tradesChan : List Trade
  ordersChan : List Ptr
  deriving DecidableEq, Repr, Inhabited

def NewMatchingEngine : MatchingEngine :=
  { orderBooks := [], tradesChan := [], ordersChan := [] }

/-- The lookup `me.orderBooks[symbol]` with its `exists` flag. -/
def bookGet (books : List (String × OrderBook)) (symbol : String) : Option OrderBook :=
  match books with
  | [] => none
  | e :: rest => if e.1 = symbol then some e.2 else bookGet rest symbol

/-- The statement `me.orderBooks[symbol] = ob`; also the write through the stored `*OrderBook`. -/
def bookSet (books : List (String × OrderBook)) (symbol : String) (ob : OrderBook) :
    List (String × OrderBook) :=
  match books with
  | [] => [(symbol, ob)]
  | e :: rest => if e.1 = symbol then (symbol, ob) :: rest else e :: bookSet rest symbol ob

/-- The method `GetOrCreateOrderBook`, run without interleaving. -/
def MatchingEngine.GetOrCreateOrderBook (me : MatchingEngine) (symbol : String) :
    MatchingEngine × OrderBook :=
  match bookGet me.orderBooks symbol with
  | some ob => (me, ob)
  | none =>
    ({ me with orderBooks := bookSet me.orderBooks symbol (NewOrderBook symbol) },
     NewOrderBook symbol)

/-- The statement `select { case ch <- x: default: }` on a channel of capacity 10000. -/
def trySend {α : Type} (ch : List α) (x : α) : List α :=
  if ch.length < 10000 then ch ++ [x] else ch

/-- The method `ProcessOrder`; `now` is the value of `time.Now()`. -/
def MatchingEngine.ProcessOrder (me : MatchingEngine) (mem : Mem) (now : Int) (order : Ptr) :
    Option (Mem × MatchingEngine × List Trade) :=
  let mem1 := mem.modify order (fun o => { o with Timestamp := now })
  let (me1, ob) := me.GetOrCreateOrderBook (mem1 order).Symbol
  match AddOrder mem1 ob order with
  | none => none
  | some (mem2, ob2, trades) =>
    some (mem2,
      { orderBooks := bookSet me1.orderBooks (mem1 order).Symbol ob2,
        tradesChan := trades.foldl trySend me1.tradesChan,
        ordersChan := trySend me1.ordersChan order },
      trades)

/-- The method `MatchingEngine.CancelOrder`; `iter` is the visiting order of
`rebuildQueues`. -/
def MatchingEngine.CancelOrder (me : MatchingEngine) (mem : Mem) (symbol orderID : String)
    (iter : OrderMap) : Mem × MatchingEngine × Bool :=
  match bookGet me.orderBooks symbol with
  | none => (mem, me, false)
  | some ob =>
    let r := engine.CancelOrder mem ob orderID iter
    (r.1, { me with orderBooks := bookSet me.orderBooks symbol r.2.1 }, r.2.2)

def MatchingEngine.GetOrderBookSnapshot (me : MatchingEngine) (mem : Mem) (symbol : String) :
    Option OrderBookSnapshot :=
  match bookGet me.orderBooks symbol with
  | none => none
  | some ob => some (GetSnapshot mem ob)

/-! ## Runs of one book and of the engine -/

/-- The matched heads of a matching loop: the resting order `(*queue)[0]` of each iteration,
in order; the counterparty of the trade that iteration appends. -/
def loopHeads (limit : Bool) (side : OrderSide) (order : Ptr) : Nat → Loop → List Ptr
  | 0, _ => []
  | fuel + 1, st =>
    match loopHead limit side order st with
    | none => []
    | some best => best :: loopHeads limit side order fuel (loopBody side order best st)

/-- The resting orders `AddOrder` matches `order` against, one for each returned trade, in
the order of the trades. -/
def matchedHeads (mem : Mem) (ob : OrderBook) (order : Ptr) : List Ptr :=
  loopHeads (decide ((mem order).Typ ≠ .MARKET)) (mem order).Side order
    (loopFuel ob (mem order).Side)
    { mem := mem, ob := ob, remaining := (mem order).Quantity, trades := [] }

/-- One book together with the order objects; `next` is the address of the next order
object to be created. -/
structure World where
  mem : Mem
  next : Ptr
  ob : OrderBook

/-- The state after `NewOrderBook(symbol)`. -/
def World.init (symbol : String) : World :=
  { mem := fun _ => default, next := 0, ob := NewOrderBook symbol }

/-- The memory after the caller has created the order object `o`. -/
def World.alloc (w : World) (o : Order) : Mem :=
  fun q => if q = w.next then o else w.mem q

/-- A caller creates the order object `o` and passes it to `AddOrder`. -/
def World.submit (w : World) (o : Order) : Option (World × List Trade) :=
  match AddOrder (w.alloc o) w.ob w.next with
  | none => none
  | some r => some ({ mem := r.1, next := w.next + 1, ob := r.2.1 }, r.2.2)

/-- A caller calls `CancelOrder(orderID)`. -/
def World.cancel (w : World) (orderID : String) (iter : OrderMap) : World × Bool :=
  ({ w with mem := (CancelOrder w.mem w.ob orderID iter).1,
            ob := (CancelOrder w.mem w.ob orderID iter).2.1 },
   (CancelOrder w.mem w.ob orderID iter).2.2)

/-- The states of a book reachable from `NewOrderBook` by `AddOrder` calls, each on a newly
created order object, and `CancelOrder` calls, whose rebuild may visit the index in any
order.  The list holds the orders as they were submitted, oldest first: the order object
at address `i` was submitted as the `i`-th entry. -/
inductive Reachable : List Order → World → Prop
  | init (symbol : String) : Reachable [] (World.init symbol)
  | add {subs : List Order} {w : World} (o : Order) (r : World × List Trade) :
      Reachable subs w → w.submit o = some r → Reachable (subs ++ [o]) r.1
  | cancel {subs : List Order} {w : World} (orderID : String) (iter : OrderMap) :
      Reachable subs w → iter.Perm (mapDelete w.ob.Orders orderID) →
      Reachable subs (w.cancel orderID iter).1

/-- The structural invariant of a book: both queues are heaps for their comparison, hold
order objects of their side that are already created, and hold no object twice; the index
holds order objects that are already created, none of them twice. -/
structure WellFormed (w : World) : Prop where
  buyHeap : IsHeap (BuyLess w.mem) w.ob.BuyOrders
  sellHeap : IsHeap (SellLess w.mem) w.ob.SellOrders
  buySide : ∀ p ∈ w.ob.BuyOrders, (w.mem p).Side = .BUY
  sellSide : ∀ p ∈ w.ob.SellOrders, (w.mem p).Side = .SELL
  buyLt : ∀ p ∈ w.ob.BuyOrders, p < w.next
  sellLt : ∀ p ∈ w.ob.SellOrders, p < w.next
  indexLt : ∀ e ∈ w.ob.Orders, e.2 < w.next
  buyNodup : w.ob.BuyOrders.Nodup
  sellNodup : w.ob.SellOrders.Nodup
  indexNodup : (w.ob.Orders.map (fun e => e.2)).Nodup

/-- The engine together with the order objects. -/
structure EngineWorld where
  mem : Mem
  next : Ptr
  me : MatchingEngine

def EngineWorld.init : EngineWorld :=
  { mem := fun _ => default, next := 0, me := NewMatchingEngine }

/-- A caller creates the order object `o` and passes it to `ProcessOrder` at time `now`. -/
def EngineWorld.submit (w : EngineWorld) (now : Int) (o : Order) :
    Option (EngineWorld × List Trade) :=
  match w.me.ProcessOrder (fun q => if q = w.next then o else w.mem q) now w.next with
  | none => none
  | some r => some ({ mem := r.1, next := w.next + 1, me := r.2.1 }, r.2.2)

/-- A sequence of `ProcessOrder` calls, each on a newly created order object; the result
holds the final state and the trades of all the calls, oldest first. -/
def EngineWorld.run (w : EngineWorld) : List (Int × Order) → Option (EngineWorld × List Trade)
  | [] => some (w, [])
  | c :: calls =>
    match w.submit c.1 c.2 with
    | none => none
    | some r =>
      match EngineWorld.run r.1 calls with
      | none => none
      | some r2 => some (r2.1, r.2 ++ r2.2)

/-- The sum of `Filled` over the order objects created so far. -/
def totalFilled (mem : Mem) (next : Ptr) : Int :=
  ((List.range next).map (fun p => (mem p).Filled)).sum

/-- The sum of `Quantity` over a list of trades. -/
def totalTraded (trades : List Trade) : Int :=
  (trades.map (fun t => t.Quantity)).sum

/-- The quantity traded under the order id `id`: the sum of `Quantity` over the trades
that carry `id` as `BuyOrderID`, plus the sum over those that carry it as `SellOrderID`. -/
def tradedWith (id : String) (trades : List Trade) : Int :=
  (trades.map (fun t => (if t.BuyOrderID = id then t.Quantity else 0) +
    (if t.SellOrderID = id then t.Quantity else 0))).sum

/-- A call on the engine: `ProcessOrder` on a newly created order object at time `now`,
`CancelOrder` with the visiting order of its rebuild, or `GetOrderBookSnapshot`. -/
inductive EngineOp where
  | process (now : Int) (o : Order)
  | cancel (symbol orderID : String) (iter : OrderMap)
  | snapshot (symbol : String)

/-- The state after one call; `GetOrderBookSnapshot` only reads. -/
def EngineWorld.step (w : EngineWorld) : EngineOp → Option EngineWorld
  | .process now o =>
    match w.submit now o with
    | none => none
    | some r => some r.1
  | .cancel symbol orderID iter =>
    some { w with mem := (w.me.CancelOrder w.mem symbol orderID iter).1,
                  me := (w.me.CancelOrder w.mem symbol orderID iter).2.1 }
  | .snapshot _ => some w

/-- The state after a sequence of calls. -/
def EngineWorld.exec (w : EngineWorld) : List EngineOp → Option EngineWorld
  | [] => some w
  | op :: ops =>
    match w.step op with
    | none => none
    | some w1 => EngineWorld.exec w1 ops

/-- The symbols of the orders passed to `ProcessOrder` in a sequence of calls. -/
def processedSymbols : List EngineOp → List String
  | [] => []
  | .process _ o :: ops => o.Symbol :: processedSymbols ops
  | _ :: ops => processedSymbols ops

/-- The runs of a book from the state `w0`, by `AddOrder` calls on newly created order
objects and `CancelOrder` calls whose rebuild may visit the index in any order: the
orders submitted during the run, the trades returned during the run, both oldest first,
and the state reached. -/
inductive Run (w0 : World) : List Order → List Trade → World → Prop
  | start : Run w0 [] [] w0
  | add {subs : List Order} {trades : List Trade} {w : World} (o : Order)
      (r : World × List Trade) :
      Run w0 subs trades w → w.submit o = some r → Run w0 (subs ++ [o]) (trades ++ r.2) r.1
  | cancel {subs : List Order} {trades : List Trade} {w : World} (orderID : String)
      (iter : OrderMap) :
      Run w0 subs trades w → iter.Perm (mapDelete w.ob.Orders orderID) →
      Run w0 subs trades (w.cancel orderID iter).1

/-- The trades `AddOrder` returns when a caller creates the order object `o` and passes
it. -/
def World.tradesOf (w : World) (o : Order) : List Trade :=
  match w.submit o with
  | some r => r.2
  | none => []

/-! ## Auxiliary notions for the matching loop -/

/-- The amount one iteration of a matching loop trades against the head `best`. -/
def matchQty (st : Loop) (best : Ptr) : Int :=
  min st.remaining ((st.mem best).Quantity - (st.mem best).Filled)

/-- The memory after the two statements `order.Filled += matchQty` and
`best.Filled += matchQty` of one iteration. -/
def filledMem (st : Loop) (order best : Ptr) : Mem :=
  (st.mem.modify order (fun o => { o with Filled := o.Filled + matchQty st best })).modify best
    (fun o => { o with Filled := o.Filled + matchQty st best })

/-- The test `best.Filled >= best.Quantity` of one iteration. -/
def popped (st : Loop) (order best : Ptr) : Prop :=
  (filledMem st order best best).Filled ≥ (filledMem st order best best).Quantity

instance (st : Loop) (order best : Ptr) : Decidable (popped st order best) := by
  unfold popped; infer_instance

/-- The head of the opposite queue is the incoming order itself, with less filled than its
quantity and no more unfilled than `remaining`: the next iteration removes it. -/
def primed (side : OrderSide) (order : Ptr) (st : Loop) : Prop :=
  match st.ob.opposite side with
  | [] => False
  | best :: _ => best = order ∧ (st.mem best).Filled < (st.mem best).Quantity ∧
      ¬ (st.remaining < (st.mem best).Quantity - (st.mem best).Filled)

/-- The memory `m'` has the fields that the book never assigns (`ID`, `Symbol`, `Side`,
`Type`, `Price`, `Timestamp`, `ClientID`) as in `m`. -/
def SameKeys (m m' : Mem) : Prop :=
  ∀ p, (m' p).ID = (m p).ID ∧ (m' p).Symbol = (m p).Symbol ∧ (m' p).Side = (m p).Side ∧
    (m' p).Typ = (m p).Typ ∧ (m' p).Price = (m p).Price ∧
    (m' p).Timestamp = (m p).Timestamp ∧ (m' p).ClientID = (m p).ClientID

/-- The invariant of a matching loop on a book whose opposite queue does not hold the
incoming order: the opposite queue is a heap without repetition. -/
structure LoopInv (side : OrderSide) (order : Ptr) (st : Loop) : Prop where
  heap : IsHeap (oppositeLess st.mem side) (st.ob.opposite side)
  nodup : (st.ob.opposite side).Nodup
  notin : order ∉ st.ob.opposite side

/-- The trade one iteration of a matching loop appends. -/
def loopTrade (side : OrderSide) (order best : Ptr) (st : Loop) : Trade :=
  match side with
  | .BUY => (createTrade st.mem st.ob order best (st.mem best).Price (matchQty st best)).2
  | .SELL => (createTrade st.mem st.ob best order (st.mem best).Price (matchQty st best)).2

/-- The id of the resting order in a trade of an incoming order of side `side`. -/
def counterpartyID (side : OrderSide) (t : Trade) : String :=
  match side with
  | .BUY => t.SellOrderID
  | .SELL => t.BuyOrderID

/-- The id of the incoming order in a trade of an incoming order of side `side`. -/
def aggressorID (side : OrderSide) (t : Trade) : String :=
  match side with
  | .BUY => t.BuyOrderID
  | .SELL => t.SellOrderID

/-- The loop variables when a matching loop of `AddOrder` starts. -/
def startLoop (mem : Mem) (ob : OrderBook) (order : Ptr) : Loop :=
  { mem := mem, ob := ob, remaining := (mem order).Quantity, trades := [] }

/-- The statements of `AddOrder` after its matching loop has left with variables `st`. -/
def finish (limit : Bool) (side : OrderSide) (order : Ptr) (st : Loop) :
    Mem × OrderBook × List Trade :=
  if limit then
    if st.remaining > 0 then
      (setStatus (rest st side order).1 order, (rest st side order).2, st.trades)
    else (setStatus st.mem order, st.ob, st.trades)
  else (setStatus st.mem order, st.ob, st.trades)

/-- The loop variables after the first `n` iterations of a matching loop, or after all of
them if the loop leaves earlier. -/
def loopIter (limit : Bool) (side : OrderSide) (order : Ptr) : Nat → Loop → Loop
  | 0, st => st
  | n + 1, st =>
    match loopHead limit side order st with
    | none => st
    | some best => loopIter limit side order n (loopBody side order best st)

/-- The queue of the side `side` itself, on which an incoming limit order of that side
rests. -/
def OrderBook.own (ob : OrderBook) : OrderSide → List Ptr
  | .BUY => ob.BuyOrders
  | .SELL => ob.SellOrders

/-- The comparison of the queue of the side `side` itself. -/
def ownLess (mem : Mem) : OrderSide → Ptr → Ptr → Bool
  | .BUY => BuyLess mem
  | .SELL => SellLess mem

/-- The other side. -/
def OrderSide.flip : OrderSide → OrderSide
  | .BUY => .SELL
  | .SELL => .BUY

/-- The part of the structural invariant that concerns the queue `q` of side `side`. -/
def SideOK (mem : Mem) (next : Ptr) (q : List Ptr) (side : OrderSide) : Prop :=
  IsHeap (ownLess mem side) q ∧ (∀ p ∈ q, (mem p).Side = side) ∧ (∀ p ∈ q, p < next) ∧ q.Nodup

/-- Whether the incoming order `o` can be matched against a resting order `r` of the
opposite side: always for a MARKET order, by the limit price for a LIMIT order. -/
def crossable (o r : Order) : Bool :=
  match o.Typ, o.Side with
  | .MARKET, _ => true
  | .LIMIT, .BUY => decide (r.Price ≤ o.Price)
  | .LIMIT, .SELL => decide (r.Price ≥ o.Price)

/-- The total unfilled remainder `Quantity - Filled` of the orders `q`. -/
def unfilled (mem : Mem) (q : List Ptr) : Int :=
  (q.map (fun r => (mem r).Quantity - (mem r).Filled)).sum

/-- The liquidity an incoming order `o` meets in the book: the total unfilled remainder of
the resting orders of the opposite side that it can be matched against. -/
def liquidity (w : World) (o : Order) : Int :=
  unfilled w.mem ((w.ob.opposite o.Side).filter (fun r => crossable o (w.mem r)))

/-- The test of a matching loop on the price of a resting order `r`, as `crossable` reads
it: no test in `processMarketOrder`, the negation of the `break` test in
`processLimitOrder` (`limit`). -/
def crossLoop (limit : Bool) (side : OrderSide) (o r : Order) : Bool :=
  match limit, side with
  | false, _ => true
  | true, .BUY => decide (r.Price ≤ o.Price)
  | true, .SELL => decide (r.Price ≥ o.Price)

/-- The liquidity left for a matching loop with variables `st`. -/
def loopLiquidity (limit : Bool) (side : OrderSide) (order : Ptr) (st : Loop) : Int :=
  unfilled st.mem
    ((st.ob.opposite side).filter (fun r => crossLoop limit side (st.mem order) (st.mem r)))

/-- The invariant of a matching loop that relates `remaining`, the trades made and the
liquidity left, for an incoming order of quantity `q` that met the liquidity `l`. -/
structure FillInv (limit : Bool) (side : OrderSide) (order : Ptr) (q l : Int) (st : Loop) :
    Prop where
  inv : LoopInv side order st
  bounds : ∀ r ∈ st.ob.opposite side,
    0 ≤ (st.mem r).Filled ∧ (st.mem r).Filled < (st.mem r).Quantity
  remaining_nonneg : 0 ≤ st.remaining
  traded : totalTraded st.trades + loopLiquidity limit side order st = l
  remaining_eq : st.remaining + totalTraded st.trades = q
  filled_eq : (st.mem order).Filled = totalTraded st.trades

/-- The invariant of the engine behind quantity conservation; `ids` are the ids of the
orders submitted so far, oldest first, and `trades` the trades returned so far. -/
structure EngineInv (w : EngineWorld) (ids : List String) (trades : List Trade) : Prop where
  queues : ∀ e ∈ w.me.orderBooks, ∀ p, p ∈ e.2.BuyOrders ∨ p ∈ e.2.SellOrders → p < w.next
  len : ids.length = w.next
  idsEq : ∀ (p : Nat) (id : String), ids[p]? = some id → (w.mem p).ID = id
  total : totalFilled w.mem w.next = 2 * totalTraded trades
  tradeIds : ∀ t ∈ trades, t.BuyOrderID ∈ ids ∧ t.SellOrderID ∈ ids
  perOrder : ids.Nodup → ∀ p, p < w.next → (w.mem p).Filled = tradedWith (w.mem p).ID trades

/-- The quantity a level map holds for `price` (zero when the price is not a key). -/
def levelQty (levels : List (Int × Int)) (price : Int) : Int :=
  ((levels.filter (fun e => e.1 = price)).map (fun e => e.2)).sum

/-- The number a list of decimal digits renders, most significant digit first. -/
def readDigits (cs : List Char) : Nat :=
  cs.foldl (fun a c => 10 * a + (c.toNat - 48)) 0

/-! ## Matching against a sorted list -/

/-- What a trade says apart from its id and symbol: the ids of the buy and of the sell
order, the price and the quantity. -/
def Trade.fill (t : Trade) : String × String × Int × Int :=
  (t.BuyOrderID, t.SellOrderID, t.Price, t.Quantity)

/-- The priority rule of the side an incoming order of side `side` is matched against, as
the specification words it: among asks the strictly lower price wins, among bids the
strictly higher price, and on price ties the earlier timestamp; `a` is not after `b`. -/
def notAfter (side : OrderSide) (a b : Order) : Prop :=
  match side with
  | .BUY => a.Price < b.Price ∨ (a.Price = b.Price ∧ a.Timestamp ≤ b.Timestamp)
  | .SELL => a.Price > b.Price ∨ (a.Price = b.Price ∧ a.Timestamp ≤ b.Timestamp)

instance (side : OrderSide) (a b : Order) : Decidable (notAfter side a b) := by
  unfold notAfter
  cases side <;> infer_instance

/-- The opposite side as a list sorted by price priority and then by timestamp. -/
def sortedOpposite (mem : Mem) (side : OrderSide) (queue : List Ptr) : List Ptr :=
  queue.insertionSort (fun a b => notAfter side (mem a) (mem b))

/-- The outcome of consuming a sorted opposite side: the order objects, what remains of
the incoming quantity, the trades made, the part of the list that is left, and the ids
deleted from the index. -/
structure Consumed where
  mem : Mem
  remaining : Int
  fills : List (String × String × Int × Int)
  rest : List Ptr
  removed : List String

/-- The matching of the incoming order `order` as the specification words it, on the
opposite side given as a sorted list: from the best outward, while some of the quantity
remains and, for a LIMIT order (`limit`), while the head is crossable, trade
`min(remaining, quantity - filled)` at the price of the head and add it to the `filled`
of both; a head that is now fully filled gets status `FILLED`, leaves the list and has its
id deleted from the index. -/
def consumeSorted (limit : Bool) (side : OrderSide) (order : Ptr) :
    List Ptr → Mem → Int → Consumed
  | [], mem, remaining =>
    { mem := mem, remaining := remaining, fills := [], rest := [], removed := [] }
  | best :: rest, mem, remaining =>
    if ¬ remaining > 0 ∨ crossLoop limit side (mem order) (mem best) = false then
      { mem := mem, remaining := remaining, fills := [], rest := best :: rest, removed := [] }
    else
      let qty := Min.min remaining ((mem best).Quantity - (mem best).Filled)
      let fill := match side with
        | .BUY => ((mem order).ID, (mem best).ID, (mem best).Price, qty)
        | .SELL => ((mem best).ID, (mem order).ID, (mem best).Price, qty)
      let mem1 := (mem.modify order (fun o => { o with Filled := o.Filled + qty })).modify best
        (fun o => { o with Filled := o.Filled + qty })
      if (mem1 best).Filled = (mem1 best).Quantity then
        let c := consumeSorted limit side order rest
          (mem1.modify best (fun o => { o with Status := .FILLED })) (remaining - qty)
        { c with fills := fill :: c.fills, removed := (mem1 best).ID :: c.removed }
      else
        { mem := mem1, remaining := remaining - qty, fills := [fill], rest := best :: rest,
          removed := [] }

/-- The statement `delete(m, k)` for each of the keys `ks` in turn. -/
def deleteAll (m : OrderMap) (ks : List String) : OrderMap :=
  ks.foldl mapDelete m

/-- The order objects after the closing statements of `AddOrder`, which follow the
matching loop left with the objects `mem` and `remaining`: in `processLimitOrder`
(`limit`) `order.Quantity = remaining` when the remainder rests, then the status of the
incoming order. -/
def closeMem (limit : Bool) (order : Ptr) (mem : Mem) (remaining : Int) : Mem :=
  if limit = true ∧ remaining > 0 then
    setStatus (mem.modify order (fun o => { o with Quantity := remaining })) order
  else setStatus mem order

/-- No two orders of the queue share both price and timestamp. -/
def NoTies (mem : Mem) (queue : List Ptr) : Prop :=
  ∀ a ∈ queue, ∀ b ∈ queue, (mem a).Price = (mem b).Price →
    (mem a).Timestamp = (mem b).Timestamp → a = b

/-! ## Example orders and books -/

/-- A LIMIT order as a caller creates it: nothing filled, status `PENDING`. -/
def limitOrder (id : String) (side : OrderSide) (price quantity timestamp : Int) : Order :=
  { ID := id, Symbol := "X", Side := side, Typ := .LIMIT, Quantity := quantity,
    Price := price, Filled := 0, Status := .PENDING, Timestamp := timestamp, ClientID := "" }

/-- A MARKET order as a caller creates it: nothing filled, status `PENDING`, price unset. -/
def marketOrder (id : String) (side : OrderSide) (quantity timestamp : Int) : Order :=
  { ID := id, Symbol := "X", Side := side, Typ := .MARKET, Quantity := quantity,
    Price := 0, Filled := 0, Status := .PENDING, Timestamp := timestamp, ClientID := "" }

/-- The state after a caller has created the order object `o` and `AddOrder` has
returned. -/
def World.after (w : World) (o : Order) : World :=
  match w.submit o with
  | some r => r.1
  | none => w

/-- A book with one resting LIMIT SELL `a` of 5 at 100. -/
def bookOneAsk : World :=
  (World.init "X").after (limitOrder "a" .SELL 100 5 1)

/-- A book with one resting LIMIT SELL `a` of 7 at 100. -/
def bookAskSeven : World :=
  (World.init "X").after (limitOrder "a" .SELL 100 7 1)

/-- A book with one resting LIMIT SELL `a` of 2 at 100. -/
def bookAskTwo : World :=
  (World.init "X").after (limitOrder "a" .SELL 100 2 1)

/-- A book with two resting LIMIT SELLs, `a` of 2 at 101 and `b` of 2 at 102. -/
def bookTwoLevels : World :=
  ((World.init "X").after (limitOrder "a" .SELL 101 2 1)).after (limitOrder "b" .SELL 102 2 2)

/-- A book with two resting LIMIT SELLs at 100, `a` of 1 and then `b` of 1. -/
def bookOneLevel : World :=
  ((World.init "X").after (limitOrder "a" .SELL 100 1 1)).after (limitOrder "b" .SELL 100 1 2)

/-- A book with two resting LIMIT BUYs at 99, `a` of 1 and then `b` of 1. -/
def bookTwoBids : World :=
  ((World.init "X").after (limitOrder "a" .BUY 99 1 1)).after (limitOrder "b" .BUY 99 1 2)

/-- A book reached with one id used twice: a LIMIT SELL `x` of 1 at 100 rests, then a
LIMIT BUY `x` of 1 at 99 rests and takes over the index entry `x`. -/
def bookSharedID : World :=
  ((World.init "X").after (limitOrder "x" .SELL 100 1 1)).after (limitOrder "x" .BUY 99 1 2)

/-- A book reached by two LIMIT BUYs with distinct ids, `a` of 1 at 99, which its caller
submitted with status `CANCELLED`, and then `b` of 1 at 98. -/
def bookCancelledInput : World :=
  ((World.init "X").after { limitOrder "a" .BUY 99 1 1 with Status := .CANCELLED }).after
    (limitOrder "b" .BUY 98 1 2)

/-- A book with one resting LIMIT BUY `a` of 1 at 99. -/
def bookOneBid : World :=
  (World.init "X").after (limitOrder "a" .BUY 99 1 1)

/-- The submissions of `k` rounds, each a LIMIT SELL `a` of 1 at 100 followed by a MARKET
BUY `b` of 1. -/
def churnOrders : Nat → List Order
  | 0 => []
  | k + 1 => churnOrders k ++ [limitOrder "a" .SELL 100 1 1, marketOrder "b" .BUY 1 2]

/-- The trades of the run that builds `bookOneLevel` and then submits a MARKET BUY `c` of
2: none for the two resting asks, then two for `c`. -/
def tradesOneLevel : List Trade :=
  (([] ++ (World.init "X").tradesOf (limitOrder "a" .SELL 100 1 1)) ++
    ((World.init "X").after (limitOrder "a" .SELL 100 1 1)).tradesOf
      (limitOrder "b" .SELL 100 1 2)) ++
    bookOneLevel.tradesOf (marketOrder "c" .BUY 2 3)

/-- A book with one resting LIMIT SELL `a` of 1 at 101 and one resting LIMIT BUY `b` of 1
at 99. -/
def bookBidAsk : World :=
  ((World.init "X").after (limitOrder "a" .SELL 101 1 1)).after (limitOrder "b" .BUY 99 1 2)

/-- A LIMIT BUY `c` of 3 at 103. -/
def crossingBuy : Order :=
  limitOrder "c" .BUY 103 3 3

/-- A book with three resting LIMIT SELLs, `a` of 1 at 100, `b` of 1 at 102 and `c` of 1
at 101, and one resting LIMIT BUY `x` of 1 at 50. -/
def bookThreeAsks : World :=
  ((((World.init "X").after (limitOrder "a" .SELL 100 1 1)).after
    (limitOrder "b" .SELL 102 1 2)).after (limitOrder "c" .SELL 101 1 3)).after
    (limitOrder "x" .BUY 50 1 4)

/-- The book `bookThreeAsks` after `CancelOrder` of `x`, rebuilt in the order `a`, `b`,
`c`. -/
def layoutOne : World :=
  (bookThreeAsks.cancel "x" [("a", 0), ("b", 1), ("c", 2)]).1

/-- The book `bookThreeAsks` after `CancelOrder` of `x`, rebuilt in the order `a`, `c`,
`b`. -/
def layoutTwo : World :=
  (bookThreeAsks.cancel "x" [("a", 0), ("c", 2), ("b", 1)]).1

/-- A LIMIT BUY `m` of 3 at 101. -/
def sweepingBuy : Order :=
  limitOrder "m" .BUY 101 3 5
/-! ## The same code in `float64` arithmetic

The definitions above read quantities as exact decimals.  Those below are the same
statements of `orderbook.go` and `matcher.go` on `float64` values: every `+`, `-`, `+=`
and `-=` on a quantity rounds its exact result to the nearest `float64`, ties to the even
significand (IEEE 754 binary64, the arithmetic of Go).  The values are the integer-valued
doubles of magnitude below `2 ^ 1024`; the sum and the difference of two of them round to
such a value again.  Comparisons and `min` do not round. -/

/-- The binary exponent of the unit in the last place of the `float64` nearest to `n`: the
number of halvings that bring `n` below `2 ^ 53`, for `n` below `2 ^ (53 + fuel)`. -/
def ulpExponent : Nat → Nat → Nat
  | 0, _ => 0
  | fuel + 1, n => if n < 2 ^ 53 then 0 else ulpExponent fuel (n / 2) + 1

/-- The `float64` nearest to the natural number `n`, ties to even: `n` keeps its 53
leading bits `q`, and is rounded up when the bits `r` cut off are more than half a unit in
the last place, or exactly half with `q` odd. -/
def roundNat (n : Nat) : Nat :=
  let k := ulpExponent 1024 n
  let q := n / 2 ^ k
  let r := n % 2 ^ k
  if 2 * r > 2 ^ k ∨ (2 * r = 2 ^ k ∧ q % 2 = 1) then (q + 1) * 2 ^ k else q * 2 ^ k

/-- The `float64` nearest to the integer `x`, ties to even. -/
def round53 (x : Int) : Int :=
  if x < 0 then -((roundNat x.natAbs : Nat) : Int) else ((roundNat x.natAbs : Nat) : Int)

/-- The operator `+` of `float64`. -/
def add64 (a b : Int) : Int := round53 (a + b)

/-- The operator `-` of `float64`. -/
def sub64 (a b : Int) : Int := round53 (a - b)

/-- The body of a matching loop in `float64`: `loopBody` with the difference in the
argument of `min` and the statements `remaining -= matchQty`, `order.Filled += matchQty`
and `best.Filled += matchQty` rounded. -/
def loopBody64 (side : OrderSide) (order best : Ptr) (st : Loop) : Loop :=
  let matchQty := min st.remaining (sub64 (st.mem best).Quantity (st.mem best).Filled)
  let (ob1, trade) :=
    match side with
    | .BUY => createTrade st.mem st.ob order best (st.mem best).Price matchQty
    | .SELL => createTrade st.mem st.ob best order (st.mem best).Price matchQty
  let mem1 := st.mem.modify order (fun o => { o with Filled := add64 o.Filled matchQty })
  let mem2 := mem1.modify best (fun o => { o with Filled := add64 o.Filled matchQty })
  if (mem2 best).Filled ≥ (mem2 best).Quantity then
    let mem3 := mem2.modify best (fun o => { o with Status := .FILLED })
    { mem := mem3, ob := ob1.popOpposite mem3 side best,
      remaining := sub64 st.remaining matchQty, trades := st.trades ++ [trade] }
  else
    { mem := mem2, ob := ob1,
      remaining := sub64 st.remaining matchQty, trades := st.trades ++ [trade] }

/-- A matching loop in `float64`, run for at most `fuel` iterations: `none` when the loop
would enter one more. -/
def matchLoop64 (limit : Bool) (side : OrderSide) (order : Ptr) : Nat → Loop → Option Loop
  | 0, st =>
    match loopHead limit side order st with
    | none => some st
    | some _ => none
  | fuel + 1, st =>
    match loopHead limit side order st with
    | none => some st
    | some best => matchLoop64 limit side order fuel (loopBody64 side order best st)

/-- The function `processMarketOrder` in `float64`. -/
def processMarketOrder64 (mem : Mem) (ob : OrderBook) (order : Ptr) :
    Option (Mem × OrderBook × List Trade) :=
  let side := (mem order).Side
  match matchLoop64 false side order (loopFuel ob side)
      { mem := mem, ob := ob, remaining := (mem order).Quantity, trades := [] } with
  | none => none
  | some st => some (setStatus st.mem order, st.ob, st.trades)

/-- The function `processLimitOrder` in `float64`. -/
def processLimitOrder64 (mem : Mem) (ob : OrderBook) (order : Ptr) :
    Option (Mem × OrderBook × List Trade) :=
  let side := (mem order).Side
  match matchLoop64 true side order (loopFuel ob side)
      { mem := mem, ob := ob, remaining := (mem order).Quantity, trades := [] } with
  | none => none
  | some st =>
    let (mem1, ob1) := if st.remaining > 0 then rest st side order else (st.mem, st.ob)
    some (setStatus mem1 order, ob1, st.trades)

/-- The function `AddOrder` in `float64`. -/
def AddOrder64 (mem : Mem) (ob : OrderBook) (order : Ptr) :
    Option (Mem × OrderBook × List Trade) :=
  if (mem order).Typ = .MARKET then processMarketOrder64 mem ob order
  else processLimitOrder64 mem ob order

/-- The method `ProcessOrder` in `float64`; `now` is the value of `time.Now()`. -/
def MatchingEngine.ProcessOrder64 (me : MatchingEngine) (mem : Mem) (now : Int)
    (order : Ptr) : Option (Mem × MatchingEngine × List Trade) :=
  let mem1 := mem.modify order (fun o => { o with Timestamp := now })
  let (me1, ob) := me.GetOrCreateOrderBook (mem1 order).Symbol
  match AddOrder64 mem1 ob order with
  | none => none
  | some (mem2, ob2, trades) =>
    some (mem2,
      { orderBooks := bookSet me1.orderBooks (mem1 order).Symbol ob2,
        tradesChan := trades.foldl trySend me1.tradesChan,
        ordersChan := trySend me1.ordersChan order },
      trades)

/-- A caller creates the order object `o` and passes it to `ProcessOrder` at time `now`,
in `float64`. -/
def EngineWorld.submit64 (w : EngineWorld) (now : Int) (o : Order) :
    Option (EngineWorld × List Trade) :=
  match w.me.ProcessOrder64 (fun q => if q = w.next then o else w.mem q) now w.next with
  | none => none
  | some r => some ({ mem := r.1, next := w.next + 1, me := r.2.1 }, r.2.2)

/-- A sequence of `ProcessOrder` calls in `float64`, each on a newly created order object;
the result holds the final state and the trades of all the calls, oldest first. -/
def EngineWorld.run64 (w : EngineWorld) :
    List (Int × Order) → Option (EngineWorld × List Trade)
  | [] => some (w, [])
  | c :: calls =>
    match w.submit64 c.1 c.2 with
    | none => none
    | some r =>
      match EngineWorld.run64 r.1 calls with
      | none => none
      | some r2 => some (r2.1, r.2 ++ r2.2)

/-- The statement `levels[price] += qty` on a `map[float64]float64` in `float64`: a
missing entry reads as 0. -/
def levelAdd64 (levels : List (Int × Int)) (price qty : Int) : List (Int × Int) :=
  match levels with
  | [] => [(price, add64 0 qty)]
  | e :: rest =>
    if e.1 = price then (e.1, add64 e.2 qty) :: rest else e :: levelAdd64 rest price qty

/-- The aggregation loop of `GetSnapshot` over one queue in `float64`. -/
def aggregate64 (mem : Mem) (queue : List Ptr) : List (Int × Int) :=
  queue.foldl
    (fun levels order => levelAdd64 levels (mem order).Price
      (sub64 (mem order).Quantity (mem order).Filled)) []

/-- The function `GetSnapshot` in `float64`. -/
def GetSnapshot64 (mem : Mem) (ob : OrderBook) : OrderBookSnapshot :=
  { Symbol := ob.Symbol,
    Bids := (toLevels (aggregate64 mem ob.BuyOrders)).insertionSort
      (fun a b => a.Price > b.Price),
    Asks := (toLevels (aggregate64 mem ob.SellOrders)).insertionSort
      (fun a b => a.Price < b.Price) }

/-- Three `ProcessOrder` calls: LIMIT BUYs of `2 ^ 53` and of 1 at 99, then a MARKET SELL
of `2 ^ 53 + 2`. -/
def callsSweepingSell : List (Int × Order) :=
  [(1, limitOrder "b1" .BUY 99 (2 ^ 53) 0), (2, limitOrder "b2" .BUY 99 1 0),
   (3, marketOrder "s" .SELL (2 ^ 53 + 2) 0)]

/-- Three `ProcessOrder` calls: a LIMIT SELL of `2 ^ 53 + 2` at 99, then MARKET BUYs of
`2 ^ 53` and of 1. -/
def callsRestingSell : List (Int × Order) :=
  [(1, limitOrder "s" .SELL 99 (2 ^ 53 + 2) 0), (2, marketOrder "b1" .BUY (2 ^ 53) 0),
   (3, marketOrder "b2" .BUY 1 0)]

/-- Two `ProcessOrder` calls: LIMIT BUYs of `2 ^ 53` and of 1 at 99. -/
def callsTwoBids : List (Int × Order) :=
  [(1, limitOrder "b1" .BUY 99 (2 ^ 53) 0), (2, limitOrder "b2" .BUY 99 1 0)]

/-- Three `ProcessOrder` calls: LIMIT BUYs of `2 ^ 53`, of 1 and of 1 at 99. -/
def callsThreeBids : List (Int × Order) :=
  [(1, limitOrder "b1" .BUY 99 (2 ^ 53) 0), (2, limitOrder "b2" .BUY 99 1 0),
   (3, limitOrder "b3" .BUY 99 1 0)]

/-- The order objects and the book of symbol `X` after the calls `calls` in `float64`. -/
def bookAfter64 (calls : List (Int × Order)) : Option (Mem × OrderBook) :=
  match EngineWorld.init.run64 calls with
  | none => none
  | some r => (bookGet r.1.me.orderBooks "X").map (fun ob => (r.1.mem, ob))

/-! # Theorems -/

/-! ## The binary heap keeps its invariant -/

section heapthy

variable {α : Type} [Inhabited α]

theorem length_swap (pq : List α) (i j : Nat) : (swap pq i j).length = pq.length := by
  simp [swap]

theorem getD_swap (pq : List α) {i j : Nat} (hi : i < pq.length) (hj : j < pq.length)
    (k : Nat) :
    (swap pq i j).getD k default =
      if k = j then pq.getD i default else if k = i then pq.getD j default
      else pq.getD k default := by
  unfold swap
  simp only [List.getD_eq_getElem?_getD, List.getElem?_set, List.length_set]
  by_cases h1 : j = k
  · subst h1; simp [hj]
  · have h1' : ¬ k = j := fun h => h1 h.symm
    simp only [h1, h1', if_false]
    by_cases h2 : i = k
    · subst h2; simp [hi]
    · have h2' : ¬ k = i := fun h => h2 h.symm
      simp [h2, h2']

theorem swap_perm [DecidableEq α] (pq : List α) {i j : Nat} (hi : i < pq.length)
    (hj : j < pq.length) : (swap pq i j).Perm pq := by
  rw [List.perm_iff_count]
  intro a
  unfold swap
  have hj' : j < (pq.set i (pq.getD j default)).length := by simpa using hj
  rw [List.count_set _ _ _ _ hj', List.count_set _ _ _ _ hi]
  have e1 : (pq.set i (pq.getD j default))[j] = pq[j] := by
    rw [List.getElem_set]
    split
    · next h => subst h; simp [hj]
    · rfl
  rw [e1, List.getD_eq_getElem _ _ hj, List.getD_eq_getElem _ _ hi]
  have c1 : (if pq[i] == a then 1 else 0) ≤ pq.count a := by
    split
    · next h =>
      have : pq[i] = a := by simpa using h
      exact List.count_pos_iff.mpr (this ▸ List.getElem_mem _)
    · exact Nat.zero_le _
  omega

theorem length_upLoop (less : α → α → Bool) :
    ∀ (fuel : Nat) (pq : List α) (j : Nat), (upLoop less fuel pq j).length = pq.length := by
  intro fuel
  induction fuel with
  | zero => intro pq j; rfl
  | succ fuel ih =>
    intro pq j
    simp only [upLoop]
    split
    · rfl
    · rw [ih, length_swap]

theorem downLoop_succ (less : α → α → Bool) (fuel : Nat) (pq : List α) (i n : Nat) :
    downLoop less (fuel + 1) pq i n =
      if 2 * i + 1 ≥ n then pq
      else if !(less (pq.getD (child less pq i n) default) (pq.getD i default)) then pq
      else downLoop less fuel (swap pq i (child less pq i n)) (child less pq i n) n := rfl

theorem child_cases (less : α → α → Bool) (pq : List α) (i n : Nat) (h : ¬ 2 * i + 1 ≥ n) :
    (child less pq i n = 2 * i + 1 ∨ child less pq i n = 2 * i + 2) ∧
      child less pq i n < n := by
  unfold child
  split
  · next h2 => exact ⟨Or.inr rfl, h2.1⟩
  · exact ⟨Or.inl rfl, by omega⟩

theorem length_downLoop (less : α → α → Bool) :
    ∀ (fuel : Nat) (pq : List α) (i n : Nat),
      (downLoop less fuel pq i n).length = pq.length := by
  intro fuel
  induction fuel with
  | zero => intro pq i n; rfl
  | succ fuel ih =>
    intro pq i n
    rw [downLoop_succ]
    split
    · rfl
    · split
      · rfl
      · rw [ih, length_swap]

theorem upLoop_perm [DecidableEq α] (less : α → α → Bool) :
    ∀ (fuel : Nat) (pq : List α) (j : Nat), j < pq.length →
      (upLoop less fuel pq j).Perm pq := by
  intro fuel
  induction fuel with
  | zero => intro pq j _; exact List.Perm.refl _
  | succ fuel ih =>
    intro pq j hj
    simp only [upLoop]
    split
    · exact List.Perm.refl _
    · have hi : (j - 1) / 2 < pq.length := by omega
      exact (ih _ _ (by rw [length_swap]; exact hi)).trans (swap_perm pq hi hj)

theorem downLoop_perm [DecidableEq α] (less : α → α → Bool) :
    ∀ (fuel : Nat) (pq : List α) (i n : Nat), n ≤ pq.length →
      (downLoop less fuel pq i n).Perm pq := by
  intro fuel
  induction fuel with
  | zero => intro pq i n _; exact List.Perm.refl _
  | succ fuel ih =>
    intro pq i n hn
    rw [downLoop_succ]
    split
    · exact List.Perm.refl _
    · next h1 =>
      have hc := child_cases less pq i n h1
      split
      · exact List.Perm.refl _
      · exact (ih _ _ _ (by rw [length_swap]; exact hn)).trans
          (swap_perm pq (by omega) (by omega))

theorem downLoop_getD_ge (less : α → α → Bool) :
    ∀ (fuel : Nat) (pq : List α) (i n : Nat), n ≤ pq.length → ∀ k, n ≤ k →
      (downLoop less fuel pq i n).getD k default = pq.getD k default := by
  intro fuel
  induction fuel with
  | zero => intro pq i n _ k _; rfl
  | succ fuel ih =>
    intro pq i n hn k hk
    rw [downLoop_succ]
    split
    · rfl
    · next h1 =>
      have hc := child_cases less pq i n h1
      split
      · rfl
      · rw [ih _ _ _ (by rw [length_swap]; exact hn) k hk,
          getD_swap pq (by omega) (by omega)]
        have h2 : ¬ k = i := by omega
        have h3 : ¬ k = child less pq i n := by omega
        simp [h2, h3]

theorem upLoop_isHeap {less : α → α → Bool} (sw : StrictWeak less) :
    ∀ (fuel : Nat) (pq : List α) (j : Nat), j ≤ fuel → j < pq.length → UpInv less pq j →
      IsHeap less (upLoop less fuel pq j) := by
  intro fuel
  induction fuel with
  | zero =>
    intro pq j hf _ hinv k hk0 hk
    exact hinv.1 k hk0 hk (by omega)
  | succ fuel ih =>
    intro pq j hf hj hinv
    simp only [upLoop]
    split
    · next hbr =>
      intro k hk0 hk
      by_cases hkj : k = j
      · subst hkj
        rcases hbr with h | h
        · omega
        · simpa using h
      · exact hinv.1 k hk0 hk hkj
    · next hbr =>
      have hbr' : (j - 1) / 2 ≠ j ∧ less (pq.getD j default)
          (pq.getD ((j - 1) / 2) default) = true := by
        simpa [not_or] using hbr
      obtain ⟨hne, hlt⟩ := hbr'
      have hj0 : 0 < j := by omega
      have hi : (j - 1) / 2 < pq.length := by omega
      refine ih _ _ (by omega) (by rw [length_swap]; exact hi) ⟨?_, ?_⟩
      · intro k hk0 hk hki
        rw [length_swap] at hk
        rw [getD_swap pq hi hj, getD_swap pq hi hj]
        by_cases hkj : k = j
        · subst hkj
          simp only [if_true, hne, if_false]
          exact sw.asymm _ _ hlt
        · simp only [hkj, hki, if_false]
          by_cases hp1 : (k - 1) / 2 = j
          · simp only [hp1, if_true]
            have := hinv.2 k hk0 hk hp1 hj0
            exact this
          · simp only [hp1, if_false]
            by_cases hp2 : (k - 1) / 2 = (j - 1) / 2
            · simp only [hp2, if_true]
              have h1 := hinv.1 k hk0 hk hkj
              rw [hp2] at h1
              cases hc : less (pq.getD k default) (pq.getD j default) with
              | false => rfl
              | true => rw [sw.trans _ _ _ hc hlt] at h1; exact absurd h1 (by simp)
            · simp only [hp2, if_false]
              exact hinv.1 k hk0 hk hkj
      · intro k hk0 hk hp hi0
        rw [length_swap] at hk
        rw [getD_swap pq hi hj, getD_swap pq hi hj]
        have hpp1 : ¬ ((j - 1) / 2 - 1) / 2 = j := by omega
        have hpp2 : ¬ ((j - 1) / 2 - 1) / 2 = (j - 1) / 2 := by omega
        have hki : ¬ k = (j - 1) / 2 := by omega
        have hii := hinv.1 ((j - 1) / 2) hi0 hi (by omega)
        simp only [hpp1, hpp2, hki, if_false]
        by_cases hkj : k = j
        · simp only [hkj, if_true]
          exact hii
        · simp only [hkj, if_false]
          have h1 := hinv.1 k hk0 hk hkj
          rw [hp] at h1
          exact sw.ntrans _ _ _ h1 hii

theorem downLoop_heapOn {less : α → α → Bool} (sw : StrictWeak less) :
    ∀ (fuel : Nat) (pq : List α) (i n : Nat), n - i ≤ fuel → n ≤ pq.length →
      DownInv less pq i n → HeapOn less (downLoop less fuel pq i n) n := by
  intro fuel
  induction fuel with
  | zero =>
    intro pq i n hf _ hinv k hk0 hk
    exact hinv.1 k hk0 hk (by omega)
  | succ fuel ih =>
    intro pq i n hf hn hinv
    rw [downLoop_succ]
    split
    · next h1 =>
      intro k hk0 hk
      exact hinv.1 k hk0 hk (by omega)
    · next h1 =>
      have hc := child_cases less pq i n h1
      have hin : i < pq.length := by omega
      have hjn : child less pq i n < pq.length := by omega
      have hchoice : ∀ k, 0 < k → k < n → (k - 1) / 2 = i → k ≠ child less pq i n →
          less (pq.getD k default) (pq.getD (child less pq i n) default) = false := by
        intro k hk0 hk hp hkc
        unfold child at hkc ⊢
        split
        · next h2 =>
          rw [if_pos h2] at hkc
          have : k = 2 * i + 1 := by omega
          subst this
          exact sw.asymm _ _ h2.2
        · next h2 =>
          rw [if_neg h2] at hkc
          have hk2 : k = 2 * i + 1 + 1 := by omega
          subst hk2
          have : ¬ (less (pq.getD (2 * i + 1 + 1) default)
              (pq.getD (2 * i + 1) default) = true) := fun h => h2 ⟨hk, h⟩
          simpa using this
      split
      · next hbr =>
        have hbr' : less (pq.getD (child less pq i n) default) (pq.getD i default) = false := by
          simpa using hbr
        intro k hk0 hk
        by_cases hp : (k - 1) / 2 = i
        · rw [hp]
          by_cases hkc : k = child less pq i n
          · rw [hkc]; exact hbr'
          · exact sw.ntrans _ _ _ (hchoice k hk0 hk hp hkc) hbr'
        · exact hinv.1 k hk0 hk hp
      · next hbr =>
        have hlt : less (pq.getD (child less pq i n) default) (pq.getD i default) = true := by
          simpa using hbr
        refine ih _ _ _ (by omega) (by rw [length_swap]; exact hn) ⟨?_, ?_⟩
        · intro k hk0 hk hp
          rw [getD_swap pq hin hjn, getD_swap pq hin hjn]
          by_cases hkc : k = child less pq i n
          · have hpi : (k - 1) / 2 = i := by omega
            have hpc : ¬ (k - 1) / 2 = child less pq i n := by omega
            rw [if_pos hkc, if_neg hpc, if_pos hpi]
            exact sw.asymm _ _ hlt
          · simp only [hkc, hp, if_false]
            by_cases hki : k = i
            · subst hki
              have hpk1 : ¬ (k - 1) / 2 = k := by omega
              simp only [if_true, hpk1, if_false]
              exact hinv.2 _ (by omega) hc.2 (by omega) hk0
            · simp only [hki, if_false]
              by_cases hpi : (k - 1) / 2 = i
              · simp only [hpi, if_true]
                exact hchoice k hk0 hk hpi hkc
              · simp only [hpi, if_false]
                exact hinv.1 k hk0 hk hpi
        · intro k hk0 hk hp hj0
          rw [getD_swap pq hin hjn, getD_swap pq hin hjn]
          have e1 : (child less pq i n - 1) / 2 = i := by omega
          have h1 : ¬ k = child less pq i n := by omega
          have h2 : ¬ k = i := by omega
          have h3 : ¬ i = child less pq i n := by omega
          simp only [e1, h1, h2, h3, if_true, if_false]
          have := hinv.1 k hk0 hk (by omega)
          rw [hp] at this
          exact this

theorem isHeap_root_min {less : α → α → Bool} (sw : StrictWeak less) {pq : List α}
    (h : IsHeap less pq) :
    ∀ k, k < pq.length → less (pq.getD k default) (pq.getD 0 default) = false := by
  intro k
  induction k using Nat.strong_induction_on with
  | _ k ih =>
    intro hk
    by_cases hk0 : k = 0
    · subst hk0
      cases hc : less (pq.getD 0 default) (pq.getD 0 default) with
      | false => rfl
      | true => have := sw.asymm _ _ hc; rw [hc] at this; exact absurd this (by simp)
    · exact sw.ntrans _ _ _ (h k (by omega) hk) (ih ((k - 1) / 2) (by omega) (by omega))

theorem getD_mem (pq : List α) {k : Nat} (hk : k < pq.length) : pq.getD k default ∈ pq := by
  rw [List.getD_eq_getElem _ _ hk]
  exact List.getElem_mem _

theorem isHeap_congr {less less' : α → α → Bool} {pq : List α}
    (hc : ∀ a ∈ pq, ∀ b ∈ pq, less' a b = less a b) (h : IsHeap less pq) :
    IsHeap less' pq := by
  intro k hk0 hk
  rw [hc _ (getD_mem pq hk) _ (getD_mem pq (by omega))]
  exact h k hk0 hk

theorem heapPush_perm [DecidableEq α] (less : α → α → Bool) (pq : List α) (x : α) :
    (heapPush less pq x).Perm (x :: pq) := by
  unfold heapPush up
  exact (upLoop_perm less _ _ _ (by simp)).trans (List.perm_append_singleton x pq)

theorem heapPush_isHeap {less : α → α → Bool} (sw : StrictWeak less) {pq : List α}
    (h : IsHeap less pq) (x : α) : IsHeap less (heapPush less pq x) := by
  unfold heapPush up
  refine upLoop_isHeap sw _ _ _ (Nat.le_refl _) (by simp) ⟨?_, ?_⟩
  · intro k hk0 hk hkn
    have hk' : k < pq.length := by
      simp only [List.length_append, List.length_singleton] at hk
      omega
    rw [List.getD_append _ _ _ _ hk', List.getD_append _ _ _ _ (by omega)]
    exact h k hk0 hk'
  · intro k hk0 hk hp _
    simp only [List.length_append, List.length_singleton] at hk
    omega

theorem length_heapPop (less : α → α → Bool) (pq : List α) :
    (heapPop less pq).length = pq.length - 1 := by
  unfold heapPop down
  simp [length_downLoop, length_swap]

theorem heapPop_perm [DecidableEq α] (less : α → α → Bool) (a : α) (t : List α) :
    (heapPop less (a :: t)).Perm t := by
  have hlen : (a :: t).length - 1 = t.length := by simp
  have h0 : 0 < (a :: t).length := by simp
  have hn : t.length < (a :: t).length := by simp
  unfold heapPop down
  simp only [hlen]
  set l := downLoop less (t.length - 0) (swap (a :: t) 0 t.length) 0 t.length with hl
  have hll : l.length = t.length + 1 := by
    rw [hl, length_downLoop, length_swap]; simp
  have hperm : l.Perm (a :: t) :=
    (downLoop_perm less _ _ _ _ (by rw [length_swap]; simp)).trans (swap_perm _ h0 hn)
  have hlast : l.getD t.length default = a := by
    rw [hl, downLoop_getD_ge less _ _ _ _ (by rw [length_swap]; simp) _ (Nat.le_refl _),
      getD_swap _ h0 hn]
    simp
  have hsplit : l = l.take t.length ++ [a] := by
    conv_lhs => rw [← List.take_append_drop t.length l]
    congr 1
    rw [List.drop_eq_getElem_cons (by omega)]
    rw [List.getD_eq_getElem _ _ (by omega)] at hlast
    rw [hlast, List.drop_eq_nil_of_le (by omega)]
  rw [hsplit] at hperm
  exact ((List.perm_append_singleton a _).symm.trans hperm).cons_inv

theorem heapPop_isHeap {less : α → α → Bool} (sw : StrictWeak less) {pq : List α}
    (h : IsHeap less pq) : IsHeap less (heapPop less pq) := by
  intro k hk0 hk
  rw [length_heapPop] at hk
  have hn : pq.length - 1 < pq.length := by omega
  have h0 : 0 < pq.length := by omega
  unfold heapPop down
  have hpre : HeapOn less
      (downLoop less (pq.length - 1 - 0) (swap pq 0 (pq.length - 1)) 0 (pq.length - 1))
      (pq.length - 1) := by
    refine downLoop_heapOn sw _ _ _ _ (Nat.le_refl _) (by rw [length_swap]; omega) ⟨?_, ?_⟩
    · intro k hk0 hk hp
      rw [getD_swap pq h0 hn, getD_swap pq h0 hn]
      have h1 : ¬ k = pq.length - 1 := by omega
      have h2 : ¬ k = 0 := by omega
      have h3 : ¬ (k - 1) / 2 = pq.length - 1 := by omega
      simp only [h1, h2, h3, hp, if_false]
      exact h k hk0 (by omega)
    · intro k _ _ _ h00
      omega
  have := hpre k hk0 hk
  simp only [List.getD_eq_getElem?_getD, List.getElem?_take] at this ⊢
  rw [if_pos hk, if_pos (by omega)]
  exact this

end heapthy

/-! ## One iteration of a matching loop -/

theorem Mem.modify_apply (mem : Mem) (p q : Ptr) (f : Order → Order) :
    (mem.modify p f) q = if q = p then f (mem p) else mem q := rfl

theorem Mem.modify_same (mem : Mem) (p : Ptr) (f : Order → Order) :
    (mem.modify p f) p = f (mem p) := by simp [Mem.modify]

theorem Mem.modify_ne (mem : Mem) {p q : Ptr} (f : Order → Order) (h : q ≠ p) :
    (mem.modify p f) q = mem q := by simp [Mem.modify, h]

theorem loopBody_remaining (side : OrderSide) (order best : Ptr) (st : Loop) :
    (loopBody side order best st).remaining = st.remaining - matchQty st best := by
  unfold loopBody matchQty
  cases side <;> simp only [createTrade] <;> split <;> rfl

theorem loopBody_mem (side : OrderSide) (order best : Ptr) (st : Loop) :
    (loopBody side order best st).mem =
      if popped st order best then
        (filledMem st order best).modify best (fun o => { o with Status := .FILLED })
      else filledMem st order best := by
  unfold loopBody popped filledMem matchQty
  cases side <;> simp only [createTrade] <;> split <;> rfl

theorem loopBody_opposite (side : OrderSide) (order best : Ptr) (st : Loop) :
    (loopBody side order best st).ob.opposite side =
      if popped st order best then
        heapPop (oppositeLess (loopBody side order best st).mem side) (st.ob.opposite side)
      else st.ob.opposite side := by
  rw [loopBody_mem]
  unfold loopBody popped filledMem matchQty
  cases side <;> simp only [createTrade] <;> split <;> rfl


theorem loopBody_trades_length (side : OrderSide) (order best : Ptr) (st : Loop) :
    (loopBody side order best st).trades.length = st.trades.length + 1 := by
  unfold loopBody
  cases side <;> simp only [createTrade] <;> split <;> simp

theorem loopHead_some {limit : Bool} {side : OrderSide} {order best : Ptr} {st : Loop}
    (h : loopHead limit side order st = some best) :
    (∃ t, st.ob.opposite side = best :: t) ∧ st.remaining > 0 := by
  unfold loopHead at h
  split at h
  · exact absurd h (by simp)
  · next b t heq =>
    split at h
    · exact absurd h (by simp)
    · next hr =>
      split at h
      · exact absurd h (by simp)
      · split at h
        · exact absurd h (by simp)
        · have : b = best := by simpa using h
          subst this
          exact ⟨⟨t, heq⟩, by simpa using hr⟩

theorem loopHead_none_of_remaining {limit : Bool} {side : OrderSide} {order : Ptr} {st : Loop}
    (h : ¬ st.remaining > 0) : loopHead limit side order st = none := by
  unfold loopHead
  split
  · rfl
  · rw [if_pos h]

theorem matchLoop_of_none {limit : Bool} {side : OrderSide} {order : Ptr} {st : Loop}
    (h : loopHead limit side order st = none) (fuel : Nat) :
    matchLoop limit side order fuel st = some st := by
  cases fuel <;> simp [matchLoop, h]

/-! ## Every matching loop leaves -/

theorem min_def (a b : Int) : engine.min a b = if a < b then a else b := rfl

theorem loopBody_progress {limit : Bool} {side : OrderSide} {order best : Ptr} {st : Loop}
    (h : loopHead limit side order st = some best) :
    ¬ (loopBody side order best st).remaining > 0 ∨
    ((loopBody side order best st).ob.opposite side).length + 1 =
      (st.ob.opposite side).length ∨
    (¬ primed side order st ∧ primed side order (loopBody side order best st) ∧
      ((loopBody side order best st).ob.opposite side).length =
        (st.ob.opposite side).length) := by
  obtain ⟨⟨t, hq⟩, hrem⟩ := loopHead_some h
  by_cases hlt : st.remaining < (st.mem best).Quantity - (st.mem best).Filled
  · left
    rw [loopBody_remaining, matchQty, min_def, if_pos hlt]
    omega
  · have hm : matchQty st best = (st.mem best).Quantity - (st.mem best).Filled := by
      rw [matchQty, min_def, if_neg hlt]
    by_cases hp : popped st order best
    · right; left
      rw [loopBody_opposite, if_pos hp, length_heapPop, hq]
      simp
    · right; right
      have hp' := hp
      unfold popped filledMem at hp'
      simp only [Mem.modify_apply, if_true, hm] at hp'
      by_cases hbo : best = order
      · subst hbo
        simp only [if_true] at hp'
        refine ⟨?_, ?_, ?_⟩
        · unfold primed
          rw [hq]
          simp only [true_and, not_and, not_not]
          intro hfq
          omega
        · unfold primed
          rw [loopBody_opposite, if_neg hp, hq, loopBody_mem, if_neg hp, loopBody_remaining, hm]
          unfold filledMem
          simp only [Mem.modify_apply, if_true, hm, true_and]
          constructor <;> omega
        · rw [loopBody_opposite, if_neg hp]
      · simp only [hbo, if_false] at hp'
        omega

theorem matchLoop_isSome_aux (limit : Bool) (side : OrderSide) (order : Ptr) :
    ∀ (fuel : Nat) (st : Loop),
      (2 * (st.ob.opposite side).length ≤ fuel ∨
        (primed side order st ∧ 2 * (st.ob.opposite side).length ≤ fuel + 1)) →
      ∃ st', matchLoop limit side order fuel st = some st' := by
  intro fuel
  induction fuel with
  | zero =>
    intro st hf
    cases hh : loopHead limit side order st with
    | none => exact ⟨st, matchLoop_of_none hh 0⟩
    | some best =>
      obtain ⟨⟨t, hq⟩, _⟩ := loopHead_some hh
      rw [hq] at hf
      simp only [List.length_cons] at hf
      omega
  | succ fuel ih =>
    intro st hf
    cases hh : loopHead limit side order st with
    | none => exact ⟨st, matchLoop_of_none hh _⟩
    | some best =>
      simp only [matchLoop, hh]
      rcases loopBody_progress hh with h1 | h2 | ⟨h3, h4, h5⟩
      · exact ⟨_, matchLoop_of_none (loopHead_none_of_remaining h1) _⟩
      · apply ih
        left
        rcases hf with hf | ⟨_, hf⟩ <;> omega
      · apply ih
        right
        refine ⟨h4, ?_⟩
        rcases hf with hf | ⟨hpr, _⟩
        · omega
        · exact absurd hpr h3

/-- Every matching loop of `AddOrder` leaves within the bound `loopFuel`, whatever the
book and the order. -/
theorem matchLoop_total (limit : Bool) (side : OrderSide) (order : Ptr) (st : Loop) :
    ∃ st', matchLoop limit side order (loopFuel st.ob side) st = some st' :=
  matchLoop_isSome_aux limit side order _ st (Or.inl (Nat.le_refl _))

theorem AddOrder_total (mem : Mem) (ob : OrderBook) (order : Ptr) :
    ∃ r, AddOrder mem ob order = some r := by
  unfold AddOrder
  split
  · unfold processMarketOrder
    obtain ⟨st', h⟩ := matchLoop_total false (mem order).Side order
      { mem := mem, ob := ob, remaining := (mem order).Quantity, trades := [] }
    simp only at h
    simp only [h]
    exact ⟨_, rfl⟩
  · unfold processLimitOrder
    obtain ⟨st', h⟩ := matchLoop_total true (mem order).Side order
      { mem := mem, ob := ob, remaining := (mem order).Quantity, trades := [] }
    simp only at h
    simp only [h]
    exact ⟨_, rfl⟩

/-! ## The comparisons of the two queues -/

theorem strictWeak_BuyLess (mem : Mem) : StrictWeak (BuyLess mem) := by
  refine ⟨?_, ?_, ?_⟩
  · intro a b h
    unfold BuyLess at h ⊢
    split at h
    · next he => rw [if_pos he.symm]; simp only [decide_eq_true_eq, decide_eq_false_iff_not] at h ⊢; omega
    · next he => rw [if_neg (fun e => he e.symm)]; simp only [decide_eq_true_eq, decide_eq_false_iff_not] at h ⊢; omega
  · intro a b c h1 h2
    unfold BuyLess at h1 h2 ⊢
    split at h1 <;> split at h2 <;> split <;>
      simp only [decide_eq_true_eq, decide_eq_false_iff_not] at h1 h2 ⊢ <;> omega
  · intro a b c h1 h2
    unfold BuyLess at h1 h2 ⊢
    split at h1 <;> split at h2 <;> split <;>
      simp only [decide_eq_true_eq, decide_eq_false_iff_not] at h1 h2 ⊢ <;> omega

theorem strictWeak_SellLess (mem : Mem) : StrictWeak (SellLess mem) := by
  refine ⟨?_, ?_, ?_⟩
  · intro a b h
    unfold SellLess at h ⊢
    split at h
    · next he => rw [if_pos he.symm]; simp only [decide_eq_true_eq, decide_eq_false_iff_not] at h ⊢; omega
    · next he => rw [if_neg (fun e => he e.symm)]; simp only [decide_eq_true_eq, decide_eq_false_iff_not] at h ⊢; omega
  · intro a b c h1 h2
    unfold SellLess at h1 h2 ⊢
    split at h1 <;> split at h2 <;> split <;>
      simp only [decide_eq_true_eq, decide_eq_false_iff_not] at h1 h2 ⊢ <;> omega
  · intro a b c h1 h2
    unfold SellLess at h1 h2 ⊢
    split at h1 <;> split at h2 <;> split <;>
      simp only [decide_eq_true_eq, decide_eq_false_iff_not] at h1 h2 ⊢ <;> omega

theorem strictWeak_oppositeLess (mem : Mem) (side : OrderSide) :
    StrictWeak (oppositeLess mem side) := by
  cases side
  · exact strictWeak_SellLess mem
  · exact strictWeak_BuyLess mem

/-! ## Fields the book never assigns -/

theorem SameKeys.refl (m : Mem) : SameKeys m m := fun _ => ⟨rfl, rfl, rfl, rfl, rfl, rfl, rfl⟩

theorem SameKeys.trans {m1 m2 m3 : Mem} (h1 : SameKeys m1 m2) (h2 : SameKeys m2 m3) :
    SameKeys m1 m3 := by
  intro p
  obtain ⟨a1, a2, a3, a4, a5, a6, a7⟩ := h1 p
  obtain ⟨b1, b2, b3, b4, b5, b6, b7⟩ := h2 p
  exact ⟨b1.trans a1, b2.trans a2, b3.trans a3, b4.trans a4, b5.trans a5, b6.trans a6,
    b7.trans a7⟩

theorem SameKeys.modify (m : Mem) (p : Ptr) (f : Order → Order)
    (hf : ∀ o, (f o).ID = o.ID ∧ (f o).Symbol = o.Symbol ∧ (f o).Side = o.Side ∧
      (f o).Typ = o.Typ ∧ (f o).Price = o.Price ∧ (f o).Timestamp = o.Timestamp ∧
      (f o).ClientID = o.ClientID) :
    SameKeys m (m.modify p f) := by
  intro q
  rw [Mem.modify_apply]
  split
  · next h => subst h; exact hf _
  · exact ⟨rfl, rfl, rfl, rfl, rfl, rfl, rfl⟩

theorem filledMem_sameKeys (st : Loop) (order best : Ptr) :
    SameKeys st.mem (filledMem st order best) := by
  intro p
  unfold filledMem
  simp only [Mem.modify_apply]
  split_ifs <;> subst_vars <;> exact ⟨rfl, rfl, rfl, rfl, rfl, rfl, rfl⟩

theorem loopBody_sameKeys (side : OrderSide) (order best : Ptr) (st : Loop) :
    SameKeys st.mem (loopBody side order best st).mem := by
  rw [loopBody_mem]
  split
  · refine (filledMem_sameKeys st order best).trans ?_
    intro p
    rw [Mem.modify_apply]
    split
    · next h => subst h; exact ⟨rfl, rfl, rfl, rfl, rfl, rfl, rfl⟩
    · exact ⟨rfl, rfl, rfl, rfl, rfl, rfl, rfl⟩
  · exact filledMem_sameKeys st order best

theorem BuyLess_congr {m m' : Mem} (h : SameKeys m m') : BuyLess m' = BuyLess m := by
  funext a b
  unfold BuyLess
  rw [(h a).2.2.2.2.1, (h b).2.2.2.2.1, (h a).2.2.2.2.2.1, (h b).2.2.2.2.2.1]

theorem SellLess_congr {m m' : Mem} (h : SameKeys m m') : SellLess m' = SellLess m := by
  funext a b
  unfold SellLess
  rw [(h a).2.2.2.2.1, (h b).2.2.2.2.1, (h a).2.2.2.2.2.1, (h b).2.2.2.2.2.1]

theorem oppositeLess_congr {m m' : Mem} (h : SameKeys m m') (side : OrderSide) :
    oppositeLess m' side = oppositeLess m side := by
  cases side
  · exact SellLess_congr h
  · exact BuyLess_congr h

/-! ## The invariant of a matching loop -/

/-- The opposite queue after one iteration: the old one, or a permutation of its tail. -/
theorem loopBody_opposite_cases {limit : Bool} {side : OrderSide} {order best : Ptr}
    {st : Loop} (h : loopHead limit side order st = some best) :
    ∃ t, st.ob.opposite side = best :: t ∧
      ((¬ popped st order best ∧
          (loopBody side order best st).ob.opposite side = best :: t) ∨
       (popped st order best ∧
          ((loopBody side order best st).ob.opposite side).Perm t)) := by
  obtain ⟨⟨t, hq⟩, _⟩ := loopHead_some h
  refine ⟨t, hq, ?_⟩
  rw [loopBody_opposite]
  by_cases hp : popped st order best
  · right
    rw [if_pos hp, hq]
    exact ⟨hp, heapPop_perm _ _ _⟩
  · left
    rw [if_neg hp]
    exact ⟨hp, hq⟩

theorem loopBody_opposite_subset {limit : Bool} {side : OrderSide} {order best : Ptr}
    {st : Loop} (h : loopHead limit side order st = some best) :
    ∀ x ∈ (loopBody side order best st).ob.opposite side, x ∈ st.ob.opposite side := by
  obtain ⟨t, hq, hc⟩ := loopBody_opposite_cases h
  intro x hx
  rw [hq]
  rcases hc with ⟨_, he⟩ | ⟨_, hp⟩
  · rw [he] at hx; exact hx
  · exact List.mem_cons_of_mem _ (hp.subset hx)

theorem loopBody_inv {limit : Bool} {side : OrderSide} {order best : Ptr} {st : Loop}
    (h : loopHead limit side order st = some best) (hinv : LoopInv side order st) :
    LoopInv side order (loopBody side order best st) := by
  have hk := oppositeLess_congr (loopBody_sameKeys side order best st) side
  obtain ⟨t, hq, hc⟩ := loopBody_opposite_cases h
  refine ⟨?_, ?_, ?_⟩
  · rw [hk, loopBody_opposite]
    split
    · rw [hk]
      exact heapPop_isHeap (strictWeak_oppositeLess _ _) hinv.heap
    · exact hinv.heap
  · rcases hc with ⟨_, he⟩ | ⟨_, hp⟩
    · rw [he, ← hq]; exact hinv.nodup
    · have := hinv.nodup
      rw [hq] at this
      exact hp.nodup_iff.mpr this.of_cons
  · intro hx
    exact hinv.notin (loopBody_opposite_subset h _ hx)

/-- Induction along a matching loop that leaves. -/
theorem matchLoop_induct {limit : Bool} {side : OrderSide} {order : Ptr} (P : Loop → Prop)
    (hstep : ∀ st best, P st → loopHead limit side order st = some best →
      P (loopBody side order best st)) :
    ∀ (fuel : Nat) (st st' : Loop), P st → matchLoop limit side order fuel st = some st' →
      P st' ∧ loopHead limit side order st' = none := by
  intro fuel
  induction fuel with
  | zero =>
    intro st st' hP h
    simp only [matchLoop] at h
    split at h
    · next hn =>
      have : st = st' := by simpa using h
      subst this; exact ⟨hP, hn⟩
    · exact absurd h (by simp)
  | succ fuel ih =>
    intro st st' hP h
    simp only [matchLoop] at h
    split at h
    · next hn =>
      have : st = st' := by simpa using h
      subst this; exact ⟨hP, hn⟩
    · next best hs => exact ih _ _ (hstep st best hP hs) h

/-! ## Trades and matched heads -/

theorem AddOrder_eq (mem : Mem) (ob : OrderBook) (order : Ptr) :
    AddOrder mem ob order =
      (matchLoop (decide ((mem order).Typ ≠ .MARKET)) (mem order).Side order
        (loopFuel ob (mem order).Side) (startLoop mem ob order)).map
        (finish (decide ((mem order).Typ ≠ .MARKET)) (mem order).Side order) := by
  unfold AddOrder
  split
  · next h =>
    simp only [h, ne_eq, not_true_eq_false, decide_False]
    unfold processMarketOrder startLoop
    simp only
    split
    · next h2 => rw [h2]; rfl
    · next st h2 => rw [h2]; simp [finish]
  · next h =>
    simp only [h, ne_eq, not_false_eq_true, decide_True]
    unfold processLimitOrder startLoop
    simp only
    split
    · next h2 => rw [h2]; rfl
    · next st h2 =>
      rw [h2]
      simp only [Option.map_some', finish, if_true]
      split <;> rfl

theorem loopBody_trades (side : OrderSide) (order best : Ptr) (st : Loop) :
    (loopBody side order best st).trades = st.trades ++ [loopTrade side order best st] := by
  unfold loopBody loopTrade matchQty
  cases side <;> simp only [createTrade] <;> split <;> rfl

theorem loopTrade_price (side : OrderSide) (order best : Ptr) (st : Loop) :
    (loopTrade side order best st).Price = (st.mem best).Price := by
  cases side <;> rfl

theorem loopTrade_quantity (side : OrderSide) (order best : Ptr) (st : Loop) :
    (loopTrade side order best st).Quantity = matchQty st best := by
  cases side <;> rfl

theorem loopTrade_counterparty (side : OrderSide) (order best : Ptr) (st : Loop) :
    counterpartyID side (loopTrade side order best st) = (st.mem best).ID := by
  cases side <;> rfl

theorem loopTrade_aggressor (side : OrderSide) (order best : Ptr) (st : Loop) :
    aggressorID side (loopTrade side order best st) = (st.mem order).ID := by
  cases side <;> rfl

/-- The trades a matching loop appends, seen through a reading `f` of a trade that is a
reading `g` of the head it was made against. -/
theorem matchLoop_trades_map {β : Type} {limit : Bool} {side : OrderSide} {order : Ptr}
    (f : Trade → β) (g : Order → β)
    (hfg : ∀ st best, f (loopTrade side order best st) = g (st.mem best))
    (hg : ∀ m m', SameKeys m m' → ∀ p, g (m' p) = g (m p)) :
    ∀ (fuel : Nat) (st st' : Loop), matchLoop limit side order fuel st = some st' →
      st'.trades.map f =
        st.trades.map f ++ (loopHeads limit side order fuel st).map (fun h => g (st.mem h)) := by
  intro fuel
  induction fuel with
  | zero =>
    intro st st' h
    simp only [matchLoop] at h
    split at h
    · have : st = st' := by simpa using h
      subst this; simp [loopHeads]
    · exact absurd h (by simp)
  | succ fuel ih =>
    intro st st' h
    simp only [matchLoop] at h
    split at h
    · next hn =>
      have : st = st' := by simpa using h
      subst this; simp [loopHeads, hn]
    · next best hs =>
      rw [ih _ _ h, loopBody_trades]
      simp only [loopHeads, hs, List.map_append, List.map_cons, List.map_nil, hfg,
        List.append_assoc, List.singleton_append]
      congr 2
      apply List.map_congr_left
      intro p _
      exact hg _ _ (loopBody_sameKeys side order best st) p

theorem matchLoop_sameKeys {limit : Bool} {side : OrderSide} {order : Ptr} (fuel : Nat)
    (st st' : Loop) (h : matchLoop limit side order fuel st = some st') :
    SameKeys st.mem st'.mem :=
  (matchLoop_induct (fun s => SameKeys st.mem s.mem)
    (fun s best hP _ => hP.trans (loopBody_sameKeys side order best s))
    fuel st st' (SameKeys.refl _) h).1

theorem loopHeads_subset {limit : Bool} {side : OrderSide} {order : Ptr} :
    ∀ (fuel : Nat) (st : Loop), ∀ x ∈ loopHeads limit side order fuel st,
      x ∈ st.ob.opposite side := by
  intro fuel
  induction fuel with
  | zero => intro st x hx; simp [loopHeads] at hx
  | succ fuel ih =>
    intro st x hx
    simp only [loopHeads] at hx
    split at hx
    · simp at hx
    · next best hs =>
      obtain ⟨⟨t, hq⟩, _⟩ := loopHead_some hs
      rcases List.mem_cons.mp hx with h | h
      · rw [h, hq]; exact List.mem_cons_self _ _
      · exact loopBody_opposite_subset hs _ (ih _ _ h)

theorem matchLoop_opposite_subset {limit : Bool} {side : OrderSide} {order : Ptr} (fuel : Nat)
    (st st' : Loop) (h : matchLoop limit side order fuel st = some st') :
    ∀ x ∈ st'.ob.opposite side, x ∈ st.ob.opposite side :=
  (matchLoop_induct (fun s => ∀ x ∈ s.ob.opposite side, x ∈ st.ob.opposite side)
    (fun _ _ hP hs x hx => hP x (loopBody_opposite_subset hs x hx))
    fuel st st' (fun _ hx => hx) h).1

theorem matchLoop_inv {limit : Bool} {side : OrderSide} {order : Ptr} (fuel : Nat)
    (st st' : Loop) (hinv : LoopInv side order st)
    (h : matchLoop limit side order fuel st = some st') : LoopInv side order st' :=
  (matchLoop_induct (LoopInv side order) (fun _ _ hP hs => loopBody_inv hs hP)
    fuel st st' hinv h).1

/-- The head of a heap is not preceded by any queued order. -/
theorem head_min {side : OrderSide} {order : Ptr} {st : Loop} (hinv : LoopInv side order st)
    {best : Ptr} {t : List Ptr} (hq : st.ob.opposite side = best :: t) :
    ∀ x ∈ st.ob.opposite side, oppositeLess st.mem side x best = false := by
  intro x hx
  obtain ⟨k, hk, hxk⟩ := List.getElem_of_mem hx
  have := isHeap_root_min (strictWeak_oppositeLess st.mem side) hinv.heap k hk
  rw [List.getD_eq_getElem _ _ hk, hxk] at this
  rw [hq] at this
  simpa using this

/-! ## Frame of the matching loop and of the closing statements -/

theorem loopBody_own (side : OrderSide) (order best : Ptr) (st : Loop) :
    (loopBody side order best st).ob.own side = st.ob.own side := by
  unfold loopBody
  cases side <;> simp only [createTrade] <;> split <;> rfl

theorem loopBody_orders (side : OrderSide) (order best : Ptr) (st : Loop) :
    (loopBody side order best st).ob.Orders =
      if popped st order best then
        mapDelete st.ob.Orders ((loopBody side order best st).mem best).ID
      else st.ob.Orders := by
  rw [loopBody_mem]
  unfold loopBody popped filledMem matchQty
  cases side <;> simp only [createTrade] <;> split <;> rfl

theorem loopBody_symbol (side : OrderSide) (order best : Ptr) (st : Loop) :
    (loopBody side order best st).ob.Symbol = st.ob.Symbol := by
  unfold loopBody
  cases side <;> simp only [createTrade] <;> split <;> rfl

theorem mapDelete_sublist (m : OrderMap) (k : String) : (mapDelete m k).Sublist m :=
  List.filter_sublist _

theorem loopBody_orders_sublist (side : OrderSide) (order best : Ptr) (st : Loop) :
    (loopBody side order best st).ob.Orders.Sublist st.ob.Orders := by
  rw [loopBody_orders]
  split
  · exact mapDelete_sublist _ _
  · exact List.Sublist.refl _

theorem matchLoop_own {limit : Bool} {side : OrderSide} {order : Ptr} (fuel : Nat)
    (st st' : Loop) (h : matchLoop limit side order fuel st = some st') :
    st'.ob.own side = st.ob.own side :=
  (matchLoop_induct (fun s => s.ob.own side = st.ob.own side)
    (fun s best hP _ => (loopBody_own side order best s).trans hP) fuel st st' rfl h).1

theorem matchLoop_orders_sublist {limit : Bool} {side : OrderSide} {order : Ptr} (fuel : Nat)
    (st st' : Loop) (h : matchLoop limit side order fuel st = some st') :
    st'.ob.Orders.Sublist st.ob.Orders :=
  (matchLoop_induct (fun s => s.ob.Orders.Sublist st.ob.Orders)
    (fun s best hP _ => (loopBody_orders_sublist side order best s).trans hP)
    fuel st st' (List.Sublist.refl _) h).1

theorem setStatus_sameKeys (mem : Mem) (order : Ptr) : SameKeys mem (setStatus mem order) := by
  unfold setStatus
  split
  · exact SameKeys.modify _ _ _ (fun _ => ⟨rfl, rfl, rfl, rfl, rfl, rfl, rfl⟩)
  · split
    · exact SameKeys.modify _ _ _ (fun _ => ⟨rfl, rfl, rfl, rfl, rfl, rfl, rfl⟩)
    · exact SameKeys.refl _

theorem ownLess_congr {m m' : Mem} (h : SameKeys m m') (side : OrderSide) :
    ownLess m' side = ownLess m side := by
  cases side
  · exact BuyLess_congr h
  · exact SellLess_congr h

theorem strictWeak_ownLess (mem : Mem) (side : OrderSide) : StrictWeak (ownLess mem side) := by
  cases side
  · exact strictWeak_BuyLess mem
  · exact strictWeak_SellLess mem

theorem rest_mem (st : Loop) (side : OrderSide) (order : Ptr) :
    (rest st side order).1 =
      st.mem.modify order (fun o => { o with Quantity := st.remaining }) := by
  unfold rest; cases side <;> rfl

theorem rest_sameKeys (st : Loop) (side : OrderSide) (order : Ptr) :
    SameKeys st.mem (rest st side order).1 := by
  rw [rest_mem]
  exact SameKeys.modify _ _ _ (fun _ => ⟨rfl, rfl, rfl, rfl, rfl, rfl, rfl⟩)

theorem rest_own (st : Loop) (side : OrderSide) (order : Ptr) :
    (rest st side order).2.own side =
      heapPush (ownLess (rest st side order).1 side) (st.ob.own side) order := by
  unfold rest; cases side <;> rfl

theorem rest_opposite (st : Loop) (side : OrderSide) (order : Ptr) :
    (rest st side order).2.opposite side = st.ob.opposite side := by
  unfold rest; cases side <;> rfl

theorem rest_orders (st : Loop) (side : OrderSide) (order : Ptr) :
    (rest st side order).2.Orders = mapSet st.ob.Orders (st.mem order).ID order := by
  unfold rest; cases side <;> simp [Mem.modify_same]

theorem finish_sameKeys (limit : Bool) (side : OrderSide) (order : Ptr) (st : Loop) :
    SameKeys st.mem (finish limit side order st).1 := by
  unfold finish
  split
  · split
    · exact (rest_sameKeys st side order).trans (setStatus_sameKeys _ _)
    · exact setStatus_sameKeys _ _
  · exact setStatus_sameKeys _ _

theorem finish_opposite (limit : Bool) (side : OrderSide) (order : Ptr) (st : Loop) :
    (finish limit side order st).2.1.opposite side = st.ob.opposite side := by
  unfold finish
  split
  · split
    · exact rest_opposite st side order
    · rfl
  · rfl

theorem finish_trades (limit : Bool) (side : OrderSide) (order : Ptr) (st : Loop) :
    (finish limit side order st).2.2 = st.trades := by
  unfold finish
  split
  · split <;> rfl
  · rfl

/-! ## Reachable books satisfy the structural invariant -/

theorem opposite_eq_own_flip (ob : OrderBook) (side : OrderSide) :
    ob.opposite side = ob.own side.flip := by
  cases side <;> rfl

theorem oppositeLess_eq_ownLess_flip (mem : Mem) (side : OrderSide) :
    oppositeLess mem side = ownLess mem side.flip := by
  cases side <;> rfl

theorem wellFormed_iff (w : World) :
    WellFormed w ↔
      SideOK w.mem w.next w.ob.BuyOrders .BUY ∧ SideOK w.mem w.next w.ob.SellOrders .SELL ∧
      (∀ e ∈ w.ob.Orders, e.2 < w.next) ∧ (w.ob.Orders.map (fun e => e.2)).Nodup := by
  constructor
  · intro h
    exact ⟨⟨h.buyHeap, h.buySide, h.buyLt, h.buyNodup⟩,
      ⟨h.sellHeap, h.sellSide, h.sellLt, h.sellNodup⟩, h.indexLt, h.indexNodup⟩
  · rintro ⟨⟨a1, a2, a3, a4⟩, ⟨b1, b2, b3, b4⟩, c, d⟩
    exact ⟨a1, b1, a2, b2, a3, b3, c, a4, b4, d⟩

theorem wellFormed_iff_side (w : World) (side : OrderSide) :
    WellFormed w ↔
      SideOK w.mem w.next (w.ob.own side) side ∧
      SideOK w.mem w.next (w.ob.opposite side) side.flip ∧
      (∀ e ∈ w.ob.Orders, e.2 < w.next) ∧ (w.ob.Orders.map (fun e => e.2)).Nodup := by
  rw [wellFormed_iff]
  cases side
  · exact Iff.rfl
  · constructor
    · rintro ⟨a, b, c⟩; exact ⟨b, a, c⟩
    · rintro ⟨a, b, c⟩; exact ⟨b, a, c⟩

theorem ownLess_agree {m m' : Mem} {a b : Ptr} (side : OrderSide)
    (ha : (m' a).Price = (m a).Price ∧ (m' a).Timestamp = (m a).Timestamp)
    (hb : (m' b).Price = (m b).Price ∧ (m' b).Timestamp = (m b).Timestamp) :
    ownLess m' side a b = ownLess m side a b := by
  cases side <;> simp only [ownLess, BuyLess, SellLess, ha.1, ha.2, hb.1, hb.2]

theorem SideOK.congr {m m' : Mem} {next next' : Ptr} {q : List Ptr} {side : OrderSide}
    (h : SideOK m next q side)
    (hm : ∀ p ∈ q, (m' p).Price = (m p).Price ∧ (m' p).Timestamp = (m p).Timestamp ∧
      (m' p).Side = (m p).Side)
    (hn : next ≤ next') : SideOK m' next' q side := by
  obtain ⟨h1, h2, h3, h4⟩ := h
  refine ⟨?_, ?_, ?_, h4⟩
  · refine isHeap_congr ?_ h1
    intro a ha b hb
    exact ownLess_agree side ⟨(hm a ha).1, (hm a ha).2.1⟩ ⟨(hm b hb).1, (hm b hb).2.1⟩
  · intro p hp; rw [(hm p hp).2.2]; exact h2 p hp
  · intro p hp; exact Nat.lt_of_lt_of_le (h3 p hp) hn

theorem SideOK.sameKeys {m m' : Mem} {next : Ptr} {q : List Ptr} {side : OrderSide}
    (h : SideOK m next q side) (hk : SameKeys m m') : SideOK m' next q side :=
  h.congr (fun p _ => ⟨(hk p).2.2.2.2.1, (hk p).2.2.2.2.2.1, (hk p).2.2.1⟩) (Nat.le_refl _)

theorem SideOK.perm_sub {m : Mem} {next : Ptr} {q q' : List Ptr} {side : OrderSide}
    (h : SideOK m next q side) (hh : IsHeap (ownLess m side) q')
    (hs : ∀ p ∈ q', p ∈ q) (hn : q'.Nodup) : SideOK m next q' side :=
  ⟨hh, fun p hp => h.2.1 p (hs p hp), fun p hp => h.2.2.1 p (hs p hp), hn⟩

theorem SideOK.pop {m : Mem} {next : Ptr} {q : List Ptr} {side : OrderSide}
    (h : SideOK m next q side) : SideOK m next (heapPop (ownLess m side) q) side := by
  cases q with
  | nil => exact h
  | cons a t =>
    have hp := heapPop_perm (ownLess m side) a t
    exact h.perm_sub (heapPop_isHeap (strictWeak_ownLess m side) h.1)
      (fun p hp' => List.mem_cons_of_mem _ (hp.subset hp'))
      (hp.nodup_iff.mpr h.2.2.2.of_cons)

theorem SideOK.push {m : Mem} {next : Ptr} {q : List Ptr} {side : OrderSide}
    (h : SideOK m next q side) {p : Ptr} (hs : (m p).Side = side) (hq : p ∉ q)
    (hn : p < next) : SideOK m next (heapPush (ownLess m side) q p) side := by
  have hp := heapPush_perm (ownLess m side) q p
  refine ⟨heapPush_isHeap (strictWeak_ownLess m side) h.1 p, ?_, ?_, ?_⟩
  · intro x hx
    rcases List.mem_cons.mp (hp.subset hx) with e | e
    · rw [e]; exact hs
    · exact h.2.1 x e
  · intro x hx
    rcases List.mem_cons.mp (hp.subset hx) with e | e
    · rw [e]; exact hn
    · exact h.2.2.1 x e
  · exact hp.nodup_iff.mpr (List.nodup_cons.mpr ⟨hq, h.2.2.2⟩)

theorem SideOK.nil (m : Mem) (next : Ptr) (side : OrderSide) : SideOK m next [] side := by
  refine ⟨?_, ?_, ?_, List.nodup_nil⟩
  · intro k _ hk; simp at hk
  · intro p hp; simp at hp
  · intro p hp; simp at hp

theorem loopBody_sideOK {side : OrderSide} {order best : Ptr} {st : Loop} {next : Ptr}
    (hok : SideOK st.mem next (st.ob.opposite side) side.flip) :
    SideOK (loopBody side order best st).mem next
      ((loopBody side order best st).ob.opposite side) side.flip := by
  have hk := loopBody_sameKeys side order best st
  rw [loopBody_opposite]
  split
  · rw [oppositeLess_eq_ownLess_flip]
    exact (hok.sameKeys hk).pop
  · exact hok.sameKeys hk

theorem matchLoop_sideOK {limit : Bool} {side : OrderSide} {order : Ptr} {next : Ptr}
    (fuel : Nat) (st st' : Loop) (hok : SideOK st.mem next (st.ob.opposite side) side.flip)
    (h : matchLoop limit side order fuel st = some st') :
    SideOK st'.mem next (st'.ob.opposite side) side.flip :=
  (matchLoop_induct (fun s => SideOK s.mem next (s.ob.opposite side) side.flip)
    (fun _ _ hP _ => loopBody_sideOK hP) fuel st st' hok h).1

theorem alloc_same (w : World) (o : Order) : w.alloc o w.next = o := by
  simp [World.alloc]

theorem alloc_ne (w : World) (o : Order) {q : Ptr} (h : q ≠ w.next) : w.alloc o q = w.mem q := by
  simp [World.alloc, h]

theorem submit_eq (w : World) (o : Order) :
    w.submit o =
      (matchLoop (decide (o.Typ ≠ .MARKET)) o.Side w.next (loopFuel w.ob o.Side)
        (startLoop (w.alloc o) w.ob w.next)).map
        (fun st =>
          ({ mem := (finish (decide (o.Typ ≠ .MARKET)) o.Side w.next st).1,
             next := w.next + 1,
             ob := (finish (decide (o.Typ ≠ .MARKET)) o.Side w.next st).2.1 },
           (finish (decide (o.Typ ≠ .MARKET)) o.Side w.next st).2.2)) := by
  unfold World.submit
  rw [AddOrder_eq, alloc_same]
  cases matchLoop (decide (o.Typ ≠ .MARKET)) o.Side w.next (loopFuel w.ob o.Side)
    (startLoop (w.alloc o) w.ob w.next) <;> rfl

theorem mapSet_values (m : OrderMap) (k : String) (v : Ptr) :
    ∀ e ∈ mapSet m k v, e = (k, v) ∨ e ∈ m := by
  intro e he
  unfold mapSet at he
  rcases List.mem_cons.mp he with h | h
  · exact Or.inl h
  · exact Or.inr ((mapDelete_sublist m k).subset h)

theorem finish_wf {limit : Bool} {side : OrderSide} {order : Ptr} {st : Loop}
    (hside : (st.mem order).Side = side)
    (h1 : SideOK st.mem (order + 1) (st.ob.own side) side)
    (h2 : SideOK st.mem (order + 1) (st.ob.opposite side) side.flip)
    (h3 : ∀ e ∈ st.ob.Orders, e.2 < order)
    (h4 : (st.ob.Orders.map (fun e => e.2)).Nodup)
    (h5 : order ∉ st.ob.own side) :
    WellFormed { mem := (finish limit side order st).1, next := order + 1,
                 ob := (finish limit side order st).2.1 } := by
  rw [wellFormed_iff_side _ side]
  simp only
  have hk := finish_sameKeys limit side order st
  refine ⟨?_, ?_, ?_, ?_⟩
  · unfold finish
    split
    · split
      · simp only
        rw [rest_own]
        refine SideOK.sameKeys ?_ (setStatus_sameKeys _ _)
        have hk2 := rest_sameKeys st side order
        refine (h1.sameKeys hk2).push ?_ h5 (Nat.lt_succ_self _)
        rw [(hk2 order).2.2.1]; exact hside
      · exact h1.sameKeys (setStatus_sameKeys _ _)
    · exact h1.sameKeys (setStatus_sameKeys _ _)
  · rw [finish_opposite]
    exact h2.sameKeys hk
  · unfold finish
    split
    · split
      · simp only
        rw [rest_orders]
        intro e he
        rcases mapSet_values _ _ _ e he with h | h
        · rw [h]; exact Nat.lt_succ_self _
        · exact Nat.lt_succ_of_lt (h3 e h)
      · intro e he; exact Nat.lt_succ_of_lt (h3 e he)
    · intro e he; exact Nat.lt_succ_of_lt (h3 e he)
  · unfold finish
    split
    · split
      · simp only
        rw [rest_orders]
        unfold mapSet
        rw [List.map_cons, List.nodup_cons]
        refine ⟨?_, ((mapDelete_sublist _ _).map _).nodup h4⟩
        intro hmem
        obtain ⟨e, he, hee⟩ := List.mem_map.mp hmem
        have hlt := h3 e ((mapDelete_sublist _ _).subset he)
        rw [hee] at hlt
        exact absurd hlt (Nat.lt_irrefl _)
      · exact h4
    · exact h4

theorem submit_wellFormed {w : World} (hw : WellFormed w) (o : Order) (r : World × List Trade)
    (h : w.submit o = some r) : WellFormed r.1 := by
  rw [submit_eq] at h
  obtain ⟨st, hst, hr⟩ := Option.map_eq_some'.mp h
  subst hr
  simp only
  rw [wellFormed_iff_side _ o.Side] at hw
  obtain ⟨w1, w2, w3, w4⟩ := hw
  have hagree : ∀ (q : List Ptr), (∀ p ∈ q, p < w.next) → ∀ p ∈ q,
      (w.alloc o p).Price = (w.mem p).Price ∧ (w.alloc o p).Timestamp = (w.mem p).Timestamp ∧
      (w.alloc o p).Side = (w.mem p).Side := by
    intro q hq p hp
    rw [alloc_ne w o (Nat.ne_of_lt (hq p hp))]
    exact ⟨rfl, rfl, rfl⟩
  have hk := matchLoop_sameKeys _ _ _ hst
  have s1 : SideOK st.mem (w.next + 1) (st.ob.own o.Side) o.Side := by
    rw [matchLoop_own _ _ _ hst]
    exact (w1.congr (hagree _ w1.2.2.1) (Nat.le_succ _)).sameKeys hk
  have s2 : SideOK st.mem (w.next + 1) (st.ob.opposite o.Side) o.Side.flip :=
    matchLoop_sideOK _ _ _ (w2.congr (hagree _ w2.2.2.1) (Nat.le_succ _)) hst
  have s3 : ∀ e ∈ st.ob.Orders, e.2 < w.next :=
    fun e he => w3 e ((matchLoop_orders_sublist _ _ _ hst).subset he)
  have s4 : (st.ob.Orders.map (fun e => e.2)).Nodup :=
    ((matchLoop_orders_sublist _ _ _ hst).map _).nodup w4
  have s5 : w.next ∉ st.ob.own o.Side := by
    rw [matchLoop_own _ _ _ hst]
    intro hm
    exact absurd (w1.2.2.1 _ hm) (Nat.lt_irrefl _)
  have s0 : (st.mem w.next).Side = o.Side := by
    rw [(hk w.next).2.2.1]
    simp [startLoop, alloc_same]
  exact finish_wf s0 s1 s2 s3 s4 s5

theorem rebuildStep_sideOK (mem : Mem) (next : Ptr) (q : List Ptr × List Ptr) (v : Ptr)
    (h1 : SideOK mem next q.1 .BUY) (h2 : SideOK mem next q.2 .SELL)
    (hv : v < next) (hn1 : v ∉ q.1) (hn2 : v ∉ q.2) :
    SideOK mem next (rebuildStep mem q v).1 .BUY ∧
    SideOK mem next (rebuildStep mem q v).2 .SELL ∧
    (∀ x ∈ (rebuildStep mem q v).1, x = v ∨ x ∈ q.1) ∧
    (∀ x ∈ (rebuildStep mem q v).2, x = v ∨ x ∈ q.2) := by
  unfold rebuildStep
  split
  · split
    · next hs =>
      refine ⟨h1.push hs hn1 hv, h2, ?_, fun x hx => Or.inr hx⟩
      intro x hx
      exact List.mem_cons.mp ((heapPush_perm _ _ _).subset hx)
    · next hs =>
      have hs' : (mem v).Side = .SELL := by
        cases hc : (mem v).Side with
        | BUY => exact absurd hc hs
        | SELL => rfl
      refine ⟨h1, h2.push hs' hn2 hv, fun x hx => Or.inr hx, ?_⟩
      intro x hx
      exact List.mem_cons.mp ((heapPush_perm _ _ _).subset hx)
  · exact ⟨h1, h2, fun x hx => Or.inr hx, fun x hx => Or.inr hx⟩

theorem rebuild_foldl_sideOK (mem : Mem) (next : Ptr) :
    ∀ (vs : List Ptr) (q : List Ptr × List Ptr),
      SideOK mem next q.1 .BUY → SideOK mem next q.2 .SELL →
      (∀ v ∈ vs, v < next) → vs.Nodup → (∀ v ∈ vs, v ∉ q.1 ∧ v ∉ q.2) →
      SideOK mem next (vs.foldl (rebuildStep mem) q).1 .BUY ∧
      SideOK mem next (vs.foldl (rebuildStep mem) q).2 .SELL := by
  intro vs
  induction vs with
  | nil => intro q h1 h2 _ _ _; exact ⟨h1, h2⟩
  | cons v vs ih =>
    intro q h1 h2 hlt hnd hdis
    simp only [List.foldl_cons]
    obtain ⟨a1, a2, a3, a4⟩ := rebuildStep_sideOK mem next q v h1 h2
      (hlt v (List.mem_cons_self _ _)) (hdis v (List.mem_cons_self _ _)).1
      (hdis v (List.mem_cons_self _ _)).2
    have hnd' := List.nodup_cons.mp hnd
    refine ih _ a1 a2 (fun x hx => hlt x (List.mem_cons_of_mem _ hx)) hnd'.2 ?_
    intro x hx
    have hxv : x ≠ v := fun e => hnd'.1 (e ▸ hx)
    have hd := hdis x (List.mem_cons_of_mem _ hx)
    constructor
    · intro hm
      rcases a3 x hm with e | e
      · exact hxv e
      · exact hd.1 e
    · intro hm
      rcases a4 x hm with e | e
      · exact hxv e
      · exact hd.2 e

theorem cancel_wellFormed {w : World} (hw : WellFormed w) (orderID : String) (iter : OrderMap)
    (hiter : iter.Perm (mapDelete w.ob.Orders orderID)) :
    WellFormed (w.cancel orderID iter).1 := by
  unfold World.cancel CancelOrder
  cases hg : mapGet w.ob.Orders orderID with
  | none => exact hw
  | some order =>
    simp only
    have hk : SameKeys w.mem (w.mem.modify order (fun o => { o with Status := .CANCELLED })) :=
      SameKeys.modify _ _ _ (fun _ => ⟨rfl, rfl, rfl, rfl, rfl, rfl, rfl⟩)
    have hsub : ∀ e ∈ iter, e ∈ w.ob.Orders :=
      fun e he => (mapDelete_sublist _ _).subset (hiter.subset he)
    have hvlt : ∀ v ∈ iter.map (fun e => e.2), v < w.next := by
      intro v hv
      obtain ⟨e, he, hee⟩ := List.mem_map.mp hv
      rw [← hee]; exact hw.indexLt e (hsub e he)
    have hvnd : (iter.map (fun e => e.2)).Nodup :=
      (hiter.map _).nodup_iff.mpr (((mapDelete_sublist _ _).map _).nodup hw.indexNodup)
    obtain ⟨b1, b2⟩ := rebuild_foldl_sideOK
      (w.mem.modify order (fun o => { o with Status := .CANCELLED })) w.next
      (iter.map (fun e => e.2)) ([], []) (SideOK.nil _ _ _) (SideOK.nil _ _ _) hvlt hvnd
      (fun v _ => ⟨by simp, by simp⟩)
    rw [wellFormed_iff]
    refine ⟨b1, b2, ?_, ?_⟩
    · intro e he
      exact hw.indexLt e ((mapDelete_sublist _ _).subset he)
    · exact ((mapDelete_sublist _ _).map _).nodup hw.indexNodup

theorem init_wellFormed (symbol : String) : WellFormed (World.init symbol) := by
  rw [wellFormed_iff]
  exact ⟨SideOK.nil _ _ _, SideOK.nil _ _ _, fun e he => by simp [World.init, NewOrderBook] at he,
    by simp [World.init, NewOrderBook]⟩

/-- Every reachable book satisfies the structural invariant. -/
theorem Reachable.wellFormed {subs : List Order} {w : World} (h : Reachable subs w) :
    WellFormed w := by
  induction h with
  | init symbol => exact init_wellFormed symbol
  | add o r _ hs ih => exact submit_wellFormed ih o r hs
  | cancel orderID iter _ hp ih => exact cancel_wellFormed ih orderID iter hp

theorem Reachable.next_eq {subs : List Order} {w : World} (h : Reachable subs w) :
    w.next = subs.length := by
  induction h with
  | init symbol => rfl
  | add o r _ hs ih =>
    rw [submit_eq] at hs
    obtain ⟨st, _, hr⟩ := Option.map_eq_some'.mp hs
    subst hr
    simp [ih]
  | cancel orderID iter _ hp ih => simpa [World.cancel] using ih

/-! ## Price priority -/

theorem start_sideOK {w : World} (hw : WellFormed w) (o : Order) :
    SideOK (w.alloc o) w.next (w.ob.opposite o.Side) o.Side.flip ∧
    SideOK (w.alloc o) w.next (w.ob.own o.Side) o.Side := by
  rw [wellFormed_iff_side _ o.Side] at hw
  obtain ⟨w1, w2, _, _⟩ := hw
  have hagree : ∀ (q : List Ptr), (∀ p ∈ q, p < w.next) → ∀ p ∈ q,
      (w.alloc o p).Price = (w.mem p).Price ∧ (w.alloc o p).Timestamp = (w.mem p).Timestamp ∧
      (w.alloc o p).Side = (w.mem p).Side := by
    intro q hq p hp
    rw [alloc_ne w o (Nat.ne_of_lt (hq p hp))]
    exact ⟨rfl, rfl, rfl⟩
  exact ⟨w2.congr (hagree _ w2.2.2.1) (Nat.le_refl _),
    w1.congr (hagree _ w1.2.2.1) (Nat.le_refl _)⟩

theorem start_loopInv {w : World} (hw : WellFormed w) (o : Order) :
    LoopInv o.Side w.next (startLoop (w.alloc o) w.ob w.next) := by
  obtain ⟨⟨h1, _, h3, h4⟩, _⟩ := start_sideOK hw o
  refine ⟨?_, h4, fun hm => absurd (h3 _ hm) (Nat.lt_irrefl _)⟩
  rw [oppositeLess_eq_ownLess_flip]
  exact h1

/-- The matched heads come in the order of the queue: no later head precedes an earlier one. -/
theorem loopHeads_pairwise {limit : Bool} {side : OrderSide} {order : Ptr} :
    ∀ (fuel : Nat) (st : Loop), LoopInv side order st →
      (loopHeads limit side order fuel st).Pairwise
        (fun a b => oppositeLess st.mem side b a = false) := by
  intro fuel
  induction fuel with
  | zero => intro st _; simp [loopHeads]
  | succ fuel ih =>
    intro st hinv
    simp only [loopHeads]
    split
    · exact List.Pairwise.nil
    · next best hs =>
      obtain ⟨⟨t, hq⟩, _⟩ := loopHead_some hs
      rw [List.pairwise_cons]
      constructor
      · intro b hb
        exact head_min hinv hq b (loopBody_opposite_subset hs _ (loopHeads_subset _ _ _ hb))
      · have := ih _ (loopBody_inv hs hinv)
        rw [oppositeLess_congr (loopBody_sameKeys side order best st)] at this
        exact this

theorem SellLess_false_price {mem : Mem} {a b : Ptr} (h : SellLess mem b a = false) :
    (mem a).Price ≤ (mem b).Price := by
  unfold SellLess at h
  split at h
  · next he => exact Int.le_of_eq he.symm
  · simpa using h

theorem BuyLess_false_price {mem : Mem} {a b : Ptr} (h : BuyLess mem b a = false) :
    (mem a).Price ≥ (mem b).Price := by
  unfold BuyLess at h
  split at h
  · next he => exact Int.le_of_eq he
  · simpa using h

/-- The outcome of a submission, by its matching loop. -/
theorem submit_cases (w : World) (o : Order) :
    ∃ st, matchLoop (decide (o.Typ ≠ .MARKET)) o.Side w.next (loopFuel w.ob o.Side)
        (startLoop (w.alloc o) w.ob w.next) = some st ∧
      w.submit o = some
        ({ mem := (finish (decide (o.Typ ≠ .MARKET)) o.Side w.next st).1,
           next := w.next + 1,
           ob := (finish (decide (o.Typ ≠ .MARKET)) o.Side w.next st).2.1 }, st.trades) := by
  obtain ⟨st, hst⟩ := matchLoop_total (decide (o.Typ ≠ .MARKET)) o.Side w.next
    (startLoop (w.alloc o) w.ob w.next)
  refine ⟨st, hst, ?_⟩
  rw [submit_eq]
  have : loopFuel (startLoop (w.alloc o) w.ob w.next).ob o.Side = loopFuel w.ob o.Side := rfl
  rw [this] at hst
  rw [hst]
  simp [finish_trades]

/-- C2 (price priority).  In every book reachable from an empty book by `AddOrder` and
`CancelOrder` calls, `AddOrder` of a new order returns, and the prices of the returned
trades, read in list order, never decrease when the order is a BUY and never increase
when it is a SELL, whatever the type of the order. -/
theorem price_priority {subs : List Order} {w : World} (hr : Reachable subs w) (o : Order) :
    ∃ r, w.submit o = some r ∧
      (o.Side = .BUY → (r.2.map (fun t => t.Price)).Pairwise (fun a b => a ≤ b)) ∧
      (o.Side = .SELL → (r.2.map (fun t => t.Price)).Pairwise (fun a b => a ≥ b)) := by
  obtain ⟨st, hst, hsub⟩ := submit_cases w o
  refine ⟨_, hsub, ?_⟩
  simp only
  have hinv := start_loopInv hr.wellFormed o
  have hpw := @loopHeads_pairwise (decide (o.Typ ≠ .MARKET)) o.Side w.next
    (loopFuel w.ob o.Side) _ hinv
  have htr := matchLoop_trades_map (fun t => t.Price) (fun x => x.Price)
    (fun s b => loopTrade_price o.Side w.next b s)
    (fun m m' hk p => (hk p).2.2.2.2.1) _ _ _ hst
  simp only [startLoop, List.map_nil, List.nil_append] at htr
  rw [htr]
  simp only [List.pairwise_map]
  have hpw' : (loopHeads (decide (o.Typ ≠ .MARKET)) o.Side w.next (loopFuel w.ob o.Side)
      { mem := w.alloc o, ob := w.ob, remaining := (w.alloc o w.next).Quantity,
        trades := [] }).Pairwise
      (fun a b => oppositeLess (w.alloc o) o.Side b a = false) := hpw
  constructor
  · intro hs
    refine hpw'.imp (fun h => ?_)
    rw [hs] at h
    exact SellLess_false_price h
  · intro hs
    refine hpw'.imp (fun h => ?_)
    rw [hs] at h
    exact BuyLess_false_price h

/-! ## Time priority -/

theorem filledMem_best_of_ne (st : Loop) {order best : Ptr} (h : best ≠ order) :
    filledMem st order best best =
      { st.mem best with Filled := (st.mem best).Filled + matchQty st best } := by
  unfold filledMem
  rw [Mem.modify_same, Mem.modify_ne _ _ h]

theorem filledMem_other (st : Loop) {order best q : Ptr} (h1 : q ≠ order) (h2 : q ≠ best) :
    filledMem st order best q = st.mem q := by
  unfold filledMem
  rw [Mem.modify_ne _ _ h2, Mem.modify_ne _ _ h1]

theorem loopBody_mem_other (side : OrderSide) (st : Loop) {order best q : Ptr} (h1 : q ≠ order)
    (h2 : q ≠ best) : (loopBody side order best st).mem q = st.mem q := by
  rw [loopBody_mem]
  split
  · rw [Mem.modify_ne _ _ h2, filledMem_other st h1 h2]
  · exact filledMem_other st h1 h2

/-- An iteration that removes the head, in a book whose head is not the incoming order:
the head is then exactly filled, and marked `FILLED`. -/
theorem loopBody_popped_best (side : OrderSide) (st : Loop) {order best : Ptr}
    (hne : best ≠ order) (hp : popped st order best) :
    ((loopBody side order best st).mem best).Filled =
        ((loopBody side order best st).mem best).Quantity ∧
      ((loopBody side order best st).mem best).Status = .FILLED ∧
      matchQty st best = (st.mem best).Quantity - (st.mem best).Filled := by
  have hp' := hp
  unfold popped at hp'
  rw [filledMem_best_of_ne st hne] at hp'
  simp only at hp'
  rw [loopBody_mem, if_pos hp, Mem.modify_same, filledMem_best_of_ne st hne]
  simp only
  have hm : matchQty st best = (st.mem best).Quantity - (st.mem best).Filled := by
    unfold matchQty at hp' ⊢
    rw [min_def] at hp' ⊢
    split
    · next h => rw [if_pos h] at hp'; omega
    · rfl
  refine ⟨?_, trivial, hm⟩
  rw [hm]; omega

/-- An iteration that keeps the head, in a book whose head is not the incoming order,
brings `remaining` to zero. -/
theorem loopBody_kept_remaining (side : OrderSide) (st : Loop) {order best : Ptr}
    (hne : best ≠ order) (hp : ¬ popped st order best) :
    (loopBody side order best st).remaining = 0 ∧ matchQty st best = st.remaining := by
  have hp' := hp
  unfold popped at hp'
  rw [filledMem_best_of_ne st hne] at hp'
  simp only at hp'
  have hm : matchQty st best = st.remaining := by
    unfold matchQty at hp' ⊢
    rw [min_def] at hp' ⊢
    split
    · rfl
    · next h => rw [if_neg h] at hp'; omega
  rw [loopBody_remaining, hm]
  exact ⟨by omega, rfl⟩

/-- What a matching loop removes from the opposite queue is exactly filled and marked
`FILLED`. -/
theorem matchLoop_removed_filled {limit : Bool} {side : OrderSide} {order : Ptr} (fuel : Nat)
    (st st' : Loop) (hinv : LoopInv side order st)
    (h : matchLoop limit side order fuel st = some st') :
    ∀ x ∈ st.ob.opposite side, x ∉ st'.ob.opposite side →
      (st'.mem x).Filled = (st'.mem x).Quantity ∧ (st'.mem x).Status = .FILLED := by
  have key := (matchLoop_induct
    (fun s => LoopInv side order s ∧ (∀ x ∈ s.ob.opposite side, x ∈ st.ob.opposite side) ∧
      ∀ x ∈ st.ob.opposite side, x ∉ s.ob.opposite side →
        (s.mem x).Filled = (s.mem x).Quantity ∧ (s.mem x).Status = .FILLED)
    ?_ fuel st st' ⟨hinv, fun _ hx => hx, fun x hx hn => absurd hx hn⟩ h).1
  · exact key.2.2
  · rintro s best ⟨hi, hsub, hP⟩ hs
    refine ⟨loopBody_inv hs hi, fun x hx => hsub x (loopBody_opposite_subset hs x hx), ?_⟩
    intro x hx hn
    obtain ⟨t, hq, hc⟩ := loopBody_opposite_cases hs
    have hxo : x ≠ order := fun e => hinv.notin (e ▸ hx)
    have hbo : best ≠ order := by
      intro e
      apply hi.notin
      rw [hq, e]; exact List.mem_cons_self _ _
    by_cases hxs : x ∈ s.ob.opposite side
    · rcases hc with ⟨_, he⟩ | ⟨hp, hperm⟩
      · rw [he, ← hq] at hn; exact absurd hxs hn
      · have hxb : x = best := by
          rw [hq] at hxs
          rcases List.mem_cons.mp hxs with e | e
          · exact e
          · exact absurd (hperm.symm.subset e) hn
        subst hxb
        have := loopBody_popped_best side s hbo hp
        exact ⟨this.1, this.2.1⟩
    · have hxb : x ≠ best := by
        intro e
        apply hxs
        rw [hq, e]; exact List.mem_cons_self _ _
      rw [loopBody_mem_other side s hxo hxb]
      exact hP x hx hxs

/-- While an order `x` that precedes `y` is queued, `y` is not matched: if `y` is matched,
`x` has left the queue by the end of the loop, and was matched before. -/
theorem loopHeads_priority {limit : Bool} {side : OrderSide} {order : Ptr} (x y : Ptr) :
    ∀ (fuel : Nat) (st st' : Loop), LoopInv side order st → x ∈ st.ob.opposite side →
      oppositeLess st.mem side x y = true →
      matchLoop limit side order fuel st = some st' →
      ∀ i : Nat, (loopHeads limit side order fuel st)[i]? = some y →
        (∃ j : Nat, j < i ∧ (loopHeads limit side order fuel st)[j]? = some x) ∧
          x ∉ st'.ob.opposite side := by
  intro fuel
  induction fuel with
  | zero => intro st st' _ _ _ _ i hi; simp [loopHeads] at hi
  | succ fuel ih =>
    intro st st' hinv hx hlt h i hi
    cases hs : loopHead limit side order st with
    | none => simp [loopHeads, hs] at hi
    | some best =>
      simp only [loopHeads, hs] at hi ⊢
      simp only [matchLoop, hs] at h
      obtain ⟨⟨t, hq⟩, _⟩ := loopHead_some hs
      have hmin := head_min hinv hq x hx
      have hby : best ≠ y := by
        intro e; rw [e, hlt] at hmin; exact absurd hmin (by simp)
      cases i with
      | zero =>
        simp only [List.getElem?_cons_zero, Option.some.injEq] at hi
        exact absurd hi hby
      | succ i =>
        simp only [List.getElem?_cons_succ] at hi
        by_cases hx1 : x ∈ (loopBody side order best st).ob.opposite side
        · have hlt' : oppositeLess (loopBody side order best st).mem side x y = true := by
            rw [oppositeLess_congr (loopBody_sameKeys side order best st)]; exact hlt
          obtain ⟨⟨j, hj, hjx⟩, hfin⟩ := ih _ _ (loopBody_inv hs hinv) hx1 hlt' h i hi
          exact ⟨⟨j + 1, by omega, by simpa using hjx⟩, hfin⟩
        · have hxb : x = best := by
            obtain ⟨t', hq', hc⟩ := loopBody_opposite_cases hs
            rw [hq'] at hx
            rcases hc with ⟨_, he⟩ | ⟨_, hperm⟩
            · rw [he] at hx1; exact absurd hx hx1
            · rcases List.mem_cons.mp hx with e | e
              · exact e
              · exact absurd (hperm.symm.subset e) hx1
          refine ⟨⟨0, by omega, by simp [hxb]⟩, ?_⟩
          intro hm
          exact hx1 (matchLoop_opposite_subset _ _ _ h x hm)

theorem setStatus_ne (mem : Mem) {order q : Ptr} (h : q ≠ order) :
    setStatus mem order q = mem q := by
  unfold setStatus
  split
  · exact Mem.modify_ne _ _ h
  · split
    · exact Mem.modify_ne _ _ h
    · rfl

theorem finish_mem_ne (limit : Bool) (side : OrderSide) (st : Loop) {order q : Ptr}
    (h : q ≠ order) : (finish limit side order st).1 q = st.mem q := by
  unfold finish
  split
  · split
    · simp only
      rw [setStatus_ne _ h, rest_mem, Mem.modify_ne _ _ h]
    · exact setStatus_ne _ h
  · exact setStatus_ne _ h

theorem finish_own_mem (limit : Bool) (side : OrderSide) (order : Ptr) (st : Loop) :
    ∀ x ∈ (finish limit side order st).2.1.own side, x = order ∨ x ∈ st.ob.own side := by
  intro x hx
  unfold finish at hx
  split at hx
  · split at hx
    · simp only at hx
      rw [rest_own] at hx
      exact List.mem_cons.mp ((heapPush_perm _ _ _).subset hx)
    · exact Or.inr hx
  · exact Or.inr hx

theorem oppositeLess_of_earlier {mem : Mem} {x y : Ptr} (side : OrderSide)
    (hp : (mem x).Price = (mem y).Price) (ht : (mem x).Timestamp < (mem y).Timestamp) :
    oppositeLess mem side x y = true := by
  cases side <;> simp [oppositeLess, SellLess, BuyLess, hp, ht]

theorem matchedHeads_alloc (w : World) (o : Order) :
    matchedHeads (w.alloc o) w.ob w.next =
      loopHeads (decide (o.Typ ≠ .MARKET)) o.Side w.next (loopFuel w.ob o.Side)
        (startLoop (w.alloc o) w.ob w.next) := by
  unfold matchedHeads startLoop
  rw [alloc_same]

/-- C1 (time priority).  In a book reachable from an empty book by `AddOrder` and
`CancelOrder` calls, let `x` and `y` rest in the same queue with the same price and `x`
stamped strictly earlier than `y`.  `AddOrder` of a new order returns, the resting orders
it was matched against (`matchedHeads`) are the counterparties of the returned trades in
list order, and whenever `y` is the counterparty of the `i`-th trade, `x` is the
counterparty of an earlier trade, `x` has left both queues, and `x` is exactly filled and
has status `FILLED`. -/
theorem time_priority {subs : List Order} {w : World} (hr : Reachable subs w) (o : Order)
    (x y : Ptr)
    (hxy : (x ∈ w.ob.BuyOrders ∧ y ∈ w.ob.BuyOrders) ∨
      (x ∈ w.ob.SellOrders ∧ y ∈ w.ob.SellOrders))
    (hp : (w.mem x).Price = (w.mem y).Price)
    (ht : (w.mem x).Timestamp < (w.mem y).Timestamp) :
    ∃ r, w.submit o = some r ∧
      r.2.map (counterpartyID o.Side) =
        (matchedHeads (w.alloc o) w.ob w.next).map (fun h => (w.mem h).ID) ∧
      ∀ i : Nat, (matchedHeads (w.alloc o) w.ob w.next)[i]? = some y →
        (∃ j : Nat, j < i ∧ (matchedHeads (w.alloc o) w.ob w.next)[j]? = some x) ∧
        x ∉ r.1.ob.BuyOrders ∧ x ∉ r.1.ob.SellOrders ∧
        (r.1.mem x).Filled = (r.1.mem x).Quantity ∧ (r.1.mem x).Status = .FILLED := by
  obtain ⟨st, hst, hsub⟩ := submit_cases w o
  refine ⟨_, hsub, ?_, ?_⟩
  · have htr := matchLoop_trades_map (counterpartyID o.Side) (fun q => q.ID)
      (fun s b => loopTrade_counterparty o.Side w.next b s)
      (fun m m' hk p => (hk p).1) _ _ _ hst
    simp only [startLoop, List.map_nil, List.nil_append] at htr
    simp only
    rw [htr, matchedHeads_alloc]
    apply List.map_congr_left
    intro h hh
    have hlt := (start_sideOK hr.wellFormed o).1.2.2.1 h (loopHeads_subset _ _ h hh)
    rw [alloc_ne w o (Nat.ne_of_lt hlt)]
  · rw [matchedHeads_alloc]
    intro i hi
    simp only
    have hwf := hr.wellFormed
    have hinv := start_loopInv hwf o
    have hy : y ∈ w.ob.opposite o.Side :=
      loopHeads_subset _ _ y (List.getElem?_mem hi)
    obtain ⟨s1, s2⟩ := start_sideOK hwf o
    -- `x` and `y` rest in the queue the order is matched against
    have hx : x ∈ w.ob.opposite o.Side := by
      cases hside : o.Side with
      | BUY =>
        rw [hside] at hy
        rcases hxy with ⟨_, hyb⟩ | ⟨hxs, _⟩
        · have e1 := hwf.buySide y hyb
          have e2 := hwf.sellSide y hy
          rw [e1] at e2; exact absurd e2 (by simp)
        · exact hxs
      | SELL =>
        rw [hside] at hy
        rcases hxy with ⟨hxb, _⟩ | ⟨_, hys⟩
        · exact hxb
        · have e1 := hwf.sellSide y hys
          have e2 := hwf.buySide y hy
          rw [e1] at e2; exact absurd e2 (by simp)
    have hxn : x ≠ w.next := Nat.ne_of_lt (s1.2.2.1 x hx)
    have hyn : y ≠ w.next := Nat.ne_of_lt (s1.2.2.1 y hy)
    have hlt : oppositeLess (startLoop (w.alloc o) w.ob w.next).mem o.Side x y = true := by
      apply oppositeLess_of_earlier
      · show (w.alloc o x).Price = (w.alloc o y).Price
        rw [alloc_ne w o hxn, alloc_ne w o hyn]; exact hp
      · show (w.alloc o x).Timestamp < (w.alloc o y).Timestamp
        rw [alloc_ne w o hxn, alloc_ne w o hyn]; exact ht
    obtain ⟨hj, hfin⟩ := loopHeads_priority x y _ _ _ hinv hx hlt hst i hi
    have hfill := matchLoop_removed_filled _ _ _ hinv hst x hx hfin
    have hopp : x ∉ (finish (decide (o.Typ ≠ .MARKET)) o.Side w.next st).2.1.opposite o.Side := by
      rw [finish_opposite]; exact hfin
    have hown : x ∉ (finish (decide (o.Typ ≠ .MARKET)) o.Side w.next st).2.1.own o.Side := by
      intro hm
      rcases finish_own_mem _ _ _ _ x hm with e | e
      · exact hxn e
      · rw [matchLoop_own _ _ _ hst] at e
        have e1 := s2.2.1 x e
        have e2 := s1.2.1 x hx
        rw [e1] at e2
        cases hside : o.Side <;> rw [hside] at e2 <;> simp [OrderSide.flip] at e2
    rw [finish_mem_ne _ _ _ hxn]
    refine ⟨hj, ?_, ?_, hfill⟩
    · cases hside : o.Side with
      | BUY => rw [hside] at hown; exact hown
      | SELL => rw [hside] at hopp; exact hopp
    · cases hside : o.Side with
      | BUY => rw [hside] at hopp; exact hopp
      | SELL => rw [hside] at hown; exact hown

/-! ## Fill amount -/

theorem crossable_eq (o r : Order) :
    crossable o r = crossLoop (decide (o.Typ ≠ .MARKET)) o.Side o r := by
  unfold crossable crossLoop
  cases o.Typ <;> cases o.Side <;> rfl

theorem crossLoop_sameKeys {m m' : Mem} (hk : SameKeys m m') (limit : Bool) (side : OrderSide)
    (order r : Ptr) :
    crossLoop limit side (m' order) (m' r) = crossLoop limit side (m order) (m r) := by
  unfold crossLoop
  rw [(hk order).2.2.2.2.1, (hk r).2.2.2.2.1]

theorem loopHead_some_cross {limit : Bool} {side : OrderSide} {order best : Ptr} {st : Loop}
    (h : loopHead limit side order st = some best) :
    crossLoop limit side (st.mem order) (st.mem best) = true := by
  unfold loopHead at h
  split at h
  · exact absurd h (by simp)
  · next b t heq =>
    split at h
    · exact absurd h (by simp)
    · split at h
      · exact absurd h (by simp)
      · next h1 =>
        split at h
        · exact absurd h (by simp)
        · next h2 =>
          have : b = best := by simpa using h
          subst this
          unfold crossLoop
          cases limit <;> cases side <;> simp_all

theorem loopHead_none_cases {limit : Bool} {side : OrderSide} {order : Ptr} {st : Loop}
    (h : loopHead limit side order st = none) :
    st.ob.opposite side = [] ∨ ¬ st.remaining > 0 ∨
      ∃ best t, st.ob.opposite side = best :: t ∧
        crossLoop limit side (st.mem order) (st.mem best) = false := by
  unfold loopHead at h
  split at h
  · next heq => exact Or.inl heq
  · next b t heq =>
    split at h
    · next hr => exact Or.inr (Or.inl hr)
    · split at h
      · next h1 =>
        refine Or.inr (Or.inr ⟨b, t, heq, ?_⟩)
        obtain ⟨hl, hs, hp⟩ := h1
        simp [crossLoop, hl, hs, hp]
      · split at h
        · next h2 =>
          refine Or.inr (Or.inr ⟨b, t, heq, ?_⟩)
          obtain ⟨hl, hs, hp⟩ := h2
          simp only [crossLoop, hl, hs, decide_eq_false_iff_not, not_le]
          exact hp
        · exact absurd h (by simp)

theorem unfilled_cons (mem : Mem) (a : Ptr) (q : List Ptr) :
    unfilled mem (a :: q) = (mem a).Quantity - (mem a).Filled + unfilled mem q := by
  simp [unfilled]

theorem unfilled_congr {m m' : Mem} {q : List Ptr}
    (h : ∀ r ∈ q, (m' r).Quantity = (m r).Quantity ∧ (m' r).Filled = (m r).Filled) :
    unfilled m' q = unfilled m q := by
  unfold unfilled
  congr 1
  apply List.map_congr_left
  intro r hr
  rw [(h r hr).1, (h r hr).2]

theorem unfilled_perm (mem : Mem) {q q' : List Ptr} (h : q.Perm q') :
    unfilled mem q = unfilled mem q' := by
  unfold unfilled
  exact (h.map _).sum_eq

theorem unfilled_nonneg (mem : Mem) (q : List Ptr)
    (h : ∀ r ∈ q, (mem r).Filled < (mem r).Quantity) : 0 ≤ unfilled mem q := by
  induction q with
  | nil => simp [unfilled]
  | cons a q ih =>
    rw [unfilled_cons]
    have := h a (List.mem_cons_self _ _)
    have := ih (fun r hr => h r (List.mem_cons_of_mem _ hr))
    omega

theorem totalTraded_append (ts : List Trade) (t : Trade) :
    totalTraded (ts ++ [t]) = totalTraded ts + t.Quantity := by
  simp [totalTraded]

theorem loopBody_fillInv {limit : Bool} {side : OrderSide} {order best : Ptr} {q l : Int}
    {st : Loop} (hs : loopHead limit side order st = some best)
    (h : FillInv limit side order q l st) :
    FillInv limit side order q l (loopBody side order best st) := by
  obtain ⟨t, hq, hc⟩ := loopBody_opposite_cases hs
  obtain ⟨_, hrem⟩ := loopHead_some hs
  have hcross := loopHead_some_cross hs
  have hk := loopBody_sameKeys side order best st
  have hnd := h.inv.nodup
  rw [hq] at hnd
  have hbt : best ∉ t := (List.nodup_cons.mp hnd).1
  have hbo : best ≠ order := by
    intro e; apply h.inv.notin; rw [hq, e]; exact List.mem_cons_self _ _
  have hot : order ∉ t := fun hm => h.inv.notin (by rw [hq]; exact List.mem_cons_of_mem _ hm)
  have hbb := h.bounds best (by rw [hq]; exact List.mem_cons_self _ _)
  -- the orders of the tail are not written
  have htail : ∀ r ∈ t, (loopBody side order best st).mem r = st.mem r := by
    intro r hr
    exact loopBody_mem_other side st (fun e => hot (e ▸ hr)) (fun e => hbt (e ▸ hr))
  have hfilter : ∀ (l' : List Ptr),
      l'.filter (fun r => crossLoop limit side ((loopBody side order best st).mem order)
        ((loopBody side order best st).mem r)) =
      l'.filter (fun r => crossLoop limit side (st.mem order) (st.mem r)) := by
    intro l'
    congr 1
    funext r
    exact crossLoop_sameKeys hk limit side order r
  have hliq0 : loopLiquidity limit side order st =
      (st.mem best).Quantity - (st.mem best).Filled +
        unfilled st.mem (t.filter (fun r => crossLoop limit side (st.mem order) (st.mem r))) := by
    unfold loopLiquidity
    rw [hq, List.filter_cons_of_pos (by simpa using hcross), unfilled_cons]
  have htailsum : unfilled (loopBody side order best st).mem
      (t.filter (fun r => crossLoop limit side (st.mem order) (st.mem r))) =
      unfilled st.mem (t.filter (fun r => crossLoop limit side (st.mem order) (st.mem r))) := by
    apply unfilled_congr
    intro r hr
    rw [htail r (List.mem_of_mem_filter hr)]
    exact ⟨rfl, rfl⟩
  have hord : ((loopBody side order best st).mem order).Filled =
      (st.mem order).Filled + matchQty st best := by
    rw [loopBody_mem]
    have : filledMem st order best order =
        { st.mem order with Filled := (st.mem order).Filled + matchQty st best } := by
      unfold filledMem
      rw [Mem.modify_ne _ _ (Ne.symm hbo), Mem.modify_same]
    split
    · rw [Mem.modify_ne _ _ (Ne.symm hbo), this]
    · rw [this]
  have htr : totalTraded (loopBody side order best st).trades =
      totalTraded st.trades + matchQty st best := by
    rw [loopBody_trades, totalTraded_append, loopTrade_quantity]
  rcases hc with ⟨hp, he⟩ | ⟨hp, hperm⟩
  · -- the head stays: `remaining` is used up
    obtain ⟨hr0, hm⟩ := loopBody_kept_remaining side st hbo hp
    have hbest : (loopBody side order best st).mem best =
        { st.mem best with Filled := (st.mem best).Filled + matchQty st best } := by
      rw [loopBody_mem, if_neg hp, filledMem_best_of_ne st hbo]
    have hp' := hp
    unfold popped at hp'
    rw [filledMem_best_of_ne st hbo] at hp'
    simp only at hp'
    refine ⟨loopBody_inv hs h.inv, ?_, ?_, ?_, ?_, ?_⟩
    · intro r hr
      rw [he] at hr
      rcases List.mem_cons.mp hr with e | e
      · rw [e, hbest]; simp only; omega
      · rw [htail r e]
        exact h.bounds r (by rw [hq]; exact List.mem_cons_of_mem _ e)
    · omega
    · have h1 := h.traded
      unfold loopLiquidity
      rw [he, hfilter, List.filter_cons_of_pos (by simpa using hcross), unfilled_cons,
        htailsum, hbest, htr]
      simp only
      rw [hliq0] at h1
      omega
    · have h1 := h.remaining_eq
      rw [htr, hr0]; omega
    · have h1 := h.filled_eq
      rw [hord, htr]; omega
  · -- the head is removed
    obtain ⟨_, _, hm⟩ := loopBody_popped_best side st hbo hp
    have hp' := hp
    unfold popped at hp'
    rw [filledMem_best_of_ne st hbo] at hp'
    simp only at hp'
    have hmle : matchQty st best ≤ st.remaining := by
      unfold matchQty
      rw [min_def]
      split <;> omega
    refine ⟨loopBody_inv hs h.inv, ?_, ?_, ?_, ?_, ?_⟩
    · intro r hr
      have hrt : r ∈ t := hperm.subset hr
      rw [htail r hrt]
      exact h.bounds r (by rw [hq]; exact List.mem_cons_of_mem _ hrt)
    · rw [loopBody_remaining]; omega
    · have h1 := h.traded
      unfold loopLiquidity
      rw [hfilter, unfilled_perm _ (hperm.filter _), htailsum, htr]
      rw [hliq0] at h1
      omega
    · have h1 := h.remaining_eq
      rw [htr, loopBody_remaining]; omega
    · have h1 := h.filled_eq
      rw [hord, htr]; omega

/-- When a matching loop has left, the trades sum to the smaller of the quantity and the
liquidity. -/
theorem fillInv_exit {limit : Bool} {side : OrderSide} {order : Ptr} {q l : Int} {st : Loop}
    (h : FillInv limit side order q l st) (hn : loopHead limit side order st = none) :
    totalTraded st.trades = Min.min q l := by
  have hnonneg : 0 ≤ loopLiquidity limit side order st := by
    apply unfilled_nonneg
    intro r hr
    exact (h.bounds r (List.mem_of_mem_filter hr)).2
  have h1 := h.traded
  have h2 := h.remaining_eq
  have h3 := h.remaining_nonneg
  have hzero : loopLiquidity limit side order st = 0 → totalTraded st.trades = Min.min q l := by
    intro hz
    rw [Int.min_def]
    split <;> omega
  rcases loopHead_none_cases hn with he | hr | ⟨best, t, hq, hcr⟩
  · apply hzero
    unfold loopLiquidity
    rw [he]; rfl
  · rw [Int.min_def]
    split <;> omega
  · apply hzero
    unfold loopLiquidity
    have : (st.ob.opposite side).filter
        (fun r => crossLoop limit side (st.mem order) (st.mem r)) = [] := by
      rw [List.filter_eq_nil_iff]
      intro r hr
      have hmin := head_min h.inv hq r hr
      revert hcr hmin
      unfold crossLoop
      cases limit <;> cases side <;>
        simp only [oppositeLess, decide_eq_false_iff_not, decide_eq_true_eq, not_le,
          Bool.not_eq_true, false_implies, imp_self, Bool.true_eq_false, not_false_eq_true,
          implies_true]
      · intro hb hl
        have := SellLess_false_price hl
        omega
      · intro hb hl
        have := BuyLess_false_price hl
        omega
    rw [this]; rfl

theorem setStatus_filled (mem : Mem) (order q : Ptr) :
    (setStatus mem order q).Filled = (mem q).Filled := by
  unfold setStatus
  split
  · rw [Mem.modify_apply]; split
    · next h => rw [h]
    · rfl
  · split
    · rw [Mem.modify_apply]; split
      · next h => rw [h]
      · rfl
    · rfl

theorem finish_filled (limit : Bool) (side : OrderSide) (order : Ptr) (st : Loop) (q : Ptr) :
    ((finish limit side order st).1 q).Filled = (st.mem q).Filled := by
  unfold finish
  split
  · split
    · simp only
      rw [setStatus_filled, rest_mem, Mem.modify_apply]
      split
      · next h => rw [h]
      · rfl
    · exact setStatus_filled _ _ _
  · exact setStatus_filled _ _ _

theorem start_fillInv {w : World} (hw : WellFormed w) (o : Order)
    (hrest : ∀ r, r ∈ w.ob.BuyOrders ∨ r ∈ w.ob.SellOrders →
      0 ≤ (w.mem r).Filled ∧ (w.mem r).Filled < (w.mem r).Quantity)
    (hq : 0 < o.Quantity) (hf : o.Filled = 0) :
    FillInv (decide (o.Typ ≠ .MARKET)) o.Side w.next o.Quantity (liquidity w o)
      (startLoop (w.alloc o) w.ob w.next) := by
  have hlt := (start_sideOK hw o).1.2.2.1
  have hmem : ∀ r ∈ w.ob.opposite o.Side, w.alloc o r = w.mem r :=
    fun r hr => alloc_ne w o (Nat.ne_of_lt (hlt r hr))
  refine ⟨start_loopInv hw o, ?_, ?_, ?_, ?_, ?_⟩
  · intro r hr
    show 0 ≤ (w.alloc o r).Filled ∧ (w.alloc o r).Filled < (w.alloc o r).Quantity
    rw [hmem r hr]
    apply hrest
    cases hs : o.Side <;> rw [hs] at hr
    · exact Or.inr hr
    · exact Or.inl hr
  · show 0 ≤ (w.alloc o w.next).Quantity
    rw [alloc_same]; omega
  · show totalTraded [] + loopLiquidity _ _ _ _ = _
    unfold loopLiquidity liquidity
    simp only [startLoop, alloc_same, totalTraded, List.map_nil, List.sum_nil, zero_add]
    have e1 : (w.ob.opposite o.Side).filter
        (fun r => crossLoop (decide (o.Typ ≠ .MARKET)) o.Side o (w.alloc o r)) =
        (w.ob.opposite o.Side).filter (fun r => crossable o (w.mem r)) := by
      apply List.filter_congr
      intro r hr
      rw [hmem r hr, crossable_eq]
    rw [e1]
    apply unfilled_congr
    intro r hr
    rw [hmem r (List.mem_of_mem_filter hr)]
    exact ⟨rfl, rfl⟩
  · show (w.alloc o w.next).Quantity + totalTraded [] = o.Quantity
    rw [alloc_same]; simp [totalTraded]
  · show (w.alloc o w.next).Filled = totalTraded []
    rw [alloc_same, hf]; rfl

/-- C3 (fill amount).  In a book that satisfies the structural invariant of every
reachable book, and in which every resting order has `0 ≤ Filled < Quantity`, `AddOrder`
of a new order with `Quantity > 0` and `Filled = 0` returns trades whose quantities sum to
the smaller of the order's quantity and the liquidity it meets (the total unfilled
remainder of the opposite-side resting orders it can be matched against: all of them for
a MARKET order, those priced at most the limit for a LIMIT BUY, at least the limit for a
LIMIT SELL); afterwards the order's `Filled` is that sum. -/
theorem fill_amount {w : World} (hw : WellFormed w) (o : Order)
    (hrest : ∀ r, r ∈ w.ob.BuyOrders ∨ r ∈ w.ob.SellOrders →
      0 ≤ (w.mem r).Filled ∧ (w.mem r).Filled < (w.mem r).Quantity)
    (hq : 0 < o.Quantity) (hf : o.Filled = 0) :
    ∃ r, w.submit o = some r ∧
      totalTraded r.2 = Min.min o.Quantity (liquidity w o) ∧
      (r.1.mem w.next).Filled = totalTraded r.2 := by
  obtain ⟨st, hst, hsub⟩ := submit_cases w o
  refine ⟨_, hsub, ?_⟩
  simp only
  obtain ⟨hfin, hnone⟩ := matchLoop_induct
    (FillInv (decide (o.Typ ≠ .MARKET)) o.Side w.next o.Quantity (liquidity w o))
    (fun _ _ hP hs => loopBody_fillInv hs hP) _ _ _ (start_fillInv hw o hrest hq hf) hst
  exact ⟨fillInv_exit hfin hnone, by rw [finish_filled]; exact hfin.filled_eq⟩

/-! ## Maker price rule -/

theorem min_eq_min (a b : Int) : engine.min a b = Min.min a b := by
  rw [min_def, Int.min_def]
  split <;> split <;> omega

theorem loopIter_sameKeys (limit : Bool) (side : OrderSide) (order : Ptr) :
    ∀ (n : Nat) (st : Loop), SameKeys st.mem (loopIter limit side order n st).mem := by
  intro n
  induction n with
  | zero => intro st; exact SameKeys.refl _
  | succ n ih =>
    intro st
    simp only [loopIter]
    split
    · exact SameKeys.refl _
    · next best _ => exact (loopBody_sameKeys side order best st).trans (ih _)

/-- The trades a matching loop appends, each read at the iteration that made it. -/
theorem matchLoop_trades_iter {limit : Bool} {side : OrderSide} {order : Ptr} :
    ∀ (fuel : Nat) (st st' : Loop), matchLoop limit side order fuel st = some st' →
      ∃ new : List Trade, st'.trades = st.trades ++ new ∧
        ∀ (i : Nat) (t : Trade), new[i]? = some t →
          (loopIter limit side order i st).remaining =
            st.remaining - totalTraded (new.take i) ∧
          ∃ best, loopHead limit side order (loopIter limit side order i st) = some best ∧
            t = loopTrade side order best (loopIter limit side order i st) := by
  intro fuel
  induction fuel with
  | zero =>
    intro st st' h
    cases hs : loopHead limit side order st with
    | none =>
      simp only [matchLoop, hs, Option.some.injEq] at h
      subst h
      exact ⟨[], by simp, fun i t hi => by simp at hi⟩
    | some best => simp [matchLoop, hs] at h
  | succ fuel ih =>
    intro st st' h
    cases hs : loopHead limit side order st with
    | none =>
      simp only [matchLoop, hs, Option.some.injEq] at h
      subst h
      exact ⟨[], by simp, fun i t hi => by simp at hi⟩
    | some best =>
      simp only [matchLoop, hs] at h
      obtain ⟨new1, he, hall⟩ := ih _ _ h
      refine ⟨loopTrade side order best st :: new1, ?_, ?_⟩
      · rw [he, loopBody_trades]; simp
      · intro i t hi
        cases i with
        | zero =>
          simp only [List.getElem?_cons_zero, Option.some.injEq] at hi
          simp only [loopIter, List.take_zero, totalTraded, List.map_nil, List.sum_nil, sub_zero,
            true_and]
          exact ⟨best, hs, hi.symm⟩
        | succ i =>
          simp only [List.getElem?_cons_succ] at hi
          obtain ⟨h1, h2⟩ := hall i t hi
          simp only [loopIter, hs]
          refine ⟨?_, h2⟩
          rw [h1, loopBody_remaining, List.take_succ_cons]
          simp only [totalTraded, List.map_cons, List.sum_cons, loopTrade_quantity]
          omega

/-- C4 (maker price rule).  For every memory, book and order, `AddOrder` returns, and
the `i`-th returned trade was made at the `i`-th iteration of the matching loop against
the head of the opposite queue at that moment: its price is the `Price` field of that
head, its quantity is the smaller of the incoming order's unmatched remainder (its
quantity less the quantities of the earlier trades) and the head's `Quantity - Filled`,
and its two ids are those of the head and of the incoming order.  Hence the trades of a
LIMIT BUY are priced at most its limit and those of a LIMIT SELL at least its limit. -/
theorem maker_price (mem : Mem) (ob : OrderBook) (order : Ptr) :
    ∃ r, AddOrder mem ob order = some r ∧
      (∀ (i : Nat) (t : Trade), r.2.2[i]? = some t →
        ∃ (st : Loop) (best : Ptr) (rest : List Ptr),
          st = loopIter (decide ((mem order).Typ ≠ .MARKET)) (mem order).Side order i
            (startLoop mem ob order) ∧
          st.ob.opposite (mem order).Side = best :: rest ∧
          st.remaining = (mem order).Quantity - totalTraded (r.2.2.take i) ∧
          t.Price = (st.mem best).Price ∧
          t.Quantity = Min.min st.remaining ((st.mem best).Quantity - (st.mem best).Filled) ∧
          counterpartyID (mem order).Side t = (st.mem best).ID ∧
          aggressorID (mem order).Side t = (mem order).ID) ∧
      ((mem order).Typ = .LIMIT → (mem order).Side = .BUY →
        ∀ t ∈ r.2.2, t.Price ≤ (mem order).Price) ∧
      ((mem order).Typ = .LIMIT → (mem order).Side = .SELL →
        ∀ t ∈ r.2.2, t.Price ≥ (mem order).Price) := by
  obtain ⟨st', hst⟩ := matchLoop_total (decide ((mem order).Typ ≠ .MARKET)) (mem order).Side
    order (startLoop mem ob order)
  have hfuel : loopFuel (startLoop mem ob order).ob (mem order).Side =
      loopFuel ob (mem order).Side := rfl
  rw [hfuel] at hst
  refine ⟨finish (decide ((mem order).Typ ≠ .MARKET)) (mem order).Side order st', ?_, ?_⟩
  · rw [AddOrder_eq, hst]; rfl
  rw [finish_trades]
  obtain ⟨new, he, hall⟩ := matchLoop_trades_iter _ _ _ hst
  simp only [startLoop, List.nil_append] at he
  rw [he]
  have key : ∀ (i : Nat) (t : Trade), new[i]? = some t →
      ∃ (st : Loop) (best : Ptr) (rest : List Ptr),
        st = loopIter (decide ((mem order).Typ ≠ .MARKET)) (mem order).Side order i
          (startLoop mem ob order) ∧
        st.ob.opposite (mem order).Side = best :: rest ∧
        st.remaining = (mem order).Quantity - totalTraded (new.take i) ∧
        t.Price = (st.mem best).Price ∧
        t.Quantity = Min.min st.remaining ((st.mem best).Quantity - (st.mem best).Filled) ∧
        counterpartyID (mem order).Side t = (st.mem best).ID ∧
        aggressorID (mem order).Side t = (mem order).ID ∧
        crossLoop (decide ((mem order).Typ ≠ .MARKET)) (mem order).Side (mem order)
          (st.mem best) = true := by
    intro i t hi
    obtain ⟨h1, best, hs, ht⟩ := hall i t hi
    obtain ⟨⟨rest, hq⟩, _⟩ := loopHead_some hs
    have hk := loopIter_sameKeys (decide ((mem order).Typ ≠ .MARKET)) (mem order).Side order i
      (startLoop mem ob order)
    refine ⟨_, best, rest, rfl, hq, h1, ?_, ?_, ?_, ?_, ?_⟩
    · rw [ht, loopTrade_price]
    · rw [ht, loopTrade_quantity, matchQty, min_eq_min]
    · rw [ht, loopTrade_counterparty]
    · rw [ht, loopTrade_aggressor]; exact (hk order).1
    · have hc := loopHead_some_cross hs
      unfold crossLoop at hc ⊢
      rw [(hk order).2.2.2.2.1] at hc
      exact hc
  refine ⟨?_, ?_, ?_⟩
  · intro i t hi
    obtain ⟨st, best, rest, a1, a2, a3, a4, a5, a6, a7, _⟩ := key i t hi
    exact ⟨st, best, rest, a1, a2, a3, a4, a5, a6, a7⟩
  · intro hty hsd t ht
    obtain ⟨i, hi⟩ := List.getElem?_of_mem ht
    obtain ⟨st, best, rest, _, _, _, a4, _, _, _, a8⟩ := key i t hi
    rw [hty, hsd] at a8
    rw [a4]
    simpa [crossLoop] using a8
  · intro hty hsd t ht
    obtain ⟨i, hi⟩ := List.getElem?_of_mem ht
    obtain ⟨st, best, rest, _, _, _, a4, _, _, _, a8⟩ := key i t hi
    rw [hty, hsd] at a8
    rw [a4]
    simpa [crossLoop] using a8

/-! ## Quantity conservation -/

theorem filledMem_filled (st : Loop) (order best p : Ptr) :
    (filledMem st order best p).Filled =
      (st.mem p).Filled + (if p = order then matchQty st best else 0) +
        (if p = best then matchQty st best else 0) := by
  unfold filledMem
  simp only [Mem.modify_apply]
  by_cases h1 : p = best
  · subst h1
    by_cases h2 : p = order
    · subst h2; simp
    · simp [h2]
  · by_cases h2 : p = order
    · subst h2; simp [h1]
    · simp [h1, h2]

theorem loopBody_filled (side : OrderSide) (st : Loop) (order best p : Ptr) :
    ((loopBody side order best st).mem p).Filled =
      (st.mem p).Filled + (if p = order then matchQty st best else 0) +
        (if p = best then matchQty st best else 0) := by
  rw [loopBody_mem]
  split
  · rw [Mem.modify_apply]
    by_cases h : p = best
    · rw [if_pos h]
      subst h
      exact filledMem_filled st order p p
    · rw [if_neg h]
      exact filledMem_filled st order best p
  · exact filledMem_filled st order best p

theorem sum_range_indicator (m : Int) (p : Nat) :
    ∀ N : Nat, ((List.range N).map (fun q => if q = p then m else 0)).sum =
      if p < N then m else 0 := by
  intro N
  induction N with
  | zero => simp
  | succ N ih =>
    rw [List.range_succ, List.map_append, List.sum_append, ih]
    simp only [List.map_cons, List.map_nil, List.sum_cons, List.sum_nil, add_zero]
    by_cases h1 : p < N
    · have h2 : ¬ N = p := by omega
      have h3 : p < N + 1 := by omega
      simp [h1, h2, h3]
    · by_cases h2 : N = p
      · have h3 : p < N + 1 := by omega
        simp [h1, h2, h3]
      · have h3 : ¬ p < N + 1 := by omega
        simp [h1, h2, h3]

theorem totalFilled_congr {m m' : Mem} {N : Nat}
    (h : ∀ p, p < N → (m' p).Filled = (m p).Filled) : totalFilled m' N = totalFilled m N := by
  unfold totalFilled
  congr 1
  apply List.map_congr_left
  intro p hp
  exact h p (List.mem_range.mp hp)

theorem totalFilled_succ (m : Mem) (N : Nat) :
    totalFilled m (N + 1) = totalFilled m N + (m N).Filled := by
  unfold totalFilled
  rw [List.range_succ, List.map_append, List.sum_append]
  simp

theorem loopBody_totalFilled (side : OrderSide) (st : Loop) {order best : Ptr} {N : Nat}
    (h1 : order < N) (h2 : best < N) :
    totalFilled (loopBody side order best st).mem N =
      totalFilled st.mem N + 2 * matchQty st best := by
  unfold totalFilled
  have : (fun p => ((loopBody side order best st).mem p).Filled) =
      (fun p => (st.mem p).Filled + (if p = order then matchQty st best else 0) +
        (if p = best then matchQty st best else 0)) := by
    funext p; exact loopBody_filled side st order best p
  rw [this, List.sum_map_add, List.sum_map_add, sum_range_indicator, sum_range_indicator,
    if_pos h1, if_pos h2]
  omega

theorem tradedWith_append (id : String) (ts : List Trade) (t : Trade) :
    tradedWith id (ts ++ [t]) =
      tradedWith id ts + ((if t.BuyOrderID = id then t.Quantity else 0) +
        (if t.SellOrderID = id then t.Quantity else 0)) := by
  simp [tradedWith]

theorem tradedWith_append' (id : String) (ts ts' : List Trade) :
    tradedWith id (ts ++ ts') = tradedWith id ts + tradedWith id ts' := by
  simp [tradedWith]

theorem loopTrade_ids (side : OrderSide) (order best : Ptr) (st : Loop) :
    ((loopTrade side order best st).BuyOrderID = (st.mem order).ID ∧
      (loopTrade side order best st).SellOrderID = (st.mem best).ID) ∨
    ((loopTrade side order best st).BuyOrderID = (st.mem best).ID ∧
      (loopTrade side order best st).SellOrderID = (st.mem order).ID) := by
  cases side
  · exact Or.inl ⟨rfl, rfl⟩
  · exact Or.inr ⟨rfl, rfl⟩

/-- The account of a matching loop: what it adds to the total of `Filled` and, when ids
tell the order objects apart, to the `Filled` of each order. -/
theorem matchLoop_account {limit : Bool} {side : OrderSide} {order : Ptr} {N : Nat}
    (fuel : Nat) (st st' : Loop) (ho : order < N) (hq : ∀ p ∈ st.ob.opposite side, p < N)
    (h : matchLoop limit side order fuel st = some st') :
    totalFilled st'.mem N + 2 * totalTraded st.trades =
      totalFilled st.mem N + 2 * totalTraded st'.trades ∧
    (∀ t ∈ st'.trades, t ∈ st.trades ∨
      ((∃ p, p < N ∧ t.BuyOrderID = (st.mem p).ID) ∧
        (∃ p, p < N ∧ t.SellOrderID = (st.mem p).ID))) ∧
    ((∀ p p', p < N → p' < N → (st.mem p).ID = (st.mem p').ID → p = p') →
      ∀ p, p < N → (st'.mem p).Filled + tradedWith (st.mem p).ID st.trades =
        (st.mem p).Filled + tradedWith (st.mem p).ID st'.trades) := by
  have key := (matchLoop_induct
    (fun s => (∀ p ∈ s.ob.opposite side, p < N) ∧ SameKeys st.mem s.mem ∧
      totalFilled s.mem N + 2 * totalTraded st.trades =
        totalFilled st.mem N + 2 * totalTraded s.trades ∧
      (∀ t ∈ s.trades, t ∈ st.trades ∨
        ((∃ p, p < N ∧ t.BuyOrderID = (st.mem p).ID) ∧
          (∃ p, p < N ∧ t.SellOrderID = (st.mem p).ID))) ∧
      ((∀ p p', p < N → p' < N → (st.mem p).ID = (st.mem p').ID → p = p') →
        ∀ p, p < N → (s.mem p).Filled + tradedWith (st.mem p).ID st.trades =
          (st.mem p).Filled + tradedWith (st.mem p).ID s.trades))
    ?_ fuel st st' ⟨hq, SameKeys.refl _, rfl, fun t ht => Or.inl ht, fun _ _ _ => rfl⟩ h).1
  · exact ⟨key.2.2.1, key.2.2.2.1, key.2.2.2.2⟩
  · rintro s best ⟨hs1, hk, hs2, hs3, hs4⟩ hs
    obtain ⟨⟨t, hqq⟩, _⟩ := loopHead_some hs
    have hb : best < N := hs1 best (by rw [hqq]; exact List.mem_cons_self _ _)
    have hido : (s.mem order).ID = (st.mem order).ID := (hk order).1
    have hidb : (s.mem best).ID = (st.mem best).ID := (hk best).1
    refine ⟨fun p hp => hs1 p (loopBody_opposite_subset hs p hp),
      hk.trans (loopBody_sameKeys side order best s), ?_, ?_, ?_⟩
    · rw [loopBody_totalFilled side s ho hb, loopBody_trades, totalTraded_append,
        loopTrade_quantity]
      omega
    · intro t' ht'
      rw [loopBody_trades] at ht'
      rcases List.mem_append.mp ht' with e | e
      · exact hs3 t' e
      · right
        have e' : t' = loopTrade side order best s := by simpa using e
        rcases loopTrade_ids side order best s with ⟨i1, i2⟩ | ⟨i1, i2⟩
        · exact ⟨⟨order, ho, by rw [e', i1, hido]⟩, ⟨best, hb, by rw [e', i2, hidb]⟩⟩
        · exact ⟨⟨best, hb, by rw [e', i1, hidb]⟩, ⟨order, ho, by rw [e', i2, hido]⟩⟩
    · intro hinj p hp
      have h4 := hs4 hinj p hp
      rw [loopBody_filled, loopBody_trades, tradedWith_append, loopTrade_quantity]
      have eo : ((st.mem order).ID = (st.mem p).ID) ↔ p = order :=
        ⟨fun e => (hinj _ _ ho hp e).symm, fun e => by rw [e]⟩
      have eb : ((st.mem best).ID = (st.mem p).ID) ↔ p = best :=
        ⟨fun e => (hinj _ _ hb hp e).symm, fun e => by rw [e]⟩
      rcases loopTrade_ids side order best s with ⟨i1, i2⟩ | ⟨i1, i2⟩
      · rw [i1, i2, hido, hidb]
        simp only [eo, eb]
        omega
      · rw [i1, i2, hido, hidb]
        simp only [eo, eb]
        omega

theorem own_or_opposite (ob : OrderBook) (side : OrderSide) (p : Ptr) :
    (p ∈ ob.BuyOrders ∨ p ∈ ob.SellOrders) ↔ (p ∈ ob.own side ∨ p ∈ ob.opposite side) := by
  cases side
  · exact Iff.rfl
  · exact Or.comm

/-- The account of `AddOrder` on an order and a book whose order objects have addresses
below `N`. -/
theorem AddOrder_account {mem : Mem} {ob : OrderBook} {order : Ptr} {N : Nat}
    {r : Mem × OrderBook × List Trade} (ho : order < N)
    (hq : ∀ p, p ∈ ob.BuyOrders ∨ p ∈ ob.SellOrders → p < N)
    (h : AddOrder mem ob order = some r) :
    totalFilled r.1 N = totalFilled mem N + 2 * totalTraded r.2.2 ∧
    (∀ t ∈ r.2.2, (∃ p, p < N ∧ t.BuyOrderID = (mem p).ID) ∧
      (∃ p, p < N ∧ t.SellOrderID = (mem p).ID)) ∧
    ((∀ p p', p < N → p' < N → (mem p).ID = (mem p').ID → p = p') →
      ∀ p, p < N → (r.1 p).Filled = (mem p).Filled + tradedWith (mem p).ID r.2.2) ∧
    (∀ p, (r.1 p).ID = (mem p).ID) ∧
    (∀ p, p ∈ r.2.1.BuyOrders ∨ p ∈ r.2.1.SellOrders → p < N) := by
  rw [AddOrder_eq] at h
  obtain ⟨st, hst, hr⟩ := Option.map_eq_some'.mp h
  subst hr
  have hqo : ∀ p ∈ (startLoop mem ob order).ob.opposite (mem order).Side, p < N :=
    fun p hp => hq p ((own_or_opposite ob (mem order).Side p).mpr (Or.inr hp))
  obtain ⟨a1, a2, a3⟩ := matchLoop_account _ _ _ ho hqo hst
  simp only [startLoop, totalTraded, tradedWith, List.map_nil, List.sum_nil, mul_zero,
    add_zero, List.not_mem_nil, false_or] at a1 a2 a3
  have hk := (matchLoop_sameKeys _ _ _ hst).trans
    (finish_sameKeys (decide ((mem order).Typ ≠ .MARKET)) (mem order).Side order st)
  refine ⟨?_, ?_, ?_, fun p => (hk p).1, ?_⟩
  · rw [finish_trades, totalFilled_congr (fun p _ => finish_filled _ _ _ _ p)]
    simpa [totalTraded] using a1
  · rw [finish_trades]; exact a2
  · intro hinj p hp
    rw [finish_trades, finish_filled]
    simpa [tradedWith] using a3 hinj p hp
  · intro p hp
    rw [own_or_opposite _ (mem order).Side] at hp
    rcases hp with hp | hp
    · rcases finish_own_mem _ _ _ _ p hp with e | e
      · rw [e]; exact ho
      · rw [matchLoop_own _ _ _ hst] at e
        exact hq p ((own_or_opposite ob (mem order).Side p).mpr (Or.inl e))
    · rw [finish_opposite] at hp
      exact hqo p (matchLoop_opposite_subset _ _ _ hst p hp)

theorem tradedWith_eq_zero {id : String} {ts : List Trade}
    (h : ∀ t ∈ ts, t.BuyOrderID ≠ id ∧ t.SellOrderID ≠ id) : tradedWith id ts = 0 := by
  induction ts with
  | nil => rfl
  | cons t ts ih =>
    have h1 := h t (List.mem_cons_self _ _)
    have h2 := ih (fun t' ht' => h t' (List.mem_cons_of_mem _ ht'))
    unfold tradedWith at h2 ⊢
    simp [h1.1, h1.2, h2]

theorem bookGet_mem {books : List (String × OrderBook)} {symbol : String} {ob : OrderBook}
    (h : bookGet books symbol = some ob) : (symbol, ob) ∈ books := by
  induction books with
  | nil => simp [bookGet] at h
  | cons e rest ih =>
    unfold bookGet at h
    split at h
    · next he =>
      have : e.2 = ob := by simpa using h
      rw [← this, ← he]
      exact List.mem_cons_self _ _
    · exact List.mem_cons_of_mem _ (ih h)

theorem bookSet_mem (books : List (String × OrderBook)) (symbol : String) (ob : OrderBook) :
    ∀ e ∈ bookSet books symbol ob, e = (symbol, ob) ∨ e ∈ books := by
  induction books with
  | nil => intro e he; simpa [bookSet] using he
  | cons b rest ih =>
    intro e he
    unfold bookSet at he
    split at he
    · rcases List.mem_cons.mp he with h | h
      · exact Or.inl h
      · exact Or.inr (List.mem_cons_of_mem _ h)
    · rcases List.mem_cons.mp he with h | h
      · exact Or.inr (h ▸ List.mem_cons_self _ _)
      · rcases ih e h with h' | h'
        · exact Or.inl h'
        · exact Or.inr (List.mem_cons_of_mem _ h')

theorem totalTraded_append' (ts ts' : List Trade) :
    totalTraded (ts ++ ts') = totalTraded ts + totalTraded ts' := by
  simp [totalTraded]

theorem EngineWorld.submit_inv {w : EngineWorld} {ids : List String} {trades : List Trade}
    (hinv : EngineInv w ids trades) (now : Int) (o : Order) (hf : o.Filled = 0) :
    ∃ r, w.submit now o = some r ∧ EngineInv r.1 (ids ++ [o.ID]) (trades ++ r.2) := by
  -- the memory when `AddOrder` is entered
  let mem0 : Mem := fun q => if q = w.next then o else w.mem q
  let mem1 : Mem := mem0.modify w.next (fun x => { x with Timestamp := now })
  have hm1 : ∀ p, p ≠ w.next → mem1 p = w.mem p := by
    intro p hp; simp [mem1, mem0, Mem.modify, hp]
  have hm1n : (mem1 w.next).ID = o.ID ∧ (mem1 w.next).Filled = 0 ∧
      (mem1 w.next).Symbol = o.Symbol := by
    simp [mem1, mem0, Mem.modify, hf]
  have hgoc : ∀ p, p ∈ (w.me.GetOrCreateOrderBook o.Symbol).2.BuyOrders ∨
      p ∈ (w.me.GetOrCreateOrderBook o.Symbol).2.SellOrders → p < w.next + 1 := by
    intro p hp
    unfold MatchingEngine.GetOrCreateOrderBook at hp
    split at hp
    · next ob hg => exact Nat.lt_succ_of_lt (hinv.queues _ (bookGet_mem hg) p hp)
    · simp [NewOrderBook] at hp
  have hbooks : ∀ e ∈ (w.me.GetOrCreateOrderBook o.Symbol).1.orderBooks,
      ∀ p, p ∈ e.2.BuyOrders ∨ p ∈ e.2.SellOrders → p < w.next + 1 := by
    intro e he p hp
    unfold MatchingEngine.GetOrCreateOrderBook at he
    split at he
    · exact Nat.lt_succ_of_lt (hinv.queues e he p hp)
    · simp only at he
      rcases bookSet_mem _ _ _ e he with h | h
      · rw [h] at hp; simp [NewOrderBook] at hp
      · exact Nat.lt_succ_of_lt (hinv.queues e h p hp)
  obtain ⟨r, hr⟩ := AddOrder_total mem1 (w.me.GetOrCreateOrderBook o.Symbol).2 w.next
  obtain ⟨a1, a2, a3, a4, a5⟩ := AddOrder_account (Nat.lt_succ_self w.next) hgoc hr
  have hsub : w.submit now o = some
      ({ mem := r.1, next := w.next + 1,
         me := { orderBooks := bookSet (w.me.GetOrCreateOrderBook o.Symbol).1.orderBooks
                   o.Symbol r.2.1,
                 tradesChan := r.2.2.foldl trySend
                   (w.me.GetOrCreateOrderBook o.Symbol).1.tradesChan,
                 ordersChan := trySend (w.me.GetOrCreateOrderBook o.Symbol).1.ordersChan
                   w.next } }, r.2.2) := by
    unfold EngineWorld.submit MatchingEngine.ProcessOrder
    simp only
    have e1 : Mem.modify (fun q => if q = w.next then o else w.mem q) w.next
        (fun x => { x with Timestamp := now }) = mem1 := rfl
    rw [e1, hm1n.2.2, hr]
  refine ⟨_, hsub, ?_⟩
  simp only
  have hidold : ∀ p, p < w.next → (r.1 p).ID = (w.mem p).ID := by
    intro p hp; rw [a4, hm1 p (Nat.ne_of_lt hp)]
  have hidnew : (r.1 w.next).ID = o.ID := by rw [a4]; exact hm1n.1
  have hids : ∀ (p : Nat) (id : String), (ids ++ [o.ID])[p]? = some id → (r.1 p).ID = id := by
    intro p id hp
    by_cases hlt : p < ids.length
    · rw [List.getElem?_append_left hlt] at hp
      rw [hidold p (hinv.len ▸ hlt)]
      exact hinv.idsEq p id hp
    · have hpe : p = w.next := by
        have hlen := (List.getElem?_eq_some_iff.mp hp).1
        simp only [List.length_append, List.length_singleton] at hlen
        have := hinv.len
        omega
      rw [hpe] at hp ⊢
      rw [List.getElem?_append_right (by rw [hinv.len]), hinv.len] at hp
      simp only [Nat.sub_self, List.getElem?_cons_zero, Option.some.injEq] at hp
      rw [hidnew]; exact hp
  have hmemid : ∀ p, p < w.next + 1 → (mem1 p).ID ∈ ids ++ [o.ID] := by
    intro p hp
    by_cases hlt : p < w.next
    · rw [hm1 p (Nat.ne_of_lt hlt)]
      apply List.mem_append_left
      have hlt' : p < ids.length := by rw [hinv.len]; exact hlt
      have := hinv.idsEq p ids[p] (List.getElem?_eq_getElem hlt')
      rw [this]
      exact List.getElem_mem _
    · have : p = w.next := Nat.eq_of_lt_succ_of_not_lt hp hlt
      rw [this, hm1n.1]
      simp
  have htot0 : totalFilled mem1 (w.next + 1) = totalFilled w.mem w.next := by
    rw [totalFilled_succ, hm1n.2.1, add_zero]
    exact totalFilled_congr (fun p hp => by rw [hm1 p (Nat.ne_of_lt hp)])
  refine ⟨?_, ?_, hids, ?_, ?_, ?_⟩
  · intro e he p hp
    rcases bookSet_mem _ _ _ e he with h | h
    · rw [h] at hp; exact a5 p hp
    · exact hbooks e h p hp
  · simp [hinv.len]
  · rw [a1, htot0, hinv.total, totalTraded_append']
    omega
  · intro t ht
    rcases List.mem_append.mp ht with h | h
    · exact ⟨List.mem_append_left _ (hinv.tradeIds t h).1,
        List.mem_append_left _ (hinv.tradeIds t h).2⟩
    · obtain ⟨⟨p, hp, e1⟩, ⟨p', hp', e2⟩⟩ := a2 t h
      exact ⟨e1 ▸ hmemid p hp, e2 ▸ hmemid p' hp'⟩
  · intro hnd p hp
    have hnd' : ids.Nodup := (List.nodup_append.mp hnd).1
    have hnotin : o.ID ∉ ids := by
      intro hm
      exact (List.nodup_append.mp hnd).2.2 hm (List.mem_singleton_self _)
    have hinj : ∀ p p', p < w.next + 1 → p' < w.next + 1 →
        (mem1 p).ID = (mem1 p').ID → p = p' := by
      intro p p' hp hp' he
      have hl : (ids ++ [o.ID]).length = w.next + 1 := by simp [hinv.len]
      have hp1 : p < (ids ++ [o.ID]).length := hl ▸ hp
      have hp2 : p' < (ids ++ [o.ID]).length := hl ▸ hp'
      have g1 : (ids ++ [o.ID])[p]? = some ((ids ++ [o.ID])[p]) :=
        List.getElem?_eq_getElem hp1
      have g2 : (ids ++ [o.ID])[p']? = some ((ids ++ [o.ID])[p']) :=
        List.getElem?_eq_getElem hp2
      have i1 := hids p _ g1
      have i2 := hids p' _ g2
      rw [a4] at i1 i2
      exact (List.Nodup.getElem_inj_iff hnd).mp (i1.symm.trans (he.trans i2))
    rw [a3 hinj p hp, tradedWith_append', a4]
    by_cases hlt : p < w.next
    · rw [hm1 p (Nat.ne_of_lt hlt), hinv.perOrder hnd' p hlt]
    · have hpe : p = w.next := Nat.eq_of_lt_succ_of_not_lt hp hlt
      have hz : tradedWith o.ID trades = 0 :=
        tradedWith_eq_zero (fun t ht =>
          ⟨fun e => hnotin (e ▸ (hinv.tradeIds t ht).1),
            fun e => hnotin (e ▸ (hinv.tradeIds t ht).2)⟩)
      rw [hpe, hm1n.2.1, hm1n.1, hz]

theorem EngineWorld.run_inv :
    ∀ (calls : List (Int × Order)) (w : EngineWorld) (ids : List String) (trades : List Trade),
      EngineInv w ids trades → (∀ c ∈ calls, c.2.Filled = 0) →
      ∃ r, w.run calls = some r ∧
        EngineInv r.1 (ids ++ calls.map (fun c => c.2.ID)) (trades ++ r.2) := by
  intro calls
  induction calls with
  | nil =>
    intro w ids trades hinv _
    exact ⟨(w, []), rfl, by simpa using hinv⟩
  | cons c calls ih =>
    intro w ids trades hinv h0
    obtain ⟨r1, hr1, hinv1⟩ := EngineWorld.submit_inv hinv c.1 c.2
      (h0 c (List.mem_cons_self _ _))
    obtain ⟨r2, hr2, hinv2⟩ := ih r1.1 _ _ hinv1
      (fun c' hc' => h0 c' (List.mem_cons_of_mem _ hc'))
    refine ⟨(r2.1, r1.2 ++ r2.2), ?_, ?_⟩
    · simp only [EngineWorld.run, hr1, hr2]
    · simpa [List.append_assoc] using hinv2

theorem EngineWorld.init_inv : EngineInv EngineWorld.init [] [] := by
  refine ⟨?_, rfl, ?_, rfl, ?_, ?_⟩
  · intro e he; simp [EngineWorld.init, NewMatchingEngine] at he
  · intro p id hp; simp at hp
  · intro t ht; simp at ht
  · intro _ p hp; simp [EngineWorld.init] at hp

/-- C5 (quantity conservation), with quantities read as exact decimals.  For every
sequence of `ProcessOrder` calls on newly created orders submitted with `Filled = 0`, at
any times and for any symbols, every call returns, and afterwards the sum of `Filled` over
all the orders submitted equals twice the sum of `Quantity` over all the trades returned.  The order of the `p`-th call keeps
its id, and when the ids submitted are pairwise distinct its `Filled` is the total
quantity of the returned trades that carry its id as buy order or as sell order: each
trade adds its quantity to its buy order and to its sell order and `Filled` changes in no
other way. -/
theorem quantity_conservation (calls : List (Int × Order))
    (h0 : ∀ c ∈ calls, c.2.Filled = 0) :
    ∃ r, EngineWorld.init.run calls = some r ∧
      r.1.next = calls.length ∧
      totalFilled r.1.mem r.1.next = 2 * totalTraded r.2 ∧
      (∀ (p : Nat) (c : Int × Order), calls[p]? = some c → (r.1.mem p).ID = c.2.ID) ∧
      ((calls.map (fun c => c.2.ID)).Nodup →
        ∀ (p : Nat) (c : Int × Order), calls[p]? = some c →
          (r.1.mem p).Filled = tradedWith c.2.ID r.2) := by
  obtain ⟨r, hr, hinv⟩ := EngineWorld.run_inv calls _ _ _ EngineWorld.init_inv h0
  simp only [List.nil_append] at hinv
  have hid : ∀ (p : Nat) (c : Int × Order), calls[p]? = some c → (r.1.mem p).ID = c.2.ID := by
    intro p c hc
    apply hinv.idsEq
    rw [List.getElem?_map, hc]; rfl
  refine ⟨r, hr, ?_, hinv.total, hid, ?_⟩
  · rw [← hinv.len]; simp
  · intro hnd p c hc
    have hp : p < r.1.next := by
      rw [← hinv.len]
      simpa using (List.getElem?_eq_some_iff.mp hc).1
    rw [hinv.perOrder hnd p hp, hid p c hc]

/-! ## The example books -/

theorem submit_total (w : World) (o : Order) : ∃ r, w.submit o = some r := by
  obtain ⟨st, _, hsub⟩ := submit_cases w o
  exact ⟨_, hsub⟩

theorem Reachable.after {subs : List Order} {w : World} (h : Reachable subs w) (o : Order) :
    Reachable (subs ++ [o]) (w.after o) := by
  obtain ⟨r, hr⟩ := submit_total w o
  have : w.after o = r.1 := by
    unfold World.after
    rw [hr]
  rw [this]
  exact Reachable.add o r h hr

theorem reachable_bookOneLevel :
    Reachable [limitOrder "a" .SELL 100 1 1, limitOrder "b" .SELL 100 1 2] bookOneLevel :=
  ((Reachable.init "X").after _).after _

theorem reachable_bookTwoLevels :
    Reachable [limitOrder "a" .SELL 101 2 1, limitOrder "b" .SELL 102 2 2] bookTwoLevels :=
  ((Reachable.init "X").after _).after _

theorem reachable_bookOneAsk : Reachable [limitOrder "a" .SELL 100 5 1] bookOneAsk :=
  (Reachable.init "X").after _

/-- Witness of C1: in the book with the asks `a` then `b` at 100, a MARKET BUY of 2 trades
with `a` before `b`. -/
theorem time_priority_witness :
    (0 ∈ bookOneLevel.ob.SellOrders ∧ 1 ∈ bookOneLevel.ob.SellOrders) ∧
    (bookOneLevel.mem 0).Price = (bookOneLevel.mem 1).Price ∧
    (bookOneLevel.mem 0).Timestamp < (bookOneLevel.mem 1).Timestamp ∧
    ∃ r, bookOneLevel.submit (marketOrder "c" .BUY 2 3) = some r ∧
      r.2.map (counterpartyID .BUY) =
        (matchedHeads (bookOneLevel.alloc (marketOrder "c" .BUY 2 3)) bookOneLevel.ob
          bookOneLevel.next).map (fun h => (bookOneLevel.mem h).ID) ∧
      ∀ i : Nat, (matchedHeads (bookOneLevel.alloc (marketOrder "c" .BUY 2 3)) bookOneLevel.ob
          bookOneLevel.next)[i]? = some 1 →
        (∃ j : Nat, j < i ∧ (matchedHeads (bookOneLevel.alloc (marketOrder "c" .BUY 2 3))
          bookOneLevel.ob bookOneLevel.next)[j]? = some 0) ∧
        0 ∉ r.1.ob.BuyOrders ∧ 0 ∉ r.1.ob.SellOrders ∧
        (r.1.mem 0).Filled = (r.1.mem 0).Quantity ∧ (r.1.mem 0).Status = .FILLED :=
  ⟨by decide, by decide, by decide,
    time_priority reachable_bookOneLevel (marketOrder "c" .BUY 2 3) 0 1
      (Or.inr (by decide)) (by decide) (by decide)⟩

/-- Witness of C2: in the book with asks at 101 and 102, a LIMIT BUY of 3 at 103 trades
at 101 and then at 102. -/
theorem price_priority_witness :
    ∃ r, bookTwoLevels.submit (limitOrder "c" .BUY 103 3 3) = some r ∧
      ((limitOrder "c" .BUY 103 3 3).Side = .BUY →
        (r.2.map (fun t => t.Price)).Pairwise (fun a b => a ≤ b)) ∧
      ((limitOrder "c" .BUY 103 3 3).Side = .SELL →
        (r.2.map (fun t => t.Price)).Pairwise (fun a b => a ≥ b)) :=
  price_priority reachable_bookTwoLevels (limitOrder "c" .BUY 103 3 3)

/-- Witness of C3: in the book with asks of 2 at 101 and of 2 at 102, a LIMIT BUY of 3 at
101 meets a liquidity of 2. -/
theorem fill_amount_witness :
    liquidity bookTwoLevels (limitOrder "c" .BUY 101 3 3) = 2 ∧
    ∃ r, bookTwoLevels.submit (limitOrder "c" .BUY 101 3 3) = some r ∧
      totalTraded r.2 = Min.min (limitOrder "c" .BUY 101 3 3).Quantity
        (liquidity bookTwoLevels (limitOrder "c" .BUY 101 3 3)) ∧
      (r.1.mem bookTwoLevels.next).Filled = totalTraded r.2 :=
  ⟨by decide,
    fill_amount reachable_bookTwoLevels.wellFormed (limitOrder "c" .BUY 101 3 3)
      (fun r hr => by
        have hb : bookTwoLevels.ob.BuyOrders = [] := by decide
        have hs : bookTwoLevels.ob.SellOrders = [0, 1] := by decide
        rw [hb, hs] at hr
        simp only [List.not_mem_nil, false_or, List.mem_cons, or_false] at hr
        rcases hr with h | h <;> subst h <;> decide)
      (by decide) (by decide)⟩

/-- Witness of C5: a LIMIT SELL of 5 and then a MARKET BUY of 3 on the same symbol. -/
theorem quantity_conservation_witness :
    ∃ r, EngineWorld.init.run
        [(1, limitOrder "a" .SELL 100 5 0), (2, marketOrder "b" .BUY 3 0)] = some r ∧
      r.1.next = [(1, limitOrder "a" .SELL 100 5 0), (2, marketOrder "b" .BUY 3 0)].length ∧
      totalFilled r.1.mem r.1.next = 2 * totalTraded r.2 ∧
      (∀ (p : Nat) (c : Int × Order),
        [(1, limitOrder "a" .SELL 100 5 0), (2, marketOrder "b" .BUY 3 0)][p]? = some c →
          (r.1.mem p).ID = c.2.ID) ∧
      (([(1, limitOrder "a" .SELL 100 5 0), (2, marketOrder "b" .BUY 3 0)].map
          (fun c => c.2.ID)).Nodup →
        ∀ (p : Nat) (c : Int × Order),
          [(1, limitOrder "a" .SELL 100 5 0), (2, marketOrder "b" .BUY 3 0)][p]? = some c →
            (r.1.mem p).Filled = tradedWith c.2.ID r.2) :=
  quantity_conservation [(1, limitOrder "a" .SELL 100 5 0), (2, marketOrder "b" .BUY 3 0)]
    (by decide)

/-! ## The code at the inputs where it departs from the specification -/

/-- C6 (aggressor status), the code at the failing input.  On the book with one ask of 7
at 100, `AddOrder` of a LIMIT BUY of 10 at 100 trades 7, rests the order in the bid queue
with `Quantity` set to the remainder 3 and `Filled` left at 7, and sets its status to
`FILLED`, where the claim says `PARTIAL` for `0 < m < q`. -/
theorem aggressor_status_rested_limit :
    (bookAskSeven.submit (limitOrder "b" .BUY 100 10 2)).map
      (fun r => (totalTraded r.2, (r.1.mem 1).Status, (r.1.mem 1).Quantity,
        (r.1.mem 1).Filled, r.1.ob.BuyOrders)) =
      some (7, .FILLED, 3, 7, [1]) := by
  decide

/-- C7 (resting counterparty status), the code at the failing input.  On the book with one
ask `a` of 5 at 100, `AddOrder` of a MARKET BUY of 3 returns one trade of 3 at 100 and
leaves `a` in the ask queue with `Filled = 3` of `Quantity = 5` and status `PENDING`,
where the claim says `PARTIAL`; the incoming order is `FILLED`. -/
theorem resting_status_after_partial_fill :
    (bookOneAsk.submit (marketOrder "b" .BUY 3 2)).map
      (fun r => (r.2.map (fun t => (t.SellOrderID, t.Price, t.Quantity)),
        (r.1.mem 1).Filled, (r.1.mem 1).Status)) =
      some ([("a", 100, 3)], 3, .FILLED) ∧
    (bookOneAsk.submit (marketOrder "b" .BUY 3 2)).map
      (fun r => ((r.1.mem 0).Filled, (r.1.mem 0).Quantity, (r.1.mem 0).Status,
        r.1.ob.SellOrders)) =
      some (3, 5, .PENDING, [0]) := by
  decide

/-- C8 (rested remainder), the code at the failing input.  On the book with one ask of 2
at 100, `AddOrder` of a LIMIT BUY `b` of 5 at 100 trades 2 and rests `b` in the bid queue
and in the index under its id, but with `Quantity - Filled = 3 - 2 = 1`, where the claim
says `q - m = 3`: the snapshot shows a bid level of quantity 1, and a later MARKET SELL
of 5 trades only 1 against `b`. -/
theorem rested_remainder_double_counted :
    (bookAskTwo.submit (limitOrder "b" .BUY 100 5 2)).map
      (fun r => (totalTraded r.2, r.1.ob.BuyOrders, mapGet r.1.ob.Orders "b",
        (r.1.mem 1).Quantity - (r.1.mem 1).Filled, (GetSnapshot r.1.mem r.1.ob).Bids)) =
      some (2, [1], some 1, 1, [{ Price := 100, Quantity := 1, Orders := 1 }]) ∧
    ((bookAskTwo.after (limitOrder "b" .BUY 100 5 2)).submit (marketOrder "c" .SELL 5 3)).map
      (fun r => r.2.map (fun t => (t.BuyOrderID, t.Quantity))) = some [("b", 1)] := by
  decide

/-- C9 (fill bounds), the code at the failing input.  On the book with one ask of 7 at
100, `AddOrder` of a LIMIT BUY `b` of 10 at 100 leaves `b` with `Filled = 7` above
`Quantity = 3`; a MARKET SELL `c` of 10 submitted next is matched against `b` for the
quantity `3 - 7 = -4` and ends with `Filled = -4` below zero. -/
theorem fill_bounds_broken_after_rest :
    (bookAskSeven.submit (limitOrder "b" .BUY 100 10 2)).map
      (fun r => ((r.1.mem 1).Filled, (r.1.mem 1).Quantity,
        decide ((r.1.mem 1).Filled ≤ (r.1.mem 1).Quantity))) = some (7, 3, false) ∧
    ((bookAskSeven.after (limitOrder "b" .BUY 100 10 2)).submit
        (marketOrder "c" .SELL 10 3)).map
      (fun r => (r.2.map (fun t => t.Quantity), (r.1.mem 2).Filled,
        decide (0 ≤ (r.1.mem 2).Filled))) = some ([-4], -4, false) := by
  decide

/-- C10 (resting-order invariant), the code at the failing input.  On the book with one
ask of 7 at 100, after `AddOrder` of a LIMIT BUY `b` of 10 at 100 the bid queue holds `b`
with status `FILLED` and with `Filled < Quantity` false. -/
theorem resting_invariant_broken_after_rest :
    (bookAskSeven.submit (limitOrder "b" .BUY 100 10 2)).map
      (fun r => (r.1.ob.BuyOrders, r.1.ob.SellOrders, (r.1.mem 1).Status,
        decide ((r.1.mem 1).Filled < (r.1.mem 1).Quantity))) =
      some ([1], [], .FILLED, false) := by
  decide

/-- Witness of C4: on the book with asks at 101 and 102, the trades of a LIMIT BUY of 3
at 103 are priced at most 103. -/
theorem maker_price_witness :
    ∃ r, AddOrder (bookTwoLevels.alloc (limitOrder "c" .BUY 103 3 3)) bookTwoLevels.ob
        bookTwoLevels.next = some r ∧
      ∀ t ∈ r.2.2, t.Price ≤ 103 := by
  obtain ⟨r, h1, _, h3, _⟩ := maker_price (bookTwoLevels.alloc (limitOrder "c" .BUY 103 3 3))
    bookTwoLevels.ob bookTwoLevels.next
  exact ⟨r, h1, h3 (by decide) (by decide)⟩

/-! ## Cancelling -/

theorem mapGet_isSome_iff (m : OrderMap) (k : String) :
    (mapGet m k).isSome = true ↔ k ∈ m.map (fun e => e.1) := by
  induction m with
  | nil => simp [mapGet]
  | cons e rest ih =>
    unfold mapGet
    by_cases h : e.1 = k
    · simp [h]
    · rw [if_neg h, ih]
      simp only [List.map_cons, List.mem_cons]
      constructor
      · exact Or.inr
      · rintro (h' | h')
        · exact absurd h'.symm h
        · exact h'

theorem mapGet_mem {m : OrderMap} {k : String} {p : Ptr} (h : mapGet m k = some p) :
    (k, p) ∈ m := by
  induction m with
  | nil => simp [mapGet] at h
  | cons e rest ih =>
    unfold mapGet at h
    split at h
    · next he =>
      have : e.2 = p := by simpa using h
      rw [← this, ← he]
      exact List.mem_cons_self _ _
    · exact List.mem_cons_of_mem _ (ih h)

/-- C12 (result of `CancelOrder`).  For every memory, book, id and visiting order,
`CancelOrder` returns true exactly when the id is a key of the order index at the time
of the call; when it returns false the memory and the whole book (both queues, the index,
the last price and the trade sequence) are unchanged. -/
theorem cancel_result (mem : Mem) (ob : OrderBook) (orderID : String) (iter : OrderMap) :
    ((CancelOrder mem ob orderID iter).2.2 = true ↔ orderID ∈ ob.Orders.map (fun e => e.1)) ∧
    ((CancelOrder mem ob orderID iter).2.2 = false →
      (CancelOrder mem ob orderID iter).1 = mem ∧ (CancelOrder mem ob orderID iter).2.1 = ob) := by
  rw [← mapGet_isSome_iff]
  unfold CancelOrder
  cases h : mapGet ob.Orders orderID with
  | none => simp
  | some p => simp

/-! ## The engine: unknown symbols and publication -/

theorem trySend_length_le {α : Type} (ch : List α) (x : α) (h : ch.length ≤ 10000) :
    (trySend ch x).length ≤ 10000 := by
  unfold trySend
  split
  · simp only [List.length_append, List.length_singleton]; omega
  · exact h

theorem foldl_trySend {α : Type} (xs : List α) :
    ∀ ch : List α, xs.foldl trySend ch = ch ++ xs.take (10000 - ch.length) := by
  induction xs with
  | nil => intro ch; simp
  | cons x xs ih =>
    intro ch
    rw [List.foldl_cons, ih]
    unfold trySend
    split
    · next h =>
      have e : 10000 - ch.length = (10000 - (ch ++ [x]).length) + 1 := by
        simp only [List.length_append, List.length_singleton]; omega
      rw [e, List.take_succ_cons]
      simp
    · next h =>
      have e : 10000 - ch.length = 0 := by omega
      simp [e]

theorem bookGet_bookSet (books : List (String × OrderBook)) (k k' : String) (ob : OrderBook) :
    bookGet (bookSet books k ob) k' = if k' = k then some ob else bookGet books k' := by
  induction books with
  | nil =>
    simp only [bookSet, bookGet]
    by_cases h : k' = k
    · simp [h]
    · have h' : ¬ k = k' := fun e => h e.symm
      simp [h, h']
  | cons e rest ih =>
    unfold bookSet
    by_cases he : e.1 = k
    · rw [if_pos he]
      simp only [bookGet]
      by_cases h : k' = k
      · simp [h]
      · have h' : ¬ k = k' := fun e => h e.symm
        have h'' : ¬ e.1 = k' := fun e' => h (e'.symm.trans he)
        simp [h, h', h'']
    · rw [if_neg he]
      simp only [bookGet]
      by_cases h2 : e.1 = k'
      · have : ¬ k' = k := fun e' => he (h2.trans e')
        simp [h2, this]
      · simp only [h2, if_false]
        exact ih

theorem GetOrCreateOrderBook_eq (me : MatchingEngine) (symbol : String) :
    me.GetOrCreateOrderBook symbol =
      ({ me with orderBooks :=
          match bookGet me.orderBooks symbol with
          | some _ => me.orderBooks
          | none => bookSet me.orderBooks symbol (NewOrderBook symbol) },
       (bookGet me.orderBooks symbol).getD (NewOrderBook symbol)) := by
  unfold MatchingEngine.GetOrCreateOrderBook
  cases bookGet me.orderBooks symbol <;> rfl

/-- The books of the engine after `ProcessOrder` has run `AddOrder` with result book `ob`
for the symbol `symbol`. -/
theorem ProcessOrder_eq (me : MatchingEngine) (mem : Mem) (now : Int) (order : Ptr) :
    me.ProcessOrder mem now order =
      (AddOrder (mem.modify order (fun o => { o with Timestamp := now }))
        ((bookGet me.orderBooks (mem order).Symbol).getD (NewOrderBook (mem order).Symbol))
        order).map
        (fun a =>
          (a.1,
           { orderBooks :=
               bookSet
                 (match bookGet me.orderBooks (mem order).Symbol with
                  | some _ => me.orderBooks
                  | none => bookSet me.orderBooks (mem order).Symbol
                      (NewOrderBook (mem order).Symbol))
                 (mem order).Symbol a.2.1,
             tradesChan := me.tradesChan ++ a.2.2.take (10000 - me.tradesChan.length),
             ordersChan :=
               if me.ordersChan.length < 10000 then me.ordersChan ++ [order]
               else me.ordersChan },
           a.2.2)) := by
  unfold MatchingEngine.ProcessOrder
  have hs : (mem.modify order (fun o => { o with Timestamp := now }) order).Symbol =
      (mem order).Symbol := by
    rw [Mem.modify_same]
  simp only [hs, GetOrCreateOrderBook_eq]
  cases AddOrder (mem.modify order (fun o => { o with Timestamp := now }))
      ((bookGet me.orderBooks (mem order).Symbol).getD (NewOrderBook (mem order).Symbol))
      order with
  | none => rfl
  | some a =>
    simp only [Option.map_some', foldl_trySend, trySend]

theorem EngineWorld.submit_unfold (w : EngineWorld) (now : Int) (o : Order) :
    w.submit now o =
      (w.me.ProcessOrder (fun q => if q = w.next then o else w.mem q) now w.next).map
        (fun r => ({ mem := r.1, next := w.next + 1, me := r.2.1 }, r.2.2)) := by
  unfold EngineWorld.submit
  cases w.me.ProcessOrder (fun q => if q = w.next then o else w.mem q) now w.next <;> rfl

theorem ProcessOrder_total (me : MatchingEngine) (mem : Mem) (now : Int) (order : Ptr) :
    ∃ r, me.ProcessOrder mem now order = some r := by
  rw [ProcessOrder_eq]
  obtain ⟨a, ha⟩ := AddOrder_total (mem.modify order (fun o => { o with Timestamp := now }))
    ((bookGet me.orderBooks (mem order).Symbol).getD (NewOrderBook (mem order).Symbol)) order
  rw [ha]
  exact ⟨_, rfl⟩

/-- Induction along a sequence of calls on the engine. -/
theorem EngineWorld.exec_induct (P : EngineWorld → Prop)
    (hstep : ∀ w op, P w → ∃ w', w.step op = some w' ∧ P w') :
    ∀ (ops : List EngineOp) (w : EngineWorld), P w → ∃ w', w.exec ops = some w' ∧ P w' := by
  intro ops
  induction ops with
  | nil => intro w hw; exact ⟨w, rfl, hw⟩
  | cons op ops ih =>
    intro w hw
    obtain ⟨w1, h1, hp1⟩ := hstep w op hw
    obtain ⟨w2, h2, hp2⟩ := ih w1 hp1
    exact ⟨w2, by simp only [EngineWorld.exec, h1, h2], hp2⟩

theorem CancelOrder_chans (me : MatchingEngine) (mem : Mem) (symbol orderID : String)
    (iter : OrderMap) :
    (me.CancelOrder mem symbol orderID iter).2.1.tradesChan = me.tradesChan ∧
    (me.CancelOrder mem symbol orderID iter).2.1.ordersChan = me.ordersChan := by
  unfold MatchingEngine.CancelOrder
  cases bookGet me.orderBooks symbol <;> exact ⟨rfl, rfl⟩

theorem take_length_le {α : Type} (ch xs : List α) (h : ch.length ≤ 10000) :
    (ch ++ xs.take (10000 - ch.length)).length ≤ 10000 := by
  simp only [List.length_append, List.length_take]
  omega

theorem ProcessOrder_chans {me : MatchingEngine} {mem : Mem} {now : Int} {order : Ptr}
    {r : Mem × MatchingEngine × List Trade} (h : me.ProcessOrder mem now order = some r) :
    (me.tradesChan.length ≤ 10000 → r.2.1.tradesChan.length ≤ 10000) ∧
    (me.ordersChan.length ≤ 10000 → r.2.1.ordersChan.length ≤ 10000) := by
  rw [ProcessOrder_eq] at h
  obtain ⟨a, _, hr⟩ := Option.map_eq_some'.mp h
  subst hr
  constructor
  · intro h; exact take_length_le _ _ h
  · intro h
    simp only
    split
    · simp only [List.length_append, List.length_singleton]; omega
    · exact h

/-- C19 (bounded, non-blocking publication).  With each output stream read as the list
of the events it holds, oldest first, and no receiver: `ProcessOrder` returns, and
returns exactly the memory and the trades of the book's `AddOrder`, whose resulting book
it stores under the symbol; the trade stream gains the returned trades in order until it
holds 10000 events and the order-update stream gains the order if it holds fewer than
10000, the others being dropped; a stream of at most 10000 events stays so, hence after
any sequence of calls on a new engine both streams hold at most 10000 events; and the
contents of the streams change neither the books nor the returned trades. -/
theorem bounded_publication (me : MatchingEngine) (mem : Mem) (now : Int) (order : Ptr) :
    (∃ a r,
      AddOrder (mem.modify order (fun o => { o with Timestamp := now }))
        ((bookGet me.orderBooks (mem order).Symbol).getD (NewOrderBook (mem order).Symbol))
        order = some a ∧
      me.ProcessOrder mem now order = some r ∧
      r.1 = a.1 ∧ r.2.2 = a.2.2 ∧
      bookGet r.2.1.orderBooks (mem order).Symbol = some a.2.1 ∧
      r.2.1.tradesChan = me.tradesChan ++ a.2.2.take (10000 - me.tradesChan.length) ∧
      r.2.1.ordersChan =
        (if me.ordersChan.length < 10000 then me.ordersChan ++ [order] else me.ordersChan) ∧
      (me.tradesChan.length ≤ 10000 → r.2.1.tradesChan.length ≤ 10000) ∧
      (me.ordersChan.length ≤ 10000 → r.2.1.ordersChan.length ≤ 10000) ∧
      ∀ (tc : List Trade) (oc : List Ptr),
        (({ me with tradesChan := tc, ordersChan := oc } : MatchingEngine).ProcessOrder
          mem now order).map (fun x => (x.1, x.2.1.orderBooks, x.2.2)) =
        some (r.1, r.2.1.orderBooks, r.2.2)) ∧
    ∀ ops : List EngineOp, ∃ w, EngineWorld.init.exec ops = some w ∧
      w.me.tradesChan.length ≤ 10000 ∧ w.me.ordersChan.length ≤ 10000 := by
  constructor
  · obtain ⟨a, ha⟩ := AddOrder_total (mem.modify order (fun o => { o with Timestamp := now }))
      ((bookGet me.orderBooks (mem order).Symbol).getD (NewOrderBook (mem order).Symbol)) order
    have hp := ProcessOrder_eq me mem now order
    rw [ha] at hp
    refine ⟨a, _, ha, hp, rfl, rfl, ?_, rfl, rfl, ?_, ?_, ?_⟩
    · simp only [bookGet_bookSet, if_true]
    · intro h; exact take_length_le _ _ h
    · intro h
      simp only
      split
      · simp only [List.length_append, List.length_singleton]; omega
      · exact h
    · intro tc oc
      rw [ProcessOrder_eq]
      simp only [ha, Option.map_some']
  · intro ops
    refine EngineWorld.exec_induct
      (fun w => w.me.tradesChan.length ≤ 10000 ∧ w.me.ordersChan.length ≤ 10000) ?_ ops
      EngineWorld.init ⟨by simp [EngineWorld.init, NewMatchingEngine],
        by simp [EngineWorld.init, NewMatchingEngine]⟩
    intro w op hw
    cases op with
    | process now o =>
      obtain ⟨r, hr⟩ := ProcessOrder_total w.me (fun q => if q = w.next then o else w.mem q)
        now w.next
      have hc := ProcessOrder_chans hr
      simp only [EngineWorld.step, EngineWorld.submit_unfold, hr, Option.map_some']
      exact ⟨_, rfl, hc.1 hw.1, hc.2 hw.2⟩
    | cancel symbol orderID iter =>
      refine ⟨_, rfl, ?_, ?_⟩
      · simp only [(CancelOrder_chans _ _ _ _ _).1]; exact hw.1
      · simp only [(CancelOrder_chans _ _ _ _ _).2]; exact hw.2
    | snapshot symbol => exact ⟨w, rfl, hw⟩

theorem ProcessOrder_books {me : MatchingEngine} {mem : Mem} {now : Int} {order : Ptr}
    {r : Mem × MatchingEngine × List Trade} (h : me.ProcessOrder mem now order = some r)
    (s : String) :
    (bookGet r.2.1.orderBooks s).isSome = true ↔
      s = (mem order).Symbol ∨ (bookGet me.orderBooks s).isSome = true := by
  rw [ProcessOrder_eq] at h
  obtain ⟨a, _, hr⟩ := Option.map_eq_some'.mp h
  subst hr
  simp only [bookGet_bookSet]
  by_cases hs : s = (mem order).Symbol
  · simp [hs]
  · simp only [hs, if_false, false_or]
    cases hb : bookGet me.orderBooks (mem order).Symbol with
    | none => simp only [bookGet_bookSet, hs, if_false]
    | some ob => rfl

theorem CancelOrder_books (me : MatchingEngine) (mem : Mem) (symbol orderID : String)
    (iter : OrderMap) (s : String) :
    (bookGet (me.CancelOrder mem symbol orderID iter).2.1.orderBooks s).isSome =
      (bookGet me.orderBooks s).isSome := by
  unfold MatchingEngine.CancelOrder
  cases hb : bookGet me.orderBooks symbol with
  | none => rfl
  | some ob =>
    simp only [bookGet_bookSet]
    by_cases hs : s = symbol
    · simp [hs, hb]
    · simp [hs]

theorem EngineWorld.exec_books :
    ∀ (ops : List EngineOp) (w : EngineWorld) (seen : List String),
      (∀ s, (bookGet w.me.orderBooks s).isSome = true ↔ s ∈ seen) →
      ∃ w', w.exec ops = some w' ∧
        ∀ s, (bookGet w'.me.orderBooks s).isSome = true ↔ s ∈ seen ++ processedSymbols ops := by
  intro ops
  induction ops with
  | nil => intro w seen h; exact ⟨w, rfl, by simpa [processedSymbols] using h⟩
  | cons op ops ih =>
    intro w seen h
    cases op with
    | process now o =>
      obtain ⟨r, hr⟩ := ProcessOrder_total w.me (fun q => if q = w.next then o else w.mem q)
        now w.next
      have hb := ProcessOrder_books hr
      obtain ⟨w2, h2, hp2⟩ := ih { mem := r.1, next := w.next + 1, me := r.2.1 }
        (seen ++ [o.Symbol]) (by
          intro s
          rw [hb s, h s]
          simp only [if_true, List.mem_append, List.mem_singleton]
          exact Or.comm)
      refine ⟨w2, ?_, ?_⟩
      · simp only [EngineWorld.exec, EngineWorld.step, EngineWorld.submit_unfold, hr,
          Option.map_some', h2]
      · intro s
        rw [hp2 s]
        simp [processedSymbols]
    | cancel symbol orderID iter =>
      obtain ⟨w2, h2, hp2⟩ := ih
        { w with mem := (w.me.CancelOrder w.mem symbol orderID iter).1,
                 me := (w.me.CancelOrder w.mem symbol orderID iter).2.1 } seen (by
          intro s
          simp only [CancelOrder_books]
          exact h s)
      exact ⟨w2, by simp only [EngineWorld.exec, EngineWorld.step, h2],
        by simpa [processedSymbols] using hp2⟩
    | snapshot symbol =>
      obtain ⟨w2, h2, hp2⟩ := ih w seen h
      exact ⟨w2, by simp only [EngineWorld.exec, EngineWorld.step, h2],
        by simpa [processedSymbols] using hp2⟩

/-- C18 (unknown symbol).  After any sequence of `ProcessOrder`, `CancelOrder` and
`GetOrderBookSnapshot` calls on a new engine (every call returns): for a symbol that no
`ProcessOrder` call carried, `CancelOrder(symbol, id)` returns false for every id and
leaves the memory and the engine as they are, and `GetOrderBookSnapshot(symbol)` returns
nothing; for a symbol that a `ProcessOrder` call carried, whether or not it traded, the
engine holds a book and `GetOrderBookSnapshot(symbol)` returns its snapshot. -/
theorem unknown_symbol (ops : List EngineOp) :
    ∃ w, EngineWorld.init.exec ops = some w ∧
      ∀ symbol : String,
        (symbol ∉ processedSymbols ops →
          (∀ (orderID : String) (iter : OrderMap),
            w.me.CancelOrder w.mem symbol orderID iter = (w.mem, w.me, false)) ∧
          w.me.GetOrderBookSnapshot w.mem symbol = none) ∧
        (symbol ∈ processedSymbols ops →
          ∃ ob, bookGet w.me.orderBooks symbol = some ob ∧
            w.me.GetOrderBookSnapshot w.mem symbol = some (GetSnapshot w.mem ob)) := by
  obtain ⟨w, hw, hb⟩ := EngineWorld.exec_books ops EngineWorld.init []
    (by intro s; simp [EngineWorld.init, NewMatchingEngine, bookGet])
  refine ⟨w, hw, ?_⟩
  intro symbol
  have hs := hb symbol
  simp only [List.nil_append] at hs
  constructor
  · intro hn
    have hnone : bookGet w.me.orderBooks symbol = none := by
      cases hg : bookGet w.me.orderBooks symbol with
      | none => rfl
      | some ob => rw [hg] at hs; exact absurd (hs.mp rfl) hn
    constructor
    · intro orderID iter
      unfold MatchingEngine.CancelOrder
      rw [hnone]
    · unfold MatchingEngine.GetOrderBookSnapshot
      rw [hnone]
  · intro hm
    cases hg : bookGet w.me.orderBooks symbol with
    | none => rw [hg] at hs; exact absurd (hs.mpr hm) (by simp)
    | some ob =>
      refine ⟨ob, rfl, ?_⟩
      unfold MatchingEngine.GetOrderBookSnapshot
      rw [hg]

/-! ## Snapshots -/

theorem levelAdd_keys (levels : List (Int × Int)) (price qty : Int) :
    (levelAdd levels price qty).map (fun e => e.1) =
      if price ∈ levels.map (fun e => e.1) then levels.map (fun e => e.1)
      else levels.map (fun e => e.1) ++ [price] := by
  induction levels with
  | nil => simp [levelAdd]
  | cons e rest ih =>
    unfold levelAdd
    by_cases h : e.1 = price
    · simp [h]
    · rw [if_neg h, List.map_cons, ih]
      have h' : ¬ price = e.1 := fun e' => h e'.symm
      by_cases hm : price ∈ rest.map (fun e => e.1)
      · simp [hm]
      · simp [hm, h']

theorem levelAdd_nodup (levels : List (Int × Int)) (price qty : Int)
    (h : (levels.map (fun e => e.1)).Nodup) :
    ((levelAdd levels price qty).map (fun e => e.1)).Nodup := by
  rw [levelAdd_keys]
  split
  · exact h
  · next hm =>
    rw [List.nodup_append]
    refine ⟨h, List.nodup_singleton _, ?_⟩
    intro a ha hb
    rw [List.mem_singleton] at hb
    exact hm (hb ▸ ha)

theorem levelQty_levelAdd (levels : List (Int × Int)) (price qty price' : Int) :
    levelQty (levelAdd levels price qty) price' =
      levelQty levels price' + (if price' = price then qty else 0) := by
  induction levels with
  | nil =>
    unfold levelAdd levelQty
    by_cases h : price' = price
    · simp [h]
    · have h' : ¬ price = price' := fun e => h e.symm
      simp [h, h']
  | cons e rest ih =>
    unfold levelAdd
    by_cases he : e.1 = price
    · rw [if_pos he]
      unfold levelQty
      by_cases h : price' = price
      · have h1 : e.1 = price' := he.trans h.symm
        simp only [List.filter_cons, h1, decide_True, if_true, List.map_cons, List.sum_cons, h]
        omega
      · have h1 : ¬ e.1 = price' := fun e' => h (e'.symm.trans he)
        simp [List.filter_cons, h1, h]
    · rw [if_neg he]
      unfold levelQty at ih ⊢
      by_cases h1 : e.1 = price'
      · simp only [List.filter_cons, h1, decide_True, if_true, List.map_cons, List.sum_cons]
        rw [ih]; omega
      · simp only [List.filter_cons, h1, decide_False, if_false]
        exact ih

theorem levelQty_of_mem {levels : List (Int × Int)} (hn : (levels.map (fun e => e.1)).Nodup)
    {e : Int × Int} (he : e ∈ levels) : levelQty levels e.1 = e.2 := by
  induction levels with
  | nil => simp at he
  | cons a rest ih =>
    rw [List.map_cons, List.nodup_cons] at hn
    unfold levelQty
    rcases List.mem_cons.mp he with h | h
    · subst h
      have : rest.filter (fun x => decide (x.1 = e.1)) = [] := by
        rw [List.filter_eq_nil_iff]
        intro x hx
        simp only [decide_eq_true_eq]
        intro hxe
        exact hn.1 (List.mem_map.mpr ⟨x, hx, hxe⟩)
      simp [List.filter_cons, this]
    · have hne : ¬ a.1 = e.1 := by
        intro hae
        exact hn.1 (List.mem_map.mpr ⟨e, h, hae.symm⟩)
      simp only [List.filter_cons, hne, decide_False, if_false]
      exact ih hn.2 h

/-- The aggregation loop of `GetSnapshot`, started from any level map. -/
theorem aggregate_foldl (mem : Mem) :
    ∀ (queue : List Ptr) (acc : List (Int × Int)), (acc.map (fun e => e.1)).Nodup →
      let res := queue.foldl
        (fun levels order => levelAdd levels (mem order).Price
          ((mem order).Quantity - (mem order).Filled)) acc
      (res.map (fun e => e.1)).Nodup ∧
      (∀ price, price ∈ res.map (fun e => e.1) ↔
        price ∈ acc.map (fun e => e.1) ∨ ∃ p ∈ queue, (mem p).Price = price) ∧
      (∀ price, levelQty res price =
        levelQty acc price + unfilled mem (queue.filter (fun p => (mem p).Price = price))) := by
  intro queue
  induction queue with
  | nil => intro acc h; simp [unfilled, h]
  | cons q queue ih =>
    intro acc h
    simp only [List.foldl_cons]
    obtain ⟨a1, a2, a3⟩ := ih _ (levelAdd_nodup acc (mem q).Price
      ((mem q).Quantity - (mem q).Filled) h)
    refine ⟨a1, ?_, ?_⟩
    · intro price
      rw [a2 price, levelAdd_keys]
      by_cases hm : (mem q).Price ∈ acc.map (fun e => e.1)
      · rw [if_pos hm]
        constructor
        · rintro (h1 | ⟨p, hp, he⟩)
          · exact Or.inl h1
          · exact Or.inr ⟨p, List.mem_cons_of_mem _ hp, he⟩
        · rintro (h1 | ⟨p, hp, he⟩)
          · exact Or.inl h1
          · rcases List.mem_cons.mp hp with e | e
            · left; rw [← he, e]; exact hm
            · exact Or.inr ⟨p, e, he⟩
      · rw [if_neg hm]
        have key : price = (mem q).Price ↔ (mem q).Price = price := eq_comm
        simp only [List.mem_append, List.mem_singleton, List.mem_cons, exists_eq_or_imp, key]
        tauto
    · intro price
      rw [a3 price, levelQty_levelAdd]
      by_cases hp : (mem q).Price = price
      · have hp' : price = (mem q).Price := hp.symm
        rw [List.filter_cons_of_pos (by simpa using hp), unfilled_cons, if_pos hp']
        omega
      · have hp' : ¬ price = (mem q).Price := fun e => hp e.symm
        rw [List.filter_cons_of_neg (by simpa using hp), if_neg hp']
        omega

theorem aggregate_spec (mem : Mem) (queue : List Ptr) :
    ((aggregate mem queue).map (fun e => e.1)).Nodup ∧
    (∀ price, price ∈ (aggregate mem queue).map (fun e => e.1) ↔
      ∃ p ∈ queue, (mem p).Price = price) ∧
    (∀ e ∈ aggregate mem queue,
      e.2 = unfilled mem (queue.filter (fun p => (mem p).Price = e.1))) := by
  unfold aggregate
  obtain ⟨a1, a2, a3⟩ := aggregate_foldl mem queue [] (by simp)
  refine ⟨a1, ?_, ?_⟩
  · intro price
    have := a2 price
    simpa using this
  · intro e he
    have h1 := levelQty_of_mem a1 he
    have h2 := a3 e.1
    rw [← h1, h2]
    simp [levelQty]

theorem pairwise_orderedInsert {α : Type} (r : α → α → Prop) [DecidableRel r]
    (htrans : ∀ a b c, r a b → r b c → r a c) (a : α) :
    ∀ s : List α, s.Pairwise r → (∀ b ∈ s, r a b ∨ r b a) →
      (s.orderedInsert r a).Pairwise r := by
  intro s
  induction s with
  | nil => intro _ _; simp
  | cons b s ih =>
    intro hs hc
    rw [List.pairwise_cons] at hs
    simp only [List.orderedInsert]
    split
    · next hab =>
      rw [List.pairwise_cons]
      refine ⟨?_, List.pairwise_cons.mpr hs⟩
      intro x hx
      rcases List.mem_cons.mp hx with e | e
      · rw [e]; exact hab
      · exact htrans _ _ _ hab (hs.1 x e)
    · next hab =>
      have hba : r b a := by
        rcases hc b (List.mem_cons_self _ _) with h | h
        · exact absurd h hab
        · exact h
      rw [List.pairwise_cons]
      refine ⟨?_, ih hs.2 (fun x hx => hc x (List.mem_cons_of_mem _ hx))⟩
      intro x hx
      rcases List.mem_cons.mp ((List.perm_orderedInsert r a s).subset hx) with e | e
      · rw [e]; exact hba
      · exact hs.1 x e

theorem pairwise_insertionSort {α : Type} (r : α → α → Prop) [DecidableRel r]
    (htrans : ∀ a b c, r a b → r b c → r a c) :
    ∀ l : List α, l.Pairwise (fun a b => r a b ∨ r b a) → (l.insertionSort r).Pairwise r := by
  intro l
  induction l with
  | nil => intro _; simp
  | cons a l ih =>
    intro h
    rw [List.pairwise_cons] at h
    simp only [List.insertionSort]
    refine pairwise_orderedInsert r htrans a _ (ih h.2) ?_
    intro b hb
    exact h.1 b ((List.perm_insertionSort r l).subset hb)

theorem toLevels_mem {levels : List (Int × Int)} {l : OrderBookLevel} (h : l ∈ toLevels levels) :
    (l.Price, l.Quantity) ∈ levels ∧ l.Orders = 1 := by
  unfold toLevels at h
  obtain ⟨e, he, hl⟩ := List.mem_map.mp h
  subst hl
  exact ⟨he, rfl⟩

theorem toLevels_distinct {levels : List (Int × Int)}
    (h : (levels.map (fun e => e.1)).Nodup) :
    (toLevels levels).Pairwise (fun a b => a.Price ≠ b.Price) := by
  unfold toLevels
  rw [List.pairwise_map]
  unfold List.Nodup at h
  rw [List.pairwise_map] at h
  exact h

/-- One side of a snapshot: the levels of a queue ordered by a strict order `r` on prices. -/
theorem snapshot_side (mem : Mem) (queue : List Ptr) (r : Int → Int → Prop) [DecidableRel r]
    (htrans : ∀ a b c, r a b → r b c → r a c) (hirr : ∀ a b, r a b → ¬ r b a)
    (htot : ∀ a b, a ≠ b → r a b ∨ r b a) :
    let side := (toLevels (aggregate mem queue)).insertionSort (fun a b => r a.Price b.Price)
    side.Pairwise (fun a b => r a.Price b.Price) ∧
    (∀ price, (∃ l ∈ side, l.Price = price) ↔ ∃ p ∈ queue, (mem p).Price = price) ∧
    (∀ l ∈ side,
      l.Quantity = unfilled mem (queue.filter (fun p => (mem p).Price = l.Price))) ∧
    (∀ visit : List OrderBookLevel, visit.Perm (toLevels (aggregate mem queue)) →
      visit.Pairwise (fun a b => r a.Price b.Price) → visit = side) := by
  obtain ⟨a1, a2, a3⟩ := aggregate_spec mem queue
  have hperm := List.perm_insertionSort (fun a b : OrderBookLevel => r a.Price b.Price)
    (toLevels (aggregate mem queue))
  have hsorted : ((toLevels (aggregate mem queue)).insertionSort
      (fun a b => r a.Price b.Price)).Pairwise (fun a b => r a.Price b.Price) := by
    exact pairwise_insertionSort (fun a b : OrderBookLevel => r a.Price b.Price)
      (fun a b c => htrans a.Price b.Price c.Price) _
      ((toLevels_distinct a1).imp (fun h => htot _ _ h))
  refine ⟨hsorted, ?_, ?_, ?_⟩
  · intro price
    rw [← a2 price]
    constructor
    · rintro ⟨l, hl, he⟩
      have := (toLevels_mem (hperm.subset hl)).1
      exact List.mem_map.mpr ⟨_, this, he⟩
    · intro h
      obtain ⟨e, he, hp⟩ := List.mem_map.mp h
      refine ⟨{ Price := e.1, Quantity := e.2, Orders := 1 }, hperm.symm.subset ?_, hp⟩
      unfold toLevels
      exact List.mem_map.mpr ⟨e, he, rfl⟩
  · intro l hl
    exact a3 _ (toLevels_mem (hperm.subset hl)).1
  · intro visit hv hs
    have hanti : IsAntisymm OrderBookLevel (fun a b => r a.Price b.Price) :=
      ⟨fun a b h1 h2 => absurd h2 (hirr _ _ h1)⟩
    exact List.eq_of_perm_of_sorted (hv.trans hperm.symm) hs hsorted

theorem levelAdd64_keys (price q1 q2 : Int) :
    ∀ l1 l2 : List (Int × Int), l1.map (fun e => e.1) = l2.map (fun e => e.1) →
      (levelAdd64 l1 price q1).map (fun e => e.1) = (levelAdd l2 price q2).map (fun e => e.1) := by
  intro l1
  induction l1 with
  | nil =>
    intro l2 h
    cases l2 with
    | nil => rfl
    | cons b l2 => simp at h
  | cons a l1 ih =>
    intro l2 h
    cases l2 with
    | nil => simp at h
    | cons b l2 =>
      simp only [List.map_cons, List.cons.injEq] at h
      unfold levelAdd64 levelAdd
      by_cases he : a.1 = price
      · rw [if_pos he, if_pos (h.1 ▸ he)]
        simp only [List.map_cons, List.cons.injEq]
        exact h
      · rw [if_neg he, if_neg (h.1 ▸ he)]
        simp only [List.map_cons, List.cons.injEq]
        exact ⟨h.1, ih l2 h.2⟩

theorem aggregate64_keys (mem : Mem) (queue : List Ptr) :
    (aggregate64 mem queue).map (fun e => e.1) = (aggregate mem queue).map (fun e => e.1) := by
  unfold aggregate64 aggregate
  have key : ∀ (queue : List Ptr) (l1 l2 : List (Int × Int)),
      l1.map (fun e => e.1) = l2.map (fun e => e.1) →
      (queue.foldl (fun levels order => levelAdd64 levels (mem order).Price
        (sub64 (mem order).Quantity (mem order).Filled)) l1).map (fun e => e.1) =
      (queue.foldl (fun levels order => levelAdd levels (mem order).Price
        ((mem order).Quantity - (mem order).Filled)) l2).map (fun e => e.1) := by
    intro queue
    induction queue with
    | nil => intro l1 l2 h; exact h
    | cons q queue ih =>
      intro l1 l2 h
      simp only [List.foldl_cons]
      exact ih _ _ (levelAdd64_keys _ _ _ l1 l2 h)
  exact key queue [] [] rfl

/-- One side of a snapshot in `float64`: its levels have the prices of the levels of the
exact snapshot, in the same order. -/
theorem snapshot64_side (mem : Mem) (queue : List Ptr) (r : Int → Int → Prop) [DecidableRel r] :
    ((toLevels (aggregate64 mem queue)).insertionSort
        (fun a b => r a.Price b.Price)).map (fun l => l.Price) =
      ((toLevels (aggregate mem queue)).insertionSort
        (fun a b => r a.Price b.Price)).map (fun l => l.Price) := by
  rw [List.map_insertionSort (fun a b : OrderBookLevel => r a.Price b.Price) r
      (fun l : OrderBookLevel => l.Price) _ (fun a _ b _ => Iff.rfl),
    List.map_insertionSort (fun a b : OrderBookLevel => r a.Price b.Price) r
      (fun l : OrderBookLevel => l.Price) _ (fun a _ b _ => Iff.rfl)]
  have h1 : ∀ levels : List (Int × Int),
      (toLevels levels).map (fun l => l.Price) = levels.map (fun e => e.1) := by
    intro levels
    unfold toLevels
    rw [List.map_map]
    rfl
  rw [h1, h1, aggregate64_keys]

/-- C15 (snapshot consistency).  For every memory and book, `GetSnapshot`, which only
reads them, returns bids whose prices strictly decrease and asks whose prices strictly
increase; a price has a level on a side exactly when an order of that side's queue has
that price; and, with quantities read as exact decimals, the quantity of each level is the
sum of `Quantity - Filled` over the orders of that side's queue at the level's price.  The
result does not depend on the order in which the level maps are visited nor on how
`sort.Slice` sorts: any sorted arrangement of the levels is the returned list.  In
`float64` the snapshot has the same level prices in the same order, so the statements on
the order and on the prices of the levels hold there as well; only the level quantities
are rounded. -/
theorem snapshot_consistency (mem : Mem) (ob : OrderBook) :
    (GetSnapshot mem ob).Symbol = ob.Symbol ∧
    (GetSnapshot mem ob).Bids.Pairwise (fun a b => a.Price > b.Price) ∧
    (GetSnapshot mem ob).Asks.Pairwise (fun a b => a.Price < b.Price) ∧
    (∀ price, (∃ l ∈ (GetSnapshot mem ob).Bids, l.Price = price) ↔
      ∃ p ∈ ob.BuyOrders, (mem p).Price = price) ∧
    (∀ price, (∃ l ∈ (GetSnapshot mem ob).Asks, l.Price = price) ↔
      ∃ p ∈ ob.SellOrders, (mem p).Price = price) ∧
    (∀ l ∈ (GetSnapshot mem ob).Bids,
      l.Quantity = unfilled mem (ob.BuyOrders.filter (fun p => (mem p).Price = l.Price))) ∧
    (∀ l ∈ (GetSnapshot mem ob).Asks,
      l.Quantity = unfilled mem (ob.SellOrders.filter (fun p => (mem p).Price = l.Price))) ∧
    (∀ visit : List OrderBookLevel, visit.Perm (toLevels (aggregate mem ob.BuyOrders)) →
      visit.Pairwise (fun a b => a.Price > b.Price) → visit = (GetSnapshot mem ob).Bids) ∧
    (∀ visit : List OrderBookLevel, visit.Perm (toLevels (aggregate mem ob.SellOrders)) →
      visit.Pairwise (fun a b => a.Price < b.Price) → visit = (GetSnapshot mem ob).Asks) ∧
    (GetSnapshot64 mem ob).Symbol = ob.Symbol ∧
    (GetSnapshot64 mem ob).Bids.map (fun l => l.Price) =
      (GetSnapshot mem ob).Bids.map (fun l => l.Price) ∧
    (GetSnapshot64 mem ob).Asks.map (fun l => l.Price) =
      (GetSnapshot mem ob).Asks.map (fun l => l.Price) ∧
    (GetSnapshot64 mem ob).Bids.Pairwise (fun a b => a.Price > b.Price) ∧
    (GetSnapshot64 mem ob).Asks.Pairwise (fun a b => a.Price < b.Price) ∧
    (∀ price, (∃ l ∈ (GetSnapshot64 mem ob).Bids, l.Price = price) ↔
      ∃ p ∈ ob.BuyOrders, (mem p).Price = price) ∧
    (∀ price, (∃ l ∈ (GetSnapshot64 mem ob).Asks, l.Price = price) ↔
      ∃ p ∈ ob.SellOrders, (mem p).Price = price) := by
  obtain ⟨b1, b2, b3, b4⟩ := snapshot_side mem ob.BuyOrders (fun a b => a > b)
    (fun a b c h1 h2 => by omega) (fun a b h => by omega) (fun a b h => by omega)
  obtain ⟨s1, s2, s3, s4⟩ := snapshot_side mem ob.SellOrders (fun a b => a < b)
    (fun a b c h1 h2 => by omega) (fun a b h => by omega) (fun a b h => by omega)
  have eb : (GetSnapshot64 mem ob).Bids.map (fun l => l.Price) =
      (GetSnapshot mem ob).Bids.map (fun l => l.Price) :=
    snapshot64_side mem ob.BuyOrders (fun a b => a > b)
  have es : (GetSnapshot64 mem ob).Asks.map (fun l => l.Price) =
      (GetSnapshot mem ob).Asks.map (fun l => l.Price) :=
    snapshot64_side mem ob.SellOrders (fun a b => a < b)
  have hb : (GetSnapshot mem ob).Bids.Pairwise (fun a b => a.Price > b.Price) := b1
  have hs : (GetSnapshot mem ob).Asks.Pairwise (fun a b => a.Price < b.Price) := s1
  have pb : ((GetSnapshot mem ob).Bids.map (fun l => l.Price)).Pairwise
      (fun a b => a > b) := List.pairwise_map.mpr hb
  have ps : ((GetSnapshot mem ob).Asks.map (fun l => l.Price)).Pairwise
      (fun a b => a < b) := List.pairwise_map.mpr hs
  rw [← eb] at pb
  rw [← es] at ps
  have mem_prices : ∀ (ls : List OrderBookLevel) (price : Int),
      (∃ l ∈ ls, l.Price = price) ↔ price ∈ ls.map (fun l => l.Price) := by
    intro ls price
    rw [List.mem_map]
  refine ⟨rfl, b1, s1, b2, s2, b3, s3, b4, s4, rfl, eb, es, List.pairwise_map.mp pb,
    List.pairwise_map.mp ps, ?_, ?_⟩
  · intro price
    rw [mem_prices, eb, ← mem_prices]
    exact b2 price
  · intro price
    rw [mem_prices, es, ← mem_prices]
    exact s2 price

/-- C16 (level population), the code at the failing input.  On the book with two resting
LIMIT BUYs at 99, the bid queue holds two orders and the snapshot shows the one bid level
at 99 with quantity 2 and with `Orders = 1`, the constant that `GetSnapshot` writes in
every level, where the claim says 2. -/
theorem level_population_constant :
    bookTwoBids.ob.BuyOrders = [0, 1] ∧
    (bookTwoBids.mem 0).Price = 99 ∧ (bookTwoBids.mem 1).Price = 99 ∧
    GetSnapshot bookTwoBids.mem bookTwoBids.ob =
      { Symbol := "X", Bids := [{ Price := 99, Quantity := 2, Orders := 1 }], Asks := [] } := by
  decide

/-! ## Runs of a book and the ids of its orders -/

theorem Reachable.run {subs0 : List Order} {w0 : World} (h0 : Reachable subs0 w0)
    {subs : List Order} {trades : List Trade} {w : World} (h : Run w0 subs trades w) :
    Reachable (subs0 ++ subs) w := by
  induction h with
  | start => simpa using h0
  | add o r _ hs ih =>
    rw [← List.append_assoc]
    exact Reachable.add o r ih hs
  | cancel orderID iter _ hp ih => exact Reachable.cancel orderID iter ih hp

theorem Reachable.exists_run {subs : List Order} {w : World} (h : Reachable subs w) :
    ∃ symbol trades, Run (World.init symbol) subs trades w := by
  induction h with
  | init symbol => exact ⟨symbol, [], Run.start⟩
  | add o r _ hs ih =>
    obtain ⟨symbol, trades, hrun⟩ := ih
    exact ⟨symbol, _, Run.add o r hrun hs⟩
  | cancel orderID iter _ hp ih =>
    obtain ⟨symbol, trades, hrun⟩ := ih
    exact ⟨symbol, trades, Run.cancel orderID iter hrun hp⟩

theorem submit_sameKeys {w : World} {o : Order} {r : World × List Trade}
    (h : w.submit o = some r) : SameKeys (w.alloc o) r.1.mem ∧ r.1.next = w.next + 1 := by
  rw [submit_eq] at h
  obtain ⟨st, hst, hr⟩ := Option.map_eq_some'.mp h
  subst hr
  exact ⟨(matchLoop_sameKeys _ _ _ hst).trans (finish_sameKeys _ _ _ _), rfl⟩

theorem cancel_sameKeys (w : World) (orderID : String) (iter : OrderMap) :
    SameKeys w.mem (w.cancel orderID iter).1.mem ∧ (w.cancel orderID iter).1.next = w.next := by
  unfold World.cancel CancelOrder
  cases mapGet w.ob.Orders orderID with
  | none => exact ⟨SameKeys.refl _, rfl⟩
  | some p =>
    exact ⟨SameKeys.modify _ _ _ (fun _ => ⟨rfl, rfl, rfl, rfl, rfl, rfl, rfl⟩), rfl⟩

/-- The order object at address `p` keeps the id it was submitted with. -/
theorem Reachable.ids {subs : List Order} {w : World} (h : Reachable subs w) :
    ∀ (p : Nat) (o : Order), subs[p]? = some o → (w.mem p).ID = o.ID := by
  induction h with
  | init symbol => intro p o hp; simp at hp
  | @add subs w o r hr hs ih =>
    intro p o' hp
    obtain ⟨hk, _⟩ := submit_sameKeys hs
    rw [(hk p).1]
    have hn := hr.next_eq
    by_cases hlt : p < subs.length
    · rw [List.getElem?_append_left hlt] at hp
      rw [alloc_ne w o (by rw [hn]; exact Nat.ne_of_lt hlt)]
      exact ih p o' hp
    · have hlen := (List.getElem?_eq_some_iff.mp hp).1
      simp only [List.length_append, List.length_singleton] at hlen
      have hpe : p = subs.length := by omega
      rw [hpe, List.getElem?_append_right (Nat.le_refl _)] at hp
      simp only [Nat.sub_self, List.getElem?_cons_zero, Option.some.injEq] at hp
      rw [hpe, ← hn, alloc_same, hp]
  | cancel orderID iter _ hp ih =>
    intro p o hpo
    rw [((cancel_sameKeys _ orderID iter).1 p).1]
    exact ih p o hpo

/-- With pairwise distinct submitted ids, ids tell the order objects apart. -/
theorem Reachable.id_inj {subs : List Order} {w : World} (h : Reachable subs w)
    (hids : (subs.map (fun o => o.ID)).Nodup) :
    ∀ p q, p < w.next → q < w.next → (w.mem p).ID = (w.mem q).ID → p = q := by
  intro p q hp hq he
  rw [h.next_eq] at hp hq
  have e1 := h.ids p subs[p] (List.getElem?_eq_getElem hp)
  have e2 := h.ids q subs[q] (List.getElem?_eq_getElem hq)
  have hp' : p < (subs.map (fun o => o.ID)).length := by simpa using hp
  have hq' : q < (subs.map (fun o => o.ID)).length := by simpa using hq
  have key : (subs.map (fun o => o.ID))[p] = (subs.map (fun o => o.ID))[q] := by
    simp only [List.getElem_map]
    rw [← e1, ← e2]; exact he
  exact (List.Nodup.getElem_inj_iff hids).mp key

/-! ## What a matching loop changes -/

theorem loopBody_mem_best (side : OrderSide) (st : Loop) {order best : Ptr} (hne : best ≠ order) :
    (loopBody side order best st).mem best =
      if popped st order best then
        { st.mem best with Filled := (st.mem best).Filled + matchQty st best, Status := .FILLED }
      else { st.mem best with Filled := (st.mem best).Filled + matchQty st best } := by
  rw [loopBody_mem]
  split
  · rw [Mem.modify_same, filledMem_best_of_ne st hne]
  · rw [filledMem_best_of_ne st hne]

theorem loopBody_mem_order (side : OrderSide) (st : Loop) {order best : Ptr} (hne : best ≠ order) :
    (loopBody side order best st).mem order =
      { st.mem order with Filled := (st.mem order).Filled + matchQty st best } := by
  have hne' : order ≠ best := fun e => hne e.symm
  rw [loopBody_mem]
  split
  · rw [Mem.modify_ne _ _ hne']
    unfold filledMem
    rw [Mem.modify_ne _ _ hne', Mem.modify_same]
  · unfold filledMem
    rw [Mem.modify_ne _ _ hne', Mem.modify_same]

/-- The effect of a matching loop on the index and on the order objects, in a book whose
opposite queue does not hold the incoming order. -/
theorem matchLoop_frame {limit : Bool} {side : OrderSide} {order : Ptr} (fuel : Nat)
    (st st' : Loop) (hinv : LoopInv side order st)
    (h : matchLoop limit side order fuel st = some st') :
    (∀ e ∈ st.ob.Orders, e ∉ st'.ob.Orders →
      ∃ b ∈ st.ob.opposite side, b ∉ st'.ob.opposite side ∧ (st.mem b).ID = e.1) ∧
    (∀ b ∈ st.ob.opposite side, b ∉ st'.ob.opposite side →
      ∀ e ∈ st'.ob.Orders, e.1 ≠ (st.mem b).ID) ∧
    (∀ q, q ≠ order → q ∉ st.ob.opposite side → st'.mem q = st.mem q) ∧
    (∀ q ∈ st'.ob.opposite side, st'.mem q = { st.mem q with Filled := (st'.mem q).Filled }) ∧
    (∀ q, (st'.mem q).Status = (st.mem q).Status ∨ (st'.mem q).Status = .FILLED) ∧
    st'.mem order = { st.mem order with Filled := (st'.mem order).Filled } := by
  have key := (matchLoop_induct
    (fun s => LoopInv side order s ∧ (∀ x ∈ s.ob.opposite side, x ∈ st.ob.opposite side) ∧
      SameKeys st.mem s.mem ∧
      (∀ e ∈ st.ob.Orders, e ∉ s.ob.Orders →
        ∃ b ∈ st.ob.opposite side, b ∉ s.ob.opposite side ∧ (st.mem b).ID = e.1) ∧
      (∀ b ∈ st.ob.opposite side, b ∉ s.ob.opposite side →
        ∀ e ∈ s.ob.Orders, e.1 ≠ (st.mem b).ID) ∧
      (∀ q, q ≠ order → q ∉ st.ob.opposite side → s.mem q = st.mem q) ∧
      (∀ q ∈ s.ob.opposite side, s.mem q = { st.mem q with Filled := (s.mem q).Filled }) ∧
      (∀ q, (s.mem q).Status = (st.mem q).Status ∨ (s.mem q).Status = .FILLED) ∧
      s.mem order = { st.mem order with Filled := (s.mem order).Filled })
    ?_ fuel st st'
    ⟨hinv, fun _ hx => hx, SameKeys.refl _, fun e he hn => absurd he hn,
      fun b hb hn => absurd hb hn, fun _ _ _ => rfl, fun _ _ => rfl, fun _ => Or.inl rfl, rfl⟩ h).1
  · exact ⟨key.2.2.2.1, key.2.2.2.2.1, key.2.2.2.2.2.1, key.2.2.2.2.2.2.1, key.2.2.2.2.2.2.2.1,
      key.2.2.2.2.2.2.2.2⟩
  · intro s best ⟨i1, i2, i3, i4, i5, i6, i7, i8, i9⟩ hs
    obtain ⟨t, hq, hc⟩ := loopBody_opposite_cases hs
    have hbm : best ∈ s.ob.opposite side := by rw [hq]; exact List.mem_cons_self _ _
    have hne : best ≠ order := fun e => i1.notin (e ▸ hbm)
    have hk := loopBody_sameKeys side order best s
    have hsub := loopBody_opposite_subset hs
    have hnd := i1.nodup
    rw [hq] at hnd
    have hbt : best ∉ t := (List.nodup_cons.mp hnd).1
    have hgone : ∀ b ∈ s.ob.opposite side, b ∉ (loopBody side order best s).ob.opposite side →
        popped s order best ∧ b = best := by
      intro b hb hn
      rcases hc with ⟨_, he⟩ | ⟨hp, hperm⟩
      · rw [he, ← hq] at hn; exact absurd hb hn
      · refine ⟨hp, ?_⟩
        rw [hq] at hb
        rcases List.mem_cons.mp hb with e | e
        · exact e
        · exact absurd (hperm.symm.subset e) hn
    have hbest_gone : popped s order best →
        best ∉ (loopBody side order best s).ob.opposite side := by
      intro hp hm
      rcases hc with ⟨hnp, _⟩ | ⟨_, hperm⟩
      · exact hnp hp
      · exact hbt (hperm.subset hm)
    refine ⟨loopBody_inv hs i1, fun x hx => i2 x (hsub x hx), i3.trans hk, ?_, ?_, ?_, ?_, ?_, ?_⟩
    · intro e he hn
      by_cases hes : e ∈ s.ob.Orders
      · rw [loopBody_orders] at hn
        by_cases hp : popped s order best
        · rw [if_pos hp] at hn
          refine ⟨best, i2 best hbm, hbest_gone hp, ?_⟩
          have : ¬ (e.1 ≠ ((loopBody side order best s).mem best).ID) := by
            intro hne'
            exact hn (List.mem_filter.mpr ⟨hes, by simpa using hne'⟩)
          rw [← (i3 best).1, ← (hk best).1]
          exact (not_not.mp this).symm
        · rw [if_neg hp] at hn; exact absurd hes hn
      · obtain ⟨b, hb, hbn, hbe⟩ := i4 e he hes
        exact ⟨b, hb, fun hm => hbn (hsub b hm), hbe⟩
    · intro b hb hn e he
      have hes : e ∈ s.ob.Orders := (loopBody_orders_sublist side order best s).subset he
      by_cases hbs : b ∈ s.ob.opposite side
      · obtain ⟨hp, hbb⟩ := hgone b hbs hn
        rw [loopBody_orders, if_pos hp] at he
        have := (List.mem_filter.mp he).2
        rw [hbb, ← (i3 best).1, ← (hk best).1]
        simpa using this
      · exact i5 b hb hbs e hes
    · intro q hqo hqn
      have hqb : q ≠ best := fun e => hqn (e ▸ i2 best hbm)
      rw [loopBody_mem_other side s hqo hqb]
      exact i6 q hqo hqn
    · intro q hqm
      have hqs := hsub q hqm
      have hqo : q ≠ order := fun e => i1.notin (e ▸ hqs)
      by_cases hqb : q = best
      · subst hqb
        have hnp : ¬ popped s order q := fun hp => hbest_gone hp hqm
        rw [loopBody_mem_best side s hne, if_neg hnp]
        have := i7 q hqs
        rw [this]
      · rw [loopBody_mem_other side s hqo hqb]
        exact i7 q hqs
    · intro q
      by_cases hqb : q = best
      · subst hqb
        rw [loopBody_mem_best side s hne]
        split
        · exact Or.inr rfl
        · exact i8 q
      · by_cases hqo : q = order
        · subst hqo
          rw [loopBody_mem_order side s hne]
          exact i8 q
        · rw [loopBody_mem_other side s hqo hqb]
          exact i8 q
    · rw [loopBody_mem_order side s hne]
      rw [i9]

/-! ## What a submission changes -/

theorem submit_loop {w : World} {o : Order} {r : World × List Trade}
    (h : w.submit o = some r) :
    ∃ st, matchLoop (decide (o.Typ ≠ .MARKET)) o.Side w.next (loopFuel w.ob o.Side)
        (startLoop (w.alloc o) w.ob w.next) = some st ∧
      r.1.mem = (finish (decide (o.Typ ≠ .MARKET)) o.Side w.next st).1 ∧
      r.1.ob = (finish (decide (o.Typ ≠ .MARKET)) o.Side w.next st).2.1 ∧
      r.2 = st.trades ∧ r.1.next = w.next + 1 := by
  obtain ⟨st, hst, hsub⟩ := submit_cases w o
  rw [hsub] at h
  have hr := (Option.some.inj h).symm
  subst hr
  exact ⟨st, hst, rfl, rfl, rfl, rfl⟩

theorem finish_orders (limit : Bool) (side : OrderSide) (order : Ptr) (st : Loop) :
    (finish limit side order st).2.1.Orders =
      if limit = true ∧ st.remaining > 0 then mapSet st.ob.Orders (st.mem order).ID order
      else st.ob.Orders := by
  unfold finish
  by_cases hl : limit = true
  · by_cases hrem : st.remaining > 0
    · rw [if_pos hl, if_pos hrem, if_pos ⟨hl, hrem⟩]
      exact rest_orders st side order
    · rw [if_pos hl, if_neg hrem, if_neg (fun hc => hrem hc.2)]
  · rw [if_neg hl, if_neg (fun hc => hl hc.1)]

theorem finish_own (limit : Bool) (side : OrderSide) (order : Ptr) (st : Loop) :
    (finish limit side order st).2.1.own side =
      if limit = true ∧ st.remaining > 0 then
        heapPush (ownLess (rest st side order).1 side) (st.ob.own side) order
      else st.ob.own side := by
  unfold finish
  by_cases hl : limit = true
  · by_cases hrem : st.remaining > 0
    · rw [if_pos hl, if_pos hrem, if_pos ⟨hl, hrem⟩]
      exact rest_own st side order
    · rw [if_pos hl, if_neg hrem, if_neg (fun hc => hrem hc.2)]
  · rw [if_neg hl, if_neg (fun hc => hl hc.1)]

theorem finish_symbol (limit : Bool) (side : OrderSide) (order : Ptr) (st : Loop) :
    (finish limit side order st).2.1.Symbol = st.ob.Symbol ∧
    (finish limit side order st).2.1.tradeSeq = st.ob.tradeSeq := by
  unfold finish rest
  split
  · split
    · cases side <;> exact ⟨rfl, rfl⟩
    · exact ⟨rfl, rfl⟩
  · exact ⟨rfl, rfl⟩

/-- The queues after a submission. -/
theorem submit_queues {w : World} (hw : WellFormed w) {o : Order} {r : World × List Trade}
    (h : w.submit o = some r) :
    (∀ x ∈ r.1.ob.opposite o.Side, x ∈ w.ob.opposite o.Side) ∧
    (∀ x ∈ r.1.ob.own o.Side, x = w.next ∨ x ∈ w.ob.own o.Side) ∧
    (∀ x ∈ w.ob.own o.Side, x ∈ r.1.ob.own o.Side) ∧
    (o.Typ = .MARKET → r.1.ob.own o.Side = w.ob.own o.Side) ∧
    w.next ∉ r.1.ob.opposite o.Side := by
  obtain ⟨st, hst, hm, hob, _, _⟩ := submit_loop h
  have hown := matchLoop_own _ _ _ hst
  have hopp := matchLoop_opposite_subset _ _ _ hst
  have hinv := start_loopInv hw o
  rw [hob]
  refine ⟨?_, ?_, ?_, ?_, ?_⟩
  · intro x hx
    rw [finish_opposite] at hx
    exact hopp x hx
  · intro x hx
    rcases finish_own_mem _ _ _ _ x hx with e | e
    · exact Or.inl e
    · rw [hown] at e; exact Or.inr e
  · intro x hx
    rw [finish_own]
    split
    · exact (heapPush_perm _ _ _).symm.subset (List.mem_cons_of_mem _ (by rw [hown]; exact hx))
    · rw [hown]; exact hx
  · intro ht
    rw [finish_own, if_neg (fun hc => by simp [ht] at hc), hown]
    rfl
  · intro hx
    rw [finish_opposite] at hx
    exact hinv.notin (hopp _ hx)

theorem opposite_lt {w : World} (hw : WellFormed w) (side : OrderSide) :
    ∀ x ∈ w.ob.opposite side, x < w.next := by
  cases side
  · exact hw.sellLt
  · exact hw.buyLt

theorem own_lt {w : World} (hw : WellFormed w) (side : OrderSide) :
    ∀ x ∈ w.ob.own side, x < w.next := by
  cases side
  · exact hw.buyLt
  · exact hw.sellLt

/-- The index after a submission. -/
theorem submit_index {w : World} (hw : WellFormed w) {o : Order} {r : World × List Trade}
    (h : w.submit o = some r) :
    (∀ e ∈ r.1.ob.Orders, e = (o.ID, w.next) ∨ e ∈ w.ob.Orders) ∧
    (∀ e ∈ w.ob.Orders, e ∉ r.1.ob.Orders → e.1 = o.ID ∨
      ∃ b ∈ w.ob.opposite o.Side, b ∉ r.1.ob.opposite o.Side ∧ (w.mem b).ID = e.1) ∧
    (∀ b ∈ w.ob.opposite o.Side, b ∉ r.1.ob.opposite o.Side →
      ∀ e ∈ r.1.ob.Orders, e.1 = (w.mem b).ID → e = (o.ID, w.next)) ∧
    (o.Typ = .MARKET → r.1.ob.Orders.Sublist w.ob.Orders) ∧
    ((w.ob.Orders.map (fun e => e.1)).Nodup → (r.1.ob.Orders.map (fun e => e.1)).Nodup) ∧
    (w.next ∈ r.1.ob.own o.Side → (o.ID, w.next) ∈ r.1.ob.Orders) := by
  obtain ⟨st, hst, hm, hob, _, _⟩ := submit_loop h
  have hinv := start_loopInv hw o
  obtain ⟨f1, f2, _, _, _, _⟩ := matchLoop_frame _ _ _ hinv hst
  have hsl := matchLoop_orders_sublist _ _ _ hst
  have hown := matchLoop_own _ _ _ hst
  have hk := matchLoop_sameKeys _ _ _ hst
  have hid : (st.mem w.next).ID = o.ID := by
    rw [(hk w.next).1]; simp [startLoop, alloc_same]
  have hidb : ∀ b ∈ w.ob.opposite o.Side, ((startLoop (w.alloc o) w.ob w.next).mem b).ID =
      (w.mem b).ID := by
    intro b hb
    show (w.alloc o b).ID = (w.mem b).ID
    rw [alloc_ne w o (Nat.ne_of_lt (opposite_lt hw _ b hb))]
  rw [hob, finish_opposite, finish_orders, finish_own]
  refine ⟨?_, ?_, ?_, ?_, ?_, ?_⟩
  · intro e he
    split at he
    · rcases mapSet_values _ _ _ e he with e1 | e1
      · rw [hid] at e1; exact Or.inl e1
      · exact Or.inr (hsl.subset e1)
    · exact Or.inr (hsl.subset he)
  · intro e he hn
    by_cases hes : e ∈ st.ob.Orders
    · left
      split at hn
      · rw [hid] at hn
        by_contra hne
        exact hn (List.mem_cons_of_mem _ (List.mem_filter.mpr ⟨hes, by simpa using hne⟩))
      · exact absurd hes hn
    · right
      obtain ⟨b, hb, hbn, hbe⟩ := f1 e he hes
      exact ⟨b, hb, hbn, (hidb b hb) ▸ hbe⟩
  · intro b hb hbn e he hee
    have hb' := f2 b hb hbn
    rw [hidb b hb] at hb'
    split at he
    · rcases mapSet_values _ _ _ e he with e1 | e1
      · rw [hid] at e1; exact e1
      · exact absurd hee (hb' e e1)
    · exact absurd hee (hb' e he)
  · intro ht
    rw [if_neg (fun hc => by simp [ht] at hc)]
    exact hsl
  · intro hnd
    have hnd' : (st.ob.Orders.map (fun e => e.1)).Nodup := (hsl.map _).nodup hnd
    split
    · unfold mapSet
      rw [List.map_cons, List.nodup_cons]
      refine ⟨?_, ((mapDelete_sublist _ _).map _).nodup hnd'⟩
      intro hmem
      obtain ⟨e, he, hee⟩ := List.mem_map.mp hmem
      have := (List.mem_filter.mp he).2
      simp only [ne_eq, decide_not, Bool.not_eq_eq_eq_not, Bool.not_true,
        decide_eq_false_iff_not] at this
      exact this hee
    · exact hnd'
  · intro hx
    split
    · rw [hid]; exact List.mem_cons_self _ _
    · next hc =>
      rw [if_neg hc, hown] at hx
      exact absurd (own_lt hw _ _ hx) (Nat.lt_irrefl _)

theorem setStatus_status (mem : Mem) (order q : Ptr) :
    (setStatus mem order q).Status = (mem q).Status ∨ (setStatus mem order q).Status = .FILLED ∨
      (setStatus mem order q).Status = .PARTIAL := by
  unfold setStatus
  split
  · rw [Mem.modify_apply]
    split
    · exact Or.inr (Or.inl rfl)
    · exact Or.inl rfl
  · split
    · rw [Mem.modify_apply]
      split
      · exact Or.inr (Or.inr rfl)
      · exact Or.inl rfl
    · exact Or.inl rfl

theorem finish_status (limit : Bool) (side : OrderSide) (order : Ptr) (st : Loop) (q : Ptr) :
    ((finish limit side order st).1 q).Status = (st.mem q).Status ∨
      ((finish limit side order st).1 q).Status = .FILLED ∨
      ((finish limit side order st).1 q).Status = .PARTIAL := by
  have hrest : ((rest st side order).1 q).Status = (st.mem q).Status := by
    rw [rest_mem, Mem.modify_apply]
    split
    · next e => rw [e]
    · rfl
  unfold finish
  split
  · split
    · have := setStatus_status (rest st side order).1 order q
      rw [hrest] at this
      exact this
    · exact setStatus_status _ _ _
  · exact setStatus_status _ _ _

/-- The order objects after a submission. -/
theorem submit_mem {w : World} (hw : WellFormed w) {o : Order} {r : World × List Trade}
    (h : w.submit o = some r) :
    (∀ q, q ≠ w.next → q ∉ w.ob.opposite o.Side → r.1.mem q = w.mem q) ∧
    (∀ q ∈ r.1.ob.opposite o.Side, r.1.mem q = { w.mem q with Filled := (r.1.mem q).Filled }) ∧
    (∀ q, (r.1.mem q).Status = (w.alloc o q).Status ∨ (r.1.mem q).Status = .FILLED ∨
      (r.1.mem q).Status = .PARTIAL) ∧
    (∀ x ∈ w.ob.opposite o.Side, x ∉ r.1.ob.opposite o.Side →
      (r.1.mem x).Filled = (r.1.mem x).Quantity ∧ (r.1.mem x).Status = .FILLED) := by
  obtain ⟨st, hst, hm, hob, _, _⟩ := submit_loop h
  have hinv := start_loopInv hw o
  obtain ⟨_, _, f3, f4, f5, _⟩ := matchLoop_frame _ _ _ hinv hst
  have hrm := matchLoop_removed_filled _ _ _ hinv hst
  have hopp := matchLoop_opposite_subset _ _ _ hst
  rw [hm, hob, finish_opposite]
  refine ⟨?_, ?_, ?_, ?_⟩
  · intro q hq hqn
    rw [finish_mem_ne _ _ _ hq, f3 q hq hqn]
    exact alloc_ne w o hq
  · intro q hq
    have hqlt : q ≠ w.next := Nat.ne_of_lt (opposite_lt hw _ q (hopp q hq))
    rw [finish_mem_ne _ _ _ hqlt]
    have := f4 q hq
    have e : (startLoop (w.alloc o) w.ob w.next).mem q = w.mem q := alloc_ne w o hqlt
    rw [e] at this
    exact this
  · intro q
    rcases finish_status (decide (o.Typ ≠ .MARKET)) o.Side w.next st q with e | e | e
    · rcases f5 q with e2 | e2
      · exact Or.inl (e.trans e2)
      · exact Or.inr (Or.inl (e.trans e2))
    · exact Or.inr (Or.inl e)
    · exact Or.inr (Or.inr e)
  · intro x hx hxn
    have hxlt : x ≠ w.next := Nat.ne_of_lt (opposite_lt hw _ x hx)
    rw [finish_mem_ne _ _ _ hxlt]
    exact hrm x hx hxn

/-! ## What a cancel changes -/

theorem rebuildStep_mem (mem : Mem) (q : List Ptr × List Ptr) (v x : Ptr) :
    (x ∈ (rebuildStep mem q v).1 ↔
      x ∈ q.1 ∨ (x = v ∧ (mem x).Status ≠ .CANCELLED ∧ (mem x).Side = .BUY)) ∧
    (x ∈ (rebuildStep mem q v).2 ↔
      x ∈ q.2 ∨ (x = v ∧ (mem x).Status ≠ .CANCELLED ∧ (mem x).Side ≠ .BUY)) := by
  unfold rebuildStep
  by_cases hs : (mem v).Status ≠ .CANCELLED
  · rw [if_pos hs]
    by_cases hb : (mem v).Side = .BUY
    · rw [if_pos hb]
      simp only
      constructor
      · rw [(heapPush_perm _ _ _).mem_iff, List.mem_cons]
        constructor
        · rintro (e | e)
          · exact Or.inr ⟨e, e ▸ hs, e ▸ hb⟩
          · exact Or.inl e
        · rintro (e | ⟨e, _, _⟩)
          · exact Or.inr e
          · exact Or.inl e
      · constructor
        · exact Or.inl
        · rintro (e | ⟨e, _, e3⟩)
          · exact e
          · exact absurd (e ▸ hb) e3
    · rw [if_neg hb]
      simp only
      constructor
      · constructor
        · exact Or.inl
        · rintro (e | ⟨e, _, e3⟩)
          · exact e
          · exact absurd e3 (e ▸ hb)
      · rw [(heapPush_perm _ _ _).mem_iff, List.mem_cons]
        constructor
        · rintro (e | e)
          · exact Or.inr ⟨e, e ▸ hs, e ▸ hb⟩
          · exact Or.inl e
        · rintro (e | ⟨e, _, _⟩)
          · exact Or.inr e
          · exact Or.inl e
  · rw [if_neg hs]
    constructor
    · constructor
      · exact Or.inl
      · rintro (e | ⟨e, e2, _⟩)
        · exact e
        · exact absurd (e ▸ e2) hs
    · constructor
      · exact Or.inl
      · rintro (e | ⟨e, e2, _⟩)
        · exact e
        · exact absurd (e ▸ e2) hs

/-- The queues built by `rebuildQueues`: the visited orders that are not cancelled, each in
the queue of its side. -/
theorem rebuild_foldl_mem (mem : Mem) (x : Ptr) :
    ∀ (vs : List Ptr) (q : List Ptr × List Ptr),
      (x ∈ (vs.foldl (rebuildStep mem) q).1 ↔
        x ∈ q.1 ∨ (x ∈ vs ∧ (mem x).Status ≠ .CANCELLED ∧ (mem x).Side = .BUY)) ∧
      (x ∈ (vs.foldl (rebuildStep mem) q).2 ↔
        x ∈ q.2 ∨ (x ∈ vs ∧ (mem x).Status ≠ .CANCELLED ∧ (mem x).Side ≠ .BUY)) := by
  intro vs
  induction vs with
  | nil => intro q; simp
  | cons v vs ih =>
    intro q
    simp only [List.foldl_cons, List.mem_cons]
    obtain ⟨a1, a2⟩ := ih (rebuildStep mem q v)
    obtain ⟨b1, b2⟩ := rebuildStep_mem mem q v x
    rw [a1, a2, b1, b2]
    constructor
    · constructor
      · rintro ((e | ⟨e, s, b⟩) | ⟨e, s, b⟩)
        · exact Or.inl e
        · exact Or.inr ⟨Or.inl e, s, b⟩
        · exact Or.inr ⟨Or.inr e, s, b⟩
      · rintro (e | ⟨e | e, s, b⟩)
        · exact Or.inl (Or.inl e)
        · exact Or.inl (Or.inr ⟨e, s, b⟩)
        · exact Or.inr ⟨e, s, b⟩
    · constructor
      · rintro ((e | ⟨e, s, b⟩) | ⟨e, s, b⟩)
        · exact Or.inl e
        · exact Or.inr ⟨Or.inl e, s, b⟩
        · exact Or.inr ⟨Or.inr e, s, b⟩
      · rintro (e | ⟨e | e, s, b⟩)
        · exact Or.inl (Or.inl e)
        · exact Or.inl (Or.inr ⟨e, s, b⟩)
        · exact Or.inr ⟨e, s, b⟩

theorem cancel_some {w : World} {orderID : String} {p : Ptr}
    (hg : mapGet w.ob.Orders orderID = some p) (iter : OrderMap) :
    (w.cancel orderID iter).2 = true ∧
    (w.cancel orderID iter).1.mem = w.mem.modify p (fun o => { o with Status := .CANCELLED }) ∧
    (w.cancel orderID iter).1.next = w.next ∧
    (w.cancel orderID iter).1.ob.Orders = mapDelete w.ob.Orders orderID ∧
    (w.cancel orderID iter).1.ob.Symbol = w.ob.Symbol ∧
    (w.cancel orderID iter).1.ob.tradeSeq = w.ob.tradeSeq ∧
    (∀ x, x ∈ (w.cancel orderID iter).1.ob.BuyOrders ↔
      x ∈ iter.map (fun e => e.2) ∧ ((w.cancel orderID iter).1.mem x).Status ≠ .CANCELLED ∧
        (w.mem x).Side = .BUY) ∧
    (∀ x, x ∈ (w.cancel orderID iter).1.ob.SellOrders ↔
      x ∈ iter.map (fun e => e.2) ∧ ((w.cancel orderID iter).1.mem x).Status ≠ .CANCELLED ∧
        (w.mem x).Side = .SELL) := by
  have hside : ∀ x, ((w.mem.modify p (fun o => { o with Status := .CANCELLED })) x).Side =
      (w.mem x).Side := by
    intro x
    rw [Mem.modify_apply]
    split
    · next e => rw [e]
    · rfl
  have hc : CancelOrder w.mem w.ob orderID iter =
      (w.mem.modify p (fun o => { o with Status := .CANCELLED }),
        rebuildQueues (w.mem.modify p (fun o => { o with Status := .CANCELLED }))
          { w.ob with Orders := mapDelete w.ob.Orders orderID } iter, true) := by
    simp only [CancelOrder, hg]
  unfold World.cancel
  rw [hc]
  refine ⟨rfl, rfl, rfl, rfl, rfl, rfl, ?_, ?_⟩
  · intro x
    unfold rebuildQueues
    simp only
    rw [(rebuild_foldl_mem _ x _ _).1, hside]
    simp
  · intro x
    unfold rebuildQueues
    simp only
    rw [(rebuild_foldl_mem _ x _ _).2, hside]
    have : (w.mem x).Side ≠ .BUY ↔ (w.mem x).Side = .SELL := by
      cases (w.mem x).Side <;> simp
    rw [this]
    simp

theorem cancel_none {w : World} {orderID : String}
    (hg : mapGet w.ob.Orders orderID = none) (iter : OrderMap) :
    w.cancel orderID iter = (w, false) := by
  unfold World.cancel CancelOrder
  simp only [hg]

theorem mapGet_none_iff (m : OrderMap) (k : String) :
    mapGet m k = none ↔ k ∉ m.map (fun e => e.1) := by
  rw [← mapGet_isSome_iff]
  cases mapGet m k <;> simp

/-! ## The index and the queues of a reachable book -/

theorem own_opposite_disjoint {w : World} (hw : WellFormed w) (side : OrderSide) (p : Ptr) :
    p ∈ w.ob.own side → p ∈ w.ob.opposite side → False := by
  intro h1 h2
  cases side
  · have a := hw.buySide p h1
    have b := hw.sellSide p h2
    rw [a] at b; exact absurd b (by decide)
  · have a := hw.sellSide p h1
    have b := hw.buySide p h2
    rw [a] at b; exact absurd b (by decide)

theorem own_side {w : World} (hw : WellFormed w) (side : OrderSide) :
    ∀ p ∈ w.ob.own side, (w.mem p).Side = side := by
  cases side
  · exact hw.buySide
  · exact hw.sellSide

theorem opposite_side {w : World} (hw : WellFormed w) (side : OrderSide) :
    ∀ p ∈ w.ob.opposite side, (w.mem p).Side = side.flip := by
  cases side
  · exact hw.sellSide
  · exact hw.buySide

theorem submit_queues_old {w : World} (hw : WellFormed w) {o : Order} {r : World × List Trade}
    (h : w.submit o = some r) :
    ∀ p, (p ∈ r.1.ob.BuyOrders ∨ p ∈ r.1.ob.SellOrders) →
      p = w.next ∨ (p ∈ w.ob.BuyOrders ∨ p ∈ w.ob.SellOrders) := by
  intro p hp
  obtain ⟨q1, q2, _, _, _⟩ := submit_queues hw h
  rw [own_or_opposite w.ob o.Side p]
  rcases (own_or_opposite r.1.ob o.Side p).mp hp with e | e
  · rcases q2 p e with e2 | e2
    · exact Or.inl e2
    · exact Or.inr (Or.inl e2)
  · exact Or.inr (Or.inr (q1 p e))

/-- Every index entry is stored under the id of its order, and no key occurs twice. -/
theorem Reachable.keyed {subs : List Order} {w : World} (h : Reachable subs w) :
    (∀ e ∈ w.ob.Orders, (w.mem e.2).ID = e.1) ∧ (w.ob.Orders.map (fun e => e.1)).Nodup := by
  induction h with
  | init symbol => simp [World.init, NewOrderBook]
  | @add subs w o r hr hs ih =>
    have hw := hr.wellFormed
    obtain ⟨x1, _, _, _, x5, _⟩ := submit_index hw hs
    obtain ⟨hk, _⟩ := submit_sameKeys hs
    refine ⟨?_, x5 ih.2⟩
    intro e he
    rw [(hk e.2).1]
    rcases x1 e he with e1 | e1
    · rw [e1, alloc_same]
    · rw [alloc_ne w o (Nat.ne_of_lt (hw.indexLt e e1))]
      exact ih.1 e e1
  | @cancel subs w orderID iter hr hp ih =>
    cases hg : mapGet w.ob.Orders orderID with
    | none => rw [cancel_none hg]; exact ih
    | some p =>
      obtain ⟨_, _, _, c4, _⟩ := cancel_some hg iter
      have hk := (cancel_sameKeys w orderID iter).1
      rw [c4]
      refine ⟨?_, ((mapDelete_sublist _ _).map _).nodup ih.2⟩
      intro e he
      rw [(hk e.2).1]
      exact ih.1 e ((mapDelete_sublist _ _).subset he)

/-- With pairwise distinct submitted ids, every queued order is the index entry stored
under its own id. -/
theorem Reachable.queued {subs : List Order} {w : World} (h : Reachable subs w) :
    (subs.map (fun o => o.ID)).Nodup →
    ∀ p, (p ∈ w.ob.BuyOrders ∨ p ∈ w.ob.SellOrders) → ((w.mem p).ID, p) ∈ w.ob.Orders := by
  induction h with
  | init symbol => intro _ p hp; simp [World.init, NewOrderBook] at hp
  | @add subs w o r hr hs ih =>
    intro hids p hp
    have hids0 : (subs.map (fun o => o.ID)).Nodup := by
      rw [List.map_append] at hids
      exact (List.nodup_append.mp hids).1
    have hw := hr.wellFormed
    have hr1 : Reachable (subs ++ [o]) r.1 := Reachable.add o r hr hs
    have inj1 := hr1.id_inj hids
    have inj0 := hr.id_inj hids0
    obtain ⟨q1, q2, _, _, _⟩ := submit_queues hw hs
    obtain ⟨_, x2, _, _, _, x6⟩ := submit_index hw hs
    obtain ⟨hk, hnext⟩ := submit_sameKeys hs
    have hidn : (r.1.mem w.next).ID = o.ID := by rw [(hk w.next).1, alloc_same]
    have hidp : ∀ q, q < w.next → (r.1.mem q).ID = (w.mem q).ID := by
      intro q hq
      rw [(hk q).1, alloc_ne w o (Nat.ne_of_lt hq)]
    have old : ∀ q, (q ∈ w.ob.own o.Side ∨ q ∈ w.ob.opposite o.Side) →
        (q ∈ w.ob.opposite o.Side → q ∈ r.1.ob.opposite o.Side) →
        ((r.1.mem q).ID, q) ∈ r.1.ob.Orders := by
      intro q hq hopp
      have hqlt : q < w.next := by
        rcases hq with e | e
        · exact own_lt hw _ q e
        · exact opposite_lt hw _ q e
      have hi := ih hids0 q ((own_or_opposite w.ob o.Side q).mpr hq)
      rw [hidp q hqlt]
      by_contra hn
      rcases x2 _ hi hn with e | ⟨b, hb, hbn, hbe⟩
      · simp only at e
        have : q = w.next := inj1 q w.next (by rw [hnext]; exact Nat.lt_succ_of_lt hqlt)
          (by rw [hnext]; exact Nat.lt_succ_self _) (by rw [hidp q hqlt, hidn]; exact e)
        exact absurd hqlt (this ▸ Nat.lt_irrefl _)
      · simp only at hbe
        have hbq : b = q := inj0 b q (opposite_lt hw _ b hb) hqlt hbe
        subst hbq
        rcases hq with e | e
        · exact own_opposite_disjoint hw _ b e hb
        · exact hbn (hopp e)
    rcases (own_or_opposite r.1.ob o.Side p).mp hp with e | e
    · rcases q2 p e with e1 | e1
      · subst e1
        rw [hidn]
        exact x6 e
      · exact old p (Or.inl e1) (fun h2 => absurd h2 (fun h3 => own_opposite_disjoint hw _ p e1 h3))
    · exact old p (Or.inr (q1 p e)) (fun _ => e)
  | @cancel subs w orderID iter hr hp ih =>
    intro hids p hpq
    cases hg : mapGet w.ob.Orders orderID with
    | none => rw [cancel_none hg] at hpq ⊢; exact ih hids p hpq
    | some p0 =>
      have hr1 : Reachable subs (w.cancel orderID iter).1 := Reachable.cancel orderID iter hr hp
      obtain ⟨_, _, _, c4, _, _, c7, c8⟩ := cancel_some hg iter
      have hv : p ∈ iter.map (fun e => e.2) := by
        rcases hpq with e | e
        · exact ((c7 p).mp e).1
        · exact ((c8 p).mp e).1
      obtain ⟨e, he, hee⟩ := List.mem_map.mp hv
      have he' : e ∈ (w.cancel orderID iter).1.ob.Orders := by
        rw [c4]; exact hp.subset he
      have := hr1.keyed.1 e he'
      rw [hee] at this
      rw [this, ← hee]
      exact he'

/-- When no order was submitted with status `CANCELLED`, no queued or indexed order has
that status. -/
theorem Reachable.live {subs : List Order} {w : World} (h : Reachable subs w) :
    (∀ o ∈ subs, o.Status ≠ .CANCELLED) →
    ∀ p, (p ∈ w.ob.BuyOrders ∨ p ∈ w.ob.SellOrders ∨ p ∈ w.ob.Orders.map (fun e => e.2)) →
      (w.mem p).Status ≠ .CANCELLED := by
  induction h with
  | init symbol => intro _ p hp; simp [World.init, NewOrderBook] at hp
  | @add subs w o r hr hs ih =>
    intro hst p hp
    have hst0 : ∀ o ∈ subs, o.Status ≠ .CANCELLED :=
      fun x hx => hst x (List.mem_append_left _ hx)
    have ho : o.Status ≠ .CANCELLED := hst o (by simp)
    have hw := hr.wellFormed
    obtain ⟨q1, q2, _, _, _⟩ := submit_queues hw hs
    obtain ⟨x1, _, _, _, _, _⟩ := submit_index hw hs
    obtain ⟨_, _, m3, _⟩ := submit_mem hw hs
    have hcase : p = w.next ∨ (p ≠ w.next ∧
        (p ∈ w.ob.BuyOrders ∨ p ∈ w.ob.SellOrders ∨ p ∈ w.ob.Orders.map (fun e => e.2))) := by
      by_cases hpn : p = w.next
      · exact Or.inl hpn
      · right
        refine ⟨hpn, ?_⟩
        rw [← or_assoc] at hp ⊢
        rcases hp with e | e
        · left
          rcases submit_queues_old hw hs p e with e2 | e2
          · exact absurd e2 hpn
          · exact e2
        · obtain ⟨e0, he0, hee⟩ := List.mem_map.mp e
          rcases x1 e0 he0 with e2 | e2
          · rw [e2] at hee; exact absurd hee.symm hpn
          · exact Or.inr (List.mem_map.mpr ⟨e0, e2, hee⟩)
    rcases m3 p with e | e | e
    · rw [e]
      rcases hcase with e1 | ⟨e1, e2⟩
      · rw [e1, alloc_same]; exact ho
      · rw [alloc_ne w o e1]; exact ih hst0 p e2
    · rw [e]; decide
    · rw [e]; decide
  | @cancel subs w orderID iter hr hp ih =>
    intro hst p hpq
    cases hg : mapGet w.ob.Orders orderID with
    | none => rw [cancel_none hg] at hpq ⊢; exact ih hst p hpq
    | some p0 =>
      obtain ⟨_, c2, _, c4, _, _, c7, c8⟩ := cancel_some hg iter
      rcases hpq with e | e | e
      · exact ((c7 p).mp e).2.1
      · exact ((c8 p).mp e).2.1
      · rw [c4] at e
        obtain ⟨e0, he0, hee⟩ := List.mem_map.mp e
        have hmem := (mapDelete_sublist _ _).subset he0
        have hne : e0.1 ≠ orderID := by
          have := (List.mem_filter.mp he0).2
          simpa using this
        have hpp : p ≠ p0 := by
          intro hc
          have := List.inj_on_of_nodup_map hr.wellFormed.indexNodup hmem (mapGet_mem hg)
            (by rw [hee, hc])
          rw [this] at hne
          exact hne rfl
        rw [c2, Mem.modify_ne _ _ hpp]
        exact ih hst p (Or.inr (Or.inr (List.mem_map.mpr ⟨e0, hmem, hee⟩)))

theorem submit_index_new {w : World} (hw : WellFormed w) {o : Order} {r : World × List Trade}
    (h : w.submit o = some r) :
    ∀ e ∈ r.1.ob.Orders, e.2 = w.next → w.next ∈ r.1.ob.own o.Side := by
  obtain ⟨st, hst, hm, hob, _, _⟩ := submit_loop h
  have hsl := matchLoop_orders_sublist _ _ _ hst
  rw [hob, finish_orders, finish_own]
  intro e he hee
  split
  · exact (heapPush_perm _ _ _).symm.subset (List.mem_cons_self _ _)
  · next hc =>
    rw [if_neg hc] at he
    have := hw.indexLt e (hsl.subset he)
    rw [hee] at this
    exact absurd this (Nat.lt_irrefl _)

/-- When no order was submitted with status `CANCELLED`, every index entry is in the queue
of its side. -/
theorem Reachable.indexed {subs : List Order} {w : World} (h : Reachable subs w) :
    (∀ o ∈ subs, o.Status ≠ .CANCELLED) →
    ∀ e ∈ w.ob.Orders, e.2 ∈ w.ob.own (w.mem e.2).Side := by
  induction h with
  | init symbol => intro _ e he; simp [World.init, NewOrderBook] at he
  | @add subs w o r hr hs ih =>
    intro hst e he
    have hst0 : ∀ o ∈ subs, o.Status ≠ .CANCELLED :=
      fun x hx => hst x (List.mem_append_left _ hx)
    have hw := hr.wellFormed
    obtain ⟨_, _, q3, _, _⟩ := submit_queues hw hs
    obtain ⟨x1, _, x3, _, _, _⟩ := submit_index hw hs
    obtain ⟨hk, hnext⟩ := submit_sameKeys hs
    by_cases hen : e.2 = w.next
    · rw [(hk e.2).2.2.1, hen, alloc_same]
      exact submit_index_new hw hs e he hen
    · have hold : e ∈ w.ob.Orders := by
        rcases x1 e he with e1 | e1
        · rw [e1] at hen; exact absurd rfl hen
        · exact e1
      have hi := ih hst0 e hold
      rw [(hk e.2).2.2.1, alloc_ne w o hen]
      by_cases hside : (w.mem e.2).Side = o.Side
      · rw [hside] at hi ⊢
        exact q3 _ hi
      · have hflip : (w.mem e.2).Side = o.Side.flip := by
          cases h1 : (w.mem e.2).Side <;> cases h2 : o.Side <;> simp_all [OrderSide.flip]
        rw [hflip] at hi ⊢
        rw [← opposite_eq_own_flip] at hi ⊢
        by_contra hn
        have := x3 e.2 hi hn e he (hr.keyed.1 e hold).symm
        rw [this] at hen
        exact hen rfl
  | @cancel subs w orderID iter hr hp ih =>
    intro hst e he
    cases hg : mapGet w.ob.Orders orderID with
    | none => rw [cancel_none hg] at he ⊢; exact ih hst e he
    | some p0 =>
      have hr1 : Reachable subs (w.cancel orderID iter).1 := Reachable.cancel orderID iter hr hp
      have hlive := hr1.live hst e.2 (Or.inr (Or.inr (List.mem_map_of_mem _ he)))
      obtain ⟨_, c2, _, c4, _, _, c7, c8⟩ := cancel_some hg iter
      have hk := (cancel_sameKeys w orderID iter).1
      have hv : e.2 ∈ iter.map (fun e => e.2) := by
        rw [c4] at he
        exact List.mem_map_of_mem _ (hp.symm.subset he)
      rw [(hk e.2).2.2.1]
      cases hside : (w.mem e.2).Side with
      | BUY => exact (c7 e.2).mpr ⟨hv, hlive, hside⟩
      | SELL => exact (c8 e.2).mpr ⟨hv, hlive, hside⟩

/-! ## MARKET orders never rest -/

theorem filter_eq_of_sublist {α : Type} (p : α → Bool) {l1 l2 : List α} (hs : l1.Sublist l2) :
    l2.Nodup → (∀ x ∈ l2, p x = true → x ∈ l1) → l1.filter p = l2.filter p := by
  induction hs with
  | slnil => intro _ _; rfl
  | @cons l1 l2 a hs ih =>
    intro hnd hall
    have hnd' := List.nodup_cons.mp hnd
    have hpa : p a = false := by
      cases hp : p a with
      | false => rfl
      | true => exact absurd (hs.subset (hall a (List.mem_cons_self _ _) hp)) hnd'.1
    rw [List.filter_cons_of_neg (by simp [hpa])]
    exact ih hnd'.2 (fun x hx hp => hall x (List.mem_cons_of_mem _ hx) hp)
  | @cons₂ l1 l2 a hs ih =>
    intro hnd hall
    have hnd' := List.nodup_cons.mp hnd
    have hrec : l1.filter p = l2.filter p := by
      refine ih hnd'.2 (fun x hx hp => ?_)
      rcases List.mem_cons.mp (hall x (List.mem_cons_of_mem _ hx) hp) with e | e
      · exact absurd (e ▸ hx) hnd'.1
      · exact e
    simp only [List.filter_cons, hrec]

/-- C11 (a MARKET order never rests), the claim at an input where it fails.  The book is
reached by a LIMIT SELL `x` of 1 at 100 and a LIMIT BUY `x` of 1 at 99, which both rest;
the index then holds the one entry `x`, the BUY.  A MARKET BUY of 1 fills the SELL `x` and
deletes the index entry `x`: the bid queue, the order's own side, still holds the BUY,
but the index entry of that side is gone. -/
theorem market_order_shared_id :
    Reachable [limitOrder "x" .SELL 100 1 1, limitOrder "x" .BUY 99 1 2] bookSharedID ∧
    bookSharedID.ob.Orders = [("x", 1)] ∧ (bookSharedID.mem 1).Side = .BUY ∧
    bookSharedID.ob.BuyOrders = [1] ∧ bookSharedID.ob.SellOrders = [0] ∧
    (bookSharedID.submit (marketOrder "m" .BUY 1 3)).map
      (fun r => r.2.map (fun t => (t.BuyOrderID, t.SellOrderID, t.Quantity))) =
      some [("m", "x", 1)] ∧
    (bookSharedID.submit (marketOrder "m" .BUY 1 3)).map
      (fun r => (r.1.ob.BuyOrders, r.1.ob.SellOrders, r.1.ob.Orders)) =
      some ([1], [], []) := by
  refine ⟨((Reachable.init "X").after _).after _, by decide, by decide, by decide, by decide,
    by decide, by decide⟩

theorem submit_index_market {w : World} (hw : WellFormed w) {o : Order}
    {r : World × List Trade} (h : w.submit o = some r) (ho : o.Typ = .MARKET) :
    ∀ e ∈ w.ob.Orders, e ∉ r.1.ob.Orders →
      ∃ b ∈ w.ob.opposite o.Side, b ∉ r.1.ob.opposite o.Side ∧ (w.mem b).ID = e.1 := by
  obtain ⟨st, hst, hm, hob, _, _⟩ := submit_loop h
  have hinv := start_loopInv hw o
  obtain ⟨f1, _, _, _, _, _⟩ := matchLoop_frame _ _ _ hinv hst
  rw [hob, finish_opposite, finish_orders, if_neg (fun hc => by simp [ho] at hc)]
  intro e he hn
  obtain ⟨b, hb, hbn, hbe⟩ := f1 e he hn
  refine ⟨b, hb, hbn, ?_⟩
  rw [← hbe]
  show (w.mem b).ID = (w.alloc o b).ID
  rw [alloc_ne w o (Nat.ne_of_lt (opposite_lt hw _ b hb))]

/-- C11 (a MARKET order never rests), as amended.  In every book reachable by `AddOrder`
and `CancelOrder` calls on orders with pairwise distinct ids, `AddOrder` of a new MARKET
order returns, and afterwards: the order is in neither queue and is no value of the
index, which has only lost entries; the queue of the order's own side is the same list
and the index entries of that side are the same; every order still in the opposite queue
was there before, differs from its earlier state at most in `Filled` and keeps its index
entry; every order that left the opposite queue has `Filled = Quantity`, status `FILLED`
and no index entry; no other index entry was removed; and every other order object is
unchanged. -/
theorem market_order_never_rests {subs : List Order} {w : World} (hr : Reachable subs w)
    (hids : (subs.map (fun o => o.ID)).Nodup) (o : Order) (ho : o.Typ = .MARKET) :
    ∃ r, w.submit o = some r ∧
      w.next ∉ r.1.ob.BuyOrders ∧ w.next ∉ r.1.ob.SellOrders ∧
      w.next ∉ r.1.ob.Orders.map (fun e => e.2) ∧
      r.1.ob.Orders.Sublist w.ob.Orders ∧
      r.1.ob.own o.Side = w.ob.own o.Side ∧
      r.1.ob.Orders.filter (fun e => decide ((w.mem e.2).Side = o.Side)) =
        w.ob.Orders.filter (fun e => decide ((w.mem e.2).Side = o.Side)) ∧
      (r.1.ob.opposite o.Side).Nodup ∧
      (∀ x ∈ r.1.ob.opposite o.Side, x ∈ w.ob.opposite o.Side ∧
        r.1.mem x = { w.mem x with Filled := (r.1.mem x).Filled } ∧
        ((w.mem x).ID, x) ∈ r.1.ob.Orders) ∧
      (∀ x ∈ w.ob.opposite o.Side, x ∉ r.1.ob.opposite o.Side →
        (r.1.mem x).Filled = (r.1.mem x).Quantity ∧ (r.1.mem x).Status = .FILLED ∧
        (w.mem x).ID ∉ r.1.ob.Orders.map (fun e => e.1)) ∧
      (∀ e ∈ w.ob.Orders, e ∉ r.1.ob.Orders →
        e.2 ∈ w.ob.opposite o.Side ∧ e.2 ∉ r.1.ob.opposite o.Side) ∧
      (∀ q, q ≠ w.next → q ∉ w.ob.opposite o.Side → r.1.mem q = w.mem q) := by
  obtain ⟨r, hs⟩ := submit_total w o
  refine ⟨r, hs, ?_⟩
  have hw := hr.wellFormed
  have hw1 := (Reachable.add o r hr hs).wellFormed
  obtain ⟨q1, _, _, q4, q5⟩ := submit_queues hw hs
  obtain ⟨_, _, x3, x4, _, _⟩ := submit_index hw hs
  obtain ⟨m1, m2, _, m4⟩ := submit_mem hw hs
  have xm := submit_index_market hw hs ho
  have hkey := hr.keyed
  have inj0 := hr.id_inj hids
  have hsub := x4 ho
  have hval : w.next ∉ r.1.ob.Orders.map (fun e => e.2) := by
    intro hm
    obtain ⟨e, he, hee⟩ := List.mem_map.mp hm
    have := hw.indexLt e (hsub.subset he)
    rw [hee] at this
    exact absurd this (Nat.lt_irrefl _)
  have hnot : ¬ (w.next ∈ r.1.ob.BuyOrders ∨ w.next ∈ r.1.ob.SellOrders) := by
    rw [own_or_opposite r.1.ob o.Side]
    rintro (e | e)
    · rw [q4 ho] at e
      exact absurd (own_lt hw _ _ e) (Nat.lt_irrefl _)
    · exact q5 e
  have hremoved : ∀ e ∈ w.ob.Orders, e ∉ r.1.ob.Orders →
      e.2 ∈ w.ob.opposite o.Side ∧ e.2 ∉ r.1.ob.opposite o.Side := by
    intro e he hn
    obtain ⟨b, hb, hbn, hbe⟩ := xm e he hn
    have : b = e.2 := inj0 b e.2 (opposite_lt hw _ b hb) (hw.indexLt e he)
      (by rw [hbe, hkey.1 e he])
    rw [← this]
    exact ⟨hb, hbn⟩
  refine ⟨fun h => hnot (Or.inl h), fun h => hnot (Or.inr h), hval, hsub, q4 ho, ?_, ?_, ?_, ?_,
    hremoved, m1⟩
  · refine filter_eq_of_sublist _ hsub (List.Nodup.of_map _ hkey.2) ?_
    intro e he hp
    by_contra hn
    have hside := opposite_side hw o.Side e.2 (hremoved e he hn).1
    have hp' : (w.mem e.2).Side = o.Side := by simpa using hp
    rw [hp'] at hside
    cases hc : o.Side <;> rw [hc] at hside <;> exact absurd hside (by decide)
  · cases o.Side
    · exact hw1.sellNodup
    · exact hw1.buyNodup
  · intro x hx
    have hxo := q1 x hx
    refine ⟨hxo, m2 x hx, ?_⟩
    have hin := hr.queued hids x ((own_or_opposite w.ob o.Side x).mpr (Or.inr hxo))
    by_contra hn
    exact (hremoved _ hin hn).2 hx
  · intro x hx hxn
    obtain ⟨a1, a2⟩ := m4 x hx hxn
    refine ⟨a1, a2, ?_⟩
    intro hm
    obtain ⟨e, he, hee⟩ := List.mem_map.mp hm
    have := x3 x hx hxn e he hee
    apply hval
    rw [List.mem_map]
    exact ⟨e, he, by rw [this]⟩

/-- Witness of C11: on the book with one ask `a` of 5 at 100, a MARKET BUY of 7 trades 5
and its remainder of 2 is not rested. -/
theorem market_order_never_rests_witness :
    ([limitOrder "a" .SELL 100 5 1].map (fun o => o.ID)).Nodup ∧
    (marketOrder "m" .BUY 7 2).Typ = .MARKET ∧
    (bookOneAsk.submit (marketOrder "m" .BUY 7 2)).map
      (fun r => (totalTraded r.2, r.1.ob.BuyOrders, r.1.ob.SellOrders, r.1.ob.Orders)) =
      some (5, [], [], []) ∧
    ∃ r, bookOneAsk.submit (marketOrder "m" .BUY 7 2) = some r ∧
      bookOneAsk.next ∉ r.1.ob.BuyOrders ∧ bookOneAsk.next ∉ r.1.ob.SellOrders ∧
      bookOneAsk.next ∉ r.1.ob.Orders.map (fun e => e.2) ∧
      r.1.ob.Orders.Sublist bookOneAsk.ob.Orders ∧
      r.1.ob.own (marketOrder "m" .BUY 7 2).Side =
        bookOneAsk.ob.own (marketOrder "m" .BUY 7 2).Side ∧
      r.1.ob.Orders.filter
          (fun e => decide ((bookOneAsk.mem e.2).Side = (marketOrder "m" .BUY 7 2).Side)) =
        bookOneAsk.ob.Orders.filter
          (fun e => decide ((bookOneAsk.mem e.2).Side = (marketOrder "m" .BUY 7 2).Side)) ∧
      (r.1.ob.opposite (marketOrder "m" .BUY 7 2).Side).Nodup ∧
      (∀ x ∈ r.1.ob.opposite (marketOrder "m" .BUY 7 2).Side,
        x ∈ bookOneAsk.ob.opposite (marketOrder "m" .BUY 7 2).Side ∧
        r.1.mem x = { bookOneAsk.mem x with Filled := (r.1.mem x).Filled } ∧
        ((bookOneAsk.mem x).ID, x) ∈ r.1.ob.Orders) ∧
      (∀ x ∈ bookOneAsk.ob.opposite (marketOrder "m" .BUY 7 2).Side,
        x ∉ r.1.ob.opposite (marketOrder "m" .BUY 7 2).Side →
        (r.1.mem x).Filled = (r.1.mem x).Quantity ∧ (r.1.mem x).Status = .FILLED ∧
        (bookOneAsk.mem x).ID ∉ r.1.ob.Orders.map (fun e => e.1)) ∧
      (∀ e ∈ bookOneAsk.ob.Orders, e ∉ r.1.ob.Orders →
        e.2 ∈ bookOneAsk.ob.opposite (marketOrder "m" .BUY 7 2).Side ∧
        e.2 ∉ r.1.ob.opposite (marketOrder "m" .BUY 7 2).Side) ∧
      (∀ q, q ≠ bookOneAsk.next →
        q ∉ bookOneAsk.ob.opposite (marketOrder "m" .BUY 7 2).Side →
        r.1.mem q = bookOneAsk.mem q) :=
  ⟨by decide, rfl, by decide,
    market_order_never_rests reachable_bookOneAsk (by decide) (marketOrder "m" .BUY 7 2) rfl⟩

/-! ## The effect of a successful cancel -/

/-- C13 (effect of a successful cancel), the claim at an input where it fails.  The book
is reached by two LIMIT BUYs with distinct ids, `a` at 99, submitted with status
`CANCELLED`, and `b` at 98; both rest.  `CancelOrder` of `b` returns true, and its rebuild
leaves `a`, which skips the test `order.Status != CANCELLED`, out of the bid queue,
although `a` is still in the index. -/
theorem cancel_drops_order_submitted_cancelled :
    Reachable [{ limitOrder "a" .BUY 99 1 1 with Status := .CANCELLED },
      limitOrder "b" .BUY 98 1 2] bookCancelledInput ∧
    bookCancelledInput.ob.BuyOrders = [0, 1] ∧
    bookCancelledInput.ob.Orders = [("b", 1), ("a", 0)] ∧
    mapDelete bookCancelledInput.ob.Orders "b" = [("a", 0)] ∧
    (bookCancelledInput.cancel "b" [("a", 0)]).2 = true ∧
    (bookCancelledInput.cancel "b" [("a", 0)]).1.ob.BuyOrders = [] ∧
    (bookCancelledInput.cancel "b" [("a", 0)]).1.ob.Orders = [("a", 0)] :=
  ⟨((Reachable.init "X").after _).after _, by decide, by decide, by decide, by decide,
    by decide, by decide⟩

/-- C13 (effect of a successful cancel), as amended.  In every book reachable by
`AddOrder` and `CancelOrder` calls on orders with pairwise distinct ids, none of them
submitted with status `CANCELLED`, when `CancelOrder(id)` returns true: the index held an
order under that id, which had that id and was in a queue; afterwards that order has
status `CANCELLED` and no other field changed, the id is no key and the order no value of
the index, and the order is in neither queue; every other order object is unchanged and
is in a queue exactly when it was before, both queues hold no order twice, the index has
lost only the entry of the cancelled order, every queued order is still the index entry
under its own id, and a repeated `CancelOrder(id)` returns false. -/
theorem cancel_effect {subs : List Order} {w : World} (hr : Reachable subs w)
    (hids : (subs.map (fun o => o.ID)).Nodup) (hst : ∀ o ∈ subs, o.Status ≠ .CANCELLED)
    (orderID : String) (iter : OrderMap) (hiter : iter.Perm (mapDelete w.ob.Orders orderID))
    (hc : (w.cancel orderID iter).2 = true) :
    ∃ p, mapGet w.ob.Orders orderID = some p ∧ (w.mem p).ID = orderID ∧
      (p ∈ w.ob.BuyOrders ∨ p ∈ w.ob.SellOrders) ∧
      (w.cancel orderID iter).1.mem p = { w.mem p with Status := .CANCELLED } ∧
      orderID ∉ (w.cancel orderID iter).1.ob.Orders.map (fun e => e.1) ∧
      p ∉ (w.cancel orderID iter).1.ob.Orders.map (fun e => e.2) ∧
      p ∉ (w.cancel orderID iter).1.ob.BuyOrders ∧
      p ∉ (w.cancel orderID iter).1.ob.SellOrders ∧
      (∀ q, q ≠ p → (w.cancel orderID iter).1.mem q = w.mem q) ∧
      (∀ q, q ≠ p → (q ∈ (w.cancel orderID iter).1.ob.BuyOrders ↔ q ∈ w.ob.BuyOrders)) ∧
      (∀ q, q ≠ p → (q ∈ (w.cancel orderID iter).1.ob.SellOrders ↔ q ∈ w.ob.SellOrders)) ∧
      (w.cancel orderID iter).1.ob.BuyOrders.Nodup ∧
      (w.cancel orderID iter).1.ob.SellOrders.Nodup ∧
      (w.cancel orderID iter).1.ob.Orders = mapDelete w.ob.Orders orderID ∧
      (∀ e ∈ w.ob.Orders, e.2 ≠ p → e ∈ (w.cancel orderID iter).1.ob.Orders) ∧
      (∀ q, (q ∈ (w.cancel orderID iter).1.ob.BuyOrders ∨
          q ∈ (w.cancel orderID iter).1.ob.SellOrders) →
        (((w.cancel orderID iter).1.mem q).ID, q) ∈ (w.cancel orderID iter).1.ob.Orders) ∧
      ∀ iter2, ((w.cancel orderID iter).1.cancel orderID iter2).2 = false := by
  cases hg : mapGet w.ob.Orders orderID with
  | none => rw [cancel_none hg] at hc; exact absurd hc (by simp)
  | some p =>
    have hw := hr.wellFormed
    have hr1 : Reachable subs (w.cancel orderID iter).1 := Reachable.cancel orderID iter hr hiter
    have hw1 := hr1.wellFormed
    obtain ⟨_, c2, _, c4, _, _, c7, c8⟩ := cancel_some hg iter
    have hkey := hr.keyed
    have hpm := mapGet_mem hg
    have hother : ∀ q, q ≠ p → (w.cancel orderID iter).1.mem q = w.mem q := by
      intro q hq
      rw [c2, Mem.modify_ne _ _ hq]
    have hcan : ((w.cancel orderID iter).1.mem p).Status = .CANCELLED := by
      rw [c2, Mem.modify_same]
    have hkeyp : ∀ e ∈ w.ob.Orders, e.1 = orderID → e = (orderID, p) :=
      fun e he hee => List.inj_on_of_nodup_map hkey.2 he hpm hee
    have hvalp : ∀ e ∈ w.ob.Orders, e.2 = p → e = (orderID, p) :=
      fun e he hee => List.inj_on_of_nodup_map hw.indexNodup he hpm hee
    have hdel : ∀ e, e ∈ mapDelete w.ob.Orders orderID ↔ e ∈ w.ob.Orders ∧ e.1 ≠ orderID := by
      intro e
      unfold mapDelete
      rw [List.mem_filter]
      simp
    have hnokey : orderID ∉ (w.cancel orderID iter).1.ob.Orders.map (fun e => e.1) := by
      rw [c4]
      intro hm
      obtain ⟨e, he, hee⟩ := List.mem_map.mp hm
      exact ((hdel e).mp he).2 hee
    have hin : ∀ q, q ∈ iter.map (fun e => e.2) ↔
        ∃ e ∈ w.ob.Orders, e.1 ≠ orderID ∧ e.2 = q := by
      intro q
      rw [List.mem_map]
      constructor
      · rintro ⟨e, he, hee⟩
        have := (hdel e).mp (hiter.subset he)
        exact ⟨e, this.1, this.2, hee⟩
      · rintro ⟨e, he, hne, hee⟩
        exact ⟨e, hiter.symm.subset ((hdel e).mpr ⟨he, hne⟩), hee⟩
    have hqueue : ∀ (side : OrderSide) (q : Ptr), q ≠ p →
        ((q ∈ iter.map (fun e => e.2) ∧ ((w.cancel orderID iter).1.mem q).Status ≠ .CANCELLED ∧
          (w.mem q).Side = side) ↔ q ∈ w.ob.own side) := by
      intro side q hq
      rw [hother q hq, hin]
      constructor
      · rintro ⟨⟨e, he, _, hee⟩, _, hside⟩
        have := hr.indexed hst e he
        rw [hee, hside] at this
        exact this
      · intro hm
        have hqq : q ∈ w.ob.BuyOrders ∨ q ∈ w.ob.SellOrders :=
          (own_or_opposite w.ob side q).mpr (Or.inl hm)
        have hidx := hr.queued hids q hqq
        refine ⟨⟨_, hidx, ?_, rfl⟩, ?_, own_side hw side q hm⟩
        · intro hee
          have := hkeyp _ hidx hee
          exact hq (congrArg Prod.snd this)
        · apply hr.live hst q
          rcases hqq with e | e
          · exact Or.inl e
          · exact Or.inr (Or.inl e)
    refine ⟨p, rfl, hkey.1 _ hpm, ?_, ?_, hnokey, ?_, ?_, ?_, hother, ?_, ?_, hw1.buyNodup,
      hw1.sellNodup, c4, ?_, ?_, ?_⟩
    · have := hr.indexed hst _ hpm
      exact (own_or_opposite w.ob _ p).mpr (Or.inl this)
    · rw [c2, Mem.modify_same]
    · rw [c4]
      intro hm
      obtain ⟨e, he, hee⟩ := List.mem_map.mp hm
      have h1 := (hdel e).mp he
      have := hvalp e h1.1 hee
      rw [this] at h1
      exact h1.2 rfl
    · intro hm
      exact ((c7 p).mp hm).2.1 hcan
    · intro hm
      exact ((c8 p).mp hm).2.1 hcan
    · intro q hq
      rw [c7 q]
      exact hqueue .BUY q hq
    · intro q hq
      rw [c8 q]
      exact hqueue .SELL q hq
    · intro e he hep
      rw [c4, hdel]
      refine ⟨he, fun hee => hep ?_⟩
      rw [hkeyp e he hee]
    · exact hr1.queued hids
    · intro iter2
      have : mapGet (w.cancel orderID iter).1.ob.Orders orderID = none :=
        (mapGet_none_iff _ _).mpr hnokey
      rw [cancel_none this]

theorem reachable_bookTwoBids :
    Reachable [limitOrder "a" .BUY 99 1 1, limitOrder "b" .BUY 99 1 2] bookTwoBids :=
  ((Reachable.init "X").after _).after _

/-- Witness of C13: in the book with the bids `a` and `b` at 99, `CancelOrder` of `a`
leaves `b` alone in the bid queue and in the index. -/
theorem cancel_effect_witness :
    ([limitOrder "a" .BUY 99 1 1, limitOrder "b" .BUY 99 1 2].map (fun o => o.ID)).Nodup ∧
    (∀ o ∈ [limitOrder "a" .BUY 99 1 1, limitOrder "b" .BUY 99 1 2], o.Status ≠ .CANCELLED) ∧
    mapDelete bookTwoBids.ob.Orders "a" = [("b", 1)] ∧
    (bookTwoBids.cancel "a" [("b", 1)]).2 = true ∧
    (bookTwoBids.cancel "a" [("b", 1)]).1.ob.BuyOrders = [1] ∧
    ∃ p, mapGet bookTwoBids.ob.Orders "a" = some p ∧ (bookTwoBids.mem p).ID = "a" ∧
      (p ∈ bookTwoBids.ob.BuyOrders ∨ p ∈ bookTwoBids.ob.SellOrders) ∧
      (bookTwoBids.cancel "a" [("b", 1)]).1.mem p =
        { bookTwoBids.mem p with Status := .CANCELLED } ∧
      "a" ∉ (bookTwoBids.cancel "a" [("b", 1)]).1.ob.Orders.map (fun e => e.1) ∧
      p ∉ (bookTwoBids.cancel "a" [("b", 1)]).1.ob.Orders.map (fun e => e.2) ∧
      p ∉ (bookTwoBids.cancel "a" [("b", 1)]).1.ob.BuyOrders ∧
      p ∉ (bookTwoBids.cancel "a" [("b", 1)]).1.ob.SellOrders ∧
      (∀ q, q ≠ p → (bookTwoBids.cancel "a" [("b", 1)]).1.mem q = bookTwoBids.mem q) ∧
      (∀ q, q ≠ p → (q ∈ (bookTwoBids.cancel "a" [("b", 1)]).1.ob.BuyOrders ↔
        q ∈ bookTwoBids.ob.BuyOrders)) ∧
      (∀ q, q ≠ p → (q ∈ (bookTwoBids.cancel "a" [("b", 1)]).1.ob.SellOrders ↔
        q ∈ bookTwoBids.ob.SellOrders)) ∧
      (bookTwoBids.cancel "a" [("b", 1)]).1.ob.BuyOrders.Nodup ∧
      (bookTwoBids.cancel "a" [("b", 1)]).1.ob.SellOrders.Nodup ∧
      (bookTwoBids.cancel "a" [("b", 1)]).1.ob.Orders = mapDelete bookTwoBids.ob.Orders "a" ∧
      (∀ e ∈ bookTwoBids.ob.Orders, e.2 ≠ p →
        e ∈ (bookTwoBids.cancel "a" [("b", 1)]).1.ob.Orders) ∧
      (∀ q, (q ∈ (bookTwoBids.cancel "a" [("b", 1)]).1.ob.BuyOrders ∨
          q ∈ (bookTwoBids.cancel "a" [("b", 1)]).1.ob.SellOrders) →
        (((bookTwoBids.cancel "a" [("b", 1)]).1.mem q).ID, q) ∈
          (bookTwoBids.cancel "a" [("b", 1)]).1.ob.Orders) ∧
      ∀ iter2, ((bookTwoBids.cancel "a" [("b", 1)]).1.cancel "a" iter2).2 = false :=
  ⟨by decide, by decide, by decide, by decide, by decide,
    cancel_effect reachable_bookTwoBids (by decide) (by decide) "a" [("b", 1)]
      ((by decide : mapDelete bookTwoBids.ob.Orders "a" = [("b", 1)]) ▸ List.Perm.refl _)
      (by decide)⟩

/-! ## A cancelled order never trades -/

/-- The ids in the trades of a matching loop: the id of the incoming order and ids of
orders of the opposite queue. -/
theorem matchLoop_trade_ids {limit : Bool} {side : OrderSide} {order : Ptr} (fuel : Nat)
    (st st' : Loop) (h : matchLoop limit side order fuel st = some st') :
    ∀ t ∈ st'.trades, t ∈ st.trades ∨ ∀ id, (id = t.BuyOrderID ∨ id = t.SellOrderID) →
      id = (st.mem order).ID ∨ ∃ b ∈ st.ob.opposite side, id = (st.mem b).ID := by
  have key := (matchLoop_induct
    (fun s => SameKeys st.mem s.mem ∧ (∀ x ∈ s.ob.opposite side, x ∈ st.ob.opposite side) ∧
      ∀ t ∈ s.trades, t ∈ st.trades ∨ ∀ id, (id = t.BuyOrderID ∨ id = t.SellOrderID) →
        id = (st.mem order).ID ∨ ∃ b ∈ st.ob.opposite side, id = (st.mem b).ID)
    ?_ fuel st st' ⟨SameKeys.refl _, fun _ hx => hx, fun t ht => Or.inl ht⟩ h).1
  · exact key.2.2
  · intro s best ⟨i1, i2, i3⟩ hs
    obtain ⟨⟨tl, hq⟩, _⟩ := loopHead_some hs
    have hbm : best ∈ st.ob.opposite side := i2 best (by rw [hq]; exact List.mem_cons_self _ _)
    refine ⟨i1.trans (loopBody_sameKeys side order best s),
      fun x hx => i2 x (loopBody_opposite_subset hs x hx), ?_⟩
    intro t ht
    rw [loopBody_trades] at ht
    rcases List.mem_append.mp ht with e | e
    · exact i3 t e
    · right
      have ht' : t = loopTrade side order best s := by simpa using e
      intro id hid
      have ho : (s.mem order).ID = (st.mem order).ID := (i1 order).1
      have hb : (s.mem best).ID = (st.mem best).ID := (i1 best).1
      rcases loopTrade_ids side order best s with ⟨a1, a2⟩ | ⟨a1, a2⟩
      · rcases hid with e1 | e1
        · left; rw [e1, ht', a1, ho]
        · right; exact ⟨best, hbm, by rw [e1, ht', a2, hb]⟩
      · rcases hid with e1 | e1
        · right; exact ⟨best, hbm, by rw [e1, ht', a1, hb]⟩
        · left; rw [e1, ht', a2, ho]

theorem submit_trade_ids {w : World} (hw : WellFormed w) {o : Order} {r : World × List Trade}
    (h : w.submit o = some r) :
    ∀ t ∈ r.2, ∀ id, (id = t.BuyOrderID ∨ id = t.SellOrderID) →
      id = o.ID ∨ ∃ b ∈ w.ob.opposite o.Side, id = (w.mem b).ID := by
  obtain ⟨st, hst, _, _, htr, _⟩ := submit_loop h
  intro t ht id hid
  rw [htr] at ht
  rcases matchLoop_trade_ids _ _ _ hst t ht with e | e
  · simp [startLoop] at e
  · rcases e id hid with e1 | ⟨b, hb, e1⟩
    · left
      rw [e1]
      show (w.alloc o w.next).ID = o.ID
      rw [alloc_same]
    · right
      refine ⟨b, hb, ?_⟩
      rw [e1]
      show (w.alloc o b).ID = (w.mem b).ID
      rw [alloc_ne w o (Nat.ne_of_lt (opposite_lt hw _ b hb))]

theorem Run.extend {w0 : World} {subs : List Order} {trades : List Trade} {w : World}
    (h : Run w0 subs trades w) (o : Order) :
    Run w0 (subs ++ [o]) (trades ++ w.tradesOf o) (w.after o) := by
  obtain ⟨r, hr⟩ := submit_total w o
  have h1 : w.after o = r.1 := by
    unfold World.after
    rw [hr]
  have h2 : w.tradesOf o = r.2 := by
    unfold World.tradesOf
    rw [hr]
  rw [h1, h2]
  exact Run.add o r h hr

/-- An order object that is in neither queue and no value of the index stays so, is not
assigned to, and is in no trade, as long as ids tell the order objects apart. -/
theorem Run.absent {subs : List Order} {w1 : World} (hr1 : Reachable subs w1) {p : Ptr}
    (hp : p < w1.next) (hb : p ∉ w1.ob.BuyOrders) (hs : p ∉ w1.ob.SellOrders)
    (hi : p ∉ w1.ob.Orders.map (fun e => e.2))
    {subs' : List Order} {trades : List Trade} {w' : World} (hrun : Run w1 subs' trades w') :
    ((subs ++ subs').map (fun o => o.ID)).Nodup →
    w'.mem p = w1.mem p ∧ p ∉ w'.ob.BuyOrders ∧ p ∉ w'.ob.SellOrders ∧
      p ∉ w'.ob.Orders.map (fun e => e.2) ∧
      ∀ t ∈ trades, t.BuyOrderID ≠ (w1.mem p).ID ∧ t.SellOrderID ≠ (w1.mem p).ID := by
  induction hrun with
  | start => intro _; exact ⟨rfl, hb, hs, hi, fun t ht => by simp at ht⟩
  | @add subs' trades w o r hrun' hsub ih =>
    intro hids
    rw [← List.append_assoc] at hids
    have hids' : ((subs ++ subs').map (fun o => o.ID)).Nodup := by
      rw [List.map_append] at hids
      exact (List.nodup_append.mp hids).1
    obtain ⟨i1, i2, i3, i4, i5⟩ := ih hids'
    have hrw : Reachable (subs ++ subs') w := hr1.run hrun'
    have hrr : Reachable ((subs ++ subs') ++ [o]) r.1 := Reachable.add o r hrw hsub
    have hw := hrw.wellFormed
    have hpw : p < w.next := by
      rw [hrw.next_eq, List.length_append]
      rw [hr1.next_eq] at hp
      exact Nat.lt_of_lt_of_le hp (Nat.le_add_right _ _)
    have hpn : p ≠ w.next := Nat.ne_of_lt hpw
    have hnq : ¬ (p ∈ w.ob.BuyOrders ∨ p ∈ w.ob.SellOrders) := by
      rintro (e | e)
      · exact i2 e
      · exact i3 e
    have hno : p ∉ w.ob.opposite o.Side :=
      fun e => hnq ((own_or_opposite w.ob o.Side p).mpr (Or.inr e))
    obtain ⟨m1, _, _, _⟩ := submit_mem hw hsub
    obtain ⟨x1, _, _, _, _, _⟩ := submit_index hw hsub
    obtain ⟨hk, hnext⟩ := submit_sameKeys hsub
    have hmem : r.1.mem p = w.mem p := m1 p hpn hno
    have hnq' : ¬ (p ∈ r.1.ob.BuyOrders ∨ p ∈ r.1.ob.SellOrders) := by
      intro e
      rcases submit_queues_old hw hsub p e with e1 | e1
      · exact hpn e1
      · exact hnq e1
    refine ⟨hmem.trans i1, fun e => hnq' (Or.inl e), fun e => hnq' (Or.inr e), ?_, ?_⟩
    · intro hm
      obtain ⟨e, he, hee⟩ := List.mem_map.mp hm
      rcases x1 e he with e1 | e1
      · rw [e1] at hee; exact hpn hee.symm
      · exact i4 (List.mem_map.mpr ⟨e, e1, hee⟩)
    · intro t ht
      rcases List.mem_append.mp ht with e | e
      · exact i5 t e
      · have hno_id : ∀ id, (id = t.BuyOrderID ∨ id = t.SellOrderID) →
            id ≠ (w1.mem p).ID := by
          intro id hid hc
          rcases submit_trade_ids hw hsub t e id hid with e1 | ⟨b, hbm, e1⟩
          · have : p = w.next := hrr.id_inj hids p w.next
              (by rw [hnext]; exact Nat.lt_succ_of_lt hpw)
              (by rw [hnext]; exact Nat.lt_succ_self _)
              (by rw [hmem, i1, ← hc, e1, (hk w.next).1, alloc_same])
            exact hpn this
          · have : b = p := hrw.id_inj hids' b p (opposite_lt hw _ b hbm) hpw
              (by rw [← e1, hc, i1])
            exact hno (this ▸ hbm)
        exact ⟨fun hc => hno_id _ (Or.inl rfl) hc, fun hc => hno_id _ (Or.inr rfl) hc⟩
  | @cancel subs' trades w orderID iter hrun' hperm ih =>
    intro hids
    obtain ⟨i1, i2, i3, i4, i5⟩ := ih hids
    cases hg : mapGet w.ob.Orders orderID with
    | none => rw [cancel_none hg]; exact ⟨i1, i2, i3, i4, i5⟩
    | some p' =>
      obtain ⟨_, c2, _, c4, _, _, c7, c8⟩ := cancel_some hg iter
      have hpp : p ≠ p' := by
        intro e
        apply i4
        rw [e]
        exact List.mem_map.mpr ⟨_, mapGet_mem hg, rfl⟩
      have hval : p ∉ iter.map (fun e => e.2) := by
        intro hm
        obtain ⟨e, he, hee⟩ := List.mem_map.mp hm
        exact i4 (List.mem_map.mpr ⟨e, (mapDelete_sublist _ _).subset (hperm.subset he), hee⟩)
      refine ⟨?_, fun e => hval ((c7 p).mp e).1, fun e => hval ((c8 p).mp e).1, ?_, i5⟩
      · rw [c2, Mem.modify_ne _ _ hpp]; exact i1
      · rw [c4]
        intro hm
        obtain ⟨e, he, hee⟩ := List.mem_map.mp hm
        exact i4 (List.mem_map.mpr ⟨e, (mapDelete_sublist _ _).subset he, hee⟩)

theorem reachable_bookOneBid : Reachable [limitOrder "a" .BUY 99 1 1] bookOneBid :=
  (Reachable.init "X").after _

/-- C14 (a cancelled order never trades).  In every book reachable by `AddOrder` and
`CancelOrder` calls, once `CancelOrder(id)` has returned true, along every continuation
of the run by `AddOrder` and `CancelOrder` calls in which the ids of all orders submitted
before and after are pairwise distinct: no trade returned by a later `AddOrder` carries
the id as `BuyOrderID` or `SellOrderID`, and the cancelled order object keeps status
`CANCELLED` with no other field changed, stays out of both queues and is no value of the
index. -/
theorem cancelled_never_trades {subs : List Order} {w : World} (hr : Reachable subs w)
    (orderID : String) (iter : OrderMap) (hiter : iter.Perm (mapDelete w.ob.Orders orderID))
    (hc : (w.cancel orderID iter).2 = true)
    {subs' : List Order} {trades : List Trade} {w' : World}
    (hrun : Run (w.cancel orderID iter).1 subs' trades w')
    (hids : ((subs ++ subs').map (fun o => o.ID)).Nodup) :
    (∀ t ∈ trades, t.BuyOrderID ≠ orderID ∧ t.SellOrderID ≠ orderID) ∧
    ∃ p, mapGet w.ob.Orders orderID = some p ∧
      w'.mem p = { w.mem p with Status := .CANCELLED } ∧
      p ∉ w'.ob.BuyOrders ∧ p ∉ w'.ob.SellOrders ∧ p ∉ w'.ob.Orders.map (fun e => e.2) := by
  cases hg : mapGet w.ob.Orders orderID with
  | none => rw [cancel_none hg] at hc; exact absurd hc (by simp)
  | some p =>
    have hw := hr.wellFormed
    have hr1 : Reachable subs (w.cancel orderID iter).1 := Reachable.cancel orderID iter hr hiter
    obtain ⟨_, c2, c3, c4, _, _, c7, c8⟩ := cancel_some hg iter
    have hpm := mapGet_mem hg
    have hmp : (w.cancel orderID iter).1.mem p = { w.mem p with Status := .CANCELLED } := by
      rw [c2, Mem.modify_same]
    have hcan : ((w.cancel orderID iter).1.mem p).Status = .CANCELLED := by rw [hmp]
    have hid : ((w.cancel orderID iter).1.mem p).ID = orderID := by
      rw [hmp]
      exact (hr.keyed).1 _ hpm
    have hval : p ∉ (w.cancel orderID iter).1.ob.Orders.map (fun e => e.2) := by
      rw [c4]
      intro hm
      obtain ⟨e, he, hee⟩ := List.mem_map.mp hm
      have h1 := List.mem_filter.mp he
      have := List.inj_on_of_nodup_map hw.indexNodup h1.1 hpm hee
      rw [this] at h1
      simpa using h1.2
    obtain ⟨a1, a2, a3, a4, a5⟩ := Run.absent hr1 (by rw [c3]; exact hw.indexLt _ hpm)
      (fun e => ((c7 p).mp e).2.1 hcan) (fun e => ((c8 p).mp e).2.1 hcan) hval hrun hids
    rw [hid] at a5
    exact ⟨a5, p, rfl, a1.trans hmp, a2, a3, a4⟩

/-- Witness of C14: after the LIMIT BUY `a` at 99 is cancelled in an otherwise empty book,
a LIMIT SELL `s` at 99 produces no trade and rests as an ask. -/
theorem cancelled_never_trades_witness :
    mapDelete bookOneBid.ob.Orders "a" = [] ∧
    (bookOneBid.cancel "a" []).2 = true ∧
    ((bookOneBid.cancel "a" []).1.cancel "a" []).2 = false ∧
    (bookOneBid.cancel "a" []).1.tradesOf (limitOrder "s" .SELL 99 1 2) = [] ∧
    ((bookOneBid.cancel "a" []).1.after (limitOrder "s" .SELL 99 1 2)).ob.SellOrders = [1] ∧
    ((bookOneBid.cancel "a" []).1.after (limitOrder "s" .SELL 99 1 2)).ob.BuyOrders = [] ∧
    (([limitOrder "a" .BUY 99 1 1] ++ ([] ++ [limitOrder "s" .SELL 99 1 2])).map
      (fun o : Order => o.ID)).Nodup ∧
    (∀ t ∈ [] ++ (bookOneBid.cancel "a" []).1.tradesOf (limitOrder "s" .SELL 99 1 2),
      t.BuyOrderID ≠ "a" ∧ t.SellOrderID ≠ "a") ∧
    ∃ p, mapGet bookOneBid.ob.Orders "a" = some p ∧
      ((bookOneBid.cancel "a" []).1.after (limitOrder "s" .SELL 99 1 2)).mem p =
        { bookOneBid.mem p with Status := .CANCELLED } ∧
      p ∉ ((bookOneBid.cancel "a" []).1.after (limitOrder "s" .SELL 99 1 2)).ob.BuyOrders ∧
      p ∉ ((bookOneBid.cancel "a" []).1.after (limitOrder "s" .SELL 99 1 2)).ob.SellOrders ∧
      p ∉ ((bookOneBid.cancel "a" []).1.after (limitOrder "s" .SELL 99 1 2)).ob.Orders.map
        (fun e => e.2) :=
  ⟨by decide, by decide, by decide, by decide, by decide, by decide, by decide,
    cancelled_never_trades reachable_bookOneBid "a" []
      ((by decide : mapDelete bookOneBid.ob.Orders "a" = []) ▸ List.Perm.refl _)
      (by decide) (Run.extend Run.start (limitOrder "s" .SELL 99 1 2)) (by decide)⟩

/-! ## Trade ids -/

theorem churn_sell (w : World) (hb : w.ob.BuyOrders = []) (hs : w.ob.SellOrders = [])
    (ho : w.ob.Orders = []) :
    ∃ r, w.submit (limitOrder "a" .SELL 100 1 1) = some r ∧ r.2 = [] ∧
      r.1.ob.BuyOrders = [] ∧ r.1.ob.SellOrders = [w.next] ∧ r.1.ob.Orders = [("a", w.next)] ∧
      r.1.next = w.next + 1 ∧ (r.1.mem w.next).Quantity = 1 ∧ (r.1.mem w.next).Filled = 0 ∧
      (r.1.mem w.next).ID = "a" := by
  obtain ⟨mem, next, ⟨sym, buy, sell, orders, lp, ts⟩⟩ := w
  simp only at hb hs ho
  subst hb hs ho
  simp [World.submit, World.alloc, AddOrder, processLimitOrder, limitOrder, matchLoop,
    loopHead, loopFuel, OrderBook.opposite, rest, setStatus, heapPush, up, upLoop, mapSet,
    mapDelete, Mem.modify]

theorem churn_buy (w : World) (p : Ptr) (hp : p ≠ w.next) (hb : w.ob.BuyOrders = [])
    (hs : w.ob.SellOrders = [p]) (ho : w.ob.Orders = [("a", p)])
    (hq : (w.mem p).Quantity = 1) (hf : (w.mem p).Filled = 0) (hid : (w.mem p).ID = "a") :
    ∃ r, w.submit (marketOrder "b" .BUY 1 2) = some r ∧ r.2.length = 1 ∧
      r.1.ob.BuyOrders = [] ∧ r.1.ob.SellOrders = [] ∧ r.1.ob.Orders = [] := by
  obtain ⟨mem, next, ⟨sym, buy, sell, orders, lp, ts⟩⟩ := w
  simp only at hb hs ho hq hf hid hp
  subst hb hs ho
  simp [World.submit, World.alloc, AddOrder, processMarketOrder, marketOrder, matchLoop,
    loopHead, loopBody, loopFuel, OrderBook.opposite, OrderBook.popOpposite, createTrade,
    setStatus, heapPop, down, downLoop, swap, mapDelete, Mem.modify, engine.min, hp, hq, hf, hid]

theorem wrapInt64_of_lt {x : Int} (h0 : 0 ≤ x) (h1 : x < 2 ^ 63) : wrapInt64 x = x := by
  unfold wrapInt64
  norm_num at h1 ⊢
  omega

theorem wrapInt64_succ (x : Int) : wrapInt64 (wrapInt64 x + 1) = wrapInt64 (x + 1) := by
  unfold wrapInt64
  norm_num
  omega

theorem wrapInt64_top : wrapInt64 (((2 ^ 63 - 1 : Nat) : Int) + 1) = -9223372036854775808 := by
  decide

theorem toString_wrapped :
    "T" ++ toString (-9223372036854775808 : Int) = "T-9223372036854775808" := by
  decide

theorem digitChar_value (k : Nat) (h : k < 10) : (Nat.digitChar k).toNat - 48 = k := by
  interval_cases k <;> rfl

theorem readDigits_append (cs : List Char) (c : Char) :
    readDigits (cs ++ [c]) = 10 * readDigits cs + (c.toNat - 48) := by
  unfold readDigits
  rw [List.foldl_append]
  rfl

/-- The digits `toDigitsCore` puts in front of `ds` render `n`. -/
theorem toDigitsCore_read : ∀ (fuel n : Nat) (ds : List Char), n < fuel →
    ∃ pre, Nat.toDigitsCore 10 fuel n ds = pre ++ ds ∧ readDigits pre = n := by
  intro fuel
  induction fuel with
  | zero => intro n ds h; exact absurd h (Nat.not_lt_zero _)
  | succ fuel ih =>
    intro n ds h
    unfold Nat.toDigitsCore
    simp only
    by_cases h0 : n / 10 = 0
    · rw [if_pos h0]
      refine ⟨[Nat.digitChar (n % 10)], rfl, ?_⟩
      have : readDigits [Nat.digitChar (n % 10)] = (Nat.digitChar (n % 10)).toNat - 48 := by
        simp [readDigits]
      rw [this, digitChar_value _ (Nat.mod_lt _ (by decide))]
      omega
    · rw [if_neg h0]
      obtain ⟨pre, hpre, hval⟩ := ih (n / 10) (Nat.digitChar (n % 10) :: ds) (by omega)
      refine ⟨pre ++ [Nat.digitChar (n % 10)], ?_, ?_⟩
      · rw [hpre]; simp
      · rw [readDigits_append, hval, digitChar_value _ (Nat.mod_lt _ (by decide))]
        omega

theorem readDigits_toDigits (n : Nat) : readDigits (Nat.toDigits 10 n) = n := by
  obtain ⟨pre, hpre, hval⟩ := toDigitsCore_read (n + 1) n [] (Nat.lt_succ_self _)
  unfold Nat.toDigits
  rw [hpre, List.append_nil, hval]

/-- The decimal rendering of a natural number determines the number. -/
theorem toString_nat_inj {a b : Nat} (h : toString a = toString b) : a = b := by
  have h1 : (Nat.toDigits 10 a).asString = (Nat.toDigits 10 b).asString := h
  have h2 : Nat.toDigits 10 a = Nat.toDigits 10 b := by
    have := congrArg String.data h1
    simpa using this
  rw [← readDigits_toDigits a, ← readDigits_toDigits b, h2]

theorem tradeID_inj {a b : Nat} (h : "T" ++ toString a = "T" ++ toString b) : a = b := by
  apply toString_nat_inj
  have := congrArg String.data h
  simp only [String.data_append] at this
  exact String.ext (List.append_cancel_left this)

theorem toString_int_ofNat (n : Nat) : toString (n : Int) = toString n := rfl

theorem loopTrade_id (side : OrderSide) (order best : Ptr) (st : Loop) :
    (loopTrade side order best st).ID = "T" ++ toString (wrapInt64 (st.ob.tradeSeq + 1)) ∧
    (loopTrade side order best st).Symbol = st.ob.Symbol := by
  cases side <;> exact ⟨rfl, rfl⟩

theorem loopBody_tradeSeq (side : OrderSide) (order best : Ptr) (st : Loop) :
    (loopBody side order best st).ob.tradeSeq = wrapInt64 (st.ob.tradeSeq + 1) := by
  unfold loopBody
  cases side <;> simp only [createTrade] <;> split <;> rfl

/-- The numbers of the trades of a matching loop that starts without trades on a book
whose counter holds `n0`, wrapped. -/
theorem matchLoop_trade_numbers {limit : Bool} {side : OrderSide} {order : Ptr} (fuel : Nat)
    (st st' : Loop) (n0 : Int) (hseq : st.ob.tradeSeq = wrapInt64 n0) (hnil : st.trades = [])
    (h : matchLoop limit side order fuel st = some st') :
    st'.ob.Symbol = st.ob.Symbol ∧ st'.ob.tradeSeq = wrapInt64 (n0 + st'.trades.length) ∧
    ∀ (i : Nat) (t : Trade), st'.trades[i]? = some t →
      t.ID = "T" ++ toString (wrapInt64 (n0 + i + 1)) ∧ t.Symbol = st.ob.Symbol := by
  refine (matchLoop_induct
    (fun s => s.ob.Symbol = st.ob.Symbol ∧ s.ob.tradeSeq = wrapInt64 (n0 + s.trades.length) ∧
      ∀ (i : Nat) (t : Trade), s.trades[i]? = some t →
        t.ID = "T" ++ toString (wrapInt64 (n0 + i + 1)) ∧ t.Symbol = st.ob.Symbol)
    ?_ fuel st st' ⟨rfl, by rw [hnil, hseq]; simp, fun i t ht => by rw [hnil] at ht; simp at ht⟩
    h).1
  intro s best ⟨i1, i2, i3⟩ _
  refine ⟨(loopBody_symbol side order best s).trans i1, ?_, ?_⟩
  · rw [loopBody_tradeSeq, i2, wrapInt64_succ, loopBody_trades]
    simp only [List.length_append, List.length_singleton, Nat.cast_add, Nat.cast_one]
    rw [Int.add_assoc]
  · intro i t ht
    rw [loopBody_trades] at ht
    by_cases hi : i < s.trades.length
    · rw [List.getElem?_append_left hi] at ht
      exact i3 i t ht
    · have hlen := (List.getElem?_eq_some_iff.mp ht).1
      simp only [List.length_append, List.length_singleton] at hlen
      have hie : i = s.trades.length := by omega
      rw [hie, List.getElem?_append_right (Nat.le_refl _)] at ht
      simp only [Nat.sub_self, List.getElem?_cons_zero, Option.some.injEq] at ht
      obtain ⟨a1, a2⟩ := loopTrade_id side order best s
      rw [← ht, a1, a2, i2, wrapInt64_succ, hie]
      exact ⟨rfl, i1⟩

theorem submit_trade_numbers {w : World} {o : Order} {r : World × List Trade}
    (h : w.submit o = some r) (n0 : Int) (hseq : w.ob.tradeSeq = wrapInt64 n0) :
    r.1.ob.Symbol = w.ob.Symbol ∧ r.1.ob.tradeSeq = wrapInt64 (n0 + r.2.length) ∧
    ∀ (i : Nat) (t : Trade), r.2[i]? = some t →
      t.ID = "T" ++ toString (wrapInt64 (n0 + i + 1)) ∧ t.Symbol = w.ob.Symbol := by
  obtain ⟨st, hst, _, hob, htr, _⟩ := submit_loop h
  obtain ⟨a1, a2, a3⟩ := matchLoop_trade_numbers _ _ _ n0 hseq rfl hst
  rw [hob, htr, (finish_symbol _ _ _ _).1, (finish_symbol _ _ _ _).2]
  exact ⟨a1, a2, a3⟩

/-- The numbers of the trades of a book since its creation: the `i`-th trade, counted from
zero, carries `i + 1`, wrapped. -/
theorem Run.trade_numbers {symbol : String} {subs : List Order} {trades : List Trade}
    {w : World} (hrun : Run (World.init symbol) subs trades w) :
    w.ob.Symbol = symbol ∧ w.ob.tradeSeq = wrapInt64 trades.length ∧
    ∀ (i : Nat) (t : Trade), trades[i]? = some t →
      t.ID = "T" ++ toString (wrapInt64 ((i : Int) + 1)) ∧ t.Symbol = symbol := by
  induction hrun with
  | start =>
    have h0 : wrapInt64 0 = 0 := by decide
    exact ⟨rfl, h0.symm, fun i t ht => by simp at ht⟩
  | @add subs trades w o r _ hs ih =>
    obtain ⟨i1, i2, i3⟩ := ih
    obtain ⟨a1, a2, a3⟩ := submit_trade_numbers hs _ i2
    refine ⟨a1.trans i1, ?_, ?_⟩
    · rw [a2]
      simp only [List.length_append, Nat.cast_add]
    · intro i t ht
      by_cases hi : i < trades.length
      · rw [List.getElem?_append_left hi] at ht
        exact i3 i t ht
      · rw [List.getElem?_append_right (Nat.le_of_not_lt hi)] at ht
        obtain ⟨b1, b2⟩ := a3 _ t ht
        rw [b1, b2]
        refine ⟨?_, i1⟩
        have : (trades.length : Int) + ((i - trades.length : Nat) : Int) + 1 = (i : Int) + 1 := by
          omega
        rw [this]
  | @cancel subs trades w orderID iter _ hp ih =>
    obtain ⟨i1, i2, i3⟩ := ih
    cases hg : mapGet w.ob.Orders orderID with
    | none => rw [cancel_none hg]; exact ⟨i1, i2, i3⟩
    | some p =>
      obtain ⟨_, _, _, _, c5, c6, _, _⟩ := cancel_some hg iter
      exact ⟨c5.trans i1, c6.trans i2, i3⟩

/-- Each round of `churnOrders` makes one trade and leaves the book empty. -/
theorem churn_run (k : Nat) :
    ∃ trades w, Run (World.init "X") (churnOrders k) trades w ∧ trades.length = k ∧
      w.ob.BuyOrders = [] ∧ w.ob.SellOrders = [] ∧ w.ob.Orders = [] := by
  induction k with
  | zero => exact ⟨[], World.init "X", Run.start, rfl, rfl, rfl, rfl⟩
  | succ k ih =>
    obtain ⟨trades, w, hrun, hlen, hb, hs, ho⟩ := ih
    obtain ⟨r1, h1, t1, b1, s1, o1, n1, q1, f1, id1⟩ := churn_sell w hb hs ho
    obtain ⟨r2, h2, t2, b2, s2, o2⟩ := churn_buy r1.1 w.next
      (by rw [n1]; exact Nat.ne_of_lt (Nat.lt_succ_self _)) b1 s1 o1 q1 f1 id1
    refine ⟨(trades ++ r1.2) ++ r2.2, r2.1, ?_, ?_, b2, s2, o2⟩
    · have := Run.add _ r2 (Run.add _ r1 hrun h1) h2
      simpa [churnOrders] using this
    · simp [t1, t2, hlen]

/-- C17 (trade ids), the claim at an input where it fails.  The book `X` receives
`2 ^ 63` rounds of a LIMIT SELL of 1 at 100 and a MARKET BUY of 1; each round makes one
trade.  The counter `tradeSeq` is an `int64`, so the `2 ^ 63`-th trade has the id
`T-9223372036854775808`, not `T` followed by the decimal rendering of `2 ^ 63`. -/
theorem trade_id_wraps :
    ∃ trades w, Run (World.init "X") (churnOrders (2 ^ 63)) trades w ∧
      trades.length = 2 ^ 63 ∧
      ∃ t, trades[2 ^ 63 - 1]? = some t ∧ t.ID = "T-9223372036854775808" ∧
        t.ID ≠ "T" ++ toString (2 ^ 63 : Nat) := by
  obtain ⟨trades, w, hrun, hlen, _, _, _⟩ := churn_run (2 ^ 63)
  have hlt : 2 ^ 63 - 1 < trades.length := by rw [hlen]; decide
  have ht : trades[2 ^ 63 - 1]? = some trades[2 ^ 63 - 1] := List.getElem?_eq_getElem hlt
  have hid := ((Run.trade_numbers hrun).2.2 _ _ ht).1
  rw [wrapInt64_top, toString_wrapped] at hid
  refine ⟨trades, w, hrun, hlen, _, ht, hid, ?_⟩
  rw [hid]
  decide

/-- C17 (trade ids), as amended.  Along every run of a book from its creation, with `n`
counted from 1 across all `AddOrder` calls: the `n`-th trade has the symbol of the book
and the id `T` followed by the decimal rendering of `n` wrapped to an `int64`, which for
`n < 2 ^ 63` is the decimal rendering of `n`; the ids of the trades are pairwise distinct
as long as fewer than `2 ^ 63` trades were made, and the numbers they carry increase with
`n`; and the trades returned by one more `AddOrder` call carry, in list order, the
consecutive numbers that follow the number of trades made before. -/
theorem trade_ids {symbol : String} {subs : List Order} {trades : List Trade} {w : World}
    (hrun : Run (World.init symbol) subs trades w) :
    (∀ (n : Nat) (t : Trade), 1 ≤ n → trades[n - 1]? = some t →
      t.Symbol = symbol ∧ t.ID = "T" ++ toString (wrapInt64 n) ∧
      (n < 2 ^ 63 → t.ID = "T" ++ toString n)) ∧
    (trades.length < 2 ^ 63 → (trades.map (fun t => t.ID)).Nodup) ∧
    (∀ (m n : Nat) (s t : Trade), 1 ≤ m → m < n → n < 2 ^ 63 →
      trades[m - 1]? = some s → trades[n - 1]? = some t →
      ∃ a b : Nat, s.ID = "T" ++ toString a ∧ t.ID = "T" ++ toString b ∧ a < b) ∧
    (∀ (o : Order) (r : World × List Trade), w.submit o = some r →
      ∀ (i : Nat) (t : Trade), r.2[i]? = some t →
        t.Symbol = symbol ∧ t.ID = "T" ++ toString (wrapInt64 (trades.length + i + 1)) ∧
        (trades.length + i + 1 < 2 ^ 63 → t.ID = "T" ++ toString (trades.length + i + 1))) := by
  obtain ⟨h1, h2, h3⟩ := Run.trade_numbers hrun
  have hnum : ∀ (n : Nat) (t : Trade), 1 ≤ n → trades[n - 1]? = some t →
      t.Symbol = symbol ∧ t.ID = "T" ++ toString (wrapInt64 n) ∧
      (n < 2 ^ 63 → t.ID = "T" ++ toString n) := by
    intro n t hn ht
    obtain ⟨a1, a2⟩ := h3 _ t ht
    have hc : ((n - 1 : Nat) : Int) + 1 = (n : Int) := by omega
    rw [hc] at a1
    refine ⟨a2, a1, fun hlt => ?_⟩
    rw [a1, wrapInt64_of_lt (Int.natCast_nonneg n) (by exact_mod_cast hlt)]
    rfl
  refine ⟨hnum, ?_, ?_, ?_⟩
  · intro hlen
    rw [List.nodup_iff_getElem?_ne_getElem?]
    intro i j hij hj
    rw [List.length_map] at hj
    have hi : i < trades.length := Nat.lt_trans hij hj
    rw [List.getElem?_map, List.getElem?_map, List.getElem?_eq_getElem hi,
      List.getElem?_eq_getElem hj]
    simp only [Option.map_some', ne_eq, Option.some.injEq]
    have e1 := (hnum (i + 1) trades[i] (Nat.succ_le_succ (Nat.zero_le _))
      (by simp [hi])).2.2 (by omega)
    have e2 := (hnum (j + 1) trades[j] (Nat.succ_le_succ (Nat.zero_le _))
      (by simp [hj])).2.2 (by omega)
    rw [e1, e2]
    intro hc
    have := tradeID_inj hc
    omega
  · intro m n s t hm hmn hn hs ht
    exact ⟨m, n, (hnum m s hm hs).2.2 (Nat.lt_trans hmn hn),
      (hnum n t (Nat.le_trans hm (Nat.le_of_lt hmn)) ht).2.2 hn, hmn⟩
  · intro o r hs i t ht
    have hrun' := Run.add o r hrun hs
    have hidx : (trades ++ r.2)[trades.length + i + 1 - 1]? = some t := by
      rw [Nat.add_sub_cancel, List.getElem?_append_right (Nat.le_add_right _ _),
        Nat.add_sub_cancel_left]
      exact ht
    obtain ⟨g1, g2, g3⟩ := Run.trade_numbers hrun'
    obtain ⟨a1, a2⟩ := g3 _ t hidx
    have hc : ((trades.length + i + 1 - 1 : Nat) : Int) + 1 =
        (trades.length : Int) + (i : Int) + 1 := by omega
    rw [hc] at a1
    refine ⟨a2, a1, fun hlt => ?_⟩
    have hlt' : (trades.length : Int) + (i : Int) + 1 < 2 ^ 63 := by
      norm_num at hlt ⊢
      omega
    have hcast : (trades.length : Int) + (i : Int) + 1 =
        ((trades.length + i + 1 : Nat) : Int) := by
      push_cast
      rfl
    rw [a1, wrapInt64_of_lt (by omega) hlt', hcast]
    rfl

theorem run_tradesOneLevel :
    Run (World.init "X")
      (([] ++ [limitOrder "a" .SELL 100 1 1]) ++ [limitOrder "b" .SELL 100 1 2] ++
        [marketOrder "c" .BUY 2 3])
      tradesOneLevel (bookOneLevel.after (marketOrder "c" .BUY 2 3)) :=
  ((Run.start.extend _).extend _).extend _

/-- Witness of C17: the run that rests two asks at 100 and then submits a MARKET BUY of 2
makes the trades `T1` and `T2` of the book `X`. -/
theorem trade_ids_witness :
    tradesOneLevel.map (fun t => (t.ID, t.Symbol)) = [("T1", "X"), ("T2", "X")] ∧
    (∀ (n : Nat) (t : Trade), 1 ≤ n → tradesOneLevel[n - 1]? = some t →
      t.Symbol = "X" ∧ t.ID = "T" ++ toString (wrapInt64 n) ∧
      (n < 2 ^ 63 → t.ID = "T" ++ toString n)) ∧
    (tradesOneLevel.length < 2 ^ 63 → (tradesOneLevel.map (fun t => t.ID)).Nodup) ∧
    (∀ (m n : Nat) (s t : Trade), 1 ≤ m → m < n → n < 2 ^ 63 →
      tradesOneLevel[m - 1]? = some s → tradesOneLevel[n - 1]? = some t →
      ∃ a b : Nat, s.ID = "T" ++ toString a ∧ t.ID = "T" ++ toString b ∧ a < b) ∧
    (∀ (o : Order) (r : World × List Trade),
      (bookOneLevel.after (marketOrder "c" .BUY 2 3)).submit o = some r →
      ∀ (i : Nat) (t : Trade), r.2[i]? = some t →
        t.Symbol = "X" ∧ t.ID = "T" ++ toString (wrapInt64 (tradesOneLevel.length + i + 1)) ∧
        (tradesOneLevel.length + i + 1 < 2 ^ 63 →
          t.ID = "T" ++ toString (tradesOneLevel.length + i + 1))) :=
  ⟨by decide, trade_ids run_tradesOneLevel⟩

/-! ## Trade quantities -/

/-- C24 (trades have positive quantity), the code at the failing input.  All orders are
submitted with positive quantity, nothing filled and distinct ids.  On the book with one
ask of 7 at 100, the LIMIT BUY `b` of 10 at 100 trades 7 and rests with `Quantity = 3` and
`Filled = 7`; the MARKET SELL `c` of 10 submitted next is matched against `b` for the
quantity `3 - 7 = -4`, and the `Filled` of `b` goes down from 7 to 3.  On the book with
one ask of 5 at 100, the LIMIT BUY `b` of 10 at 100 rests with `Quantity = Filled = 5`, and
a MARKET SELL `c` of 1 then makes a trade of quantity 0. -/
theorem trade_quantity_not_positive :
    (∀ o ∈ [limitOrder "a" .SELL 100 7 1, limitOrder "b" .BUY 100 10 2,
        marketOrder "c" .SELL 10 3], 0 < o.Quantity ∧ o.Filled = 0) ∧
    ([limitOrder "a" .SELL 100 7 1, limitOrder "b" .BUY 100 10 2,
        marketOrder "c" .SELL 10 3].map (fun o => o.ID)).Nodup ∧
    ((bookAskSeven.after (limitOrder "b" .BUY 100 10 2)).mem 1).Filled = 7 ∧
    ((bookAskSeven.after (limitOrder "b" .BUY 100 10 2)).submit (marketOrder "c" .SELL 10 3)).map
      (fun r => (r.2.map (fun t => (t.BuyOrderID, t.SellOrderID, t.Quantity)),
        (r.1.mem 1).Filled)) = some ([("b", "c", -4)], 3) ∧
    ((bookOneAsk.after (limitOrder "b" .BUY 100 10 2)).submit (marketOrder "c" .SELL 1 3)).map
      (fun r => r.2.map (fun t => (t.BuyOrderID, t.SellOrderID, t.Quantity))) =
      some [("b", "c", 0)] := by
  refine ⟨by decide, by decide, by decide, by decide, by decide⟩

/-! ## The index and the queues hold the same orders -/

theorem mapGet_of_mem {m : OrderMap} {k : String} {p : Ptr}
    (hnd : (m.map (fun e => e.1)).Nodup) (h : (k, p) ∈ m) : mapGet m k = some p := by
  cases hg : mapGet m k with
  | none =>
    have := (mapGet_none_iff m k).mp hg
    exact absurd (List.mem_map.mpr ⟨(k, p), h, rfl⟩) this
  | some q =>
    have := List.inj_on_of_nodup_map hnd (mapGet_mem hg) h rfl
    rw [(Prod.mk.inj this).2]

/-- C21 (book/index consistency), the claim at an input where it fails.  The book is
reached by two LIMIT BUYs with distinct ids, `a` at 99, submitted with status `CANCELLED`,
and `b` at 98, followed by `CancelOrder` of `b`.  The rebuild leaves `a` out of the bid
queue, so the index entry `a`, a BUY, is not in the queue of its side. -/
theorem index_entry_outside_queue :
    Reachable [{ limitOrder "a" .BUY 99 1 1 with Status := .CANCELLED },
      limitOrder "b" .BUY 98 1 2] (bookCancelledInput.cancel "b" [("a", 0)]).1 ∧
    ([{ limitOrder "a" .BUY 99 1 1 with Status := .CANCELLED },
      limitOrder "b" .BUY 98 1 2].map (fun o => o.ID)).Nodup ∧
    (bookCancelledInput.cancel "b" [("a", 0)]).1.ob.Orders = [("a", 0)] ∧
    ((bookCancelledInput.cancel "b" [("a", 0)]).1.mem 0).Side = .BUY ∧
    (bookCancelledInput.cancel "b" [("a", 0)]).1.ob.BuyOrders = [] ∧
    (bookCancelledInput.cancel "b" [("a", 0)]).1.ob.SellOrders = [] :=
  ⟨Reachable.cancel "b" [("a", 0)] (((Reachable.init "X").after _).after _)
      ((by decide : mapDelete bookCancelledInput.ob.Orders "b" = [("a", 0)]) ▸ List.Perm.refl _),
    by decide, by decide, by decide, by decide, by decide⟩

/-- C21 (book/index consistency), as amended.  In every book reachable by `AddOrder` and
`CancelOrder` calls on orders with pairwise distinct ids, none of them submitted with
status `CANCELLED`: every order in the bid queue has side BUY and every order in the ask
queue has side SELL; no queue holds an order twice; every queued order is stored in the
index under its own id, and looking that id up gives the order; every index entry is
stored under the id of its order and is in the queue of its side; no key and no order
occurs twice in the index; and the orders of the index are exactly those of the two
queues. -/
theorem book_index_consistency {subs : List Order} {w : World} (hr : Reachable subs w)
    (hids : (subs.map (fun o => o.ID)).Nodup) (hst : ∀ o ∈ subs, o.Status ≠ .CANCELLED) :
    (∀ p ∈ w.ob.BuyOrders, (w.mem p).Side = .BUY) ∧
    (∀ p ∈ w.ob.SellOrders, (w.mem p).Side = .SELL) ∧
    w.ob.BuyOrders.Nodup ∧ w.ob.SellOrders.Nodup ∧
    (∀ p, (p ∈ w.ob.BuyOrders ∨ p ∈ w.ob.SellOrders) →
      ((w.mem p).ID, p) ∈ w.ob.Orders ∧ mapGet w.ob.Orders (w.mem p).ID = some p) ∧
    (∀ e ∈ w.ob.Orders, (w.mem e.2).ID = e.1 ∧ e.2 ∈ w.ob.own (w.mem e.2).Side) ∧
    (w.ob.Orders.map (fun e => e.1)).Nodup ∧ (w.ob.Orders.map (fun e => e.2)).Nodup ∧
    (∀ p, p ∈ w.ob.Orders.map (fun e => e.2) ↔ (p ∈ w.ob.BuyOrders ∨ p ∈ w.ob.SellOrders)) ∧
    (w.ob.Orders.map (fun e => e.2)).Perm (w.ob.BuyOrders ++ w.ob.SellOrders) := by
  have hw := hr.wellFormed
  have hkey := hr.keyed
  have hq := hr.queued hids
  have hi := hr.indexed hst
  have hiff : ∀ p, p ∈ w.ob.Orders.map (fun e => e.2) ↔
      (p ∈ w.ob.BuyOrders ∨ p ∈ w.ob.SellOrders) := by
    intro p
    constructor
    · intro hm
      obtain ⟨e, he, hee⟩ := List.mem_map.mp hm
      rw [← hee]
      exact (own_or_opposite w.ob _ e.2).mpr (Or.inl (hi e he))
    · intro hp
      exact List.mem_map.mpr ⟨_, hq p hp, rfl⟩
  refine ⟨hw.buySide, hw.sellSide, hw.buyNodup, hw.sellNodup, ?_, ?_, hkey.2, hw.indexNodup,
    hiff, ?_⟩
  · intro p hp
    exact ⟨hq p hp, mapGet_of_mem hkey.2 (hq p hp)⟩
  · intro e he
    exact ⟨hkey.1 e he, hi e he⟩
  · rw [List.perm_ext_iff_of_nodup hw.indexNodup]
    · intro p
      rw [hiff p, List.mem_append]
    · rw [List.nodup_append]
      refine ⟨hw.buyNodup, hw.sellNodup, ?_⟩
      intro p hb hs
      have a := hw.buySide p hb
      have b := hw.sellSide p hs
      rw [a] at b
      exact absurd b (by decide)

/-- Witness of C21: the book with the asks `a` at 101 and `b` at 102. -/
theorem book_index_consistency_witness :
    ([limitOrder "a" .SELL 101 2 1, limitOrder "b" .SELL 102 2 2].map (fun o => o.ID)).Nodup ∧
    (∀ o ∈ [limitOrder "a" .SELL 101 2 1, limitOrder "b" .SELL 102 2 2],
      o.Status ≠ .CANCELLED) ∧
    bookTwoLevels.ob.SellOrders = [0, 1] ∧ bookTwoLevels.ob.Orders = [("b", 1), ("a", 0)] ∧
    (∀ p ∈ bookTwoLevels.ob.BuyOrders, (bookTwoLevels.mem p).Side = .BUY) ∧
    (∀ p ∈ bookTwoLevels.ob.SellOrders, (bookTwoLevels.mem p).Side = .SELL) ∧
    bookTwoLevels.ob.BuyOrders.Nodup ∧ bookTwoLevels.ob.SellOrders.Nodup ∧
    (∀ p, (p ∈ bookTwoLevels.ob.BuyOrders ∨ p ∈ bookTwoLevels.ob.SellOrders) →
      ((bookTwoLevels.mem p).ID, p) ∈ bookTwoLevels.ob.Orders ∧
      mapGet bookTwoLevels.ob.Orders (bookTwoLevels.mem p).ID = some p) ∧
    (∀ e ∈ bookTwoLevels.ob.Orders, (bookTwoLevels.mem e.2).ID = e.1 ∧
      e.2 ∈ bookTwoLevels.ob.own (bookTwoLevels.mem e.2).Side) ∧
    (bookTwoLevels.ob.Orders.map (fun e => e.1)).Nodup ∧
    (bookTwoLevels.ob.Orders.map (fun e => e.2)).Nodup ∧
    (∀ p, p ∈ bookTwoLevels.ob.Orders.map (fun e => e.2) ↔
      (p ∈ bookTwoLevels.ob.BuyOrders ∨ p ∈ bookTwoLevels.ob.SellOrders)) ∧
    (bookTwoLevels.ob.Orders.map (fun e => e.2)).Perm
      (bookTwoLevels.ob.BuyOrders ++ bookTwoLevels.ob.SellOrders) :=
  ⟨by decide, by decide, by decide, by decide,
    book_index_consistency reachable_bookTwoLevels (by decide) (by decide)⟩

/-! ## The book is never crossed -/

/-- Every index entry is in the queue of its side or has status `CANCELLED`, whatever the
orders submitted. -/
theorem Reachable.indexed_or_cancelled {subs : List Order} {w : World} (h : Reachable subs w) :
    ∀ e ∈ w.ob.Orders, e.2 ∈ w.ob.own (w.mem e.2).Side ∨ (w.mem e.2).Status = .CANCELLED := by
  induction h with
  | init symbol => intro e he; simp [World.init, NewOrderBook] at he
  | @add subs w o r hr hs ih =>
    intro e he
    have hw := hr.wellFormed
    obtain ⟨_, _, q3, _, _⟩ := submit_queues hw hs
    obtain ⟨x1, _, x3, _, _, _⟩ := submit_index hw hs
    obtain ⟨m1, _, _, _⟩ := submit_mem hw hs
    obtain ⟨hk, hnext⟩ := submit_sameKeys hs
    by_cases hen : e.2 = w.next
    · left
      rw [(hk e.2).2.2.1, hen, alloc_same]
      exact submit_index_new hw hs e he hen
    · have hold : e ∈ w.ob.Orders := by
        rcases x1 e he with e1 | e1
        · rw [e1] at hen; exact absurd rfl hen
        · exact e1
      have hside : (r.1.mem e.2).Side = (w.mem e.2).Side := by
        rw [(hk e.2).2.2.1, alloc_ne w o hen]
      by_cases hopp : e.2 ∈ w.ob.opposite o.Side
      · left
        rw [hside, opposite_side hw o.Side e.2 hopp, ← opposite_eq_own_flip]
        by_contra hn
        have := x3 e.2 hopp hn e he (hr.keyed.1 e hold).symm
        rw [this] at hen
        exact hen rfl
      · rcases ih e hold with e1 | e1
        · left
          rw [hside]
          by_cases hs2 : (w.mem e.2).Side = o.Side
          · rw [hs2] at e1 ⊢
            exact q3 _ e1
          · have hflip : (w.mem e.2).Side = o.Side.flip := by
              cases h1 : (w.mem e.2).Side <;> cases h2 : o.Side <;> simp_all [OrderSide.flip]
            rw [hflip, ← opposite_eq_own_flip] at e1
            exact absurd e1 hopp
        · right
          rw [m1 e.2 hen hopp]
          exact e1
  | @cancel subs w orderID iter hr hp ih =>
    intro e he
    cases hg : mapGet w.ob.Orders orderID with
    | none => rw [cancel_none hg] at he ⊢; exact ih e he
    | some p0 =>
      obtain ⟨_, c2, _, c4, _, _, c7, c8⟩ := cancel_some hg iter
      have hk := (cancel_sameKeys w orderID iter).1
      have hv : e.2 ∈ iter.map (fun e => e.2) := by
        rw [c4] at he
        exact List.mem_map_of_mem _ (hp.symm.subset he)
      by_cases hlive : ((w.cancel orderID iter).1.mem e.2).Status = .CANCELLED
      · exact Or.inr hlive
      · left
        rw [(hk e.2).2.2.1]
        cases hside : (w.mem e.2).Side with
        | BUY => exact (c7 e.2).mpr ⟨hv, hlive, hside⟩
        | SELL => exact (c8 e.2).mpr ⟨hv, hlive, hside⟩

/-- A rebuild puts no order into a queue that was not there before. -/
theorem cancel_queues_subset {subs : List Order} {w : World} (hr : Reachable subs w)
    (orderID : String) (iter : OrderMap) (hp : iter.Perm (mapDelete w.ob.Orders orderID)) :
    (∀ x ∈ (w.cancel orderID iter).1.ob.BuyOrders, x ∈ w.ob.BuyOrders) ∧
    (∀ x ∈ (w.cancel orderID iter).1.ob.SellOrders, x ∈ w.ob.SellOrders) := by
  cases hg : mapGet w.ob.Orders orderID with
  | none => rw [cancel_none hg]; exact ⟨fun _ h => h, fun _ h => h⟩
  | some p0 =>
    obtain ⟨_, c2, _, c4, _, _, c7, c8⟩ := cancel_some hg iter
    have key : ∀ x, x ∈ iter.map (fun e => e.2) →
        ((w.cancel orderID iter).1.mem x).Status ≠ .CANCELLED → x ∈ w.ob.own (w.mem x).Side := by
      intro x hx hlive
      obtain ⟨e, he, hee⟩ := List.mem_map.mp hx
      have hold := (mapDelete_sublist _ _).subset (hp.subset he)
      have hxp : x ≠ p0 := by
        intro hc
        apply hlive
        rw [c2, hc, Mem.modify_same]
      rw [c2, Mem.modify_ne _ _ hxp] at hlive
      rcases hr.indexed_or_cancelled e hold with e1 | e1
      · rw [hee] at e1; exact e1
      · rw [hee] at e1; exact absurd e1 hlive
    constructor
    · intro x hx
      obtain ⟨a1, a2, a3⟩ := (c7 x).mp hx
      have := key x a1 a2
      rw [a3] at this
      exact this
    · intro x hx
      obtain ⟨a1, a2, a3⟩ := (c8 x).mp hx
      have := key x a1 a2
      rw [a3] at this
      exact this

/-- When the incoming order rests, every order left in the opposite queue is strictly
beyond its limit price. -/
theorem submit_rested_uncrossed {w : World} (hw : WellFormed w) {o : Order}
    {r : World × List Trade} (h : w.submit o = some r) (hx : w.next ∈ r.1.ob.own o.Side) :
    ∀ y ∈ r.1.ob.opposite o.Side,
      (o.Side = .BUY → o.Price < (w.mem y).Price) ∧
      (o.Side = .SELL → (w.mem y).Price < o.Price) := by
  obtain ⟨st, hst, hm, hob, _, _⟩ := submit_loop h
  have hinv := matchLoop_inv _ _ _ (start_loopInv hw o) hst
  have hexit := (matchLoop_induct (fun _ => True) (fun _ _ _ _ => trivial) _ _ _ trivial hst).2
  have hk := matchLoop_sameKeys _ _ _ hst
  have hown := matchLoop_own _ _ _ hst
  have hopp := matchLoop_opposite_subset _ _ _ hst
  rw [hob, finish_own] at hx
  rw [hob, finish_opposite]
  by_cases hc : decide (o.Typ ≠ .MARKET) = true ∧ st.remaining > 0
  · intro y hy
    have hylt : y < w.next := opposite_lt hw _ y (hopp y hy)
    have hpy : (st.mem y).Price = (w.mem y).Price := by
      rw [(hk y).2.2.2.2.1]
      show (w.alloc o y).Price = _
      rw [alloc_ne w o (Nat.ne_of_lt hylt)]
    have hpo : (st.mem w.next).Price = o.Price := by
      rw [(hk w.next).2.2.2.2.1]
      show (w.alloc o w.next).Price = _
      rw [alloc_same]
    rcases loopHead_none_cases hexit with e | e | ⟨best, t, hq, hcross⟩
    · rw [e] at hy; exact absurd hy (List.not_mem_nil _)
    · exact absurd hc.2 e
    · have hmin := head_min hinv hq y hy
      rw [hc.1] at hcross
      constructor
      · intro hs
        rw [hs] at hcross hmin
        have h1 := SellLess_false_price hmin
        simp only [crossLoop, decide_eq_false_iff_not, not_le] at hcross
        rw [hpo] at hcross
        rw [← hpy]
        exact lt_of_lt_of_le hcross h1
      · intro hs
        rw [hs] at hcross hmin
        have h1 := BuyLess_false_price hmin
        simp only [crossLoop, decide_eq_false_iff_not, not_le, ge_iff_le] at hcross
        rw [hpo] at hcross
        rw [← hpy]
        exact lt_of_le_of_lt h1 hcross
  · rw [if_neg hc, hown] at hx
    exact absurd (own_lt hw _ _ hx) (Nat.lt_irrefl _)

/-- In every reachable book every bid is priced strictly below every ask. -/
theorem Reachable.uncrossed {subs : List Order} {w : World} (h : Reachable subs w) :
    ∀ b ∈ w.ob.BuyOrders, ∀ a ∈ w.ob.SellOrders, (w.mem b).Price < (w.mem a).Price := by
  induction h with
  | init symbol => intro b hb; simp [World.init, NewOrderBook] at hb
  | @add subs w o r hr hs ih =>
    have hw := hr.wellFormed
    obtain ⟨q1, q2, _, _, _⟩ := submit_queues hw hs
    obtain ⟨hk, hnext⟩ := submit_sameKeys hs
    have hrest := submit_rested_uncrossed hw hs
    have hprice : ∀ x, x < w.next → (r.1.mem x).Price = (w.mem x).Price := by
      intro x hx
      rw [(hk x).2.2.2.2.1, alloc_ne w o (Nat.ne_of_lt hx)]
    have hpn : (r.1.mem w.next).Price = o.Price := by
      rw [(hk w.next).2.2.2.2.1, alloc_same]
    intro b hb a ha
    cases hside : o.Side with
    | BUY =>
      rw [hside] at q1 q2 hrest
      have ha' : a ∈ w.ob.SellOrders := q1 a ha
      rw [hprice a (hw.sellLt a ha')]
      rcases q2 b hb with e | e
      · rw [e, hpn]
        exact ((hrest (e ▸ hb) a ha).1 rfl)
      · rw [hprice b (hw.buyLt b e)]
        exact ih b e a ha'
    | SELL =>
      rw [hside] at q1 q2 hrest
      have hb' : b ∈ w.ob.BuyOrders := q1 b hb
      rw [hprice b (hw.buyLt b hb')]
      rcases q2 a ha with e | e
      · rw [e, hpn]
        exact ((hrest (e ▸ ha) b hb).2 rfl)
      · rw [hprice a (hw.sellLt a e)]
        exact ih b hb' a e
  | @cancel subs w orderID iter hr hp ih =>
    obtain ⟨s1, s2⟩ := cancel_queues_subset hr orderID iter hp
    have hk := (cancel_sameKeys w orderID iter).1
    intro b hb a ha
    rw [(hk b).2.2.2.2.1, (hk a).2.2.2.2.1]
    exact ih b (s1 b hb) a (s2 a ha)

theorem buy_root_best {w : World} (hw : WellFormed w) {b : Ptr} {tb : List Ptr}
    (hq : w.ob.BuyOrders = b :: tb) :
    ∀ x ∈ w.ob.BuyOrders, (w.mem x).Price ≤ (w.mem b).Price := by
  intro x hx
  obtain ⟨k, hk, hxk⟩ := List.getElem_of_mem hx
  have := isHeap_root_min (strictWeak_BuyLess w.mem) hw.buyHeap k hk
  rw [List.getD_eq_getElem _ _ hk, hxk, hq] at this
  exact BuyLess_false_price (by simpa using this)

theorem sell_root_best {w : World} (hw : WellFormed w) {a : Ptr} {ta : List Ptr}
    (hq : w.ob.SellOrders = a :: ta) :
    ∀ y ∈ w.ob.SellOrders, (w.mem a).Price ≤ (w.mem y).Price := by
  intro y hy
  obtain ⟨k, hk, hyk⟩ := List.getElem_of_mem hy
  have := isHeap_root_min (strictWeak_SellLess w.mem) hw.sellHeap k hk
  rw [List.getD_eq_getElem _ _ hk, hyk, hq] at this
  exact SellLess_false_price (by simpa using this)

/-- C23 (the book is never crossed).  In every book reachable from an empty book by
`AddOrder` and `CancelOrder` calls, with any orders: every order in the bid queue has a
price strictly below the price of every order in the ask queue; when both queues are
non-empty, the head of the bid queue is priced strictly below the head of the ask queue,
no bid is priced above the head of the bid queue and no ask below the head of the ask
queue; and the two formulations are equivalent. -/
theorem never_crossed {subs : List Order} {w : World} (hr : Reachable subs w) :
    (∀ b ∈ w.ob.BuyOrders, ∀ a ∈ w.ob.SellOrders, (w.mem b).Price < (w.mem a).Price) ∧
    (∀ (b a : Ptr) (tb ta : List Ptr), w.ob.BuyOrders = b :: tb → w.ob.SellOrders = a :: ta →
      (w.mem b).Price < (w.mem a).Price ∧
      (∀ x ∈ w.ob.BuyOrders, (w.mem x).Price ≤ (w.mem b).Price) ∧
      (∀ y ∈ w.ob.SellOrders, (w.mem a).Price ≤ (w.mem y).Price)) ∧
    ((∀ b ∈ w.ob.BuyOrders, ∀ a ∈ w.ob.SellOrders, (w.mem b).Price < (w.mem a).Price) ↔
      (∀ (b a : Ptr) (tb ta : List Ptr), w.ob.BuyOrders = b :: tb →
        w.ob.SellOrders = a :: ta → (w.mem b).Price < (w.mem a).Price)) := by
  have hw := hr.wellFormed
  have hu := hr.uncrossed
  refine ⟨hu, ?_, ?_⟩
  · intro b a tb ta hb ha
    refine ⟨hu b (by rw [hb]; exact List.mem_cons_self _ _) a
      (by rw [ha]; exact List.mem_cons_self _ _), buy_root_best hw hb, sell_root_best hw ha⟩
  · constructor
    · intro hall b a tb ta hb ha
      exact hall b (by rw [hb]; exact List.mem_cons_self _ _) a
        (by rw [ha]; exact List.mem_cons_self _ _)
    · intro hheads x hx y hy
      obtain ⟨b, tb, hb⟩ := List.exists_cons_of_ne_nil (List.ne_nil_of_mem hx)
      obtain ⟨a, ta, ha⟩ := List.exists_cons_of_ne_nil (List.ne_nil_of_mem hy)
      exact lt_of_le_of_lt (buy_root_best hw hb x hx)
        (lt_of_lt_of_le (hheads b a tb ta hb ha) (sell_root_best hw ha y hy))

theorem reachable_bookBidAsk :
    Reachable [limitOrder "a" .SELL 101 1 1, limitOrder "b" .BUY 99 1 2] bookBidAsk :=
  ((Reachable.init "X").after _).after _

/-- Witness of C23: the book with the ask `a` at 101 and the bid `b` at 99. -/
theorem never_crossed_witness :
    bookBidAsk.ob.BuyOrders = [1] ∧ bookBidAsk.ob.SellOrders = [0] ∧
    (bookBidAsk.mem 1).Price = 99 ∧ (bookBidAsk.mem 0).Price = 101 ∧
    (∀ b ∈ bookBidAsk.ob.BuyOrders, ∀ a ∈ bookBidAsk.ob.SellOrders,
      (bookBidAsk.mem b).Price < (bookBidAsk.mem a).Price) ∧
    (∀ (b a : Ptr) (tb ta : List Ptr), bookBidAsk.ob.BuyOrders = b :: tb →
      bookBidAsk.ob.SellOrders = a :: ta →
      (bookBidAsk.mem b).Price < (bookBidAsk.mem a).Price ∧
      (∀ x ∈ bookBidAsk.ob.BuyOrders, (bookBidAsk.mem x).Price ≤ (bookBidAsk.mem b).Price) ∧
      (∀ y ∈ bookBidAsk.ob.SellOrders, (bookBidAsk.mem a).Price ≤ (bookBidAsk.mem y).Price)) ∧
    ((∀ b ∈ bookBidAsk.ob.BuyOrders, ∀ a ∈ bookBidAsk.ob.SellOrders,
        (bookBidAsk.mem b).Price < (bookBidAsk.mem a).Price) ↔
      (∀ (b a : Ptr) (tb ta : List Ptr), bookBidAsk.ob.BuyOrders = b :: tb →
        bookBidAsk.ob.SellOrders = a :: ta →
        (bookBidAsk.mem b).Price < (bookBidAsk.mem a).Price)) :=
  ⟨by decide, by decide, by decide, by decide, never_crossed reachable_bookBidAsk⟩

/-! ## The number of trades of one call -/

/-- The matched heads of a loop on a queue without repetition that does not hold the
incoming order: no head is matched twice, and there are no more of them than the queue
has orders. -/
theorem loopHeads_nodup {limit : Bool} {side : OrderSide} {order : Ptr} :
    ∀ (fuel : Nat) (st : Loop), LoopInv side order st →
      (loopHeads limit side order fuel st).Nodup ∧
      (loopHeads limit side order fuel st).length ≤ (st.ob.opposite side).length := by
  intro fuel
  induction fuel with
  | zero => intro st _; simp [loopHeads]
  | succ fuel ih =>
    intro st hinv
    simp only [loopHeads]
    cases hs : loopHead limit side order st with
    | none => simp
    | some best =>
      simp only
      obtain ⟨t, hq, hc⟩ := loopBody_opposite_cases hs
      have hbm : best ∈ st.ob.opposite side := by rw [hq]; exact List.mem_cons_self _ _
      have hne : best ≠ order := fun e => hinv.notin (e ▸ hbm)
      have hnd := hinv.nodup
      rw [hq] at hnd
      obtain ⟨i1, i2⟩ := ih _ (loopBody_inv hs hinv)
      rcases hc with ⟨hnp, _⟩ | ⟨_, hperm⟩
      · have hrem := (loopBody_kept_remaining side st hne hnp).1
        have hnone : loopHead limit side order (loopBody side order best st) = none :=
          loopHead_none_of_remaining (by rw [hrem]; decide)
        have hnil : loopHeads limit side order fuel (loopBody side order best st) = [] := by
          cases fuel with
          | zero => rfl
          | succ n => simp only [loopHeads, hnone]
        rw [hnil, hq]
        simp
      · refine ⟨List.nodup_cons.mpr ⟨?_, i1⟩, ?_⟩
        · intro hm
          exact (List.nodup_cons.mp hnd).1 (hperm.subset (loopHeads_subset _ _ _ hm))
        · rw [hq, List.length_cons, List.length_cons]
          have := hperm.length_eq
          omega

/-- Each iteration of a matching loop on such a queue either removes the head or brings
`remaining` to zero and is the last one. -/
theorem loopHeads_iter {limit : Bool} {side : OrderSide} {order : Ptr} :
    ∀ (fuel : Nat) (st : Loop), LoopInv side order st →
      ∀ (i : Nat) (best : Ptr), (loopHeads limit side order fuel st)[i]? = some best →
        loopHead limit side order (loopIter limit side order i st) = some best ∧
        ((popped (loopIter limit side order i st) order best ∧
            best ∉ (loopBody side order best (loopIter limit side order i st)).ob.opposite side ∧
            ((loopBody side order best (loopIter limit side order i st)).ob.opposite side).length + 1
              = ((loopIter limit side order i st).ob.opposite side).length) ∨
          ((loopBody side order best (loopIter limit side order i st)).remaining = 0 ∧
            (loopHeads limit side order fuel st).length = i + 1)) := by
  intro fuel
  induction fuel with
  | zero => intro st _ i best h; simp [loopHeads] at h
  | succ fuel ih =>
    intro st hinv i best h
    simp only [loopHeads] at h ⊢
    cases hs : loopHead limit side order st with
    | none => rw [hs] at h; simp at h
    | some b0 =>
      rw [hs] at h
      simp only at h ⊢
      cases i with
      | zero =>
        have hb : b0 = best := by simpa using h
        subst hb
        simp only [loopIter]
        refine ⟨hs, ?_⟩
        obtain ⟨t, hq, hc⟩ := loopBody_opposite_cases hs
        have hbm : b0 ∈ st.ob.opposite side := by rw [hq]; exact List.mem_cons_self _ _
        have hne : b0 ≠ order := fun e => hinv.notin (e ▸ hbm)
        have hnd := hinv.nodup
        rw [hq] at hnd
        rcases hc with ⟨hnp, _⟩ | ⟨hp, hperm⟩
        · right
          have hrem := (loopBody_kept_remaining side st hne hnp).1
          have hnone : loopHead limit side order (loopBody side order b0 st) = none :=
            loopHead_none_of_remaining (by rw [hrem]; decide)
          have hnil : loopHeads limit side order fuel (loopBody side order b0 st) = [] := by
            cases fuel with
            | zero => rfl
            | succ n => simp only [loopHeads, hnone]
          rw [hnil]
          exact ⟨hrem, rfl⟩
        · left
          refine ⟨hp, fun hm => (List.nodup_cons.mp hnd).1 (hperm.subset hm), ?_⟩
          rw [hq, List.length_cons, hperm.length_eq]
      | succ j =>
        have hj : (loopHeads limit side order fuel (loopBody side order b0 st))[j]? = some best := by
          simpa using h
        have := ih _ (loopBody_inv hs hinv) j best hj
        simp only [loopIter, hs, List.length_cons]
        rcases this with ⟨a1, a2 | ⟨a2, a3⟩⟩
        · exact ⟨a1, Or.inl a2⟩
        · exact ⟨a1, Or.inr ⟨a2, by rw [a3]⟩⟩

theorem loopIter_heads {limit : Bool} {side : OrderSide} {order : Ptr} :
    ∀ (fuel : Nat) (st st' : Loop), matchLoop limit side order fuel st = some st' →
      loopIter limit side order (loopHeads limit side order fuel st).length st = st' ∧
      loopHead limit side order st' = none := by
  intro fuel
  induction fuel with
  | zero =>
    intro st st' h
    simp only [matchLoop] at h
    cases hs : loopHead limit side order st with
    | none =>
      rw [hs] at h
      have : st = st' := by simpa using h
      subst this
      exact ⟨rfl, hs⟩
    | some b => rw [hs] at h; exact absurd h (by simp)
  | succ fuel ih =>
    intro st st' h
    simp only [matchLoop] at h
    simp only [loopHeads]
    cases hs : loopHead limit side order st with
    | none =>
      rw [hs] at h
      have : st = st' := by simpa using h
      subst this
      exact ⟨rfl, hs⟩
    | some b =>
      rw [hs] at h
      simp only [List.length_cons, loopIter, hs]
      exact ih _ _ h

/-- C25 (matching terminates with a bounded number of trades).  Over exact quantities:
`AddOrder` returns on every memory, book and order; and on every book that satisfies the
structural invariant (as every reachable book does), for a new incoming order: the loop
is left after exactly as many iterations as trades are returned, one trade for each
matched head; each iteration either removes its head from the opposite queue, which gets
one shorter, or brings `remaining` to zero and is the last; the trades are no more than
the orders of the opposite queue before the call; no order of that queue is the matched
head of two trades, and when ids tell the orders of the queue apart no id is the
counterparty of two trades. -/
theorem bounded_matching {w : World} (hw : WellFormed w) (o : Order) :
    (∀ (mem : Mem) (ob : OrderBook) (order : Ptr), ∃ r, AddOrder mem ob order = some r) ∧
    ∃ r, w.submit o = some r ∧
      r.2.length = (matchedHeads (w.alloc o) w.ob w.next).length ∧
      r.2.length ≤ (w.ob.opposite o.Side).length ∧
      r.2.map (counterpartyID o.Side) =
        (matchedHeads (w.alloc o) w.ob w.next).map (fun h => (w.mem h).ID) ∧
      (matchedHeads (w.alloc o) w.ob w.next).Nodup ∧
      (∀ h ∈ matchedHeads (w.alloc o) w.ob w.next, h ∈ w.ob.opposite o.Side) ∧
      ((∀ x ∈ w.ob.opposite o.Side, ∀ y ∈ w.ob.opposite o.Side,
          (w.mem x).ID = (w.mem y).ID → x = y) →
        (r.2.map (counterpartyID o.Side)).Nodup) ∧
      loopHead (decide (o.Typ ≠ .MARKET)) o.Side w.next
        (loopIter (decide (o.Typ ≠ .MARKET)) o.Side w.next r.2.length
          (startLoop (w.alloc o) w.ob w.next)) = none ∧
      ∀ (i : Nat) (best : Ptr), (matchedHeads (w.alloc o) w.ob w.next)[i]? = some best →
        loopHead (decide (o.Typ ≠ .MARKET)) o.Side w.next
          (loopIter (decide (o.Typ ≠ .MARKET)) o.Side w.next i
            (startLoop (w.alloc o) w.ob w.next)) = some best ∧
        ((popped (loopIter (decide (o.Typ ≠ .MARKET)) o.Side w.next i
              (startLoop (w.alloc o) w.ob w.next)) w.next best ∧
            best ∉ (loopBody o.Side w.next best
              (loopIter (decide (o.Typ ≠ .MARKET)) o.Side w.next i
                (startLoop (w.alloc o) w.ob w.next))).ob.opposite o.Side ∧
            ((loopBody o.Side w.next best
              (loopIter (decide (o.Typ ≠ .MARKET)) o.Side w.next i
                (startLoop (w.alloc o) w.ob w.next))).ob.opposite o.Side).length + 1 =
              ((loopIter (decide (o.Typ ≠ .MARKET)) o.Side w.next i
                (startLoop (w.alloc o) w.ob w.next)).ob.opposite o.Side).length) ∨
          ((loopBody o.Side w.next best
              (loopIter (decide (o.Typ ≠ .MARKET)) o.Side w.next i
                (startLoop (w.alloc o) w.ob w.next))).remaining = 0 ∧
            r.2.length = i + 1)) := by
  refine ⟨AddOrder_total, ?_⟩
  obtain ⟨st, hst, hsub⟩ := submit_cases w o
  refine ⟨_, hsub, ?_⟩
  simp only
  have hinv := start_loopInv hw o
  have hmap := matchLoop_trades_map (counterpartyID o.Side) (fun q => q.ID)
    (fun s b => loopTrade_counterparty o.Side w.next b s)
    (fun m m' hk p => (hk p).1) _ _ _ hst
  simp only [startLoop, List.map_nil, List.nil_append] at hmap
  have hsubset : ∀ h ∈ matchedHeads (w.alloc o) w.ob w.next, h ∈ w.ob.opposite o.Side := by
    intro h hh
    rw [matchedHeads_alloc] at hh
    exact loopHeads_subset _ _ h hh
  have hids : st.trades.map (counterpartyID o.Side) =
      (matchedHeads (w.alloc o) w.ob w.next).map (fun h => (w.mem h).ID) := by
    rw [hmap, matchedHeads_alloc]
    apply List.map_congr_left
    intro h hh
    have hlt := opposite_lt hw _ h (loopHeads_subset _ _ h hh)
    rw [alloc_ne w o (Nat.ne_of_lt hlt)]
  have hlen : st.trades.length = (matchedHeads (w.alloc o) w.ob w.next).length := by
    have := congrArg List.length hids
    simpa using this
  obtain ⟨hnd, hle⟩ := @loopHeads_nodup (decide (o.Typ ≠ .MARKET)) o.Side w.next
    (loopFuel w.ob o.Side) _ hinv
  rw [← matchedHeads_alloc] at hnd hle
  obtain ⟨hit, hnone⟩ := loopIter_heads _ _ _ hst
  rw [← matchedHeads_alloc] at hit
  refine ⟨hlen, by rw [hlen]; exact hle, hids, hnd, hsubset, ?_, ?_, ?_⟩
  · intro hinj
    rw [hids]
    exact List.Nodup.map_on (fun x hx y hy e => hinj x (hsubset x hx) y (hsubset y hy) e) hnd
  · rw [hlen, hit]
    exact hnone
  · intro i best hi
    rw [matchedHeads_alloc] at hi
    obtain ⟨a1, a2⟩ := loopHeads_iter _ _ hinv i best hi
    refine ⟨a1, ?_⟩
    rcases a2 with a2 | ⟨a2, a3⟩
    · exact Or.inl a2
    · right
      refine ⟨a2, ?_⟩
      rw [hlen, matchedHeads_alloc]
      exact a3

/-- Witness of C25: on the book with asks of 2 at 101 and of 2 at 102, a LIMIT BUY of 3 at
103 makes two trades, one against each ask. -/
theorem bounded_matching_witness :
    (bookTwoLevels.submit crossingBuy).map (fun r => r.2.length) = some 2 ∧
    bookTwoLevels.ob.SellOrders.length = 2 ∧
    (∀ (mem : Mem) (ob : OrderBook) (order : Ptr), ∃ r, AddOrder mem ob order = some r) ∧
    ∃ r, bookTwoLevels.submit crossingBuy = some r ∧
      r.2.length = (matchedHeads (bookTwoLevels.alloc crossingBuy) bookTwoLevels.ob
          bookTwoLevels.next).length ∧
      r.2.length ≤ (bookTwoLevels.ob.opposite crossingBuy.Side).length ∧
      r.2.map (counterpartyID crossingBuy.Side) =
        (matchedHeads (bookTwoLevels.alloc crossingBuy) bookTwoLevels.ob bookTwoLevels.next).map
            (fun h => (bookTwoLevels.mem h).ID) ∧
      (matchedHeads (bookTwoLevels.alloc crossingBuy) bookTwoLevels.ob bookTwoLevels.next).Nodup ∧
      (∀ h ∈ matchedHeads (bookTwoLevels.alloc crossingBuy) bookTwoLevels.ob bookTwoLevels.next, h
          ∈ bookTwoLevels.ob.opposite crossingBuy.Side) ∧
      ((∀ x ∈ bookTwoLevels.ob.opposite crossingBuy.Side, ∀ y ∈ bookTwoLevels.ob.opposite
          crossingBuy.Side,
          (bookTwoLevels.mem x).ID = (bookTwoLevels.mem y).ID → x = y) →
        (r.2.map (counterpartyID crossingBuy.Side)).Nodup) ∧
      loopHead (decide (crossingBuy.Typ ≠ .MARKET)) crossingBuy.Side bookTwoLevels.next
        (loopIter (decide (crossingBuy.Typ ≠ .MARKET)) crossingBuy.Side bookTwoLevels.next
            r.2.length
          (startLoop (bookTwoLevels.alloc crossingBuy) bookTwoLevels.ob bookTwoLevels.next)) = none
              ∧
      ∀ (i : Nat) (best : Ptr), (matchedHeads (bookTwoLevels.alloc crossingBuy) bookTwoLevels.ob
          bookTwoLevels.next)[i]? = some best →
        loopHead (decide (crossingBuy.Typ ≠ .MARKET)) crossingBuy.Side bookTwoLevels.next
          (loopIter (decide (crossingBuy.Typ ≠ .MARKET)) crossingBuy.Side bookTwoLevels.next i
            (startLoop (bookTwoLevels.alloc crossingBuy) bookTwoLevels.ob bookTwoLevels.next)) =
                some best ∧
        ((popped (loopIter (decide (crossingBuy.Typ ≠ .MARKET)) crossingBuy.Side bookTwoLevels.next
            i
              (startLoop (bookTwoLevels.alloc crossingBuy) bookTwoLevels.ob bookTwoLevels.next))
                  bookTwoLevels.next best ∧
            best ∉ (loopBody crossingBuy.Side bookTwoLevels.next best
              (loopIter (decide (crossingBuy.Typ ≠ .MARKET)) crossingBuy.Side bookTwoLevels.next i
                (startLoop (bookTwoLevels.alloc crossingBuy) bookTwoLevels.ob
                    bookTwoLevels.next))).ob.opposite crossingBuy.Side ∧
            ((loopBody crossingBuy.Side bookTwoLevels.next best
              (loopIter (decide (crossingBuy.Typ ≠ .MARKET)) crossingBuy.Side bookTwoLevels.next i
                (startLoop (bookTwoLevels.alloc crossingBuy) bookTwoLevels.ob
                    bookTwoLevels.next))).ob.opposite crossingBuy.Side).length + 1 =
              ((loopIter (decide (crossingBuy.Typ ≠ .MARKET)) crossingBuy.Side bookTwoLevels.next i
                (startLoop (bookTwoLevels.alloc crossingBuy) bookTwoLevels.ob
                    bookTwoLevels.next)).ob.opposite crossingBuy.Side).length) ∨
          ((loopBody crossingBuy.Side bookTwoLevels.next best
              (loopIter (decide (crossingBuy.Typ ≠ .MARKET)) crossingBuy.Side bookTwoLevels.next i
                (startLoop (bookTwoLevels.alloc crossingBuy) bookTwoLevels.ob
                    bookTwoLevels.next))).remaining = 0 ∧
            r.2.length = i + 1)) :=
  ⟨by decide, by decide, bounded_matching reachable_bookTwoLevels.wellFormed crossingBuy⟩

/-! ## Layout-independent matching -/

theorem notAfter_iff (mem : Mem) (side : OrderSide) (a b : Ptr) :
    notAfter side (mem a) (mem b) ↔ oppositeLess mem side b a = false := by
  cases side
  · simp only [notAfter, oppositeLess, SellLess]
    split
    · next he => simp only [decide_eq_false_iff_not, not_lt]; constructor
                 · rintro (h | ⟨_, h⟩)
                   · omega
                   · exact h
                 · intro h; exact Or.inr ⟨he.symm, h⟩
    · next hne => simp only [decide_eq_false_iff_not, not_lt]; constructor
                  · rintro (h | ⟨h, _⟩)
                    · omega
                    · exact absurd h.symm hne
                  · intro h; left; omega
  · simp only [notAfter, oppositeLess, BuyLess]
    split
    · next he => simp only [decide_eq_false_iff_not, not_lt]; constructor
                 · rintro (h | ⟨_, h⟩)
                   · omega
                   · exact h
                 · intro h; exact Or.inr ⟨he.symm, h⟩
    · next hne => simp only [decide_eq_false_iff_not, not_lt, gt_iff_lt]; constructor
                  · rintro (h | ⟨h, _⟩)
                    · omega
                    · exact absurd h.symm hne
                  · intro h; left; omega

theorem notAfter_total (side : OrderSide) (a b : Order) :
    notAfter side a b ∨ notAfter side b a := by
  cases side <;> simp only [notAfter] <;> omega

theorem notAfter_trans (side : OrderSide) (a b c : Order) :
    notAfter side a b → notAfter side b c → notAfter side a c := by
  cases side <;> simp only [notAfter] <;> omega

theorem notAfter_antisymm (side : OrderSide) (a b : Order) :
    notAfter side a b → notAfter side b a → a.Price = b.Price ∧ a.Timestamp = b.Timestamp := by
  cases side <;> simp only [notAfter] <;> omega

/-- A list has at most one sorted arrangement when the order tells its members apart. -/
theorem sorted_perm_unique {α : Type} (r : α → α → Prop) :
    ∀ (l1 l2 : List α), l1.Perm l2 → l1.Pairwise r → l2.Pairwise r →
      (∀ a ∈ l1, ∀ b ∈ l1, r a b → r b a → a = b) → l1 = l2 := by
  intro l1
  induction l1 with
  | nil => intro l2 hp _ _ _; exact (List.Perm.nil_eq hp)
  | cons a l1 ih =>
    intro l2 hp h1 h2 hanti
    cases l2 with
    | nil => exact absurd hp.length_eq (by simp)
    | cons b l2 =>
      rw [List.pairwise_cons] at h1 h2
      have hab : a = b := by
        have hb : b ∈ a :: l1 := hp.symm.subset (List.mem_cons_self _ _)
        have ha : a ∈ b :: l2 := hp.subset (List.mem_cons_self _ _)
        rcases List.mem_cons.mp hb with e | e
        · exact e.symm
        · rcases List.mem_cons.mp ha with e2 | e2
          · exact e2
          · exact hanti a (List.mem_cons_self _ _) b hb (h1.1 b e) (h2.1 a e2)
      subst hab
      rw [ih l2 (List.Perm.cons_inv hp) h1.2 h2.2
        (fun x hx y hy => hanti x (List.mem_cons_of_mem _ hx) y (List.mem_cons_of_mem _ hy))]

theorem sortedOpposite_perm (mem : Mem) (side : OrderSide) (q : List Ptr) :
    (sortedOpposite mem side q).Perm q :=
  List.perm_insertionSort _ q

theorem sortedOpposite_pairwise (mem : Mem) (side : OrderSide) (q : List Ptr) :
    (sortedOpposite mem side q).Pairwise (fun a b => notAfter side (mem a) (mem b)) := by
  refine pairwise_insertionSort (fun a b : Ptr => notAfter side (mem a) (mem b))
    (fun a b c => notAfter_trans side _ _ _) q ?_
  exact List.pairwise_of_forall (fun _ _ => notAfter_total side _ _)

theorem orderedInsert_congr {α : Type} (r r' : α → α → Prop) [DecidableRel r] [DecidableRel r']
    (h : ∀ a b, r a b ↔ r' a b) (a : α) :
    ∀ l : List α, l.orderedInsert r a = l.orderedInsert r' a := by
  intro l
  induction l with
  | nil => rfl
  | cons b l ih =>
    simp only [List.orderedInsert]
    by_cases hab : r a b
    · rw [if_pos hab, if_pos ((h a b).mp hab)]
    · rw [if_neg hab, if_neg (fun hc => hab ((h a b).mpr hc)), ih]

theorem insertionSort_congr {α : Type} (r r' : α → α → Prop) [DecidableRel r] [DecidableRel r']
    (h : ∀ a b, r a b ↔ r' a b) :
    ∀ l : List α, l.insertionSort r = l.insertionSort r' := by
  intro l
  induction l with
  | nil => rfl
  | cons a l ih =>
    simp only [List.insertionSort]
    rw [ih, orderedInsert_congr r r' h]

theorem notAfter_congr {m m' : Mem} (hk : SameKeys m m') (side : OrderSide) (a b : Ptr) :
    notAfter side (m' a) (m' b) ↔ notAfter side (m a) (m b) := by
  rw [notAfter_iff, notAfter_iff, oppositeLess_congr hk]

theorem sortedOpposite_congr {m m' : Mem} (hk : SameKeys m m') (side : OrderSide)
    (q : List Ptr) : sortedOpposite m' side q = sortedOpposite m side q :=
  insertionSort_congr _ _ (fun a b => notAfter_congr hk side a b) q

theorem NoTies.of_sameKeys {m m' : Mem} (hk : SameKeys m m') {q q' : List Ptr}
    (hsub : ∀ x ∈ q', x ∈ q) (h : NoTies m q) : NoTies m' q' := by
  intro a ha b hb hp ht
  rw [(hk a).2.2.2.2.1, (hk b).2.2.2.2.1] at hp
  rw [(hk a).2.2.2.2.2.1, (hk b).2.2.2.2.2.1] at ht
  exact h a (hsub a ha) b (hsub b hb) hp ht

/-- The sorted arrangement of a queue starts with an order that none precedes, followed
by the sorted arrangement of the others. -/
theorem sortedOpposite_cons {mem : Mem} {side : OrderSide} {best : Ptr} {t t' : List Ptr}
    (hmin : ∀ x ∈ best :: t, oppositeLess mem side x best = false)
    (hties : NoTies mem (best :: t)) (hp : t'.Perm t) :
    sortedOpposite mem side (best :: t) = best :: sortedOpposite mem side t' := by
  refine sorted_perm_unique (fun a b => notAfter side (mem a) (mem b)) _ _ ?_
    (sortedOpposite_pairwise mem side _) ?_ ?_
  · exact (sortedOpposite_perm mem side _).trans
      (List.Perm.cons _ (hp.symm.trans (sortedOpposite_perm mem side t').symm))
  · rw [List.pairwise_cons]
    refine ⟨?_, sortedOpposite_pairwise mem side t'⟩
    intro x hx
    rw [notAfter_iff]
    exact hmin x (List.mem_cons_of_mem _ (hp.subset ((sortedOpposite_perm mem side t').subset hx)))
  · intro a ha b hb hab hba
    obtain ⟨e1, e2⟩ := notAfter_antisymm side _ _ hab hba
    exact hties a ((sortedOpposite_perm mem side _).subset ha) b
      ((sortedOpposite_perm mem side _).subset hb) e1 e2

theorem loopTrade_fill (side : OrderSide) (order best : Ptr) (st : Loop) :
    (loopTrade side order best st).fill =
      match side with
      | .BUY => ((st.mem order).ID, (st.mem best).ID, (st.mem best).Price, matchQty st best)
      | .SELL => ((st.mem best).ID, (st.mem order).ID, (st.mem best).Price, matchQty st best) := by
  cases side <;> rfl

theorem popped_iff_filled (st : Loop) {order best : Ptr} (hne : best ≠ order) :
    popped st order best ↔
      (filledMem st order best best).Filled = (filledMem st order best best).Quantity := by
  unfold popped
  rw [filledMem_best_of_ne st hne]
  simp only
  unfold matchQty
  rw [min_def]
  split <;> constructor <;> intro h <;> omega

/-- One step of the reference on a head that the loop matches and removes. -/
theorem consumeSorted_popped {limit : Bool} {side : OrderSide} {order best : Ptr} {st : Loop}
    (hs : loopHead limit side order st = some best) (hne : best ≠ order)
    (hp : popped st order best) (rest : List Ptr) :
    consumeSorted limit side order (best :: rest) st.mem st.remaining =
      { consumeSorted limit side order rest (loopBody side order best st).mem
          (loopBody side order best st).remaining with
        fills := (loopTrade side order best st).fill ::
          (consumeSorted limit side order rest (loopBody side order best st).mem
            (loopBody side order best st).remaining).fills,
        removed := ((loopBody side order best st).mem best).ID ::
          (consumeSorted limit side order rest (loopBody side order best st).mem
            (loopBody side order best st).remaining).removed } := by
  have hrem := (loopHead_some hs).2
  have hcross := loopHead_some_cross hs
  have hfill := (popped_iff_filled st hne).mp hp
  have hid : ((loopBody side order best st).mem best).ID = (filledMem st order best best).ID := by
    rw [loopBody_mem, if_pos hp, Mem.modify_same]
  rw [hid, loopTrade_fill, loopBody_mem, if_pos hp, loopBody_remaining]
  unfold filledMem matchQty at hfill ⊢
  rw [min_eq_min] at hfill ⊢
  simp only [consumeSorted]
  rw [if_neg (by simp [hrem, hcross]), if_pos hfill]

/-- One step of the reference on a head that the loop matches and keeps. -/
theorem consumeSorted_kept {limit : Bool} {side : OrderSide} {order best : Ptr} {st : Loop}
    (hs : loopHead limit side order st = some best) (hne : best ≠ order)
    (hp : ¬ popped st order best) (rest : List Ptr) :
    consumeSorted limit side order (best :: rest) st.mem st.remaining =
      { mem := (loopBody side order best st).mem,
        remaining := (loopBody side order best st).remaining,
        fills := [(loopTrade side order best st).fill], rest := best :: rest, removed := [] } := by
  have hrem := (loopHead_some hs).2
  have hcross := loopHead_some_cross hs
  have hfill := fun h => hp ((popped_iff_filled st hne).mpr h)
  rw [loopTrade_fill, loopBody_mem, if_neg hp, loopBody_remaining]
  unfold filledMem matchQty at hfill ⊢
  rw [min_eq_min] at hfill ⊢
  simp only [consumeSorted]
  rw [if_neg (by simp [hrem, hcross]), if_neg hfill]

/-- The reference stops where the loop is left. -/
theorem consumeSorted_stop {limit : Bool} {side : OrderSide} {order : Ptr} {st : Loop}
    (hs : loopHead limit side order st = none) (hinv : LoopInv side order st)
    (hties : NoTies st.mem (st.ob.opposite side)) :
    consumeSorted limit side order (sortedOpposite st.mem side (st.ob.opposite side)) st.mem
        st.remaining =
      { mem := st.mem, remaining := st.remaining, fills := [],
        rest := sortedOpposite st.mem side (st.ob.opposite side), removed := [] } := by
  rcases loopHead_none_cases hs with e | e | ⟨best, t, hq, hcross⟩
  · rw [e]
    rfl
  · cases hl : sortedOpposite st.mem side (st.ob.opposite side) with
    | nil => rfl
    | cons b rest =>
      simp only [consumeSorted]
      rw [if_pos (Or.inl e)]
  · have hmin : ∀ x ∈ best :: t, oppositeLess st.mem side x best = false := by
      intro x hx
      exact head_min hinv hq x (hq ▸ hx)
    rw [hq] at hties ⊢
    rw [sortedOpposite_cons hmin hties (List.Perm.refl t)]
    simp only [consumeSorted]
    rw [if_pos (Or.inr hcross)]

/-- A matching loop on a valid heap without ties does what the reference does on the
sorted arrangement of the queue. -/
theorem matchLoop_refines {limit : Bool} {side : OrderSide} {order : Ptr} :
    ∀ (fuel : Nat) (st st' : Loop), LoopInv side order st →
      NoTies st.mem (st.ob.opposite side) →
      matchLoop limit side order fuel st = some st' →
      st'.mem = (consumeSorted limit side order
        (sortedOpposite st.mem side (st.ob.opposite side)) st.mem st.remaining).mem ∧
      st'.remaining = (consumeSorted limit side order
        (sortedOpposite st.mem side (st.ob.opposite side)) st.mem st.remaining).remaining ∧
      st'.trades.map Trade.fill = st.trades.map Trade.fill ++ (consumeSorted limit side order
        (sortedOpposite st.mem side (st.ob.opposite side)) st.mem st.remaining).fills ∧
      (st'.ob.opposite side).Perm (consumeSorted limit side order
        (sortedOpposite st.mem side (st.ob.opposite side)) st.mem st.remaining).rest ∧
      st'.ob.Orders = deleteAll st.ob.Orders (consumeSorted limit side order
        (sortedOpposite st.mem side (st.ob.opposite side)) st.mem st.remaining).removed := by
  intro fuel
  induction fuel with
  | zero =>
    intro st st' hinv hties h
    simp only [matchLoop] at h
    cases hs : loopHead limit side order st with
    | none =>
      rw [hs] at h
      have : st = st' := by simpa using h
      subst this
      rw [consumeSorted_stop hs hinv hties]
      exact ⟨rfl, rfl, by simp, (sortedOpposite_perm _ _ _).symm, rfl⟩
    | some b => rw [hs] at h; exact absurd h (by simp)
  | succ fuel ih =>
    intro st st' hinv hties h
    simp only [matchLoop] at h
    cases hs : loopHead limit side order st with
    | none =>
      rw [hs] at h
      have : st = st' := by simpa using h
      subst this
      rw [consumeSorted_stop hs hinv hties]
      exact ⟨rfl, rfl, by simp, (sortedOpposite_perm _ _ _).symm, rfl⟩
    | some best =>
      rw [hs] at h
      simp only at h
      obtain ⟨t, hq, hc⟩ := loopBody_opposite_cases hs
      have hbm : best ∈ st.ob.opposite side := by rw [hq]; exact List.mem_cons_self _ _
      have hne : best ≠ order := fun e => hinv.notin (e ▸ hbm)
      have hk := loopBody_sameKeys side order best st
      have hmin : ∀ x ∈ best :: t, oppositeLess st.mem side x best = false := by
        intro x hx
        exact head_min hinv hq x (hq ▸ hx)
      have hties' : NoTies st.mem (best :: t) := hq ▸ hties
      rcases hc with ⟨hnp, hsame⟩ | ⟨hp, hperm⟩
      · have hrem := (loopBody_kept_remaining side st hne hnp).1
        have hnone : loopHead limit side order (loopBody side order best st) = none :=
          loopHead_none_of_remaining (by rw [hrem]; decide)
        rw [matchLoop_of_none hnone] at h
        have hst : loopBody side order best st = st' := by simpa using h
        subst hst
        rw [hq, sortedOpposite_cons hmin hties' (List.Perm.refl t), consumeSorted_kept hs hne hnp]
        refine ⟨rfl, rfl, ?_, ?_, ?_⟩
        · rw [loopBody_trades]; simp
        · rw [hsame]
          exact (List.Perm.cons _ (sortedOpposite_perm _ _ _)).symm
        · rw [loopBody_orders, if_neg hnp]
          rfl
      · have hinv1 := loopBody_inv hs hinv
        have hties1 : NoTies (loopBody side order best st).mem
            ((loopBody side order best st).ob.opposite side) :=
          NoTies.of_sameKeys hk (loopBody_opposite_subset hs) hties
        obtain ⟨a1, a2, a3, a4, a5⟩ := ih _ _ hinv1 hties1 h
        rw [sortedOpposite_congr hk] at a1 a2 a3 a4 a5
        rw [hq, sortedOpposite_cons hmin hties' hperm, consumeSorted_popped hs hne hp]
        refine ⟨a1, a2, ?_, a4, ?_⟩
        · rw [a3, loopBody_trades]
          simp
        · rw [a5, loopBody_orders, if_pos hp]
          rfl

theorem orderedInsert_congr_mem {α : Type} (r r' : α → α → Prop) [DecidableRel r]
    [DecidableRel r'] (a : α) :
    ∀ l : List α, (∀ b ∈ l, (r a b ↔ r' a b)) → l.orderedInsert r a = l.orderedInsert r' a := by
  intro l
  induction l with
  | nil => intro _; rfl
  | cons b l ih =>
    intro h
    simp only [List.orderedInsert]
    have hab := h b (List.mem_cons_self _ _)
    by_cases hr : r a b
    · rw [if_pos hr, if_pos (hab.mp hr)]
    · rw [if_neg hr, if_neg (fun hc => hr (hab.mpr hc)),
        ih (fun x hx => h x (List.mem_cons_of_mem _ hx))]

theorem insertionSort_congr_mem {α : Type} (r r' : α → α → Prop) [DecidableRel r]
    [DecidableRel r'] :
    ∀ l : List α, (∀ a ∈ l, ∀ b ∈ l, (r a b ↔ r' a b)) →
      l.insertionSort r = l.insertionSort r' := by
  intro l
  induction l with
  | nil => intro _; rfl
  | cons a l ih =>
    intro h
    simp only [List.insertionSort]
    rw [ih (fun x hx y hy => h x (List.mem_cons_of_mem _ hx) y (List.mem_cons_of_mem _ hy))]
    apply orderedInsert_congr_mem
    intro b hb
    exact h a (List.mem_cons_self _ _) b
      (List.mem_cons_of_mem _ ((List.perm_insertionSort r' l).subset hb))

theorem sortedOpposite_alloc {w : World} (hw : WellFormed w) (o : Order) :
    sortedOpposite (w.alloc o) o.Side (w.ob.opposite o.Side) =
      sortedOpposite w.mem o.Side (w.ob.opposite o.Side) := by
  apply insertionSort_congr_mem
  intro a ha b hb
  rw [alloc_ne w o (Nat.ne_of_lt (opposite_lt hw _ a ha)),
    alloc_ne w o (Nat.ne_of_lt (opposite_lt hw _ b hb))]

theorem finish_mem (limit : Bool) (side : OrderSide) (order : Ptr) (st : Loop) :
    (finish limit side order st).1 = closeMem limit order st.mem st.remaining := by
  unfold finish closeMem
  by_cases hl : limit = true
  · by_cases hrem : st.remaining > 0
    · rw [if_pos hl, if_pos hrem, if_pos ⟨hl, hrem⟩, rest_mem]
    · rw [if_pos hl, if_neg hrem, if_neg (fun hc => hrem hc.2)]
  · rw [if_neg hl, if_neg (fun hc => hl hc.1)]

/-- `AddOrder` on a book with valid heaps and no ties on the opposite side does what the
reference does on the sorted arrangement of that side. -/
theorem submit_refines {w : World} (hw : WellFormed w) (o : Order)
    (hties : NoTies w.mem (w.ob.opposite o.Side)) {r : World × List Trade}
    (h : w.submit o = some r) :
    r.2.map Trade.fill = (consumeSorted (decide (o.Typ ≠ .MARKET)) o.Side w.next
      (sortedOpposite w.mem o.Side (w.ob.opposite o.Side)) (w.alloc o) o.Quantity).fills ∧
    r.1.mem = closeMem (decide (o.Typ ≠ .MARKET)) w.next
      (consumeSorted (decide (o.Typ ≠ .MARKET)) o.Side w.next
        (sortedOpposite w.mem o.Side (w.ob.opposite o.Side)) (w.alloc o) o.Quantity).mem
      (consumeSorted (decide (o.Typ ≠ .MARKET)) o.Side w.next
        (sortedOpposite w.mem o.Side (w.ob.opposite o.Side)) (w.alloc o) o.Quantity).remaining ∧
    (r.1.ob.opposite o.Side).Perm (consumeSorted (decide (o.Typ ≠ .MARKET)) o.Side w.next
      (sortedOpposite w.mem o.Side (w.ob.opposite o.Side)) (w.alloc o) o.Quantity).rest ∧
    (r.1.ob.own o.Side).Perm
      (if decide (o.Typ ≠ .MARKET) = true ∧
          (consumeSorted (decide (o.Typ ≠ .MARKET)) o.Side w.next
            (sortedOpposite w.mem o.Side (w.ob.opposite o.Side)) (w.alloc o)
            o.Quantity).remaining > 0
        then w.next :: w.ob.own o.Side else w.ob.own o.Side) ∧
    r.1.ob.Orders =
      (if decide (o.Typ ≠ .MARKET) = true ∧
          (consumeSorted (decide (o.Typ ≠ .MARKET)) o.Side w.next
            (sortedOpposite w.mem o.Side (w.ob.opposite o.Side)) (w.alloc o)
            o.Quantity).remaining > 0
        then mapSet (deleteAll w.ob.Orders (consumeSorted (decide (o.Typ ≠ .MARKET)) o.Side
          w.next (sortedOpposite w.mem o.Side (w.ob.opposite o.Side)) (w.alloc o)
          o.Quantity).removed) o.ID w.next
        else deleteAll w.ob.Orders (consumeSorted (decide (o.Typ ≠ .MARKET)) o.Side
          w.next (sortedOpposite w.mem o.Side (w.ob.opposite o.Side)) (w.alloc o)
          o.Quantity).removed) := by
  obtain ⟨st, hst, hm, hob, htr, _⟩ := submit_loop h
  have hinv := start_loopInv hw o
  have hties0 : NoTies (startLoop (w.alloc o) w.ob w.next).mem
      ((startLoop (w.alloc o) w.ob w.next).ob.opposite o.Side) := by
    intro a ha b hb
    show (w.alloc o a).Price = (w.alloc o b).Price →
      (w.alloc o a).Timestamp = (w.alloc o b).Timestamp → a = b
    rw [alloc_ne w o (Nat.ne_of_lt (opposite_lt hw _ a ha)),
      alloc_ne w o (Nat.ne_of_lt (opposite_lt hw _ b hb))]
    exact hties a ha b hb
  obtain ⟨a1, a2, a3, a4, a5⟩ := matchLoop_refines _ _ _ hinv hties0 hst
  have hsort : sortedOpposite (startLoop (w.alloc o) w.ob w.next).mem o.Side
      ((startLoop (w.alloc o) w.ob w.next).ob.opposite o.Side) =
      sortedOpposite w.mem o.Side (w.ob.opposite o.Side) := sortedOpposite_alloc hw o
  have hq : (startLoop (w.alloc o) w.ob w.next).remaining = o.Quantity := by
    show (w.alloc o w.next).Quantity = o.Quantity
    rw [alloc_same]
  have hm0 : (startLoop (w.alloc o) w.ob w.next).mem = w.alloc o := rfl
  have ht0 : (startLoop (w.alloc o) w.ob w.next).trades = [] := rfl
  have ho0 : (startLoop (w.alloc o) w.ob w.next).ob = w.ob := rfl
  rw [hsort, hq, hm0] at a1 a2 a3 a4 a5
  rw [ht0] at a3
  rw [ho0] at a5
  have hown := matchLoop_own _ _ _ hst
  have hk := matchLoop_sameKeys _ _ _ hst
  have hid : (st.mem w.next).ID = o.ID := by
    rw [(hk w.next).1]
    show (w.alloc o w.next).ID = o.ID
    rw [alloc_same]
  rw [htr, hm, hob, finish_mem, finish_opposite, finish_own, finish_orders, hid, ← a1, ← a2, a3,
    ← a5, hown, ho0]
  refine ⟨by simp, rfl, a4, ?_, rfl⟩
  split
  · exact heapPush_perm _ _ _
  · exact List.Perm.refl _

theorem deleteAll_perm {m m' : OrderMap} (h : m.Perm m') (ks : List String) :
    (deleteAll m ks).Perm (deleteAll m' ks) := by
  unfold deleteAll
  induction ks generalizing m m' with
  | nil => exact h
  | cons k ks ih =>
    simp only [List.foldl_cons]
    exact ih (List.Perm.filter _ h)

theorem mapSet_perm {m m' : OrderMap} (h : m.Perm m') (k : String) (v : Ptr) :
    (mapSet m k v).Perm (mapSet m' k v) :=
  List.Perm.cons _ (List.Perm.filter _ h)

theorem NoTies.perm {mem : Mem} {q q' : List Ptr} (hp : q'.Perm q) (h : NoTies mem q) :
    NoTies mem q' :=
  fun a ha b hb => h a (hp.subset ha) b (hp.subset hb)

theorem sortedOpposite_of_perm {mem : Mem} {side : OrderSide} {q q' : List Ptr}
    (hp : q'.Perm q) (h : NoTies mem q) :
    sortedOpposite mem side q' = sortedOpposite mem side q := by
  refine sorted_perm_unique (fun a b => notAfter side (mem a) (mem b)) _ _ ?_
    (sortedOpposite_pairwise mem side _) (sortedOpposite_pairwise mem side _) ?_
  · exact ((sortedOpposite_perm mem side q').trans hp).trans (sortedOpposite_perm mem side q).symm
  · intro a ha b hb hab hba
    obtain ⟨e1, e2⟩ := notAfter_antisymm side _ _ hab hba
    exact h a (hp.subset ((sortedOpposite_perm mem side _).subset ha)) b
      (hp.subset ((sortedOpposite_perm mem side _).subset hb)) e1 e2

theorem queues_perm_of_sides {ob ob' : OrderBook} (side : OrderSide)
    (h1 : (ob.own side).Perm (ob'.own side)) (h2 : (ob.opposite side).Perm (ob'.opposite side)) :
    ob.BuyOrders.Perm ob'.BuyOrders ∧ ob.SellOrders.Perm ob'.SellOrders := by
  cases side
  · exact ⟨h1, h2⟩
  · exact ⟨h2, h1⟩

theorem sides_perm_of_queues {ob ob' : OrderBook} (side : OrderSide)
    (h1 : ob.BuyOrders.Perm ob'.BuyOrders) (h2 : ob.SellOrders.Perm ob'.SellOrders) :
    (ob.own side).Perm (ob'.own side) ∧ (ob.opposite side).Perm (ob'.opposite side) := by
  cases side
  · exact ⟨h1, h2⟩
  · exact ⟨h2, h1⟩

theorem noTies_opposite {w : World} (side : OrderSide) (htb : NoTies w.mem w.ob.BuyOrders)
    (hts : NoTies w.mem w.ob.SellOrders) : NoTies w.mem (w.ob.opposite side) := by
  cases side
  · exact hts
  · exact htb

/-- C22 (layout-independent matching).  Let two books satisfy the structural invariant
(valid heaps), hold the same order objects in their bid queues, in their ask queues and in
their indexes, in whatever layout, and let no two orders of one queue share both price
and timestamp.  `AddOrder` of the same new order returns on both; the two lists of trades
agree in buy id, sell id, price and quantity, in order; the order objects are the same
afterwards, the queues and the indexes again hold the same orders, and both books
satisfy the structural invariant.  These are the trades and orders of the reference
`consumeSorted` on the opposite side sorted by price priority and then timestamp, which
is the same list for both books, followed by the closing statements of `AddOrder`. -/
theorem layout_independent_matching {w1 w2 : World} (hw1 : WellFormed w1)
    (hw2 : WellFormed w2) (hmem : w1.mem = w2.mem) (hnext : w1.next = w2.next)
    (hbuy : w1.ob.BuyOrders.Perm w2.ob.BuyOrders)
    (hsell : w1.ob.SellOrders.Perm w2.ob.SellOrders)
    (hidx : w1.ob.Orders.Perm w2.ob.Orders)
    (htb : NoTies w1.mem w1.ob.BuyOrders) (hts : NoTies w1.mem w1.ob.SellOrders) (o : Order) :
    ∃ r1 r2, w1.submit o = some r1 ∧ w2.submit o = some r2 ∧
      r1.2.map Trade.fill = r2.2.map Trade.fill ∧
      r1.1.mem = r2.1.mem ∧ r1.1.next = r2.1.next ∧
      r1.1.ob.BuyOrders.Perm r2.1.ob.BuyOrders ∧
      r1.1.ob.SellOrders.Perm r2.1.ob.SellOrders ∧
      r1.1.ob.Orders.Perm r2.1.ob.Orders ∧
      WellFormed r1.1 ∧ WellFormed r2.1 ∧
      sortedOpposite w2.mem o.Side (w2.ob.opposite o.Side) =
        sortedOpposite w1.mem o.Side (w1.ob.opposite o.Side) ∧
      (sortedOpposite w1.mem o.Side (w1.ob.opposite o.Side)).Pairwise
        (fun a b => notAfter o.Side (w1.mem a) (w1.mem b)) ∧
      (sortedOpposite w1.mem o.Side (w1.ob.opposite o.Side)).Perm (w1.ob.opposite o.Side) ∧
      r1.2.map Trade.fill = (consumeSorted (decide (o.Typ ≠ .MARKET)) o.Side w1.next
        (sortedOpposite w1.mem o.Side (w1.ob.opposite o.Side)) (w1.alloc o) o.Quantity).fills ∧
      r1.1.mem = closeMem (decide (o.Typ ≠ .MARKET)) w1.next
        (consumeSorted (decide (o.Typ ≠ .MARKET)) o.Side w1.next
          (sortedOpposite w1.mem o.Side (w1.ob.opposite o.Side)) (w1.alloc o) o.Quantity).mem
        (consumeSorted (decide (o.Typ ≠ .MARKET)) o.Side w1.next
          (sortedOpposite w1.mem o.Side (w1.ob.opposite o.Side)) (w1.alloc o)
          o.Quantity).remaining ∧
      (r1.1.ob.opposite o.Side).Perm (consumeSorted (decide (o.Typ ≠ .MARKET)) o.Side w1.next
        (sortedOpposite w1.mem o.Side (w1.ob.opposite o.Side)) (w1.alloc o) o.Quantity).rest ∧
      (r1.1.ob.own o.Side).Perm
        (if decide (o.Typ ≠ .MARKET) = true ∧
            (consumeSorted (decide (o.Typ ≠ .MARKET)) o.Side w1.next
              (sortedOpposite w1.mem o.Side (w1.ob.opposite o.Side)) (w1.alloc o)
              o.Quantity).remaining > 0
          then w1.next :: w1.ob.own o.Side else w1.ob.own o.Side) ∧
      r1.1.ob.Orders =
        (if decide (o.Typ ≠ .MARKET) = true ∧
            (consumeSorted (decide (o.Typ ≠ .MARKET)) o.Side w1.next
              (sortedOpposite w1.mem o.Side (w1.ob.opposite o.Side)) (w1.alloc o)
              o.Quantity).remaining > 0
          then mapSet (deleteAll w1.ob.Orders (consumeSorted (decide (o.Typ ≠ .MARKET)) o.Side
            w1.next (sortedOpposite w1.mem o.Side (w1.ob.opposite o.Side)) (w1.alloc o)
            o.Quantity).removed) o.ID w1.next
          else deleteAll w1.ob.Orders (consumeSorted (decide (o.Typ ≠ .MARKET)) o.Side
            w1.next (sortedOpposite w1.mem o.Side (w1.ob.opposite o.Side)) (w1.alloc o)
            o.Quantity).removed) := by
  obtain ⟨r1, h1⟩ := submit_total w1 o
  obtain ⟨r2, h2⟩ := submit_total w2 o
  refine ⟨r1, r2, h1, h2, ?_⟩
  obtain ⟨pown, popp⟩ := sides_perm_of_queues o.Side hbuy hsell
  have ht1 := noTies_opposite o.Side htb hts
  have ht2 : NoTies w2.mem (w2.ob.opposite o.Side) := hmem ▸ NoTies.perm popp.symm ht1
  have hsort : sortedOpposite w2.mem o.Side (w2.ob.opposite o.Side) =
      sortedOpposite w1.mem o.Side (w1.ob.opposite o.Side) := by
    rw [← hmem]
    exact sortedOpposite_of_perm popp.symm ht1
  have halloc : w2.alloc o = w1.alloc o := by
    unfold World.alloc
    rw [hmem, hnext]
  obtain ⟨a1, a2, a3, a4, a5⟩ := submit_refines hw1 o ht1 h1
  obtain ⟨b1, b2, b3, b4, b5⟩ := submit_refines hw2 o ht2 h2
  rw [hsort, halloc, ← hnext] at b1 b2 b3 b4 b5
  have hn1 := (submit_sameKeys h1).2
  have hn2 := (submit_sameKeys h2).2
  have hownP : (r1.1.ob.own o.Side).Perm (r2.1.ob.own o.Side) := by
    refine a4.trans (List.Perm.trans ?_ b4.symm)
    split
    · exact List.Perm.cons _ pown
    · exact pown
  have hoppP : (r1.1.ob.opposite o.Side).Perm (r2.1.ob.opposite o.Side) := a3.trans b3.symm
  obtain ⟨qb, qs⟩ := queues_perm_of_sides o.Side hownP hoppP
  refine ⟨by rw [a1, b1], by rw [a2, b2], by rw [hn1, hn2, hnext], qb, qs, ?_,
    submit_wellFormed hw1 o r1 h1, submit_wellFormed hw2 o r2 h2, hsort,
    sortedOpposite_pairwise _ _ _, sortedOpposite_perm _ _ _, a1, a2, a3, a4, a5⟩
  rw [a5, b5]
  split
  · exact mapSet_perm (deleteAll_perm hidx _) _ _
  · exact deleteAll_perm hidx _

theorem reachable_bookThreeAsks :
    Reachable [limitOrder "a" .SELL 100 1 1, limitOrder "b" .SELL 102 1 2,
      limitOrder "c" .SELL 101 1 3, limitOrder "x" .BUY 50 1 4] bookThreeAsks :=
  ((((Reachable.init "X").after _).after _).after _).after _

theorem wellFormed_layoutOne : WellFormed layoutOne :=
  (Reachable.cancel "x" [("a", 0), ("b", 1), ("c", 2)] reachable_bookThreeAsks
    (by decide)).wellFormed

theorem wellFormed_layoutTwo : WellFormed layoutTwo :=
  (Reachable.cancel "x" [("a", 0), ("c", 2), ("b", 1)] reachable_bookThreeAsks
    (by decide)).wellFormed

/-- Witness of C22: the three asks `a` at 100, `b` at 102 and `c` at 101 in the heap
layouts `[a, b, c]` and `[a, c, b]`, left by two rebuilds that visited the index in
different orders; a LIMIT BUY of 3 at 101 trades with `a` and then with `c` in both, and
its remainder rests. -/
theorem layout_independent_matching_witness :
    layoutOne.ob.SellOrders = [0, 1, 2] ∧ layoutTwo.ob.SellOrders = [0, 2, 1] ∧
    layoutOne.mem = layoutTwo.mem ∧ layoutOne.next = layoutTwo.next ∧
    layoutOne.ob.BuyOrders.Perm layoutTwo.ob.BuyOrders ∧
    layoutOne.ob.SellOrders.Perm layoutTwo.ob.SellOrders ∧
    layoutOne.ob.Orders.Perm layoutTwo.ob.Orders ∧
    NoTies layoutOne.mem layoutOne.ob.BuyOrders ∧ NoTies layoutOne.mem layoutOne.ob.SellOrders ∧
    (layoutOne.submit sweepingBuy).map (fun r => r.2.map Trade.fill) =
      some [("m", "a", 100, 1), ("m", "c", 101, 1)] ∧
    (layoutTwo.submit sweepingBuy).map (fun r => r.2.map Trade.fill) =
      some [("m", "a", 100, 1), ("m", "c", 101, 1)] ∧
    sortedOpposite layoutOne.mem .BUY layoutOne.ob.SellOrders = [0, 2, 1] ∧
    ∃ r1 r2, layoutOne.submit sweepingBuy = some r1 ∧ layoutTwo.submit sweepingBuy = some r2 ∧
      r1.2.map Trade.fill = r2.2.map Trade.fill ∧
      r1.1.mem = r2.1.mem ∧ r1.1.next = r2.1.next ∧
      r1.1.ob.BuyOrders.Perm r2.1.ob.BuyOrders ∧
      r1.1.ob.SellOrders.Perm r2.1.ob.SellOrders ∧
      r1.1.ob.Orders.Perm r2.1.ob.Orders ∧
      WellFormed r1.1 ∧ WellFormed r2.1 ∧
      sortedOpposite layoutTwo.mem sweepingBuy.Side (layoutTwo.ob.opposite sweepingBuy.Side) =
        sortedOpposite layoutOne.mem sweepingBuy.Side (layoutOne.ob.opposite sweepingBuy.Side) ∧
      (sortedOpposite layoutOne.mem sweepingBuy.Side (layoutOne.ob.opposite
          sweepingBuy.Side)).Pairwise
        (fun a b => notAfter sweepingBuy.Side (layoutOne.mem a) (layoutOne.mem b)) ∧
      (sortedOpposite layoutOne.mem sweepingBuy.Side (layoutOne.ob.opposite sweepingBuy.Side)).Perm
          (layoutOne.ob.opposite sweepingBuy.Side) ∧
      r1.2.map Trade.fill = (consumeSorted (decide (sweepingBuy.Typ ≠ .MARKET)) sweepingBuy.Side
          layoutOne.next
        (sortedOpposite layoutOne.mem sweepingBuy.Side (layoutOne.ob.opposite sweepingBuy.Side))
            (layoutOne.alloc sweepingBuy) sweepingBuy.Quantity).fills ∧
      r1.1.mem = closeMem (decide (sweepingBuy.Typ ≠ .MARKET)) layoutOne.next
        (consumeSorted (decide (sweepingBuy.Typ ≠ .MARKET)) sweepingBuy.Side layoutOne.next
          (sortedOpposite layoutOne.mem sweepingBuy.Side (layoutOne.ob.opposite sweepingBuy.Side))
              (layoutOne.alloc sweepingBuy) sweepingBuy.Quantity).mem
        (consumeSorted (decide (sweepingBuy.Typ ≠ .MARKET)) sweepingBuy.Side layoutOne.next
          (sortedOpposite layoutOne.mem sweepingBuy.Side (layoutOne.ob.opposite sweepingBuy.Side))
              (layoutOne.alloc sweepingBuy)
          sweepingBuy.Quantity).remaining ∧
      (r1.1.ob.opposite sweepingBuy.Side).Perm (consumeSorted (decide (sweepingBuy.Typ ≠ .MARKET))
          sweepingBuy.Side layoutOne.next
        (sortedOpposite layoutOne.mem sweepingBuy.Side (layoutOne.ob.opposite sweepingBuy.Side))
            (layoutOne.alloc sweepingBuy) sweepingBuy.Quantity).rest ∧
      (r1.1.ob.own sweepingBuy.Side).Perm
        (if decide (sweepingBuy.Typ ≠ .MARKET) = true ∧
            (consumeSorted (decide (sweepingBuy.Typ ≠ .MARKET)) sweepingBuy.Side layoutOne.next
              (sortedOpposite layoutOne.mem sweepingBuy.Side (layoutOne.ob.opposite
                  sweepingBuy.Side)) (layoutOne.alloc sweepingBuy)
              sweepingBuy.Quantity).remaining > 0
          then layoutOne.next :: layoutOne.ob.own sweepingBuy.Side else layoutOne.ob.own
              sweepingBuy.Side) ∧
      r1.1.ob.Orders =
        (if decide (sweepingBuy.Typ ≠ .MARKET) = true ∧
            (consumeSorted (decide (sweepingBuy.Typ ≠ .MARKET)) sweepingBuy.Side layoutOne.next
              (sortedOpposite layoutOne.mem sweepingBuy.Side (layoutOne.ob.opposite
                  sweepingBuy.Side)) (layoutOne.alloc sweepingBuy)
              sweepingBuy.Quantity).remaining > 0
          then mapSet (deleteAll layoutOne.ob.Orders (consumeSorted (decide (sweepingBuy.Typ ≠
              .MARKET)) sweepingBuy.Side
            layoutOne.next (sortedOpposite layoutOne.mem sweepingBuy.Side (layoutOne.ob.opposite
                sweepingBuy.Side)) (layoutOne.alloc sweepingBuy)
            sweepingBuy.Quantity).removed) sweepingBuy.ID layoutOne.next
          else deleteAll layoutOne.ob.Orders (consumeSorted (decide (sweepingBuy.Typ ≠ .MARKET))
              sweepingBuy.Side
            layoutOne.next (sortedOpposite layoutOne.mem sweepingBuy.Side (layoutOne.ob.opposite
                sweepingBuy.Side)) (layoutOne.alloc sweepingBuy)
            sweepingBuy.Quantity).removed) :=
  ⟨by decide, by decide, rfl, rfl, by decide, by decide, by decide,
    by unfold NoTies; decide, by unfold NoTies; decide, by decide, by decide, by decide,
    layout_independent_matching wellFormed_layoutOne wellFormed_layoutTwo rfl rfl
      (by decide) (by decide) (by decide) (by unfold NoTies; decide)
      (by unfold NoTies; decide) sweepingBuy⟩

/-! ## The code in `float64` arithmetic -/

theorem ulpExponent_small (fuel n : Nat) (h : n < 2 ^ 53) : ulpExponent fuel n = 0 := by
  cases fuel with
  | zero => rfl
  | succ fuel => simp only [ulpExponent, if_pos h]

theorem roundNat_exact (n : Nat) (h : n < 2 ^ 53) : roundNat n = n := by
  simp [roundNat, ulpExponent_small 1024 n h, Nat.mod_one]

/-- Below `2 ^ 53` every integer is a `float64`: there the rounded and the exact
arithmetic coincide. -/
theorem round53_exact (x : Int) (h : x.natAbs < 2 ^ 53) : round53 x = x := by
  unfold round53
  rw [roundNat_exact _ h]
  split <;> omega

theorem add64_exact (a b : Int) (h : (a + b).natAbs < 2 ^ 53) : add64 a b = a + b :=
  round53_exact _ h

theorem sub64_exact (a b : Int) (h : (a - b).natAbs < 2 ^ 53) : sub64 a b = a - b :=
  round53_exact _ h

/-- C5 (quantity conservation), the code in `float64` at the refuting input.  The orders
have pairwise distinct ids, `Filled = 0` and quantities that are `float64` values.  After
LIMIT BUYs `b1` of `2 ^ 53` and `b2` of 1 at 99, the MARKET SELL `s` of `2 ^ 53 + 2` returns
the trades `(b1, s)` of `2 ^ 53` and `(b2, s)` of 1; the statement `order.Filled += matchQty`
of the second trade rounds `2 ^ 53 + 1` to `2 ^ 53`, so `s` ends with `Filled = 2 ^ 53`:
the sum of `Filled` is `2 ^ 54 + 1` and twice the sum of the trade quantities is
`2 ^ 54 + 2`.  With the sell order resting instead: after the LIMIT SELL `s` of
`2 ^ 53 + 2` at 99 and the MARKET BUY `b1` of `2 ^ 53`, `s` has `Filled = 2 ^ 53`; the call
on the MARKET BUY `b2` of 1 returns the trade `(b2, s)` of 1 and leaves the `Filled` of `s`
at `2 ^ 53`. -/
theorem conservation_lost_to_rounding :
    (∀ c ∈ callsSweepingSell ++ callsRestingSell,
      c.2.Filled = 0 ∧ round53 c.2.Quantity = c.2.Quantity) ∧
    (callsSweepingSell.map (fun c => c.2.ID)).Nodup ∧
    (callsRestingSell.map (fun c => c.2.ID)).Nodup ∧
    (EngineWorld.init.run64 callsSweepingSell).map
      (fun r => (r.2.map (fun t => (t.BuyOrderID, t.SellOrderID, t.Quantity)),
        (List.range r.1.next).map (fun p => ((r.1.mem p).ID, (r.1.mem p).Filled)),
        totalFilled r.1.mem r.1.next, 2 * totalTraded r.2)) =
      some ([("b1", "s", 2 ^ 53), ("b2", "s", 1)],
        [("b1", 2 ^ 53), ("b2", 1), ("s", 2 ^ 53)], 2 ^ 54 + 1, 2 ^ 54 + 2) ∧
    (EngineWorld.init.run64 (callsRestingSell.take 2)).map
      (fun r => (r.2.map (fun t => (t.BuyOrderID, t.SellOrderID, t.Quantity)),
        (List.range r.1.next).map (fun p => ((r.1.mem p).ID, (r.1.mem p).Filled)))) =
      some ([("b1", "s", 2 ^ 53)], [("s", 2 ^ 53), ("b1", 2 ^ 53)]) ∧
    ((EngineWorld.init.run64 (callsRestingSell.take 2)).bind
      (fun r => r.1.submit64 3 (marketOrder "b2" .BUY 1 0))).map
      (fun r => (r.2.map (fun t => (t.BuyOrderID, t.SellOrderID, t.Quantity)),
        (List.range r.1.next).map (fun p => ((r.1.mem p).ID, (r.1.mem p).Filled)))) =
      some ([("b2", "s", 1)], [("s", 2 ^ 53), ("b1", 2 ^ 53), ("b2", 1)]) ∧
    (EngineWorld.init.run64 callsRestingSell).map
      (fun r => (totalFilled r.1.mem r.1.next, 2 * totalTraded r.2)) =
      some (2 ^ 54 + 1, 2 ^ 54 + 2) := by
  refine ⟨by decide, by decide, by decide, by decide, by decide, by decide, by decide⟩

/-- C15 (snapshot consistency), the code in `float64` at the refuting input.  After LIMIT
BUYs of `2 ^ 53` and of 1 at 99 the bid queue holds both orders, nothing filled;
`GetSnapshot` adds 1 to the level's `2 ^ 53`, which rounds to `2 ^ 53`, and returns the one
bid level at 99 with quantity `2 ^ 53`, while `Quantity - Filled` over the queue at 99 sums
to `2 ^ 53 + 1`.  After a third LIMIT BUY of 1 at 99 the level still has quantity `2 ^ 53`,
while the remainders sum to `2 ^ 53 + 2`, which is a `float64` value. -/
theorem level_quantity_rounded :
    (bookAfter64 callsTwoBids).map (fun b => b.2.BuyOrders) = some [0, 1] ∧
    (bookAfter64 callsTwoBids).map (fun b => b.2.BuyOrders.map
      (fun p => ((b.1 p).Price, (b.1 p).Quantity, (b.1 p).Filled))) =
      some [(99, 2 ^ 53, 0), (99, 1, 0)] ∧
    (bookAfter64 callsTwoBids).map (fun b => GetSnapshot64 b.1 b.2) =
      some { Symbol := "X", Bids := [{ Price := 99, Quantity := 2 ^ 53, Orders := 1 }],
             Asks := [] } ∧
    (bookAfter64 callsTwoBids).map (fun b => unfilled b.1
      (b.2.BuyOrders.filter (fun p => (b.1 p).Price = 99))) = some (2 ^ 53 + 1) ∧
    (bookAfter64 callsThreeBids).map (fun b => b.2.BuyOrders) = some [0, 1, 2] ∧
    (bookAfter64 callsThreeBids).map (fun b => b.2.BuyOrders.map
      (fun p => ((b.1 p).Price, (b.1 p).Quantity, (b.1 p).Filled))) =
      some [(99, 2 ^ 53, 0), (99, 1, 0), (99, 1, 0)] ∧
    (bookAfter64 callsThreeBids).map (fun b => GetSnapshot64 b.1 b.2) =
      some { Symbol := "X", Bids := [{ Price := 99, Quantity := 2 ^ 53, Orders := 1 }],
             Asks := [] } ∧
    (bookAfter64 callsThreeBids).map (fun b => unfilled b.1
      (b.2.BuyOrders.filter (fun p => (b.1 p).Price = 99))) = some (2 ^ 53 + 2) ∧
    round53 (2 ^ 53 + 2) = 2 ^ 53 + 2 := by
  refine ⟨by decide, by decide, by decide, by decide, by decide, by decide, by decide,
    by decide, by decide⟩

end engine
